import Mathlib

/-! lcelib: the linear-probing hash index and its weight-sum table

A shallow embedding of `containers/indices/LinearHash.H` and
`containers/tables/WeightSumTable.H`, followed by the disjoint sets forest of
`misc/DisjointSets.H` and `shuffle` of `nets/NetExtras.H`.

* The table is a function from slot index to `Slot`; the controller state is
  the pair `nativeSize`, `numKeys`; `weightSum` is the field of
  `WeightSumTable`.
* Loops of the source become functions with an explicit fuel argument and an
  `Option` result: `none` means that the loop did not stop within the fuel (or
  that the source would dereference unallocated storage).
* `HashController`, `TableWithStatus` and `ValueTable` are not part of the
  sources at hand.  What the hash engine needs from them is collected in
  `Params`.
-/

set_option autoImplicit false

namespace LCE

/-! ## Data model -/

/-- One slot of the table: usage status, key and payload. -/
structure Slot (K V : Type) where
  used : Bool
  key : K
  val : V

/-- Modelled from the spec: the parts of `HashController`, `TableWithStatus`,
`ValueTable` and of the policy classes that `LinearHash` and `WeightSumTable`
call but that are defined in files that are not at hand.

* `HASH_ORDERED` is `Params::HASH_ORDERED`.
* `sizeForNative n` is the number of slots of a table of native size `n`
  (`HashController::sizeForNative`, `getNumSlots`).
* `getInitPlace n k` is `controller.getInitPlace(Policy::getHashValue(k))` for a
  controller of native size `n`.
* `aboutToPut n m` and `trim n m` are the growth and shrink decisions of a
  controller of native size `n` holding `m` keys: `some s` when a rehash to
  native size `s` is requested.
* `getWeight` is the weight policy, `clearedVal` the payload left by `clearVal`
  and `emptyKey` the key of a freshly constructed slot.
* `swaps` tells whether `moveOrSwap` exchanges the two slots or only copies the
  source slot over the target. -/
structure Params (K V : Type) where
  HASH_ORDERED : Bool
  sizeForNative : Nat → Nat
  getInitPlace : Nat → K → Nat
  aboutToPut : Nat → Nat → Option Nat
  trim : Nat → Nat → Option Nat
  getWeight : V → Int
  clearedVal : V
  emptyKey : K
  swaps : Bool

/-- The state of a `LinearHash` over a `WeightSumTable`. -/
structure Hash (K V : Type) where
  nativeSize : Nat
  numKeys : Nat
  slots : Nat → Slot K V
  weightSum : Int

variable {K V : Type}

/-! ## Storage and controller accessors -/

/-- Overwrites slot `i`. -/
def Hash.setSlot (t : Hash K V) (i : Nat) (x : Slot K V) : Hash K V :=
  { t with slots := fun j => if j = i then x else t.slots j }

/-- The number of slots, `controller.getNumSlots()`. -/
def getTableSize (P : Params K V) (t : Hash K V) : Nat := P.sizeForNative t.nativeSize

/-- The number of keys known to the controller, `controller.getNumKeys()`. -/
def size (t : Hash K V) : Nat := t.numKeys

/-- `ArrayBase::base_empty`: storage is allocated exactly for a positive size. -/
def base_empty (P : Params K V) (t : Hash K V) : Bool := getTableSize P t == 0

def isUsed (t : Hash K V) (loc : Nat) : Bool := (t.slots loc).used

def constRefToKey (t : Hash K V) (loc : Nat) : K := (t.slots loc).key

def constRefToVal (t : Hash K V) (loc : Nat) : V := (t.slots loc).val

def weightAt (P : Params K V) (t : Hash K V) (loc : Nat) : Int := P.getWeight (t.slots loc).val

/-- Modelled from the spec: the cyclic step of the controller,
`nextPlace(i) = (i+1) mod N`. -/
def getNextPlace (P : Params K V) (t : Hash K V) (i : Nat) : Nat := (i + 1) % getTableSize P t

/-- Modelled from the spec: the cyclic step backwards, `prevPlace(i) = (i-1) mod N`. -/
def getPrevPlace (P : Params K V) (t : Hash K V) (i : Nat) : Nat :=
  (i + getTableSize P t - 1) % getTableSize P t

def setAsUsed (t : Hash K V) (loc : Nat) : Hash K V :=
  t.setSlot loc { t.slots loc with used := true }

def setAsEmpty (t : Hash K V) (loc : Nat) : Hash K V :=
  t.setSlot loc { t.slots loc with used := false }

/-- Assignment through `refToKey(loc)`. -/
def setKey (t : Hash K V) (loc : Nat) (key : K) : Hash K V :=
  t.setSlot loc { t.slots loc with key := key }

/-- Assignment of a payload without any bookkeeping (`ValueTable::setValue`, or a
write through a value stub). -/
def setVal (t : Hash K V) (loc : Nat) (v : V) : Hash K V :=
  t.setSlot loc { t.slots loc with val := v }

/-- Modelled from the spec: `moveOrSwap(dst, frm)` relocates the slot `frm` to
`dst`, status included; the slot `frm` receives the former content of `dst` when
the storage swaps and keeps its bytes otherwise. -/
def moveOrSwap (P : Params K V) (t : Hash K V) (dst frm : Nat) : Hash K V :=
  (t.setSlot dst (t.slots frm)).setSlot frm (if P.swaps then t.slots dst else t.slots frm)

/-- `controller.added()`. -/
def added (t : Hash K V) : Hash K V := { t with numKeys := t.numKeys + 1 }

/-- `controller.removed()`. -/
def removed (t : Hash K V) : Hash K V := { t with numKeys := t.numKeys - 1 }

/-! ## WeightSumTable -/

/-- `WeightSumTable::remove_stage_1`: the weight of the departing entry leaves the
sum; `removeVal` runs the destructor and leaves the bytes in place. -/
def remove_stage_1 (P : Params K V) (t : Hash K V) (loc : Nat) : Hash K V :=
  { t with weightSum := t.weightSum - weightAt P t loc }

/-- `WeightSumTable::remove_stage_2`: `clearVal(loc)`. -/
def remove_stage_2 (P : Params K V) (t : Hash K V) (loc : Nat) : Hash K V :=
  setVal t loc P.clearedVal

/-- `WeightSumTable::setValue`. -/
def setValue (P : Params K V) (t : Hash K V) (loc : Nat) (value : V) : Hash K V :=
  let oldWeight := weightAt P t loc
  let t1 := setVal t loc value
  { t1 with weightSum := t1.weightSum + (weightAt P t1 loc - oldWeight) }

/-- `WeightSumTable::weight`. -/
def weight (t : Hash K V) : Int := t.weightSum

/-- The guard object `WeightSumTable::stub`: the slot it refers to and the weight
it has last seen there. -/
structure Stub where
  loc : Nat
  oldWeight : Int

/-- `WeightSumTable::refToVal`: a guard snapshots the current weight. -/
def refToVal (P : Params K V) (t : Hash K V) (i : Nat) : Stub := ⟨i, weightAt P t i⟩

/-- Assignment of a payload through a guard. -/
def Stub.assign (s : Stub) (t : Hash K V) (v : V) : Hash K V := setVal t s.loc v

/-- `stub::_lce_finalize`, run when a `value_reference` goes out of scope. -/
def Stub._lce_finalize (P : Params K V) (s : Stub) (t : Hash K V) : Hash K V × Stub :=
  let newWeight := weightAt P t s.loc
  ({ t with weightSum := t.weightSum + (newWeight - s.oldWeight) }, { s with oldWeight := newWeight })

/-! ## LinearHash -/

def initPlaceAt (P : Params K V) (t : Hash K V) (loc : Nat) : Nat :=
  P.getInitPlace t.nativeSize (constRefToKey t loc)

def initPlaceBefore (P : Params K V) (t : Hash K V) (initProbe currLoc : Nat) : Bool :=
  let initAt := initPlaceAt P t currLoc
  let currRotated := decide (initAt > currLoc)
  let probeRotated := decide (initProbe > currLoc)
  ((probeRotated == currRotated) && decide (initProbe < initAt)) || (!currRotated && probeRotated)

/-- First loop of `pushProbeAt`: the first slot from `i` on that is not used. -/
def pushProbeFind (P : Params K V) (t : Hash K V) : Nat → Nat → Option Nat
  | 0, _ => none
  | fuel + 1, i =>
    if isUsed t i then pushProbeFind P t fuel (getNextPlace P t i) else some i

/-- Second loop of `pushProbeAt`: moves the run one step forward, last entry
first, until the slot `loc` is reached. -/
def pushProbeShift (P : Params K V) (loc : Nat) : Nat → Hash K V → Nat → Nat → Option (Hash K V)
  | 0, _, _, _ => none
  | fuel + 1, t, i, prev =>
    if i ≠ loc then pushProbeShift P loc fuel (moveOrSwap P t i prev) prev (getPrevPlace P t prev)
    else some t

def pushProbeAt (P : Params K V) (fuel : Nat) (t : Hash K V) (loc : Nat) : Option (Hash K V) :=
  match pushProbeFind P t fuel loc with
  | none => none
  | some i => pushProbeShift P loc fuel t i (getPrevPlace P t i)

/-- The scan loop of `removeFrom`; the result is the table and the final gap. -/
def removeFromLoop (P : Params K V) : Nat → Hash K V → Nat → Nat → Option (Hash K V × Nat)
  | 0, _, _, _ => none
  | fuel + 1, t, toBeFilled, currSlot =>
    if isUsed t currSlot then
      let initPlace := initPlaceAt P t currSlot
      let currRotated := decide (initPlace > currSlot)
      let probeRotated := decide (toBeFilled > currSlot)
      if ((probeRotated == currRotated) && decide (initPlace ≤ toBeFilled))
          || (currRotated && !probeRotated) then
        removeFromLoop P fuel (moveOrSwap P t toBeFilled currSlot) currSlot
          (getNextPlace P t currSlot)
      else removeFromLoop P fuel t toBeFilled (getNextPlace P t currSlot)
    else some (t, toBeFilled)

def removeFrom (P : Params K V) (fuel : Nat) (t : Hash K V) (toBeFilled : Nat) :
    Option (Hash K V) :=
  let currSlot := getNextPlace P t toBeFilled
  let t1 := removed (remove_stage_1 P t toBeFilled)
  match removeFromLoop P fuel t1 toBeFilled currSlot with
  | none => none
  | some (t2, gap) => some (setAsEmpty (remove_stage_2 P t2 gap) gap)

/-- The probe loop of `findFrom`; the result is the answer and the final
`location`. -/
def findFromLoop [DecidableEq K] (P : Params K V) (t : Hash K V) (key : K) (initLoc : Nat) :
    Nat → Nat → Option (Bool × Nat)
  | 0, _ => none
  | fuel + 1, location =>
    if isUsed t location then
      if key = constRefToKey t location then some (true, location)
      else if P.HASH_ORDERED && initPlaceBefore P t initLoc location then some (false, location)
      else findFromLoop P t key initLoc fuel (getNextPlace P t location)
    else some (false, location)

def findFrom [DecidableEq K] (P : Params K V) (fuel : Nat) (t : Hash K V) (key : K)
    (location : Nat) : Option (Bool × Nat) :=
  findFromLoop P t key location fuel location

/-- `findFirst(key, location)`: `location` is passed in because the source leaves
it untouched when no storage is allocated. -/
def findFirst [DecidableEq K] (P : Params K V) (fuel : Nat) (t : Hash K V) (key : K)
    (location : Nat) : Option (Bool × Nat) :=
  if base_empty P t then some (false, location)
  else findFrom P fuel t key (P.getInitPlace t.nativeSize key)

def contains [DecidableEq K] (P : Params K V) (fuel : Nat) (t : Hash K V) (key : K) :
    Option Bool :=
  (findFirst P fuel t key 0).map Prod.fst

/-- The table built by the rehashing constructor `LinearHash(nativeSize, bool)`. -/
def newHash (P : Params K V) (nativeSize : Nat) : Hash K V :=
  { nativeSize := nativeSize, numKeys := 0,
    slots := fun _ => { used := false, key := P.emptyKey, val := P.clearedVal },
    weightSum := 0 }

/-- The probe loop of `rehash_put`; the result is the destination table and the
slot to copy into. -/
def rehashPutLoop (P : Params K V) (initLoc : Nat) : Nat → Hash K V → Nat → Option (Hash K V × Nat)
  | 0, _, _ => none
  | fuel + 1, dest, loc =>
    if isUsed dest loc then
      if P.HASH_ORDERED && initPlaceBefore P dest initLoc loc then
        (pushProbeAt P (fuel + 1) dest loc).map (fun d => (d, loc))
      else rehashPutLoop P initLoc fuel dest (getNextPlace P dest loc)
    else some (dest, loc)

/-- `rehash_put(i, dest)`: slot `i` of `src` is copied, status included, to its
place in `dest`.  A destination without storage is a failure. -/
def rehash_put (P : Params K V) (fuel : Nat) (src : Hash K V) (i : Nat) (dest : Hash K V) :
    Option (Hash K V) :=
  if base_empty P dest then none
  else
    let initLoc := P.getInitPlace dest.nativeSize (constRefToKey src i)
    match rehashPutLoop P initLoc fuel dest initLoc with
    | none => none
    | some (d, loc) => some (added (d.setSlot loc (src.slots i)))

/-- The loop `for (initLoc=0; isUsed(initLoc); ++initLoc);` of `rehash`, started at
`i` with `n` slots left before the end of the storage; running off the end is a
failure. -/
def firstUnusedFrom (t : Hash K V) : Nat → Nat → Option Nat
  | 0, _ => none
  | n + 1, i => if isUsed t i then firstUnusedFrom t n (i + 1) else some i

/-- A copy loop of `rehash` over the slots listed in the list, in this order; with
`check` the loop skips the slots that are not used (first loop of the source),
without it every slot is copied (second loop). -/
def rehashCopy (P : Params K V) (fuel : Nat) (src : Hash K V) (check : Bool) :
    List Nat → Hash K V → Option (Hash K V)
  | [], dest => some dest
  | i :: rest, dest =>
    if check && !isUsed src i then rehashCopy P fuel src check rest dest
    else
      match rehash_put P fuel src i dest with
      | none => none
      | some d => rehashCopy P fuel src check rest d

/-- `rehash(nativeSize)`: the entries are copied to a new table, first those behind
the first unused slot `initLoc`, then those before it; the controller and the
storage are taken from the new table; `weightSum` of this table is not touched. -/
def rehash (P : Params K V) (fuel : Nat) (t : Hash K V) (nativeSize : Nat) : Option (Hash K V) :=
  let fresh := newHash P nativeSize
  let filled :=
    if size t ≠ 0 then
      match firstUnusedFrom t (getTableSize P t) 0 with
      | none => none
      | some initLoc =>
        match rehashCopy P fuel t true
            (List.range' (initLoc + 1) (getTableSize P t - (initLoc + 1))) fresh with
        | none => none
        | some d => rehashCopy P fuel t false (List.range' 0 initLoc) d
    else some fresh
  match filled with
  | none => none
  | some d => some { d with weightSum := t.weightSum }

/-- The probe loop of `placeToPut`; the result is the table, the slot for the
key and the number of equal keys passed. -/
def placeToPutLoop [DecidableEq K] (P : Params K V) (key : K) (initLoc : Nat) :
    Nat → Hash K V → Nat → Nat → Option (Hash K V × Nat × Nat)
  | 0, _, _, _ => none
  | fuel + 1, t, location, numFound =>
    if isUsed t location then
      if key = constRefToKey t location then
        placeToPutLoop P key initLoc fuel t (getNextPlace P t location) (numFound + 1)
      else if P.HASH_ORDERED && initPlaceBefore P t initLoc location then
        (pushProbeAt P (fuel + 1) t location).map (fun d => (d, location, numFound))
      else placeToPutLoop P key initLoc fuel t (getNextPlace P t location) numFound
    else some (t, location, numFound)

/-- `placeToPut(key, location)`: the result is the table, `location` and the
number of equal keys that were present.  A table without storage is a failure. -/
def placeToPut [DecidableEq K] (P : Params K V) (fuel : Nat) (t : Hash K V) (key : K) :
    Option (Hash K V × Nat × Nat) :=
  let grown :=
    match P.aboutToPut t.nativeSize t.numKeys with
    | some oldSize => rehash P fuel t oldSize
    | none => some t
  match grown with
  | none => none
  | some t1 =>
    if base_empty P t1 then none
    else
      let initLoc := P.getInitPlace t1.nativeSize key
      match placeToPutLoop P key initLoc fuel t1 initLoc 0 with
      | none => none
      | some (t2, location, numFound) =>
        some (added (setAsUsed (setKey t2 location key) location), location, numFound)

/-- `forcedFind(key, location)`: the result is the table, `location` and whether
the key was already present.  Writing into a table without storage is a
failure. -/
def forcedFind [DecidableEq K] (P : Params K V) (fuel : Nat) (t : Hash K V) (key : K)
    (location : Nat) : Option (Hash K V × Nat × Bool) :=
  match findFirst P fuel t key location with
  | none => none
  | some (true, loc) => some (t, loc, true)
  | some (false, loc) =>
    match P.aboutToPut t.nativeSize t.numKeys with
    | some newSize =>
      match rehash P fuel t newSize with
      | none => none
      | some t1 =>
        match placeToPut P fuel t1 key with
        | none => none
        | some (t2, loc2, _) => some (t2, loc2, false)
    | none =>
      if base_empty P t then none
      else
        let pushed :=
          if P.HASH_ORDERED && isUsed t loc then pushProbeAt P fuel t loc else some t
        match pushed with
        | none => none
        | some t1 => some (added (setAsUsed (setKey t1 loc key) loc), loc, false)

def trim (P : Params K V) (fuel : Nat) (t : Hash K V) : Option (Hash K V) :=
  match P.trim t.nativeSize t.numKeys with
  | some newSize => rehash P fuel t newSize
  | none => some t

/-- `remove(key)`: the result is the answer and the table. -/
def remove [DecidableEq K] (P : Params K V) (fuel : Nat) (t : Hash K V) (key : K) :
    Option (Bool × Hash K V) :=
  match findFirst P fuel t key 0 with
  | none => none
  | some (true, loc) =>
    match removeFrom P fuel t loc with
    | none => none
    | some t1 => (trim P fuel t1).map (fun t2 => (true, t2))
  | some (false, _) => some (false, t)

/-- The loop of `keyFoundAt(place)`. -/
def keyFoundAtLoop (P : Params K V) (t : Hash K V) (place initToKey : Nat) :
    Nat → Nat → Option Bool
  | 0, _ => none
  | fuel + 1, i =>
    if !isUsed t i then some false
    else if i = place then some true
    else if P.HASH_ORDERED && (initPlaceBefore P t initToKey i
        && decide (initToKey ≠ initPlaceAt P t i)) then some false
    else keyFoundAtLoop P t place initToKey fuel (getNextPlace P t i)

def keyFoundAt (P : Params K V) (fuel : Nat) (t : Hash K V) (place : Nat) : Option Bool :=
  keyFoundAtLoop P t place (initPlaceAt P t place) fuel (initPlaceAt P t place)

/-! ## Specification vocabulary -/

/-- The number of cyclic steps that lead from slot `a` to slot `b` in a table of
`N` slots. -/
def cdist (N a b : Nat) : Nat := (b + N - a) % N

/-- The hash invariant at slot `p`: every slot of the cyclic sequence that starts
at the initial place of the key stored at `p` and ends at `p` is used. -/
def hashInvariantAt (P : Params K V) (t : Hash K V) (p : Nat) : Prop :=
  ∀ j, j ≤ cdist (getTableSize P t) (initPlaceAt P t p) p →
    isUsed t ((initPlaceAt P t p + j) % getTableSize P t) = true

/-- The hash invariant: it holds at every used slot. -/
def hashInvariant (P : Params K V) (t : Hash K V) : Prop :=
  ∀ p, p < getTableSize P t → isUsed t p = true → hashInvariantAt P t p

/-- Some slot of the table is virgin. -/
def hasVirgin (P : Params K V) (t : Hash K V) : Prop :=
  ∃ v, v < getTableSize P t ∧ isUsed t v = false

/-- The controller maps every key to a slot of the table. -/
def initPlacesInRange (P : Params K V) (n : Nat) : Prop :=
  ∀ k, P.getInitPlace n k < P.sizeForNative n

instance (P : Params K V) (t : Hash K V) (p : Nat) : Decidable (hashInvariantAt P t p) := by
  unfold hashInvariantAt; infer_instance

instance (P : Params K V) (t : Hash K V) : Decidable (hashInvariant P t) := by
  unfold hashInvariant; infer_instance

instance (P : Params K V) (t : Hash K V) : Decidable (hasVirgin P t) := by
  unfold hasVirgin; infer_instance


/-- The sum of `φ key payload` over the used slots among the first `n` slots. -/
def usedSum {M : Type} [AddCommMonoid M] (φ : K → V → M) (t : Hash K V) : Nat → M
  | 0 => 0
  | n + 1 => usedSum φ t n + (if isUsed t n then φ (constRefToKey t n) (constRefToVal t n) else 0)

/-- The sum of `φ key payload` over the used slots among the first `n` slots, the
slot `g` left out. -/
def usedSumExcept {M : Type} [AddCommMonoid M] (φ : K → V → M) (t : Hash K V) (n g : Nat) : M :=
  ∑ x in Finset.range n,
    (if isUsed t x = true ∧ x ≠ g then φ (constRefToKey t x) (constRefToVal t x) else 0)

/-- The sum of `φ key payload` over those slots listed in `l` that are used. -/
def listUsedSum {M : Type} [AddCommMonoid M] (φ : K → V → M) (t : Hash K V) (l : List Nat) : M :=
  (l.map (fun i => if isUsed t i then φ (constRefToKey t i) (constRefToVal t i) else 0)).sum

/-- The multiset of the entries (key and payload) held in used slots. -/
def entries (P : Params K V) (t : Hash K V) : Multiset (K × V) :=
  usedSum (fun k v => ({(k, v)} : Multiset (K × V))) t (getTableSize P t)

/-- The number of used slots. -/
def numUsed (P : Params K V) (t : Hash K V) : Nat :=
  usedSum (fun _ _ => 1) t (getTableSize P t)

/-- The sum of the weights of the entries held in used slots, recomputed by a full
scan. -/
def scannedWeight (P : Params K V) (t : Hash K V) : Int :=
  usedSum (fun _ v => P.getWeight v) t (getTableSize P t)

/-- The facts that hold whenever the scan loop of `removeFrom` is at its head,
in a table of native size `n0` whose run ends at the virgin slot `v`: the gap
`g` and the scanned slot `c` lie in this order before `v`, and every slot from
`g` up to `v` carries the status used. -/
structure ScanInv (P : Params K V) (n0 v : Nat) (t : Hash K V) (g c : Nat) : Prop where
  native : t.nativeSize = n0
  hg : g < P.sizeForNative n0
  hc : c < P.sizeForNative n0
  hv : v < P.sizeForNative n0
  virgin : isUsed t v = false
  ne : g ≠ c
  le : cdist (P.sizeForNative n0) g c ≤ cdist (P.sizeForNative n0) g v
  run : ∀ x, x < P.sizeForNative n0 →
    cdist (P.sizeForNative n0) g x < cdist (P.sizeForNative n0) g v → isUsed t x = true

/-- Some used slot holds the key `k`. -/
def stored (P : Params K V) (t : Hash K V) (k : K) : Prop :=
  ∃ p, p < getTableSize P t ∧ isUsed t p = true ∧ constRefToKey t p = k

instance [DecidableEq K] (P : Params K V) (t : Hash K V) (k : K) : Decidable (stored P t k) := by
  unfold stored; infer_instance

/-- The hash invariant at slot `p` as `keyFoundAt(p)` checks it: every slot of the
cyclic sequence from the initial place of the key at `p` up to `p` is used and,
in ordered mode, no slot before `p` in this sequence holds a key whose initial
place cyclically follows that of the key at `p`. -/
def checkedInvariantAt (P : Params K V) (t : Hash K V) (p : Nat) : Prop :=
  ∀ j, j ≤ cdist (getTableSize P t) (initPlaceAt P t p) p →
    isUsed t ((initPlaceAt P t p + j) % getTableSize P t) = true ∧
    (P.HASH_ORDERED = true → j < cdist (getTableSize P t) (initPlaceAt P t p) p →
      ¬ (initPlaceBefore P t (initPlaceAt P t p)
            ((initPlaceAt P t p + j) % getTableSize P t) = true ∧
          initPlaceAt P t p
            ≠ initPlaceAt P t ((initPlaceAt P t p + j) % getTableSize P t)))

/-- The hash invariant of the table in its mode: `checkedInvariantAt` holds at every
used slot.  Without ordering this is `hashInvariant`. -/
def checkedInvariant (P : Params K V) (t : Hash K V) : Prop :=
  ∀ p, p < getTableSize P t → isUsed t p = true → checkedInvariantAt P t p

instance (P : Params K V) (t : Hash K V) (p : Nat) : Decidable (checkedInvariantAt P t p) := by
  unfold checkedInvariantAt; infer_instance

instance (P : Params K V) (t : Hash K V) : Decidable (checkedInvariant P t) := by
  unfold checkedInvariant; infer_instance

/-- The keys of the used slots are pairwise distinct. -/
def distinctKeys (P : Params K V) (t : Hash K V) : Prop :=
  ∀ p, p < getTableSize P t → ∀ q, q < getTableSize P t → isUsed t p = true →
    isUsed t q = true → constRefToKey t p = constRefToKey t q → p = q

instance [DecidableEq K] (P : Params K V) (t : Hash K V) : Decidable (distinctKeys P t) := by
  unfold distinctKeys; infer_instance

/-- The keys of the used slots in the order of the slot index, which is the order
in which a full iteration visits them. -/
def usedKeys (P : Params K V) (t : Hash K V) : List K :=
  ((List.range (getTableSize P t)).filter (fun i => isUsed t i)).map (constRefToKey t)

/-- Every unused slot of the table holds the cleared payload. -/
def virginCleared (P : Params K V) (t : Hash K V) : Prop :=
  ∀ x, x < getTableSize P t → isUsed t x = false → constRefToVal t x = P.clearedVal

/-- What the hash engine expects from its controller ("the table should never
become full; this is to be guaranteed by the controller"), for a controller
whose key counter `m` does not exceed the number of slots: a requested native
size maps keys into the new table; after growth, or without growth, the table
has room for the new key and one more slot; after shrinking it has room for the
keys it holds. -/
def controllerSafe (P : Params K V) : Prop :=
  (∀ n m s, m ≤ P.sizeForNative n → P.aboutToPut n m = some s →
    initPlacesInRange P s ∧ m + 1 < P.sizeForNative s) ∧
  (∀ n m, m ≤ P.sizeForNative n → P.aboutToPut n m = none → m + 1 < P.sizeForNative n) ∧
  (∀ n m s, m ≤ P.sizeForNative n → P.trim n m = some s →
    initPlacesInRange P s ∧ m < P.sizeForNative s)

/-- The table `t1` is the table `t` with a new entry for `key` at slot `l`: the
slot is used and holds the key; the key counter has grown by one and `weightSum`
is as before; the entries are the former ones and the new one; the payload of
the new entry is the cleared one when the unused slots of `t` were cleared
(unless an ordered storage that does not swap has pushed a run); unused slots
stay cleared; without ordering the hash invariant is kept; `findFirst` finds the
key at `l` when it was not stored before; the controller maps the keys into
`t1`. -/
structure Inserted [DecidableEq K] (P : Params K V) (t : Hash K V) (key : K) (t1 : Hash K V)
    (l : Nat) : Prop where
  loc_lt : l < getTableSize P t1
  used : isUsed t1 l = true
  key_eq : constRefToKey t1 l = key
  numKeys : t1.numKeys = t.numKeys + 1
  weightSum : t1.weightSum = t.weightSum
  sums : ∀ (M : Type) [AddCommMonoid M] (φ : K → V → M),
    usedSum φ t1 (getTableSize P t1) = usedSum φ t (getTableSize P t) + φ key (constRefToVal t1 l)
  cleared : P.HASH_ORDERED = false ∨ P.swaps = true → virginCleared P t →
    constRefToVal t1 l = P.clearedVal
  virgins : virginCleared P t → virginCleared P t1
  hash : P.HASH_ORDERED = false → hashInvariant P t → hashInvariant P t1
  found : ¬ stored P t key → ∀ loc0 fuel1, getTableSize P t1 < fuel1 →
    findFirst P fuel1 t1 key loc0 = some (true, l)
  range : initPlacesInRange P t1.nativeSize

/-- The number of slots of the tables that an insertion into a table of native size
`n` with `m` keys may build: `forcedFind` rehashes when the controller asks for
it and then calls `placeToPut`, which asks the controller again. -/
def growSize (P : Params K V) (n m : Nat) : Nat :=
  match P.aboutToPut n m with
  | some s =>
    P.sizeForNative s +
      (match P.aboutToPut s m with
       | some s2 => P.sizeForNative s2
       | none => 0)
  | none => 0

/-- The number of slots of the table that `trim` may build. -/
def trimSize (P : Params K V) (n m : Nat) : Nat :=
  match P.trim n m with
  | some s => P.sizeForNative s
  | none => 0

/-- A number of loop iterations that suffices for every loop of one operation on
the table `t`: more than the number of slots of `t` and of the tables that a
growth or a shrink of `t` builds. -/
def fuelBound (P : Params K V) (t : Hash K V) : Nat :=
  getTableSize P t + growSize P t.nativeSize t.numKeys
    + trimSize P t.nativeSize (t.numKeys - 1) + 1

/-! ## Sequences of operations -/

/-- A payload write through one `value_reference`: the guard is created by
`refToVal`, the payload is assigned through it, and the guard is released. -/
def guardedWrite (P : Params K V) (t : Hash K V) (loc : Nat) (value : V) : Hash K V :=
  let stub := refToVal P t loc
  (stub._lce_finalize P (stub.assign t value)).1

/-- The operations that change a table. -/
inductive Op (K V : Type) where
  | forcedFind (key : K)
  | placeToPut (key : K)
  | setValue (loc : Nat) (value : V)
  | guardedWrite (loc : Nat) (value : V)
  | removeFrom (loc : Nat)
  | remove (key : K)
  | trim
  | rehash (nativeSize : Nat)

/-- One operation on the table.  The operations that take a slot demand a used
slot of the table (`assert(super::isUsed(toBeFilled))` in `removeFrom`; payloads
are written at slots returned by a lookup or an insertion); `rehash` is called
for native sizes with more slots than there are entries. -/
def step [DecidableEq K] (P : Params K V) (fuel : Nat) (t : Hash K V) : Op K V → Option (Hash K V)
  | Op.forcedFind key => (forcedFind P fuel t key 0).map (fun r => r.1)
  | Op.placeToPut key => (placeToPut P fuel t key).map (fun r => r.1)
  | Op.setValue loc value =>
    if loc < getTableSize P t ∧ isUsed t loc = true then some (setValue P t loc value) else none
  | Op.guardedWrite loc value =>
    if loc < getTableSize P t ∧ isUsed t loc = true then some (guardedWrite P t loc value)
    else none
  | Op.removeFrom loc =>
    if loc < getTableSize P t ∧ isUsed t loc = true then removeFrom P fuel t loc else none
  | Op.remove key => (remove P fuel t key).map (fun r => r.2)
  | Op.trim => trim P fuel t
  | Op.rehash nativeSize =>
    if numUsed P t < P.sizeForNative nativeSize then rehash P fuel t nativeSize else none

/-- A sequence of operations, each with the same fuel for its loops. -/
def run [DecidableEq K] (P : Params K V) (fuel : Nat) : List (Op K V) → Hash K V →
    Option (Hash K V)
  | [], t => some t
  | op :: rest, t =>
    match step P fuel t op with
    | none => none
    | some t1 => run P fuel rest t1

/-- What a sequence of operations may ask for: a `rehash` goes to a native size
for which the controller maps the keys into the table. -/
def opOK (P : Params K V) : Op K V → Prop
  | Op.rehash nativeSize => initPlacesInRange P nativeSize
  | _ => True

/-- What an operation demands of the table it is applied to. -/
def opReady (P : Params K V) (t : Hash K V) : Op K V → Prop
  | Op.setValue loc _ => loc < getTableSize P t ∧ isUsed t loc = true
  | Op.guardedWrite loc _ => loc < getTableSize P t ∧ isUsed t loc = true
  | Op.removeFrom loc => loc < getTableSize P t ∧ isUsed t loc = true
  | Op.rehash nativeSize => numUsed P t < P.sizeForNative nativeSize
  | _ => True

/-- The counter invariant together with what the engine needs to run: the key
counter is the number of used slots, and the table has no storage or has a
virgin slot and a controller that maps the keys into it. -/
structure CountLegal (P : Params K V) (t : Hash K V) : Prop where
  count : size t = numUsed P t
  alloc : getTableSize P t = 0 ∨ (initPlacesInRange P t.nativeSize ∧ hasVirgin P t)

/-- The weight invariant together with what keeps it: `weight()` is the sum of the
weights of the used slots, and the unused slots hold the cleared payload. -/
structure WeightLegal (P : Params K V) (t : Hash K V) : Prop where
  weight : weight t = scannedWeight P t
  cleared : virginCleared P t

/-! ## A concrete configuration -/

/-- A configuration over natural-number keys and integer payloads: a table of
native size `n` has `n` slots, the initial place of a key is its remainder modulo
`n`, the weight of a payload is the payload, the controller asks for growth when
an insertion would fill more than half of the slots and for shrinking when at
most a quarter of the slots would be used with one more key. -/
def modParams (ordered swaps : Bool) : Params Nat Int where
  HASH_ORDERED := ordered
  sizeForNative := fun n => n
  getInitPlace := fun n k => k % n
  aboutToPut := fun n m => if n < 2 * (m + 1) then some (2 * n + 2) else none
  trim := fun n m => if 4 * (m + 1) ≤ n then some (n / 2) else none
  getWeight := fun v => v
  clearedVal := 0
  emptyKey := 0
  swaps := swaps

/-- A used slot. -/
def usedSlot (k : Nat) (v : Int) : Slot Nat Int := { used := true, key := k, val := v }

/-- A virgin slot with the cleared payload. -/
def virginSlot : Slot Nat Int := { used := false, key := 0, val := 0 }

/-- The table whose slots are listed in `l`. -/
def tableOf (numKeys : Nat) (l : List (Slot Nat Int)) (w : Int) : Hash Nat Int :=
  { nativeSize := l.length, numKeys := numKeys, slots := fun i => l.getD i virginSlot,
    weightSum := w }

/-- Four slots; the keys 3, 7 and 11 all have initial place 3 and their run wraps
around the end of the table. -/
def wrapTable : Hash Nat Int :=
  tableOf 3 [usedSlot 7 2, usedSlot 11 3, virginSlot, usedSlot 3 1] 6

/-- The keys 1 to 5 with the payloads (weights) 1 to 5 in a table of eight slots. -/
def scenarioTable : Hash Nat Int :=
  tableOf 5 [virginSlot, usedSlot 1 1, usedSlot 2 2, usedSlot 3 3, usedSlot 4 4, usedSlot 5 5,
    virginSlot, virginSlot] 15

/-- Eight slots with the keys 9 and 17, both of initial place 1. -/
def sparseTable : Hash Nat Int :=
  tableOf 2 [virginSlot, usedSlot 9 4, usedSlot 17 6, virginSlot, virginSlot, virginSlot,
    virginSlot, virginSlot] 10

/-- The concrete scenario: the keys 1 to 5 are inserted into an empty table of
eight slots and receive the weights 1 to 5 (the fifth insertion makes the table
grow), then the key 3 is erased. -/
def scenarioOps : List (Op Nat Int) :=
  [Op.forcedFind 1, Op.setValue 1 1, Op.forcedFind 2, Op.guardedWrite 2 2, Op.placeToPut 3,
    Op.setValue 3 3, Op.forcedFind 4, Op.guardedWrite 4 4, Op.forcedFind 5, Op.setValue 5 5,
    Op.remove 3]

/-! ## The read-only iterator -/

/-- The loop of `const_iterator::advanceIter`:
`do loc++ while (loc < getTableSize() && !isUsed(loc))`. -/
def const_iterator.advanceLoop (P : Params K V) (t : Hash K V) : Nat → Nat → Option Nat
  | 0, _ => none
  | fuel + 1, loc =>
    if decide (loc + 1 < getTableSize P t) && !isUsed t (loc + 1) then
      const_iterator.advanceLoop P t fuel (loc + 1)
    else some (loc + 1)

/-- `const_iterator::advanceIter` and `operator++`: the new position. -/
def const_iterator.advanceIter (P : Params K V) (fuel : Nat) (t : Hash K V) (loc : Nat) :
    Option Nat :=
  const_iterator.advanceLoop P t fuel loc

/-- The constructor `const_iterator(hash)` behind `begin() const`: the position
after construction. -/
def const_iterator.begin (P : Params K V) (fuel : Nat) (t : Hash K V) : Option Nat :=
  if decide (getTableSize P t > 0) && !isUsed t 0 then const_iterator.advanceIter P fuel t 0
  else some 0

/-- `const_iterator::finished`. -/
def const_iterator.finished (P : Params K V) (t : Hash K V) (loc : Nat) : Bool :=
  loc == getTableSize P t

/-- The positions that a `const_iterator` at `loc` takes until `finished()`, with
`operator++` between them; at most `steps` positions are taken. -/
def const_iterator.positions (P : Params K V) (fuel : Nat) (t : Hash K V) : Nat → Nat →
    Option (List Nat)
  | 0, _ => none
  | steps + 1, loc =>
    if const_iterator.finished P t loc then some []
    else
      match const_iterator.advanceIter P fuel t loc with
      | none => none
      | some loc1 => (const_iterator.positions P fuel t steps loc1).map (fun l => loc :: l)

/-- The traversal `for (i = begin(); !i.finished(); ++i)`: the list of the
positions taken. -/
def const_iterator.traverse (P : Params K V) (fuel : Nat) (t : Hash K V) : Option (List Nat) :=
  match const_iterator.begin P fuel t with
  | none => none
  | some loc => const_iterator.positions P fuel t fuel loc

/-! ## The mutating iterator -/

/-- The mutating `iterator`: the current position `loc` and the place `endLoc`
where the iteration started. -/
structure iterator where
  loc : Nat
  endLoc : Nat

/-- The loop of `iterator::advanceIter`: cyclic steps until a used slot is met;
when the position is `endLoc` the iterator is marked as finished. -/
def iterator.advanceLoop (P : Params K V) (t : Hash K V) (endLoc : Nat) : Nat → Nat → Option Nat
  | 0, _ => none
  | fuel + 1, loc =>
    if loc ≠ endLoc then
      if isUsed t (getNextPlace P t loc) then some (getNextPlace P t loc)
      else iterator.advanceLoop P t endLoc fuel (getNextPlace P t loc)
    else some (getTableSize P t)

/-- `iterator::advanceIter` and `operator++`. -/
def iterator.advanceIter (P : Params K V) (fuel : Nat) (t : Hash K V) (it : iterator) :
    Option iterator :=
  (iterator.advanceLoop P t it.endLoc fuel it.loc).map (fun l => { it with loc := l })

/-- The loop `do loc = getNextPlace(loc) while (!isUsed(loc))` of the constructor. -/
def iterator.firstUsedLoop (P : Params K V) (t : Hash K V) : Nat → Nat → Option Nat
  | 0, _ => none
  | fuel + 1, loc =>
    if !isUsed t (getNextPlace P t loc) then iterator.firstUsedLoop P t fuel (getNextPlace P t loc)
    else some (getNextPlace P t loc)

/-- The constructor `iterator(hash)` behind `begin()`.  For an empty table the
source leaves `endLoc` without a value; `junk` stands for what it holds then.
Otherwise `endLoc` is the first unused slot, found by `while (isUsed(loc)) loc++`,
and the position is the first used slot after it. -/
def iterator.begin (P : Params K V) (fuel : Nat) (t : Hash K V) (junk : Nat) : Option iterator :=
  if size t = 0 then some { loc := getTableSize P t, endLoc := junk }
  else
    match firstUnusedFrom t (getTableSize P t) 0 with
    | none => none
    | some endLoc =>
      (iterator.firstUsedLoop P t fuel endLoc).map (fun l => { loc := l, endLoc := endLoc })

/-- `iterator::finished`. -/
def iterator.finished (P : Params K V) (t : Hash K V) (it : iterator) : Bool :=
  it.loc == getTableSize P t

/-- `iterator::remove`: the current entry is removed with `removeFrom`; the
iterator advances unless the local rehash has brought another entry to its
position. -/
def iterator.remove (P : Params K V) (fuel : Nat) (t : Hash K V) (it : iterator) :
    Option (Hash K V × iterator) :=
  match removeFrom P fuel t it.loc with
  | none => none
  | some t1 =>
    if !isUsed t1 it.loc then (iterator.advanceIter P fuel t1 it).map (fun it1 => (t1, it1))
    else some (t1, it)

/-- An iteration driven until `finished()`: at step `k` the current entry is
recorded, and `choices k` tells whether the step is `remove()` or `operator++`.
The result is the list of the entries that were current and the final table; at
most `steps` steps are made. -/
def iterator.drive (P : Params K V) (fuel : Nat) (choices : Nat → Bool) :
    Nat → Nat → Hash K V → iterator → Option (List (K × V) × Hash K V)
  | 0, _, _, _ => none
  | steps + 1, k, t, it =>
    if iterator.finished P t it then some ([], t)
    else
      let next :=
        if choices k then iterator.remove P fuel t it
        else (iterator.advanceIter P fuel t it).map (fun it1 => (t, it1))
      match next with
      | none => none
      | some (t1, it1) =>
        (iterator.drive P fuel choices steps (k + 1) t1 it1).map
          (fun r => ((constRefToKey t it.loc, constRefToVal t it.loc) :: r.1, r.2))

/-- The iteration from `begin()` until `finished()`. -/
def iterator.iterate (P : Params K V) (fuel : Nat) (choices : Nat → Bool) (t : Hash K V)
    (junk : Nat) : Option (List (K × V) × Hash K V) :=
  match iterator.begin P fuel t junk with
  | none => none
  | some it => iterator.drive P fuel choices fuel 0 t it

/-! ## Random selection -/

/-- A random source: the sequence of the values that successive calls of `next`
return, and the number of calls made so far. -/
structure RandSource where
  draws : Nat → Nat
  pos : Nat

/-- One call `src.next(n)`: the value drawn and the source afterwards. -/
def RandSource.next (src : RandSource) : Nat × RandSource :=
  (src.draws src.pos, { src with pos := src.pos + 1 })

/-- The loop of `randSlot`: `do slot = src.next(getTableSize()) while (!isUsed(slot))`. -/
def randSlotLoop (t : Hash K V) : Nat → RandSource → Option (Nat × RandSource)
  | 0, _ => none
  | fuel + 1, src =>
    if !isUsed t src.next.1 then randSlotLoop t fuel src.next.2 else some src.next

/-- `randSlot(src)`: the slot and the source afterwards. -/
def randSlot (fuel : Nat) (t : Hash K V) (src : RandSource) : Option (Nat × RandSource) :=
  randSlotLoop t fuel src

/-- `randKey(src)`. -/
def randKey (fuel : Nat) (t : Hash K V) (src : RandSource) : Option (K × RandSource) :=
  (randSlot fuel t src).map (fun r => (constRefToKey t r.1, r.2))

/-- The parameters `P` with other growth and shrink decisions of the controller. -/
def Params.withController (P : Params K V) (aboutToPut trim : Nat → Nat → Option Nat) :
    Params K V :=
  { P with aboutToPut := aboutToPut, trim := trim }

/-- The number of used slots that hold a key equal to `key`. -/
def numEqual [DecidableEq K] (P : Params K V) (t : Hash K V) (key : K) : Nat :=
  usedSum (fun k _ => if k = key then 1 else 0) t (getTableSize P t)

/-! ## `clear` -/

/-- Modelled from the spec: `final_remove(i)`, defined in the table classes that
are not at hand.  By the spec, `clear` and the destruction of a table leave all
slots cleared, and the weight invariant holds after every operation: the weight
of the departing entry leaves the sum and the entry is destroyed (as in
`remove_stage_1`), its slot holds the cleared payload (as after
`remove_stage_2`) and is marked unused.  The controller is out of its reach. -/
def final_remove (P : Params K V) (t : Hash K V) (i : Nat) : Hash K V :=
  setAsEmpty (remove_stage_2 P (remove_stage_1 P t i) i) i

/-- The loop `for (i = 0; i < getTableSize(); ++i) if (isUsed(i)) final_remove(i);`
of `clear`, over the slots listed. -/
def clearLoop (P : Params K V) : List Nat → Hash K V → Hash K V
  | [], t => t
  | i :: rest, t => clearLoop P rest (if isUsed t i then final_remove P t i else t)

/-- `clear()`: every used slot is finally removed, then the table is rehashed to
the native size 0; `assemble()` of `ArrayBase` does nothing. -/
def clear (P : Params K V) (fuel : Nat) (t : Hash K V) : Option (Hash K V) :=
  let t1 := if !base_empty P t then clearLoop P (List.range (getTableSize P t)) t else t
  rehash P fuel t1 0

/-! ## Weighted selection -/

/-- Modelled from the spec: the loop of `weighedSlotSelect(value)` of `ValueTable`,
which is not at hand: "scan occupied slots accumulating weight until the running
total exceeds `u`; return that slot".  The slots are scanned in the order of
their index, `n` slots from `i` on with the running total `acc`; running past
the last slot is a failure. -/
def weighedSlotSelectLoop (P : Params K V) (t : Hash K V) (value : Int) :
    Nat → Nat → Int → Option Nat
  | 0, _, _ => none
  | n + 1, i, acc =>
    if isUsed t i then
      if value < acc + weightAt P t i then some i
      else weighedSlotSelectLoop P t value n (i + 1) (acc + weightAt P t i)
    else weighedSlotSelectLoop P t value n (i + 1) acc

/-- Modelled from the spec: `weighedSlotSelect(value)` of `ValueTable`, the scan
over all slots of the table. -/
def weighedSlotSelect (P : Params K V) (t : Hash K V) (value : Int) : Option Nat :=
  weighedSlotSelectLoop P t value (getTableSize P t) 0 0

/-- `WeightSumTable::weighedRandSlot(src)`: the value `src.next(weight())` selects
the slot; `next` is the function that the random source applies to the bound. -/
def weighedRandSlot (P : Params K V) (t : Hash K V) (next : Int → Int) : Option Nat :=
  weighedSlotSelect P t (next (weight t))

/-- `LinearHash::weighedRandKey(src)`. -/
def weighedRandKey (P : Params K V) (t : Hash K V) (next : Int → Int) : Option K :=
  (weighedRandSlot P t next).map (constRefToKey t)

/-- Entries with the weights 1, 1 and 2. -/
def weightsTable : Hash Nat Int :=
  tableOf 3 [usedSlot 1 1, virginSlot, usedSlot 2 1, usedSlot 3 2] 4

/-! ## What is left of an iteration -/

/-- The sum of `φ key payload` over the used slots of a table of `N` slots that lie
at least `m` cyclic steps behind the slot `e`: the slots that an iteration which
started behind `e` still has to visit when it stands `m` steps behind `e`. -/
def tailSum {M : Type} [AddCommMonoid M] (φ : K → V → M) (t : Hash K V) (N e m : Nat) : M :=
  ∑ x in Finset.range N,
    (if isUsed t x = true ∧ m ≤ cdist N e x then φ (constRefToKey t x) (constRefToVal t x) else 0)

/-- What holds between two steps of an iteration over a table of `N` slots that
started behind the unused slot `e`: the slot `e` is still unused, it is the end
point of the iterator, and the iterator is finished or stands at a used slot. -/
structure IterInv (P : Params K V) (N e : Nat) (t : Hash K V) (it : iterator) : Prop where
  size_eq : getTableSize P t = N
  range : initPlacesInRange P t.nativeSize
  he : e < N
  virgin : isUsed t e = false
  endLoc : it.endLoc = e
  pos : it.loc = N ∨ (it.loc < N ∧ isUsed t it.loc = true)

/-- How far the iterator has come: the number of cyclic steps from `e` to its
position, and `N` when it is finished. -/
def iterator.rank (N e : Nat) (it : iterator) : Nat :=
  if it.loc < N then cdist N e it.loc else N

/-! ## The disjoint sets forest of `misc/DisjointSets.H` -/

/-- The state of a `DisjointSetsForest` with the policy `NoLengths`: the arrays
`fathers` and `setSizes` and the map `sizeDistribution`, in which a size that is
not a key of the map has the count 0. -/
structure DisjointSetsForest where
  size : Nat
  fathers : Nat → Nat
  setSizes : Nat → Nat
  sizeDistribution : Nat → Nat

/-- Assignment to one element of an array. -/
def arraySet (f : Nat → Nat) (i v : Nat) : Nat → Nat := fun j => if j = i then v else f j

/-- The constructor `DisjointSetsForest(sizeOfTheForest)`: every element is its
own set of size 1. -/
def DisjointSetsForest.create (sizeOfTheForest : Nat) : DisjointSetsForest :=
  { size := sizeOfTheForest, fathers := fun i => i, setSizes := fun _ => 1,
    sizeDistribution := fun s => if s = 1 then sizeOfTheForest else 0 }

/-- `getSetID(elementIndex)`: the recursion towards the root, with the depth of
the recursion bounded by the fuel; with `packTree` every node on the way is
linked to the root.  The result is the root and the forest afterwards. -/
def DisjointSetsForest.getSetID (packTree : Bool) :
    Nat → DisjointSetsForest → Nat → Option (Nat × DisjointSetsForest)
  | 0, _, _ => none
  | fuel + 1, F, elementIndex =>
    if F.fathers elementIndex = elementIndex then some (elementIndex, F)
    else
      match DisjointSetsForest.getSetID packTree fuel F (F.fathers elementIndex) with
      | none => none
      | some (theRoot, F1) =>
        some (theRoot,
          if packTree then { F1 with fathers := arraySet F1.fathers elementIndex theRoot } else F1)

/-- The update of `sizeDistribution` in `mergeSets`: the counts of the two old
sizes drop by one (an entry that reaches 0 is erased) and the count of the new
size grows by one. -/
def updateSizeDistribution (d : Nat → Nat) (smallSetSize largeSetSize : Nat) : Nat → Nat :=
  let d1 := arraySet d smallSetSize (d smallSetSize - 1)
  let d2 := arraySet d1 largeSetSize (d1 largeSetSize - 1)
  arraySet d2 (smallSetSize + largeSetSize) (d2 (smallSetSize + largeSetSize) + 1)

/-- `mergeSets(element1, element2)`: the result tells whether two sets were
merged; the root of the smaller set is linked to the root of the larger one. -/
def DisjointSetsForest.mergeSets (packTree sizeDist : Bool) (fuel : Nat) (F : DisjointSetsForest)
    (element1 element2 : Nat) : Option (Bool × DisjointSetsForest) :=
  match DisjointSetsForest.getSetID packTree fuel F element1 with
  | none => none
  | some (set1, F1) =>
    match DisjointSetsForest.getSetID packTree fuel F1 element2 with
    | none => none
    | some (set2, F2) =>
      if set1 = set2 then some (false, F2)
      else
        let smallSet := if F2.setSizes set1 > F2.setSizes set2 then set2 else set1
        let largeSet := if F2.setSizes set1 > F2.setSizes set2 then set1 else set2
        let F3 :=
          if sizeDist then
            { F2 with
              sizeDistribution :=
                updateSizeDistribution F2.sizeDistribution (F2.setSizes smallSet)
                  (F2.setSizes largeSet) }
          else F2
        some (true,
          { F3 with
            fathers := arraySet F3.fathers smallSet largeSet,
            setSizes := arraySet F3.setSizes largeSet
              (F3.setSizes largeSet + F3.setSizes smallSet) })

/-- `getSetSize(elementIndex)`. -/
def DisjointSetsForest.getSetSize (packTree : Bool) (fuel : Nat) (F : DisjointSetsForest)
    (elementIndex : Nat) : Option (Nat × DisjointSetsForest) :=
  (DisjointSetsForest.getSetID packTree fuel F elementIndex).map (fun r => (r.2.setSizes r.1, r.2))

/-- A sequence of calls of `mergeSets`, the answers dropped. -/
def DisjointSetsForest.runMerges (packTree sizeDist : Bool) (fuel : Nat) :
    List (Nat × Nat) → DisjointSetsForest → Option DisjointSetsForest
  | [], F => some F
  | p :: rest, F =>
    match DisjointSetsForest.mergeSets packTree sizeDist fuel F p.1 p.2 with
    | none => none
    | some r => DisjointSetsForest.runMerges packTree sizeDist fuel rest r.2

/-- The set ID that `getSetID` returns for an element, the forest dropped. -/
def DisjointSetsForest.setID (packTree : Bool) (fuel : Nat) (F : DisjointSetsForest) (x : Nat) :
    Option Nat :=
  (DisjointSetsForest.getSetID packTree fuel F x).map Prod.fst

/-- What holds in every forest that merges build from the singletons, with `rep`
the root of the tree of each element and `h` a height that grows towards the
root and stays below `B`. -/
structure ForestInv (F : DisjointSetsForest) (rep h : Nat → Nat) (B : Nat) : Prop where
  lt : ∀ i, i < F.size → F.fathers i < F.size
  rep_lt : ∀ i, i < F.size → rep i < F.size
  rep_root : ∀ i, i < F.size → F.fathers (rep i) = rep i
  rep_father : ∀ i, i < F.size → rep (F.fathers i) = rep i
  root_rep : ∀ i, i < F.size → F.fathers i = i → rep i = i
  height : ∀ i, i < F.size → F.fathers i ≠ i → h i < h (F.fathers i)
  bound : ∀ i, i < F.size → h i ≤ B

/-- The invariant that `keyFoundAt` checks, read towards a slot `v`: for every used
slot `p`, the slot `v` does not lie between the initial place of the key at `p`
and `p`; every slot between the two is used and, in ordered mode, holds a key
whose initial place is not nearer to `v` than that of the key at `p`. -/
def orderedTowards (P : Params K V) (t : Hash K V) (v : Nat) : Prop :=
  ∀ p, p < getTableSize P t → isUsed t p = true →
    cdist (getTableSize P t) p v ≤ cdist (getTableSize P t) (initPlaceAt P t p) v ∧
    ∀ y, y < getTableSize P t →
      cdist (getTableSize P t) p v ≤ cdist (getTableSize P t) y v →
      cdist (getTableSize P t) y v ≤ cdist (getTableSize P t) (initPlaceAt P t p) v →
      isUsed t y = true ∧
      (P.HASH_ORDERED = true → y ≠ p →
        cdist (getTableSize P t) (initPlaceAt P t p) v
          ≤ cdist (getTableSize P t) (initPlaceAt P t y) v)

/-! ## The tests of `removeFrom` and `initPlaceBefore` as cyclic comparisons -/

/-- The test of `removeFrom` that decides whether the entry at `currSlot`, whose
key has the initial place `initPlace`, is moved into the gap `toBeFilled`. -/
def fillTest (initPlace toBeFilled currSlot : Nat) : Bool :=
  let currRotated := decide (initPlace > currSlot)
  let probeRotated := decide (toBeFilled > currSlot)
  ((probeRotated == currRotated) && decide (initPlace ≤ toBeFilled))
    || (currRotated && !probeRotated)

/-- The cyclic interval test in the words of the specification, for a table of `N`
slots, the scanned slot `c`, the gap `g` and the initial place `h`:
`(c - h) mod N ≥ (c - g) mod N`. -/
def cyclicIntervalTest (N h g c : Nat) : Prop :=
  ((c : Int) - (h : Int)) % (N : Int) ≥ ((c : Int) - (g : Int)) % (N : Int)

instance (N h g c : Nat) : Decidable (cyclicIntervalTest N h g c) := by
  unfold cyclicIntervalTest; infer_instance

/-- The slot `g` lies on the cyclic probe path that leads from `h` to `c`. -/
def onProbePath (N h g c : Nat) : Prop :=
  ∃ j, j ≤ cdist N h c ∧ (h + j) % N = g

/-- The strict cyclic ordering of initial places in the words of the
specification, for the probe start `p`, the initial place `h` of the key at the
slot `c`: `(c - p) mod N > (c - h) mod N`. -/
def followsProbeStart (N p h c : Nat) : Prop :=
  ((c : Int) - (p : Int)) % (N : Int) > ((c : Int) - (h : Int)) % (N : Int)

instance (N p h c : Nat) : Decidable (followsProbeStart N p h c) := by
  unfold followsProbeStart; infer_instance

/-- Eight slots in ordered mode: the keys 6 and 14 (initial place 6) and 15
(initial place 7) form a run that wraps around the end of the table. -/
def orderedTable : Hash Nat Int :=
  tableOf 3 [usedSlot 15 3, virginSlot, virginSlot, virginSlot, virginSlot, virginSlot,
    usedSlot 6 1, usedSlot 14 2] 6

/-! ## The order of re-insertion in `rehash` -/

/-- The copy loop of `rehash` (`rehashCopy`) together with a record of its calls
of `rehash_put`: the result is the destination table and the list of the source
slots that were re-inserted, in the order of the calls. -/
def rehashCopyTrace (P : Params K V) (fuel : Nat) (src : Hash K V) (check : Bool) :
    List Nat → Hash K V → Option (Hash K V × List Nat)
  | [], dest => some (dest, [])
  | i :: rest, dest =>
    if check && !isUsed src i then rehashCopyTrace P fuel src check rest dest
    else
      match rehash_put P fuel src i dest with
      | none => none
      | some d => (rehashCopyTrace P fuel src check rest d).map (fun r => (r.1, i :: r.2))

/-- `rehash(nativeSize)` together with the record of its calls of `rehash_put`: the
new table and the list of the slots of the old table in the order in which they
were re-inserted. -/
def rehashTrace (P : Params K V) (fuel : Nat) (t : Hash K V) (nativeSize : Nat) :
    Option (Hash K V × List Nat) :=
  let fresh := newHash P nativeSize
  let filled :=
    if size t ≠ 0 then
      match firstUnusedFrom t (getTableSize P t) 0 with
      | none => none
      | some initLoc =>
        match rehashCopyTrace P fuel t true
            (List.range' (initLoc + 1) (getTableSize P t - (initLoc + 1))) fresh with
        | none => none
        | some r1 =>
          (rehashCopyTrace P fuel t false (List.range' 0 initLoc) r1.1).map
            (fun r2 => (r2.1, r1.2 ++ r2.2))
    else some (fresh, [])
  match filled with
  | none => none
  | some r => some ({ r.1 with weightSum := t.weightSum }, r.2)

/-! ## Set sizes in the disjoint sets forest -/

/-- The number of elements below `n` whose root is `r`. -/
def setCount (rep : Nat → Nat) (n r : Nat) : Nat :=
  ((Finset.range n).filter (fun x => rep x = r)).card

/-- The array `setSizes` holds, at every root, the number of elements of its tree. -/
def SizesInv (F : DisjointSetsForest) (rep : Nat → Nat) : Prop :=
  ∀ r, r < F.size → rep r = r → F.setSizes r = setCount rep F.size r

/-- The number of elements below `n` to which `getSetID` gives the set ID `id`. -/
def numWithSetID (packTree : Bool) (fuel : Nat) (F : DisjointSetsForest) (n : Nat)
    (id : Option Nat) : Nat :=
  ((Finset.range n).filter (fun x => DisjointSetsForest.setID packTree fuel F x = id)).card

/-! ## `shuffle` of `nets/NetExtras.H` -/

/-- The implicit conversions that `shuffle` applies to an element of the vector
when it keeps it in its variable `temp`, which has the type `size_t` whatever
the element type is: `toSizeT` on `size_t temp = order.at(i)` and `ofSizeT` on
`order.at(toss) = temp`. -/
structure ElemConv (E : Type) where
  toSizeT : E → Nat
  ofSizeT : Nat → E

/-- The conversions for `elementType = size_t`: none. -/
def sizeTConv : ElemConv Nat := { toSizeT := fun x => x, ofSizeT := fun n => n }

/-- The conversions for `elementType = double`, on the non-negative values that a
`double` holds exactly and that are in the range of `size_t`: the conversion to
`size_t` drops the fractional part, the conversion back is exact. -/
def doubleConv : ElemConv ℚ :=
  { toSizeT := fun q => (q.num / (q.den : Int)).toNat, ofSizeT := fun n => (n : ℚ) }

/-- A generator as `shuffle` uses it: `calls c k` is the value that the call
number `c` of `next` returns when its argument is `k`; `count` is the number of
calls made so far. -/
structure Generator where
  calls : Nat → Nat → Nat
  count : Nat

/-- One call `generator.next(k)`: the value and the generator afterwards. -/
def Generator.next (g : Generator) (k : Nat) : Nat × Generator :=
  (g.calls g.count k, { g with count := g.count + 1 })

/-- Reading `order.at(i)`; `none` stands for the exception `out_of_range`. -/
def vecAt {E : Type} (order : List E) (i : Nat) : Option E := order[i]?

/-- The assignment `order.at(i) = x`; `none` stands for the exception
`out_of_range`. -/
def vecAssign {E : Type} (order : List E) (i : Nat) (x : E) : Option (List E) :=
  if i < order.length then some (order.set i x) else none

/-- The loop `for (size_t i=0; i<N; ++i)` of `shuffle` with `n` iterations left at
the index `i`. -/
def shuffleLoop {E : Type} (C : ElemConv E) (N : Nat) :
    Nat → Nat → List E → Generator → Option (List E × Generator)
  | 0, _, order, generator => some (order, generator)
  | n + 1, i, order, generator =>
    let toss := (generator.next (N - i)).1 + i
    match vecAt order i with
    | none => none
    | some x =>
      let temp := C.toSizeT x
      match vecAt order toss with
      | none => none
      | some y =>
        match vecAssign order i y with
        | none => none
        | some order1 =>
          match vecAssign order1 toss (C.ofSizeT temp) with
          | none => none
          | some order2 => shuffleLoop C N n (i + 1) order2 (generator.next (N - i)).2

/-- `shuffle(order, generator)`: the vector and the generator afterwards. -/
def shuffle {E : Type} (C : ElemConv E) (order : List E) (generator : Generator) :
    Option (List E × Generator) :=
  shuffleLoop C order.length order.length 0 order generator

/-! ## Two guards on one slot -/

/-- Two `value_reference` guards on the slot `i` that are alive at the same time:
both are created by `refToVal(i)`, the payload is assigned through the first of
them, and then both are released, the first one first when `firstOut` holds and
the second one first otherwise. -/
def overlappingGuards (P : Params K V) (t : Hash K V) (i : Nat) (value : V) (firstOut : Bool) :
    Hash K V :=
  let guard1 := refToVal P t i
  let guard2 := refToVal P t i
  let t1 := guard1.assign t value
  if firstOut then
    (guard2._lce_finalize P (guard1._lce_finalize P t1).1).1
  else
    (guard1._lce_finalize P (guard2._lce_finalize P t1).1).1

/-! ## Sequences of calls on a disjoint sets forest -/

/-- A call of a public method of `DisjointSetsForest`. -/
inductive ForestCall where
  | mergeSets (element1 element2 : Nat)
  | getSetID (elementIndex : Nat)
  | getSetSize (elementIndex : Nat)

/-- The arguments of the call are elements of a forest of `n` elements, as the
assertions of the methods demand. -/
def ForestCall.inRange (n : Nat) : ForestCall → Prop
  | ForestCall.mergeSets element1 element2 => element1 < n ∧ element2 < n
  | ForestCall.getSetID elementIndex => elementIndex < n
  | ForestCall.getSetSize elementIndex => elementIndex < n

instance (n : Nat) (c : ForestCall) : Decidable (ForestCall.inRange n c) := by
  cases c <;> unfold ForestCall.inRange <;> infer_instance

/-- One call on the forest: the value returned (the truth value of `mergeSets` on
the left, the index or size returned by `getSetID` and `getSetSize` on the
right) and the forest afterwards. -/
def DisjointSetsForest.call (packTree sizeDist : Bool) (fuel : Nat) (F : DisjointSetsForest) :
    ForestCall → Option (Sum Bool Nat × DisjointSetsForest)
  | ForestCall.mergeSets element1 element2 =>
    (DisjointSetsForest.mergeSets packTree sizeDist fuel F element1 element2).map
      (fun r => (Sum.inl r.1, r.2))
  | ForestCall.getSetID elementIndex =>
    (DisjointSetsForest.getSetID packTree fuel F elementIndex).map (fun r => (Sum.inr r.1, r.2))
  | ForestCall.getSetSize elementIndex =>
    (DisjointSetsForest.getSetSize packTree fuel F elementIndex).map (fun r => (Sum.inr r.1, r.2))

/-- A sequence of calls: the values returned, in the order of the calls, and the
forest afterwards. -/
def DisjointSetsForest.calls (packTree sizeDist : Bool) (fuel : Nat) :
    List ForestCall → DisjointSetsForest → Option (List (Sum Bool Nat) × DisjointSetsForest)
  | [], F => some ([], F)
  | c :: rest, F =>
    match DisjointSetsForest.call packTree sizeDist fuel F c with
    | none => none
    | some r =>
      (DisjointSetsForest.calls packTree sizeDist fuel rest r.2).map (fun q => (r.1 :: q.1, q.2))

/-- Two forests that answer alike: they have the same trees up to the shape of the
paths (one root function `rep` for both) and the same array `setSizes`. -/
structure SameSets (F G : DisjointSetsForest) (n B : Nat) (rep : Nat → Nat) : Prop where
  left : ∃ h, ForestInv F rep h B
  right : ∃ h, ForestInv G rep h B
  sizes : F.setSizes = G.setSizes
  size_left : F.size = n
  size_right : G.size = n

/-! ## The probe distance of an entry -/

/-- The cyclic probe distance of the entry held at slot `p`: the number of cyclic
steps from the initial place of its key to `p`. -/
def probeDistance (P : Params K V) (t : Hash K V) (p : Nat) : Nat :=
  cdist (getTableSize P t) (initPlaceAt P t p) p

theorem cdist_eq {N a b : Nat} (ha : a < N) (hb : b < N) :
    cdist N a b = if a ≤ b then b - a else b + N - a := by
  unfold cdist
  split_ifs with h
  · have : b + N - a = (b - a) + N := by omega
    rw [this, Nat.add_mod_right, Nat.mod_eq_of_lt (by omega)]
  · rw [Nat.mod_eq_of_lt (by omega)]

theorem cdist_lt {N a b : Nat} (hN : 0 < N) : cdist N a b < N := Nat.mod_lt _ hN

theorem cyc_add_eq {N h j : Nat} (hh : h < N) (hj : j < N) :
    (h + j) % N = if h + j < N then h + j else h + j - N := by
  split_ifs with h1
  · exact Nat.mod_eq_of_lt h1
  · have : h + j = (h + j - N) + N := by omega
    rw [this, Nat.add_mod_right, Nat.mod_eq_of_lt (by omega)]
    omega

theorem next_eq {N c : Nat} (hc : c < N) : (c + 1) % N = if c + 1 < N then c + 1 else 0 := by
  split_ifs with h1
  · exact Nat.mod_eq_of_lt h1
  · have : c + 1 = N := by omega
    rw [this, Nat.mod_self]

theorem next_lt {N c : Nat} (hN : 0 < N) : (c + 1) % N < N := Nat.mod_lt _ hN

/-- A cyclic sequence given by its length is the set of slots whose distance from the
start is within the length. -/
theorem path_iff {N h p : Nat} (u : Nat → Bool) (hh : h < N) (hp : p < N) :
    (∀ j, j ≤ cdist N h p → u ((h + j) % N) = true) ↔
      ∀ x, x < N → cdist N h x ≤ cdist N h p → u x = true := by
  have hN : 0 < N := by omega
  constructor
  · intro H x hx hle
    have := H (cdist N h x) hle
    have e : (h + cdist N h x) % N = x := by
      rw [cyc_add_eq hh (cdist_lt hN), cdist_eq hh hx]
      split_ifs <;> omega
    rwa [e] at this
  · intro H j hj
    have hjN : j < N := lt_of_le_of_lt hj (cdist_lt hN)
    apply H _ (Nat.mod_lt _ hN)
    have : cdist N h ((h + j) % N) = j := by
      rw [cdist_eq hh (Nat.mod_lt _ hN), cyc_add_eq hh hjN]
      split_ifs <;> omega
    rw [this]; exact hj

/-- The test of `removeFrom` that decides whether the entry at `c`, whose key has
initial place `h`, fills the gap `g`, is the cyclic interval test. -/
theorem fillTest_iff {N h g c : Nat} (hh : h < N) (hg : g < N) (hc : c < N) :
    (((decide (g > c) == decide (h > c)) && decide (h ≤ g)) || (decide (h > c) && !decide (g > c)))
      = true ↔ cdist N g c ≤ cdist N h c := by
  rw [cdist_eq hg hc, cdist_eq hh hc]
  by_cases h1 : g > c <;> by_cases h2 : h > c <;> by_cases h3 : h ≤ g <;>
    simp [h1, h2, h3] <;> split_ifs <;> omega

/-! ## Frame lemmas for the slot updates -/

@[simp] theorem setSlot_slots (t : Hash K V) (i j : Nat) (x : Slot K V) :
    (t.setSlot i x).slots j = if j = i then x else t.slots j := rfl

@[simp] theorem setSlot_nativeSize (t : Hash K V) (i : Nat) (x : Slot K V) :
    (t.setSlot i x).nativeSize = t.nativeSize := rfl

@[simp] theorem setSlot_numKeys (t : Hash K V) (i : Nat) (x : Slot K V) :
    (t.setSlot i x).numKeys = t.numKeys := rfl

@[simp] theorem setSlot_weightSum (t : Hash K V) (i : Nat) (x : Slot K V) :
    (t.setSlot i x).weightSum = t.weightSum := rfl

@[simp] theorem moveOrSwap_nativeSize (P : Params K V) (t : Hash K V) (d f : Nat) :
    (moveOrSwap P t d f).nativeSize = t.nativeSize := rfl

@[simp] theorem moveOrSwap_numKeys (P : Params K V) (t : Hash K V) (d f : Nat) :
    (moveOrSwap P t d f).numKeys = t.numKeys := rfl

@[simp] theorem moveOrSwap_weightSum (P : Params K V) (t : Hash K V) (d f : Nat) :
    (moveOrSwap P t d f).weightSum = t.weightSum := rfl

theorem moveOrSwap_slots_dst (P : Params K V) (t : Hash K V) {d f : Nat} (h : d ≠ f) :
    (moveOrSwap P t d f).slots d = t.slots f := by
  simp [moveOrSwap, h]

theorem moveOrSwap_slots_other (P : Params K V) (t : Hash K V) {d f x : Nat} (h1 : x ≠ d)
    (h2 : x ≠ f) : (moveOrSwap P t d f).slots x = t.slots x := by
  simp [moveOrSwap, h1, h2]

theorem moveOrSwap_used_frm (P : Params K V) (t : Hash K V) {d f : Nat}
    (hd : isUsed t d = true) (hf : isUsed t f = true) : isUsed (moveOrSwap P t d f) f = true := by
  unfold isUsed at *
  simp only [moveOrSwap, setSlot_slots, if_true]
  split_ifs <;> assumption

theorem moveOrSwap_isUsed (P : Params K V) (t : Hash K V) {d f : Nat}
    (hd : isUsed t d = true) (hf : isUsed t f = true) (x : Nat) :
    isUsed (moveOrSwap P t d f) x = isUsed t x := by
  by_cases h2 : x = f
  · subst h2; rw [moveOrSwap_used_frm P t hd hf, hf]
  · by_cases h1 : x = d
    · subst h1
      unfold isUsed at *
      rw [moveOrSwap_slots_dst P t (fun e => h2 e), hf, hd]
    · unfold isUsed; rw [moveOrSwap_slots_other P t h1 h2]

@[simp] theorem getTableSize_setSlot (P : Params K V) (t : Hash K V) (i : Nat) (x : Slot K V) :
    getTableSize P (t.setSlot i x) = getTableSize P t := rfl

@[simp] theorem getTableSize_moveOrSwap (P : Params K V) (t : Hash K V) (d f : Nat) :
    getTableSize P (moveOrSwap P t d f) = getTableSize P t := rfl


theorem cdist_self {N a : Nat} (ha : a < N) : cdist N a a = 0 := by
  rw [cdist_eq ha ha]; simp

theorem cdist_inj {N g a b : Nat} (hg : g < N) (ha : a < N) (hb : b < N)
    (h : cdist N g a = cdist N g b) : a = b := by
  rw [cdist_eq hg ha, cdist_eq hg hb] at h
  split_ifs at h <;> omega

theorem cdist_pos {N g a : Nat} (hg : g < N) (ha : a < N) (h : g ≠ a) : 0 < cdist N g a := by
  rw [cdist_eq hg ha]
  split_ifs <;> omega

theorem cdist_split {N g c x : Nat} (hg : g < N) (hc : c < N) (hx : x < N)
    (h : cdist N g c ≤ cdist N g x) : cdist N g x = cdist N g c + cdist N c x := by
  rw [cdist_eq hg hc, cdist_eq hg hx] at h
  rw [cdist_eq hg hc, cdist_eq hg hx, cdist_eq hc hx]
  split_ifs at h ⊢ <;> omega

theorem cdist_split_lt {N g c x : Nat} (hg : g < N) (hc : c < N) (hx : x < N)
    (h : cdist N g x < cdist N g c) : cdist N c x = cdist N g x + (N - cdist N g c) := by
  rw [cdist_eq hg hc, cdist_eq hg hx] at h
  rw [cdist_eq hg hc, cdist_eq hg hx, cdist_eq hc hx]
  split_ifs at h ⊢ <;> omega

theorem cdist_next {N g c : Nat} (hg : g < N) (hc : c < N) (h : cdist N g c + 1 < N) :
    cdist N g ((c + 1) % N) = cdist N g c + 1 := by
  have hN : 0 < N := by omega
  rw [cdist_eq hg hc] at h
  rw [cdist_eq hg (next_lt hN), cdist_eq hg hc, next_eq hc]
  split_ifs at h ⊢ <;> omega

theorem cdist_next_left {N c v : Nat} (hc : c < N) (hv : v < N) (h : c ≠ v) :
    cdist N ((c + 1) % N) v + 1 = cdist N c v := by
  have hN : 0 < N := by omega
  rw [cdist_eq (next_lt hN) hv, cdist_eq hc hv, next_eq hc]
  split_ifs <;> omega

/-- The distance between two slots, read in the two directions, adds up to the
table size. -/
theorem cdist_rev {N a b : Nat} (ha : a < N) (hb : b < N) (h : a ≠ b) :
    cdist N a b + cdist N b a = N := by
  rw [cdist_eq ha hb, cdist_eq hb ha]
  split_ifs <;> omega

/-! ## The scan loop of `removeFrom` -/

theorem ScanInv.used_gap {P : Params K V} {n0 v : Nat} {t : Hash K V} {g c : Nat}
    (S : ScanInv P n0 v t g c) : isUsed t g = true := by
  apply S.run g S.hg
  rw [cdist_self S.hg]
  exact lt_of_lt_of_le (cdist_pos S.hg S.hc S.ne) S.le

theorem ScanInv.tableSize {P : Params K V} {n0 v : Nat} {t : Hash K V} {g c : Nat}
    (S : ScanInv P n0 v t g c) : getTableSize P t = P.sizeForNative n0 := by
  unfold getTableSize; rw [S.native]

/-- Hoare rule for the scan loop of `removeFrom`: an assertion `I` that survives a
step without a move and a step with a move holds when the loop stops, and the
loop stops at the virgin slot `v` that ends the run, within as many steps as
there are slots between the scanned slot and `v`. -/
theorem removeFromLoop_rule (P : Params K V) (n0 v : Nat) (hP : initPlacesInRange P n0)
    (I : Hash K V → Nat → Nat → Prop)
    (hstay : ∀ t g c, ScanInv P n0 v t g c → isUsed t c = true → I t g c →
      cdist (P.sizeForNative n0) (initPlaceAt P t c) c < cdist (P.sizeForNative n0) g c →
      I t g ((c + 1) % P.sizeForNative n0))
    (hmove : ∀ t g c, ScanInv P n0 v t g c → isUsed t c = true → I t g c →
      cdist (P.sizeForNative n0) g c ≤ cdist (P.sizeForNative n0) (initPlaceAt P t c) c →
      I (moveOrSwap P t g c) c ((c + 1) % P.sizeForNative n0)) :
    ∀ fuel t g c, ScanInv P n0 v t g c → I t g c → cdist (P.sizeForNative n0) c v < fuel →
      ∃ t1 g1, removeFromLoop P fuel t g c = some (t1, g1) ∧ ScanInv P n0 v t1 g1 v ∧ I t1 g1 v := by
  intro fuel
  induction fuel with
  | zero => intro t g c _ _ h; omega
  | succ fuel ih =>
    intro t g c S hI hfuel
    have hN : 0 < P.sizeForNative n0 := by have := S.hg; omega
    unfold removeFromLoop
    by_cases hu : isUsed t c = true
    · have hcv : c ≠ v := by
        intro e; rw [e, S.virgin] at hu; exact Bool.noConfusion hu
      have hlt : cdist (P.sizeForNative n0) g c < cdist (P.sizeForNative n0) g v := by
        rcases Nat.lt_or_ge (cdist (P.sizeForNative n0) g c) (cdist (P.sizeForNative n0) g v)
          with h | h
        · exact h
        · exact absurd (cdist_inj S.hg S.hc S.hv (le_antisymm S.le h)) hcv
      have hvN := cdist_lt (a := g) (b := v) hN
      have hnext := cdist_next S.hg S.hc (by omega)
      have hleft := cdist_next_left S.hc S.hv hcv
      have hh : initPlaceAt P t c < P.sizeForNative n0 := by
        unfold initPlaceAt; rw [S.native]; exact hP _
      have hnp : getNextPlace P t c = (c + 1) % P.sizeForNative n0 := by
        unfold getNextPlace; rw [S.tableSize]
      simp only [hu, if_true, hnp]
      by_cases htest : cdist (P.sizeForNative n0) g c
          ≤ cdist (P.sizeForNative n0) (initPlaceAt P t c) c
      · rw [if_pos ((fillTest_iff hh S.hg S.hc).2 htest)]
        have hug := S.used_gap
        refine ih _ _ _ ⟨S.native, S.hc, next_lt hN, S.hv, ?_, ?_, ?_, ?_⟩
          (hmove t g c S hu hI htest) (by omega)
        · rw [moveOrSwap_isUsed P t hug hu]; exact S.virgin
        · intro e
          have := cdist_self S.hc
          rw [← e, hnext] at hnext
          have h0 := cdist_self S.hg
          have := cdist_pos S.hg S.hc S.ne
          have e2 : cdist (P.sizeForNative n0) g ((c + 1) % P.sizeForNative n0)
              = cdist (P.sizeForNative n0) g c := by rw [← e]
          omega
        · have h1 := cdist_split S.hg S.hc S.hv S.le
          have h2 := cdist_split S.hg S.hc (next_lt hN) (by omega : _ ≤
            cdist (P.sizeForNative n0) g ((c + 1) % P.sizeForNative n0))
          have h3 := cdist_split S.hc (next_lt (c := c) hN) S.hv (by omega)
          omega
        · intro x hx hxlt
          rw [moveOrSwap_isUsed P t hug hu]
          apply S.run x hx
          rcases Nat.lt_or_ge (cdist (P.sizeForNative n0) g x) (cdist (P.sizeForNative n0) g c)
            with h | h
          · omega
          · have h1 := cdist_split S.hg S.hc hx h
            have h2 := cdist_split S.hg S.hc S.hv S.le
            omega
      · have hfalse : (((decide (g > c) == decide (initPlaceAt P t c > c))
            && decide (initPlaceAt P t c ≤ g))
            || (decide (initPlaceAt P t c > c) && !decide (g > c))) = false := by
          rw [Bool.eq_false_iff]
          intro h; exact htest ((fillTest_iff hh S.hg S.hc).1 h)
        rw [hfalse]
        simp only [Bool.false_eq_true, if_false]
        refine ih _ _ _ ⟨S.native, S.hg, next_lt hN, S.hv, S.virgin, ?_, ?_, S.run⟩
          (hstay t g c S hu hI (by omega)) (by omega)
        · intro e
          have h0 := cdist_self S.hg
          have e2 : cdist (P.sizeForNative n0) g ((c + 1) % P.sizeForNative n0)
              = cdist (P.sizeForNative n0) g g := by rw [← e]
          omega
        · omega
    · have hu2 : isUsed t c = false := by simpa using hu
      have hcv : c = v := by
        rcases Nat.lt_or_ge (cdist (P.sizeForNative n0) g c) (cdist (P.sizeForNative n0) g v)
          with h | h
        · rw [S.run c S.hc h] at hu2; exact Bool.noConfusion hu2
        · exact cdist_inj S.hg S.hc S.hv (le_antisymm S.le h)
      subst hcv
      simp only [hu2, Bool.false_eq_true, if_false]
      exact ⟨t, g, rfl, S, hI⟩

theorem cdist_back {N h g c : Nat} (hh : h < N) (hg : g < N) (hc : c < N)
    (hle : cdist N g c ≤ cdist N h c) : cdist N h g + cdist N g c = cdist N h c := by
  rw [cdist_eq hg hc, cdist_eq hh hc] at hle
  rw [cdist_eq hg hc, cdist_eq hh hc, cdist_eq hh hg]
  split_ifs at hle ⊢ <;> omega

theorem cyc_add_cdist {N s x : Nat} (hs : s < N) (hx : x < N) : (s + cdist N s x) % N = x := by
  have hN : 0 < N := by omega
  rw [cyc_add_eq hs (cdist_lt hN), cdist_eq hs hx]
  split_ifs <;> omega

theorem cdist_cyc_add {N s d : Nat} (hs : s < N) (hd : d < N) : cdist N s ((s + d) % N) = d := by
  have hN : 0 < N := by omega
  rw [cdist_eq hs (Nat.mod_lt _ hN), cyc_add_eq hs hd]
  split_ifs <;> omega

/-- From every slot of a table with a virgin slot, cyclic stepping reaches a first
virgin slot. -/
theorem exists_first_virgin {N : Nat} (u : Nat → Bool) {s : Nat} (hs : s < N)
    (hv : ∃ v, v < N ∧ u v = false) :
    ∃ v, v < N ∧ u v = false ∧ ∀ x, x < N → cdist N s x < cdist N s v → u x = true := by
  have hN : 0 < N := by omega
  obtain ⟨v0, hv0, huv0⟩ := hv
  have hex : ∃ d, u ((s + d) % N) = false := ⟨cdist N s v0, by rw [cyc_add_cdist hs hv0]; exact huv0⟩
  classical
  have hmin : ∀ m, m < Nat.find hex → ¬ u ((s + m) % N) = false :=
    fun m hm => Nat.find_min hex hm
  have hspec := Nat.find_spec hex
  have hle : Nat.find hex ≤ cdist N s v0 :=
    Nat.find_min' hex (by rw [cyc_add_cdist hs hv0]; exact huv0)
  have hdN : Nat.find hex < N := lt_of_le_of_lt hle (cdist_lt hN)
  refine ⟨(s + Nat.find hex) % N, Nat.mod_lt _ hN, hspec, ?_⟩
  intro x hx hlt
  rw [cdist_cyc_add hs hdN] at hlt
  have := hmin _ hlt
  rw [cyc_add_cdist hs hx] at this
  simpa using this

/-- A cyclic sequence of used slots that ends at `p` does not contain a slot `y`
that cyclic stepping from `p` reaches before the virgin slot `v`. -/
theorem path_avoids {N h p v y : Nat} (u : Nat → Bool) (hh : h < N) (hp : p < N) (hv : v < N)
    (hy : y < N) (hpath : ∀ x, x < N → cdist N h x ≤ cdist N h p → u x = true)
    (hvirgin : u v = false) (hyp : y ≠ p) (hlt : cdist N p y < cdist N p v) :
    ¬ cdist N h y ≤ cdist N h p := by
  intro hle
  have hpv : p ≠ v := by
    intro e; subst e
    rw [cdist_self hp] at hlt; omega
  have hvy : v ≠ y := by
    intro e; subst e; omega
  have h1 := cdist_rev hp hy (fun e => hyp e.symm)
  have h2 := cdist_rev hp hv hpv
  have h3 : cdist N h p = cdist N h y + cdist N y p := cdist_split hh hy hp hle
  have h4 : cdist N v p ≤ cdist N h p := by omega
  have h5 := cdist_back hh hv hp h4
  have : u v = true := hpath v hv (by omega)
  rw [hvirgin] at this
  exact Bool.noConfusion this

@[simp] theorem getTableSize_removed (P : Params K V) (t : Hash K V) :
    getTableSize P (removed t) = getTableSize P t := rfl

@[simp] theorem getTableSize_remove_stage_1 (P : Params K V) (t : Hash K V) (i : Nat) :
    getTableSize P (remove_stage_1 P t i) = getTableSize P t := rfl

@[simp] theorem isUsed_removed_stage_1 (P : Params K V) (t : Hash K V) (i x : Nat) :
    isUsed (removed (remove_stage_1 P t i)) x = isUsed t x := rfl

@[simp] theorem initPlaceAt_removed_stage_1 (P : Params K V) (t : Hash K V) (i x : Nat) :
    initPlaceAt P (removed (remove_stage_1 P t i)) x = initPlaceAt P t x := rfl

/-- The table that `removeFrom` leaves once the scan loop has stopped with the gap
at `g`. -/
theorem finish_slots (P : Params K V) (t : Hash K V) (g x : Nat) :
    (setAsEmpty (remove_stage_2 P t g) g).slots x =
      if x = g then { used := false, key := (t.slots g).key, val := P.clearedVal }
      else t.slots x := by
  simp only [setAsEmpty, remove_stage_2, setVal, setSlot_slots]
  split_ifs <;> rfl

/-- Rule for `removeFrom`: to the state after `remove_stage_1` and
`controller.removed()` the scan loop is applied, with first virgin slot `v` after
the removed slot `s`; the final gap is cleared and marked empty. -/
theorem removeFrom_rule (P : Params K V) (t : Hash K V) (s v fuel : Nat)
    (hrange : initPlacesInRange P t.nativeSize)
    (hs : s < getTableSize P t) (hused : isUsed t s = true)
    (hv : v < getTableSize P t) (hvirgin : isUsed t v = false)
    (hfirst : ∀ x, x < getTableSize P t →
      cdist (getTableSize P t) s x < cdist (getTableSize P t) s v → isUsed t x = true)
    (hfuel : getTableSize P t < fuel)
    (I : Hash K V → Nat → Nat → Prop)
    (hinit : I (removed (remove_stage_1 P t s)) s ((s + 1) % getTableSize P t))
    (hstay : ∀ t1 g c, ScanInv P t.nativeSize v t1 g c → isUsed t1 c = true → I t1 g c →
      cdist (getTableSize P t) (initPlaceAt P t1 c) c < cdist (getTableSize P t) g c →
      I t1 g ((c + 1) % getTableSize P t))
    (hmove : ∀ t1 g c, ScanInv P t.nativeSize v t1 g c → isUsed t1 c = true → I t1 g c →
      cdist (getTableSize P t) g c ≤ cdist (getTableSize P t) (initPlaceAt P t1 c) c →
      I (moveOrSwap P t1 g c) c ((c + 1) % getTableSize P t)) :
    ∃ t1 g, removeFrom P fuel t s = some (setAsEmpty (remove_stage_2 P t1 g) g) ∧
      ScanInv P t.nativeSize v t1 g v ∧ I t1 g v := by
  simp only [getTableSize] at hs hv hfirst hfuel hinit hstay hmove ⊢
  have hN : 0 < P.sizeForNative t.nativeSize := by omega
  have hsv : s ≠ v := by
    intro e; rw [e, hvirgin] at hused; exact Bool.noConfusion hused
  have hpos := cdist_pos hs hv hsv
  have hvN := cdist_lt (a := s) (b := v) hN
  have hnext := cdist_next hs hs (by rw [cdist_self hs]; omega)
  rw [cdist_self hs] at hnext
  have S0 : ScanInv P t.nativeSize v (removed (remove_stage_1 P t s)) s
      ((s + 1) % P.sizeForNative t.nativeSize) := by
    refine ⟨rfl, hs, next_lt hN, hv, hvirgin, ?_, ?_, hfirst⟩
    · intro e
      have e2 : cdist (P.sizeForNative t.nativeSize) s ((s + 1) % P.sizeForNative t.nativeSize)
          = cdist (P.sizeForNative t.nativeSize) s s := by rw [← e]
      rw [cdist_self hs] at e2
      omega
    · omega
  have hleft := cdist_next_left hs hv hsv
  obtain ⟨t1, g, hloop, S1, hI⟩ := removeFromLoop_rule P t.nativeSize v hrange I hstay hmove
    fuel _ _ _ S0 hinit (by omega)
  refine ⟨t1, g, ?_, S1, hI⟩
  unfold removeFrom
  simp only [getNextPlace, getTableSize]
  rw [hloop]

/-! ## The hash invariant -/

theorem hashInvariantAt_iff (P : Params K V) (t : Hash K V) {p : Nat}
    (hh : initPlaceAt P t p < getTableSize P t) (hp : p < getTableSize P t) :
    hashInvariantAt P t p ↔ ∀ x, x < getTableSize P t →
      cdist (getTableSize P t) (initPlaceAt P t p) x
        ≤ cdist (getTableSize P t) (initPlaceAt P t p) p → isUsed t x = true :=
  path_iff (isUsed t) hh hp

theorem initPlaceAt_lt (P : Params K V) (t : Hash K V) (hrange : initPlacesInRange P t.nativeSize)
    (p : Nat) : initPlaceAt P t p < getTableSize P t := hrange _

/-- The assertion carried through the scan loop for the hash invariant: the
sequence of every entry but the gap consists of used slots, and the sequence of
an entry lying between the gap and the scanned slot does not contain the gap. -/
theorem removeFrom_hash_step (P : Params K V) (t : Hash K V) (s v fuel : Nat)
    (hrange : initPlacesInRange P t.nativeSize) (hinv : hashInvariant P t)
    (hs : s < getTableSize P t) (hused : isUsed t s = true)
    (hv : v < getTableSize P t) (hvirgin : isUsed t v = false)
    (hfirst : ∀ x, x < getTableSize P t →
      cdist (getTableSize P t) s x < cdist (getTableSize P t) s v → isUsed t x = true)
    (hfuel : getTableSize P t < fuel) :
    ∃ t1 g, removeFrom P fuel t s = some (setAsEmpty (remove_stage_2 P t1 g) g) ∧
      ScanInv P t.nativeSize v t1 g v ∧
      ∀ p, p < getTableSize P t → isUsed t1 p = true → p ≠ g →
        ∀ x, x < getTableSize P t →
          cdist (getTableSize P t) (initPlaceAt P t1 p) x
            ≤ cdist (getTableSize P t) (initPlaceAt P t1 p) p →
          isUsed t1 x = true ∧ x ≠ g := by
  simp only [getTableSize] at *
  have hN : 0 < P.sizeForNative t.nativeSize := by omega
  obtain ⟨t1, g, hrem, S, hI⟩ := removeFrom_rule P t s v fuel hrange hs hused hv hvirgin hfirst
    hfuel
    (fun t1 g c => ∀ p, p < P.sizeForNative t.nativeSize → isUsed t1 p = true → p ≠ g →
        ∀ x, x < P.sizeForNative t.nativeSize →
          cdist (P.sizeForNative t.nativeSize) (initPlaceAt P t1 p) x
            ≤ cdist (P.sizeForNative t.nativeSize) (initPlaceAt P t1 p) p →
          isUsed t1 x = true ∧
            (cdist (P.sizeForNative t.nativeSize) g p < cdist (P.sizeForNative t.nativeSize) g c → x ≠ g))
    (by
      intro p hp hup hps x hx hle
      simp only [getTableSize] at *
      refine ⟨?_, ?_⟩
      · have := (hashInvariantAt_iff P t (initPlaceAt_lt P t hrange p) hp).1 (hinv p hp hup)
        exact this x hx hle
      · intro hlt
        have h1 := cdist_next hs hs (by rw [cdist_self hs]; have := cdist_pos hs hp (Ne.symm hps)
                                        have := cdist_lt (a := s) (b := p) hN; omega)
        rw [cdist_self hs] at h1
        have := cdist_pos hs hp (Ne.symm hps)
        omega)
    (by
      intro t1 g c S hu hI htest p hp hup hpg x hx hle
      simp only [getTableSize] at *
      have hh : initPlaceAt P t1 c < P.sizeForNative t.nativeSize := by
        unfold initPlaceAt; rw [S.native]; exact hrange _
      refine ⟨(hI p hp hup hpg x hx hle).1, ?_⟩
      intro hlt
      have hcv : c ≠ v := by
        intro e; rw [e, S.virgin] at hu; exact Bool.noConfusion hu
      have hltv : cdist (P.sizeForNative t.nativeSize) g c < cdist (P.sizeForNative t.nativeSize) g v := by
        rcases Nat.lt_or_ge (cdist (P.sizeForNative t.nativeSize) g c) (cdist (P.sizeForNative t.nativeSize) g v)
          with h | h
        · exact h
        · exact absurd (cdist_inj S.hg S.hc S.hv (le_antisymm S.le h)) hcv
      have hvN := cdist_lt (a := g) (b := v) hN
      have hnext := cdist_next S.hg S.hc (by omega)
      rw [hnext] at hlt
      rcases Nat.lt_or_ge (cdist (P.sizeForNative t.nativeSize) g p) (cdist (P.sizeForNative t.nativeSize) g c)
        with h | h
      · exact (hI p hp hup hpg x hx hle).2 h
      · have hpc : p = c := cdist_inj S.hg hp S.hc (by omega)
        subst hpc
        intro e
        subst e
        have := cdist_back hh hx hp (by
          have := cdist_split hh hx hp hle
          omega)
        have := cdist_split hh hx hp hle
        omega)
    (by
      intro t1 g c S hu hI htest p hp hup hpc x hx hle
      simp only [getTableSize] at *
      have hug := S.used_gap
      have hh : initPlaceAt P t1 c < P.sizeForNative t.nativeSize := by
        unfold initPlaceAt; rw [S.native]; exact hrange _
      rw [moveOrSwap_isUsed P t1 hug hu] at hup ⊢
      refine ⟨?_, ?_⟩
      · by_cases hpg : p = g
        · subst hpg
          have hkey : initPlaceAt P (moveOrSwap P t1 p c) p = initPlaceAt P t1 c := by
            unfold initPlaceAt constRefToKey
            rw [moveOrSwap_slots_dst P t1 S.ne]; rfl
          rw [hkey] at hle
          have hb := cdist_back hh hp S.hc htest
          exact (hI c S.hc hu (Ne.symm S.ne) x hx (by omega)).1
        · have hkey : initPlaceAt P (moveOrSwap P t1 g c) p = initPlaceAt P t1 p := by
            unfold initPlaceAt constRefToKey
            rw [moveOrSwap_slots_other P t1 hpg hpc]; rfl
          rw [hkey] at hle
          exact (hI p hp hup hpg x hx hle).1
      · intro hlt
        have hN2 : 1 < P.sizeForNative t.nativeSize := by
          have := S.hg; have := S.hc; have := S.ne; omega
        have h1 := cdist_next S.hc S.hc (by rw [cdist_self S.hc]; omega)
        rw [cdist_self S.hc] at h1
        have := cdist_pos S.hc hp (Ne.symm hpc)
        omega)
  refine ⟨t1, g, hrem, S, ?_⟩
  intro p hp hup hpg x hx hle
  have hpath := fun y hy hl => (hI p hp hup hpg y hy hl).1
  refine ⟨hpath x hx hle, ?_⟩
  have hh : initPlaceAt P t1 p < P.sizeForNative t.nativeSize := by
    unfold initPlaceAt; rw [S.native]; exact hrange _
  have hpv : p ≠ v := by
    intro e; rw [e, S.virgin] at hup; exact Bool.noConfusion hup
  rcases Nat.lt_or_ge (cdist (P.sizeForNative t.nativeSize) g p) (cdist (P.sizeForNative t.nativeSize) g v) with h | h
  · exact (hI p hp hup hpg x hx hle).2 h
  · intro e
    subst e
    have hgv : x ≠ v := by
      intro e; have := S.used_gap; rw [e, S.virgin] at this; exact Bool.noConfusion this
    have h1 := cdist_rev S.hg hp (Ne.symm hpg)
    have h2 := cdist_split S.hg S.hv hp h
    have h3 := cdist_rev hp S.hv hpv
    have h4 := cdist_pos S.hg S.hv hgv
    exact path_avoids (isUsed t1) hh hp S.hv hx hpath S.virgin (Ne.symm hpg) (by omega) hle

/-- On a table with a virgin slot `removeFrom` returns, and the table it returns has
the same size and satisfies the hash invariant; shared by the results on `remove`. -/
theorem removeFrom_preserves_hashInvariant_aux (P : Params K V) (t : Hash K V) (s fuel : Nat)
    (hrange : initPlacesInRange P t.nativeSize) (hinv : hashInvariant P t)
    (hvir : hasVirgin P t) (hs : s < getTableSize P t) (hused : isUsed t s = true)
    (hfuel : getTableSize P t < fuel) :
    ∃ t1, removeFrom P fuel t s = some t1 ∧ getTableSize P t1 = getTableSize P t ∧
      hashInvariant P t1 := by
  obtain ⟨v, hv, hvirgin, hfirst⟩ := exists_first_virgin (isUsed t) hs hvir
  obtain ⟨t1, g, hrem, S, hI⟩ := removeFrom_hash_step P t s v fuel hrange hinv hs hused hv
    hvirgin hfirst hfuel
  have hsz : getTableSize P (setAsEmpty (remove_stage_2 P t1 g) g) = getTableSize P t := by
    show P.sizeForNative t1.nativeSize = _
    rw [S.native]; rfl
  refine ⟨_, hrem, hsz, ?_⟩
  intro p hp hup
  rw [hsz] at hp
  have hpg : p ≠ g := by
    intro e
    rw [e] at hup
    simp [isUsed, finish_slots] at hup
  have hup1 : isUsed t1 p = true := by
    simpa [isUsed, finish_slots, hpg] using hup
  have hkey : initPlaceAt P (setAsEmpty (remove_stage_2 P t1 g) g) p = initPlaceAt P t1 p := by
    simp only [initPlaceAt, constRefToKey, finish_slots, if_neg hpg]
    rfl
  have hh : initPlaceAt P t1 p < getTableSize P t := by
    unfold initPlaceAt; rw [S.native]; exact hrange _
  rw [hashInvariantAt_iff P _ (by rw [hsz, hkey]; exact hh) (by rw [hsz]; exact hp)]
  intro x hx hle
  rw [hsz] at hx hle
  rw [hkey] at hle
  obtain ⟨h1, h2⟩ := hI p hp hup1 hpg x hx hle
  simpa [isUsed, finish_slots, h2] using h1

/-- C1: `removeFrom` preserves the hash invariant.  In a table of `N` slots with
cyclic stepping that satisfies the hash invariant and has a virgin slot,
`removeFrom(s)` at a used slot `s` stops (for every fuel above `N`) and the table
it leaves satisfies the hash invariant at every used slot, wherever the run lies
relative to the end of the table. -/
theorem removeFrom_preserves_hashInvariant (P : Params K V) (t : Hash K V) (s fuel : Nat)
    (hrange : initPlacesInRange P t.nativeSize) (hinv : hashInvariant P t)
    (hvir : hasVirgin P t) (hs : s < getTableSize P t) (hused : isUsed t s = true)
    (hfuel : getTableSize P t < fuel) :
    ∃ t1, removeFrom P fuel t s = some t1 ∧ getTableSize P t1 = getTableSize P t ∧
      hashInvariant P t1 :=
  removeFrom_preserves_hashInvariant_aux P t s fuel hrange hinv hvir hs hused hfuel

theorem modParams_range (ordered swaps : Bool) (n : Nat) (hn : 0 < n) :
    initPlacesInRange (modParams ordered swaps) n := fun _ => Nat.mod_lt _ hn

/-- C1 at a run that wraps around the end of the table: slot 3 of `wrapTable` is
removed. -/
theorem removeFrom_preserves_hashInvariant_witness :
    hashInvariant (modParams false false) wrapTable ∧ hasVirgin (modParams false false) wrapTable ∧
      ∃ t1, removeFrom (modParams false false) 5 wrapTable 3 = some t1 ∧
        getTableSize (modParams false false) t1 = getTableSize (modParams false false) wrapTable ∧
        hashInvariant (modParams false false) t1 :=
  ⟨by decide, by decide,
    removeFrom_preserves_hashInvariant (modParams false false) wrapTable 3 5
      (modParams_range false false 4 (by decide)) (by decide) (by decide) (by decide) (by decide)
      (by decide)⟩

/-! ## Sums over the used slots -/

theorem usedSum_eq_sum {M : Type} [AddCommMonoid M] (φ : K → V → M) (t : Hash K V) (n : Nat) :
    usedSum φ t n = ∑ i in Finset.range n,
      (if isUsed t i then φ (constRefToKey t i) (constRefToVal t i) else 0) := by
  induction n with
  | zero => simp [usedSum]
  | succ n ih => rw [usedSum, Finset.sum_range_succ, ih]

/-- Two functions that agree except at `a` have sums that differ by the change at
`a`. -/
theorem sum_change_one {M : Type} [AddCommMonoid M] {n a : Nat} (f f1 : Nat → M) (ha : a < n)
    (hrest : ∀ i, i < n → i ≠ a → f1 i = f i) :
    (∑ i in Finset.range n, f1 i) + f a = (∑ i in Finset.range n, f i) + f1 a := by
  have hmem : a ∈ Finset.range n := Finset.mem_range.2 ha
  rw [← Finset.add_sum_erase _ f hmem, ← Finset.add_sum_erase _ f1 hmem]
  have : ∑ x in (Finset.range n).erase a, f1 x = ∑ x in (Finset.range n).erase a, f x := by
    apply Finset.sum_congr rfl
    intro i hi
    rw [Finset.mem_erase, Finset.mem_range] at hi
    exact hrest i hi.2 hi.1
  rw [this]
  abel

/-- Two functions that agree except at `a` and `b`, where their values add up to
the same, have the same sum. -/
theorem sum_change_two {M : Type} [AddCommMonoid M] {n a b : Nat} (f f1 : Nat → M) (ha : a < n)
    (hb : b < n) (hab : a ≠ b) (hrest : ∀ i, i < n → i ≠ a → i ≠ b → f1 i = f i)
    (hsum : f1 a + f1 b = f a + f b) :
    (∑ i in Finset.range n, f1 i) = ∑ i in Finset.range n, f i := by
  have hmem : a ∈ Finset.range n := Finset.mem_range.2 ha
  have hmemb : b ∈ (Finset.range n).erase a :=
    Finset.mem_erase.2 ⟨fun e => hab e.symm, Finset.mem_range.2 hb⟩
  rw [← Finset.add_sum_erase _ f hmem, ← Finset.add_sum_erase _ f1 hmem,
    ← Finset.add_sum_erase _ f hmemb, ← Finset.add_sum_erase _ f1 hmemb]
  have : ∑ x in ((Finset.range n).erase a).erase b, f1 x
      = ∑ x in ((Finset.range n).erase a).erase b, f x := by
    apply Finset.sum_congr rfl
    intro i hi
    rw [Finset.mem_erase, Finset.mem_erase, Finset.mem_range] at hi
    exact hrest i hi.2.2 hi.2.1 hi.1
  rw [this, ← add_assoc, ← add_assoc, hsum]

/-- What `removeFrom` does to the sums over the used slots and to the fields of the
table: the removed entry leaves every sum, the key counter drops by one, the
weight of the removed entry leaves `weightSum`, the native size stays, and only
slots of the run that starts at `s` and ends before the virgin slot `v` change. -/
theorem removeFrom_sum {M : Type} [AddCommMonoid M] (φ : K → V → M) (P : Params K V)
    (t : Hash K V) (s v fuel : Nat)
    (hrange : initPlacesInRange P t.nativeSize)
    (hs : s < getTableSize P t) (hused : isUsed t s = true)
    (hv : v < getTableSize P t) (hvirgin : isUsed t v = false)
    (hfirst : ∀ x, x < getTableSize P t →
      cdist (getTableSize P t) s x < cdist (getTableSize P t) s v → isUsed t x = true)
    (hfuel : getTableSize P t < fuel) :
    ∃ t2, removeFrom P fuel t s = some t2 ∧
      usedSum φ t2 (getTableSize P t) + φ (constRefToKey t s) (constRefToVal t s)
        = usedSum φ t (getTableSize P t) ∧
      t2.nativeSize = t.nativeSize ∧ t2.numKeys = t.numKeys - 1 ∧
      t2.weightSum = t.weightSum - weightAt P t s ∧
      (∀ x, isUsed t2 x = true → isUsed t x = true) ∧
      (∀ x, ¬ (x < getTableSize P t ∧
          cdist (getTableSize P t) s x < cdist (getTableSize P t) s v) →
        t2.slots x = t.slots x) ∧
      (∃ g, g < getTableSize P t ∧ cdist (getTableSize P t) s g < cdist (getTableSize P t) s v ∧
        isUsed t2 g = false ∧ constRefToVal t2 g = P.clearedVal ∧
        ∀ x, x ≠ g → isUsed t2 x = isUsed t x) := by
  simp only [getTableSize] at *
  have hN : 0 < P.sizeForNative t.nativeSize := by omega
  have hsv : s ≠ v := by
    intro e; rw [e, hvirgin] at hused; exact Bool.noConfusion hused
  have hvN := cdist_lt (a := s) (b := v) hN
  have hpos := cdist_pos hs hv hsv
  have hs0 := cdist_self hs
  have hnext0 := cdist_next hs hs (by omega)
  obtain ⟨t1, g, hrem, S, hI⟩ := removeFrom_rule P t s v fuel hrange hs hused hv hvirgin hfirst
    hfuel
    (fun t1 g c =>
      (∑ i in Finset.range (P.sizeForNative t.nativeSize),
          (if isUsed t1 i = true ∧ i ≠ g then φ (constRefToKey t1 i) (constRefToVal t1 i) else 0))
        + φ (constRefToKey t s) (constRefToVal t s)
        = usedSum φ t (P.sizeForNative t.nativeSize) ∧
      t1.numKeys = t.numKeys - 1 ∧ t1.weightSum = t.weightSum - weightAt P t s ∧
      (∀ x, isUsed t1 x = isUsed t x) ∧
      cdist (P.sizeForNative t.nativeSize) s g < cdist (P.sizeForNative t.nativeSize) s c ∧
      cdist (P.sizeForNative t.nativeSize) s c ≤ cdist (P.sizeForNative t.nativeSize) s v ∧
      (∀ x, ¬ (x < P.sizeForNative t.nativeSize ∧
          cdist (P.sizeForNative t.nativeSize) s x < cdist (P.sizeForNative t.nativeSize) s v) →
        t1.slots x = t.slots x))
    (by
      simp only [getTableSize]
      refine ⟨?_, rfl, rfl, fun _ => rfl, by omega, by omega, fun _ _ => rfl⟩
      rw [usedSum_eq_sum]
      have := sum_change_one
        (fun i => if isUsed t i = true then φ (constRefToKey t i) (constRefToVal t i) else 0)
        (fun i => if isUsed t i = true ∧ i ≠ s then φ (constRefToKey t i) (constRefToVal t i) else 0)
        hs (by intro i _ hi; simp [hi])
      simp only [hused, ne_eq, not_true_eq_false, and_false, if_false, if_true, add_zero] at this
      exact this)
    (by
      intro t1 g c S hu hI htest
      simp only [getTableSize] at *
      obtain ⟨h1, h2, h3, h4, h5, h6, h7⟩ := hI
      have hcv : c ≠ v := by
        intro e; rw [e, S.virgin] at hu; exact Bool.noConfusion hu
      have hlt : cdist (P.sizeForNative t.nativeSize) s c
          < cdist (P.sizeForNative t.nativeSize) s v := by
        rcases Nat.lt_or_ge (cdist (P.sizeForNative t.nativeSize) s c)
          (cdist (P.sizeForNative t.nativeSize) s v) with h | h
        · exact h
        · exact absurd (cdist_inj hs S.hc S.hv (le_antisymm h6 h)) hcv
      have hn := cdist_next hs S.hc (by omega)
      exact ⟨h1, h2, h3, h4, by omega, by omega, h7⟩)
    (by
      intro t1 g c S hu hI htest
      simp only [getTableSize] at *
      obtain ⟨h1, h2, h3, h4, h5, h6, h7⟩ := hI
      have hug := S.used_gap
      have hcv : c ≠ v := by
        intro e; rw [e, S.virgin] at hu; exact Bool.noConfusion hu
      have hlt : cdist (P.sizeForNative t.nativeSize) s c
          < cdist (P.sizeForNative t.nativeSize) s v := by
        rcases Nat.lt_or_ge (cdist (P.sizeForNative t.nativeSize) s c)
          (cdist (P.sizeForNative t.nativeSize) s v) with h | h
        · exact h
        · exact absurd (cdist_inj hs S.hc S.hv (le_antisymm h6 h)) hcv
      have hn := cdist_next hs S.hc (by omega)
      refine ⟨?_, h2, h3, ?_, by omega, by omega, ?_⟩
      · rw [← h1]
        congr 1
        apply sum_change_two _ _ S.hg S.hc S.ne
        · intro i _ hig hic
          simp only [moveOrSwap_isUsed P t1 hug hu, constRefToKey, constRefToVal,
            moveOrSwap_slots_other P t1 hig hic, hig, hic, ne_eq, not_false_eq_true, and_true]
        · simp only [moveOrSwap_isUsed P t1 hug hu, constRefToKey, constRefToVal,
            moveOrSwap_slots_dst P t1 S.ne, hug, hu, ne_eq, S.ne, Ne.symm S.ne,
            not_false_eq_true, not_true_eq_false, and_true, and_false, if_true, if_false,
            and_self]
          abel
      · intro x; rw [moveOrSwap_isUsed P t1 hug hu]; exact h4 x
      · intro x hx
        have hxg : x ≠ g := by
          intro e; subst e; exact hx ⟨S.hg, by omega⟩
        have hxc : x ≠ c := by
          intro e; subst e; exact hx ⟨S.hc, by omega⟩
        rw [moveOrSwap_slots_other P t1 hxg hxc]; exact h7 x hx)
  obtain ⟨h1, h2, h3, h4, h5, h6, h7⟩ := hI
  refine ⟨_, hrem, ?_, S.native, h2, h3, ?_, ?_, ⟨g, S.hg, by omega, ?_, ?_, ?_⟩⟩
  · rw [← h1, usedSum_eq_sum]
    congr 1
    apply Finset.sum_congr rfl
    intro i _
    by_cases hig : i = g
    · simp [isUsed, finish_slots, hig]
    · simp [isUsed, constRefToKey, constRefToVal, finish_slots, hig]
  · intro x hx
    by_cases hxg : x = g
    · simp [isUsed, finish_slots, hxg] at hx
    · rw [← h4]; simpa [isUsed, finish_slots, hxg] using hx
  · intro x hx
    have hxg : x ≠ g := by
      intro e; subst e; exact hx ⟨S.hg, by omega⟩
    rw [finish_slots, if_neg hxg]; exact h7 x hx
  · simp [isUsed, finish_slots]
  · simp [constRefToVal, finish_slots]
  · intro x hxg
    rw [← h4]; simp [isUsed, finish_slots, hxg]

/-! ## Lookup -/

/-- The probe loop of `findFrom`, started at `initLoc = h` in a table whose first
virgin slot from `h` on is `v`: it stops within the run, at the first slot that
holds the key (answer true), or at the first slot at which the ordered mode gives
up, or at `v` (answer false). -/
theorem findFromLoop_spec [DecidableEq K] (P : Params K V) (t : Hash K V) (key : K) (h v : Nat)
    (hh : h < getTableSize P t) (hv : v < getTableSize P t) (hvirgin : isUsed t v = false)
    (hfirst : ∀ x, x < getTableSize P t →
      cdist (getTableSize P t) h x < cdist (getTableSize P t) h v → isUsed t x = true) :
    ∀ fuel loc, loc < getTableSize P t →
      cdist (getTableSize P t) h loc ≤ cdist (getTableSize P t) h v →
      cdist (getTableSize P t) h v < cdist (getTableSize P t) h loc + fuel →
      (∀ x, x < getTableSize P t →
        cdist (getTableSize P t) h x < cdist (getTableSize P t) h loc →
        key ≠ constRefToKey t x ∧ (P.HASH_ORDERED && initPlaceBefore P t h x) = false) →
      ∃ b l, findFromLoop P t key h fuel loc = some (b, l) ∧ l < getTableSize P t ∧
        cdist (getTableSize P t) h l ≤ cdist (getTableSize P t) h v ∧
        (∀ x, x < getTableSize P t →
          cdist (getTableSize P t) h x < cdist (getTableSize P t) h l →
          key ≠ constRefToKey t x ∧ (P.HASH_ORDERED && initPlaceBefore P t h x) = false) ∧
        (b = true → isUsed t l = true ∧ key = constRefToKey t l) ∧
        (b = false → l = v ∨ (isUsed t l = true ∧ key ≠ constRefToKey t l ∧
          (P.HASH_ORDERED && initPlaceBefore P t h l) = true)) := by
  have hN : 0 < getTableSize P t := by omega
  intro fuel
  induction fuel with
  | zero => intro loc _ h1 h2; omega
  | succ fuel ih =>
    intro loc hloc hle hfuel hpre
    unfold findFromLoop
    by_cases hu : isUsed t loc = true
    · simp only [hu, if_true]
      by_cases hk : key = constRefToKey t loc
      · rw [if_pos hk]
        exact ⟨true, loc, rfl, hloc, hle, hpre, fun _ => ⟨hu, hk⟩, fun e => Bool.noConfusion e⟩
      · rw [if_neg hk]
        by_cases ho : (P.HASH_ORDERED && initPlaceBefore P t h loc) = true
        · rw [if_pos ho]
          exact ⟨false, loc, rfl, hloc, hle, hpre, fun e => Bool.noConfusion e,
            fun _ => Or.inr ⟨hu, hk, ho⟩⟩
        · rw [if_neg ho]
          have hlv : loc ≠ v := by
            intro e; rw [e, hvirgin] at hu; exact Bool.noConfusion hu
          have hlt : cdist (getTableSize P t) h loc < cdist (getTableSize P t) h v := by
            rcases Nat.lt_or_ge (cdist (getTableSize P t) h loc) (cdist (getTableSize P t) h v)
              with h1 | h1
            · exact h1
            · exact absurd (cdist_inj hh hloc hv (le_antisymm hle h1)) hlv
          have hvN := cdist_lt (a := h) (b := v) hN
          have hn := cdist_next hh hloc (by omega)
          apply ih ((loc + 1) % getTableSize P t) (next_lt hN) (by
            show cdist _ h ((loc + 1) % getTableSize P t) ≤ _
            omega) (by
            show _ < cdist _ h ((loc + 1) % getTableSize P t) + fuel
            omega)
          intro x hx hxlt
          have hxlt2 : cdist (getTableSize P t) h x
              < cdist (getTableSize P t) h ((loc + 1) % getTableSize P t) := hxlt
          rcases Nat.lt_or_ge (cdist (getTableSize P t) h x) (cdist (getTableSize P t) h loc)
            with h1 | h1
          · exact hpre x hx h1
          · have : x = loc := cdist_inj hh hx hloc (by omega)
            subst this
            exact ⟨hk, by simpa using ho⟩
    · have hu2 : isUsed t loc = false := by simpa using hu
      simp only [hu2, Bool.false_eq_true, if_false]
      have hlv : loc = v := by
        rcases Nat.lt_or_ge (cdist (getTableSize P t) h loc) (cdist (getTableSize P t) h v)
          with h1 | h1
        · rw [hfirst loc hloc h1] at hu2; exact Bool.noConfusion hu2
        · exact cdist_inj hh hloc hv (le_antisymm hle h1)
      exact ⟨false, loc, rfl, hloc, hle, hpre, fun e => Bool.noConfusion e, fun _ => Or.inl hlv⟩

/-- `findFirst` on an allocated table with a virgin slot: the description of
`findFromLoop_spec`, for the whole probe from the initial place `h` of the key,
with `v` the first virgin slot from `h` on. -/
theorem findFirst_spec [DecidableEq K] (P : Params K V) (t : Hash K V) (key : K) (loc0 fuel : Nat)
    (hrange : initPlacesInRange P t.nativeSize) (hvir : hasVirgin P t)
    (hfuel : getTableSize P t < fuel) :
    ∃ v b l, v < getTableSize P t ∧ isUsed t v = false ∧
      (∀ x, x < getTableSize P t →
        cdist (getTableSize P t) (P.getInitPlace t.nativeSize key) x
          < cdist (getTableSize P t) (P.getInitPlace t.nativeSize key) v → isUsed t x = true) ∧
      findFirst P fuel t key loc0 = some (b, l) ∧ l < getTableSize P t ∧
      cdist (getTableSize P t) (P.getInitPlace t.nativeSize key) l
        ≤ cdist (getTableSize P t) (P.getInitPlace t.nativeSize key) v ∧
      (∀ x, x < getTableSize P t →
        cdist (getTableSize P t) (P.getInitPlace t.nativeSize key) x
          < cdist (getTableSize P t) (P.getInitPlace t.nativeSize key) l →
        key ≠ constRefToKey t x ∧
          (P.HASH_ORDERED && initPlaceBefore P t (P.getInitPlace t.nativeSize key) x) = false) ∧
      (b = true → isUsed t l = true ∧ key = constRefToKey t l) ∧
      (b = false → l = v ∨ (isUsed t l = true ∧ key ≠ constRefToKey t l ∧
        (P.HASH_ORDERED && initPlaceBefore P t (P.getInitPlace t.nativeSize key) l) = true)) := by
  have hh : P.getInitPlace t.nativeSize key < getTableSize P t := hrange key
  have hN : 0 < getTableSize P t := by omega
  obtain ⟨v, hv, hvirgin, hfirst⟩ := exists_first_virgin (isUsed t) hh hvir
  have hvN := cdist_lt (a := P.getInitPlace t.nativeSize key) (b := v) hN
  obtain ⟨b, l, hfind, hl, hle, hpre, hb1, hb2⟩ := findFromLoop_spec P t key _ v hh hv hvirgin
    hfirst fuel (P.getInitPlace t.nativeSize key) hh (by rw [cdist_self hh]; omega)
    (by rw [cdist_self hh]; omega) (by intro x hx hlt; rw [cdist_self hh] at hlt; omega)
  refine ⟨v, b, l, hv, hvirgin, hfirst, ?_, hl, hle, hpre, hb1, hb2⟩
  unfold findFirst findFrom
  have : base_empty P t = false := by
    unfold base_empty
    simp only [beq_eq_false_iff_ne, ne_eq]
    omega
  rw [this]
  simpa using hfind

theorem findFirst_allocated [DecidableEq K] (P : Params K V) (t : Hash K V) (key : K)
    (loc0 loc1 fuel : Nat) (hN : 0 < getTableSize P t) :
    findFirst P fuel t key loc0 = findFirst P fuel t key loc1 := by
  unfold findFirst
  have : base_empty P t = false := by
    unfold base_empty
    simp only [beq_eq_false_iff_ne, ne_eq]
    omega
  rw [this]
  rfl

/-- In a table that satisfies the hash invariant, a slot that holds `key` lies
before the first virgin slot `v` of the probe sequence of `key`. -/
theorem stored_before_virgin (P : Params K V) (t : Hash K V) {p v : Nat}
    (hrange : initPlacesInRange P t.nativeSize) (hinv : hashInvariant P t)
    (hp : p < getTableSize P t) (hup : isUsed t p = true)
    (hv : v < getTableSize P t) (hvirgin : isUsed t v = false) :
    cdist (getTableSize P t) (initPlaceAt P t p) p
      < cdist (getTableSize P t) (initPlaceAt P t p) v := by
  have hh := initPlaceAt_lt P t hrange p
  have hpath := (hashInvariantAt_iff P t hh hp).1 (hinv p hp hup)
  rcases Nat.lt_or_ge (cdist (getTableSize P t) (initPlaceAt P t p) p)
    (cdist (getTableSize P t) (initPlaceAt P t p) v) with h | h
  · exact h
  · have := hpath v hv h
    rw [hvirgin] at this
    exact Bool.noConfusion this

/-- C7: lookup is correct in unordered mode.  In a table that satisfies the hash
invariant and has a virgin slot, `findFirst(k, loc)` returns (for every fuel above
the table size) true exactly when some used slot holds `k`; on true, `loc` is the
first slot of the cyclic probe sequence from the initial place of `k` that holds
`k`; on false, `loc` is the first virgin slot of that sequence.  `contains`
gives the same answer. -/
theorem findFirst_correct_unordered [DecidableEq K] (P : Params K V) (t : Hash K V) (key : K)
    (loc0 fuel : Nat) (hmode : P.HASH_ORDERED = false)
    (hrange : initPlacesInRange P t.nativeSize) (hinv : hashInvariant P t)
    (hvir : hasVirgin P t) (hfuel : getTableSize P t < fuel) :
    ∃ b loc, findFirst P fuel t key loc0 = some (b, loc) ∧ contains P fuel t key = some b ∧
      loc < getTableSize P t ∧
      (b = true ↔ stored P t key) ∧
      (b = true → isUsed t loc = true ∧ constRefToKey t loc = key ∧
        ∀ j, j < cdist (getTableSize P t) (P.getInitPlace t.nativeSize key) loc →
          isUsed t ((P.getInitPlace t.nativeSize key + j) % getTableSize P t) = true ∧
          constRefToKey t ((P.getInitPlace t.nativeSize key + j) % getTableSize P t) ≠ key) ∧
      (b = false → isUsed t loc = false ∧
        ∀ j, j < cdist (getTableSize P t) (P.getInitPlace t.nativeSize key) loc →
          isUsed t ((P.getInitPlace t.nativeSize key + j) % getTableSize P t) = true) := by
  obtain ⟨v, b, l, hv, hvirgin, hfirst, hfind, hl, hle, hpre, hb1, hb2⟩ :=
    findFirst_spec P t key loc0 fuel hrange hvir hfuel
  have hh : P.getInitPlace t.nativeSize key < getTableSize P t := hrange key
  have hN : 0 < getTableSize P t := by omega
  have hvN := cdist_lt (a := P.getInitPlace t.nativeSize key) (b := v) hN
  have hbeforeLoc : ∀ j, j < cdist (getTableSize P t) (P.getInitPlace t.nativeSize key) l →
      isUsed t ((P.getInitPlace t.nativeSize key + j) % getTableSize P t) = true ∧
      constRefToKey t ((P.getInitPlace t.nativeSize key + j) % getTableSize P t) ≠ key := by
    intro j hj
    have hd := cdist_cyc_add hh (by omega : j < getTableSize P t)
    refine ⟨hfirst _ (Nat.mod_lt _ hN) (by omega), ?_⟩
    exact fun e => (hpre _ (Nat.mod_lt _ hN) (by omega)).1 e.symm
  have hfalse : b = false → l = v := by
    intro hb
    rcases hb2 hb with h | ⟨_, _, h⟩
    · exact h
    · rw [hmode] at h; simp at h
  refine ⟨b, l, hfind, ?_, hl, ?_, ?_, ?_⟩
  · unfold contains
    rw [findFirst_allocated P t key 0 loc0 fuel hN, hfind]; rfl
  · constructor
    · intro hb
      exact ⟨l, hl, (hb1 hb).1, (hb1 hb).2.symm⟩
    · rintro ⟨p, hp, hup, hkp⟩
      cases hbb : b with
      | true => rfl
      | false =>
        exfalso
        have hlv := hfalse hbb
        have := stored_before_virgin P t hrange hinv hp hup hv hvirgin
        have hip : initPlaceAt P t p = P.getInitPlace t.nativeSize key := by
          unfold initPlaceAt; rw [hkp]
        rw [hip] at this
        rw [hlv] at hpre
        exact (hpre p hp this).1 hkp.symm
  · intro hb
    exact ⟨(hb1 hb).1, (hb1 hb).2.symm, hbeforeLoc⟩
  · intro hb
    rw [hfalse hb]
    refine ⟨hvirgin, fun j hj => ?_⟩
    rw [hfalse hb] at hbeforeLoc
    exact (hbeforeLoc j hj).1

/-! ## Filling a slot -/

/-- Writing a used entry into a slot whose probe sequence, from the initial place of
the new key, consists of used slots keeps the hash invariant. -/
theorem hashInvariant_fill (P : Params K V) (t t1 : Hash K V) (loc : Nat)
    (hrange : initPlacesInRange P t.nativeSize) (hnative : t1.nativeSize = t.nativeSize)
    (hloc : loc < getTableSize P t) (hother : ∀ x, x ≠ loc → t1.slots x = t.slots x)
    (hused : isUsed t1 loc = true)
    (hprobe : ∀ x, x < getTableSize P t →
      cdist (getTableSize P t) (initPlaceAt P t1 loc) x
        < cdist (getTableSize P t) (initPlaceAt P t1 loc) loc → isUsed t x = true)
    (hinv : hashInvariant P t) : hashInvariant P t1 := by
  have hsz : getTableSize P t1 = getTableSize P t := by unfold getTableSize; rw [hnative]
  have hmono : ∀ x, isUsed t x = true → isUsed t1 x = true := by
    intro x hx
    by_cases hxl : x = loc
    · rw [hxl]; exact hused
    · unfold isUsed at *; rw [hother x hxl]; exact hx
  have hrange1 : initPlacesInRange P t1.nativeSize := by rw [hnative]; exact hrange
  intro p hp hup
  rw [hashInvariantAt_iff P t1 (initPlaceAt_lt P t1 hrange1 p) hp]
  rw [hsz] at hp ⊢
  intro x hx hle
  by_cases hpl : p = loc
  · subst hpl
    rcases Nat.lt_or_ge (cdist (getTableSize P t) (initPlaceAt P t1 p) x)
      (cdist (getTableSize P t) (initPlaceAt P t1 p) p) with h | h
    · exact hmono x (hprobe x hx h)
    · have hh : initPlaceAt P t1 p < getTableSize P t := by
        rw [← hsz]; exact initPlaceAt_lt P t1 hrange1 p
      have : x = p := cdist_inj hh hx hp (le_antisymm hle h)
      rw [this]; exact hused
  · have hkey : initPlaceAt P t1 p = initPlaceAt P t p := by
      unfold initPlaceAt constRefToKey; rw [hother p hpl, hnative]
    have hup0 : isUsed t p = true := by
      unfold isUsed at *; rw [← hother p hpl]; exact hup
    rw [hkey] at hle
    exact hmono x ((hashInvariantAt_iff P t (initPlaceAt_lt P t hrange p) hp).1
      (hinv p hp hup0) x hx hle)

/-- Writing a used entry into a virgin slot adds the entry to every sum over the
used slots. -/
theorem usedSum_fill {M : Type} [AddCommMonoid M] (φ : K → V → M) (t t1 : Hash K V) (n loc : Nat)
    (hloc : loc < n) (hother : ∀ x, x ≠ loc → t1.slots x = t.slots x)
    (hvirgin : isUsed t loc = false) (hused : isUsed t1 loc = true) :
    usedSum φ t1 n = usedSum φ t n + φ (constRefToKey t1 loc) (constRefToVal t1 loc) := by
  rw [usedSum_eq_sum, usedSum_eq_sum]
  have := sum_change_one
    (fun i => if isUsed t i = true then φ (constRefToKey t i) (constRefToVal t i) else 0)
    (fun i => if isUsed t1 i = true then φ (constRefToKey t1 i) (constRefToVal t1 i) else 0)
    hloc (by
      intro i _ hi
      simp only [isUsed, constRefToKey, constRefToVal, hother i hi])
  simp only [hvirgin, hused, Bool.false_eq_true, if_false, if_true, add_zero] at this
  exact this

/-- Rewriting the payload or the key of a used slot replaces its entry in every sum
over the used slots. -/
theorem usedSum_replace {M : Type} [AddCommMonoid M] (φ : K → V → M) (t t1 : Hash K V)
    (n loc : Nat) (hloc : loc < n) (hother : ∀ x, x ≠ loc → t1.slots x = t.slots x)
    (hused : isUsed t loc = true) (hused1 : isUsed t1 loc = true) :
    usedSum φ t1 n + φ (constRefToKey t loc) (constRefToVal t loc)
      = usedSum φ t n + φ (constRefToKey t1 loc) (constRefToVal t1 loc) := by
  rw [usedSum_eq_sum, usedSum_eq_sum]
  have := sum_change_one
    (fun i => if isUsed t i = true then φ (constRefToKey t i) (constRefToVal t i) else 0)
    (fun i => if isUsed t1 i = true then φ (constRefToKey t1 i) (constRefToVal t1 i) else 0)
    hloc (by
      intro i _ hi
      simp only [isUsed, constRefToKey, constRefToVal, hother i hi])
  simp only [hused, hused1, if_true] at this
  exact this

/-- Sums over the used slots only read the slots below the bound. -/
theorem usedSum_congr {M : Type} [AddCommMonoid M] (φ : K → V → M) (t t1 : Hash K V) (n : Nat)
    (h : ∀ x, x < n → t1.slots x = t.slots x) : usedSum φ t1 n = usedSum φ t n := by
  rw [usedSum_eq_sum, usedSum_eq_sum]
  apply Finset.sum_congr rfl
  intro i hi
  simp only [isUsed, constRefToKey, constRefToVal, h i (Finset.mem_range.1 hi)]

/-! ## Counting the used slots -/

theorem usedSum_one_le (t : Hash K V) (n : Nat) : usedSum (fun _ _ => (1 : Nat)) t n ≤ n := by
  induction n with
  | zero => simp [usedSum]
  | succ n ih =>
    rw [usedSum]
    split_ifs <;> omega

theorem usedSum_one_full (t : Hash K V) (n : Nat)
    (h : usedSum (fun _ _ => (1 : Nat)) t n = n) : ∀ x, x < n → isUsed t x = true := by
  induction n with
  | zero => intro x hx; omega
  | succ n ih =>
    rw [usedSum] at h
    have hle := usedSum_one_le t n
    intro x hx
    by_cases hu : isUsed t n = true
    · rw [if_pos hu] at h
      rcases Nat.lt_or_ge x n with h1 | h1
      · exact ih (by omega) x h1
      · have : x = n := by omega
        rw [this]; exact hu
    · rw [if_neg hu] at h
      omega

theorem usedSum_one_lt (t : Hash K V) (n v : Nat) (hv : v < n) (hvirgin : isUsed t v = false) :
    usedSum (fun _ _ => (1 : Nat)) t n < n := by
  rcases Nat.lt_or_ge (usedSum (fun _ _ => (1 : Nat)) t n) n with h | h
  · exact h
  · have := usedSum_one_full t n (le_antisymm (usedSum_one_le t n) h) v hv
    rw [hvirgin] at this
    exact Bool.noConfusion this

/-- A table has a virgin slot exactly when fewer slots are used than there are. -/
theorem hasVirgin_iff (P : Params K V) (t : Hash K V) :
    hasVirgin P t ↔ numUsed P t < getTableSize P t := by
  constructor
  · rintro ⟨v, hv, hvirgin⟩
    exact usedSum_one_lt t _ v hv hvirgin
  · intro h
    by_contra hno
    have hall : ∀ x, x < getTableSize P t → isUsed t x = true := by
      intro x hx
      by_contra hx2
      exact hno ⟨x, hx, by simpa using hx2⟩
    have : ∀ n, n ≤ getTableSize P t → usedSum (fun _ _ => (1 : Nat)) t n = n := by
      intro n
      induction n with
      | zero => intro _; rfl
      | succ n ih =>
        intro hn
        rw [usedSum, if_pos (hall n (by omega)), ih (by omega)]
    have := this _ (le_refl _)
    unfold numUsed at h
    omega

/-- A sum over the used slots vanishes when no slot is used. -/
theorem usedSum_zero_of_count {M : Type} [AddCommMonoid M] (φ : K → V → M) (t : Hash K V)
    (n : Nat) (h : usedSum (fun _ _ => (1 : Nat)) t n = 0) : usedSum φ t n = 0 := by
  induction n with
  | zero => rfl
  | succ n ih =>
    rw [usedSum] at h ⊢
    by_cases hu : isUsed t n = true
    · rw [if_pos hu] at h; omega
    · rw [if_neg hu] at h ⊢
      rw [ih (by omega), add_zero]

/-! ## `pushProbeAt` -/

theorem prev_lt {N x : Nat} (hN : 0 < N) : (x + N - 1) % N < N := Nat.mod_lt _ hN

theorem prev_eq {N x : Nat} (hx : x < N) : (x + N - 1) % N = if x = 0 then N - 1 else x - 1 := by
  split_ifs with h
  · subst h
    rw [Nat.zero_add, Nat.mod_eq_of_lt (by omega)]
  · have : x + N - 1 = (x - 1) + N := by omega
    rw [this, Nat.add_mod_right, Nat.mod_eq_of_lt (by omega)]

theorem cdist_prev {N a x : Nat} (ha : a < N) (hx : x < N) (h : a ≠ x) :
    cdist N a ((x + N - 1) % N) + 1 = cdist N a x := by
  have hN : 0 < N := by omega
  rw [cdist_eq ha (prev_lt hN), cdist_eq ha hx, prev_eq hx]
  split_ifs <;> omega

theorem prev_ne {N x : Nat} (hx : x < N) (hN : 1 < N) : (x + N - 1) % N ≠ x := by
  rw [prev_eq hx]
  split_ifs <;> omega

/-- The first loop of `pushProbeAt` finds the first virgin slot of the run. -/
theorem pushProbeFind_spec (P : Params K V) (t : Hash K V) (loc v : Nat)
    (hloc : loc < getTableSize P t) (hv : v < getTableSize P t) (hvirgin : isUsed t v = false)
    (hfirst : ∀ x, x < getTableSize P t →
      cdist (getTableSize P t) loc x < cdist (getTableSize P t) loc v → isUsed t x = true) :
    ∀ fuel i, i < getTableSize P t →
      cdist (getTableSize P t) loc i ≤ cdist (getTableSize P t) loc v →
      cdist (getTableSize P t) loc v < cdist (getTableSize P t) loc i + fuel →
      pushProbeFind P t fuel i = some v := by
  have hN : 0 < getTableSize P t := by omega
  intro fuel
  induction fuel with
  | zero => intro i _ h1 h2; omega
  | succ fuel ih =>
    intro i hi hle hfuel
    unfold pushProbeFind
    by_cases hu : isUsed t i = true
    · rw [if_pos hu]
      have hiv : i ≠ v := by
        intro e; rw [e, hvirgin] at hu; exact Bool.noConfusion hu
      have hlt : cdist (getTableSize P t) loc i < cdist (getTableSize P t) loc v := by
        rcases Nat.lt_or_ge (cdist (getTableSize P t) loc i) (cdist (getTableSize P t) loc v)
          with h1 | h1
        · exact h1
        · exact absurd (cdist_inj hloc hi hv (le_antisymm hle h1)) hiv
      have hvN := cdist_lt (a := loc) (b := v) hN
      have hn := cdist_next hloc hi (by omega)
      exact ih ((i + 1) % getTableSize P t) (next_lt hN) (by omega) (by omega)
    · have hu2 : isUsed t i = false := by simpa using hu
      rw [if_neg hu]
      have : i = v := by
        rcases Nat.lt_or_ge (cdist (getTableSize P t) loc i) (cdist (getTableSize P t) loc v)
          with h1 | h1
        · rw [hfirst i hi h1] at hu2; exact Bool.noConfusion hu2
        · exact cdist_inj hloc hi hv (le_antisymm hle h1)
      rw [this]

/-- `pushProbeAt(loc)` at a used slot whose run ends at the virgin slot `v`: it
stops; every slot of the run after `loc`, up to `v`, receives the content of its
predecessor; `loc` receives the content of `v` when the storage swaps and keeps
its bytes otherwise; all other slots and the fields of the table keep their
value; the sum over the used slots other than `loc` is the former sum over the
used slots. -/
theorem pushProbeAt_spec {M : Type} [AddCommMonoid M] (φ : K → V → M) (P : Params K V)
    (t : Hash K V) (loc v fuel : Nat)
    (hloc : loc < getTableSize P t) (hv : v < getTableSize P t)
    (hused : isUsed t loc = true) (hvirgin : isUsed t v = false)
    (hfirst : ∀ x, x < getTableSize P t →
      cdist (getTableSize P t) loc x < cdist (getTableSize P t) loc v → isUsed t x = true)
    (hfuel : cdist (getTableSize P t) loc v < fuel) :
    ∃ t1, pushProbeAt P fuel t loc = some t1 ∧ t1.nativeSize = t.nativeSize ∧
      t1.numKeys = t.numKeys ∧ t1.weightSum = t.weightSum ∧
      (∀ x, x < getTableSize P t → 0 < cdist (getTableSize P t) loc x →
        cdist (getTableSize P t) loc x ≤ cdist (getTableSize P t) loc v →
        t1.slots x = t.slots ((x + getTableSize P t - 1) % getTableSize P t)) ∧
      (∀ x, ¬ (x < getTableSize P t ∧
          cdist (getTableSize P t) loc x ≤ cdist (getTableSize P t) loc v) →
        t1.slots x = t.slots x) ∧
      t1.slots loc = (if P.swaps then t.slots v else t.slots loc) ∧
      (∑ x in Finset.range (getTableSize P t),
          (if isUsed t1 x = true ∧ x ≠ loc then φ (constRefToKey t1 x) (constRefToVal t1 x)
            else 0)) = usedSum φ t (getTableSize P t) := by
  simp only [getTableSize] at *
  have hN : 0 < P.sizeForNative t.nativeSize := by omega
  have hlv : loc ≠ v := by
    intro e; rw [e, hvirgin] at hused; exact Bool.noConfusion hused
  have hvN := cdist_lt (a := loc) (b := v) hN
  have hN2 : 1 < P.sizeForNative t.nativeSize := by omega
  have key : ∀ fuel (t1 : Hash K V) (i : Nat), i < P.sizeForNative t.nativeSize →
      cdist (P.sizeForNative t.nativeSize) loc i ≤ cdist (P.sizeForNative t.nativeSize) loc v →
      cdist (P.sizeForNative t.nativeSize) loc i < fuel →
      t1.nativeSize = t.nativeSize → t1.numKeys = t.numKeys → t1.weightSum = t.weightSum →
      (∀ x, x < P.sizeForNative t.nativeSize →
        cdist (P.sizeForNative t.nativeSize) loc i < cdist (P.sizeForNative t.nativeSize) loc x →
        cdist (P.sizeForNative t.nativeSize) loc x ≤ cdist (P.sizeForNative t.nativeSize) loc v →
        t1.slots x = t.slots ((x + P.sizeForNative t.nativeSize - 1)
          % P.sizeForNative t.nativeSize)) →
      (∀ x, ¬ (x < P.sizeForNative t.nativeSize ∧
          cdist (P.sizeForNative t.nativeSize) loc i ≤ cdist (P.sizeForNative t.nativeSize) loc x ∧
          cdist (P.sizeForNative t.nativeSize) loc x ≤ cdist (P.sizeForNative t.nativeSize) loc v) →
        t1.slots x = t.slots x) →
      t1.slots i = (if P.swaps = true ∨ i = v then t.slots v else t.slots i) →
      (∑ x in Finset.range (P.sizeForNative t.nativeSize),
          (if isUsed t1 x = true ∧ x ≠ i then φ (constRefToKey t1 x) (constRefToVal t1 x)
            else 0)) = usedSum φ t (P.sizeForNative t.nativeSize) →
      ∃ t2, pushProbeShift P loc fuel t1 i
          ((i + P.sizeForNative t.nativeSize - 1) % P.sizeForNative t.nativeSize) = some t2 ∧
        t2.nativeSize = t.nativeSize ∧ t2.numKeys = t.numKeys ∧ t2.weightSum = t.weightSum ∧
        (∀ x, x < P.sizeForNative t.nativeSize →
          0 < cdist (P.sizeForNative t.nativeSize) loc x →
          cdist (P.sizeForNative t.nativeSize) loc x ≤ cdist (P.sizeForNative t.nativeSize) loc v →
          t2.slots x = t.slots ((x + P.sizeForNative t.nativeSize - 1)
            % P.sizeForNative t.nativeSize)) ∧
        (∀ x, ¬ (x < P.sizeForNative t.nativeSize ∧
            cdist (P.sizeForNative t.nativeSize) loc x
              ≤ cdist (P.sizeForNative t.nativeSize) loc v) →
          t2.slots x = t.slots x) ∧
        t2.slots loc = (if P.swaps = true ∨ loc = v then t.slots v else t.slots loc) ∧
        (∑ x in Finset.range (P.sizeForNative t.nativeSize),
            (if isUsed t2 x = true ∧ x ≠ loc then φ (constRefToKey t2 x) (constRefToVal t2 x)
              else 0)) = usedSum φ t (P.sizeForNative t.nativeSize) := by
    intro fuel
    induction fuel with
    | zero => intro t1 i _ _ h; omega
    | succ fuel ih =>
      intro t1 i hi hle hf hn hk hw hshift hsame hhole hsum
      unfold pushProbeShift
      by_cases hil : i = loc
      · subst hil
        simp only [ne_eq, not_true_eq_false, if_false]
        refine ⟨t1, rfl, hn, hk, hw, ?_, ?_, hhole, hsum⟩
        · intro x hx h0 hxv
          exact hshift x hx (by rw [cdist_self hi]; exact h0) hxv
        · intro x hx
          apply hsame x
          intro h
          exact hx ⟨h.1, h.2.2⟩
      · rw [if_pos hil]
        have hp := cdist_prev hloc hi (Ne.symm hil)
        have hpi := prev_ne hi hN2
        have hpN := prev_lt (x := i) hN
        have hprev_same : t1.slots ((i + P.sizeForNative t.nativeSize - 1)
            % P.sizeForNative t.nativeSize) = t.slots ((i + P.sizeForNative t.nativeSize - 1)
            % P.sizeForNative t.nativeSize) := by
          apply hsame
          intro h; omega
        have hprev_used : isUsed t1 ((i + P.sizeForNative t.nativeSize - 1)
            % P.sizeForNative t.nativeSize) = true := by
          unfold isUsed; rw [hprev_same]
          exact hfirst _ hpN (by omega)
        have hgp : getPrevPlace P t1 ((i + P.sizeForNative t.nativeSize - 1)
            % P.sizeForNative t.nativeSize) = (((i + P.sizeForNative t.nativeSize - 1)
            % P.sizeForNative t.nativeSize) + P.sizeForNative t.nativeSize - 1)
            % P.sizeForNative t.nativeSize := by
          unfold getPrevPlace getTableSize; rw [hn]
        rw [hgp]
        refine ih (moveOrSwap P t1 i ((i + P.sizeForNative t.nativeSize - 1)
          % P.sizeForNative t.nativeSize)) _ hpN (by omega) (by omega) hn hk hw ?_ ?_ ?_ ?_
        · intro x hx h1 h2
          by_cases hxi : x = i
          · rw [hxi, moveOrSwap_slots_dst P t1 (Ne.symm hpi), hprev_same]
          · have hxp : x ≠ (i + P.sizeForNative t.nativeSize - 1)
                % P.sizeForNative t.nativeSize := by
              intro e; rw [e] at h1; omega
            rw [moveOrSwap_slots_other P t1 hxi hxp]
            apply hshift x hx _ h2
            rcases Nat.lt_or_ge (cdist (P.sizeForNative t.nativeSize) loc i)
              (cdist (P.sizeForNative t.nativeSize) loc x) with h3 | h3
            · exact h3
            · exact absurd (cdist_inj hloc hx hi (by omega)) hxi
        · intro x hx
          have hxi : x ≠ i := by
            intro e; subst e; exact hx ⟨hi, by omega, hle⟩
          have hxp : x ≠ (i + P.sizeForNative t.nativeSize - 1)
              % P.sizeForNative t.nativeSize := by
            intro e; subst e; exact hx ⟨hpN, le_refl _, by omega⟩
          rw [moveOrSwap_slots_other P t1 hxi hxp]
          apply hsame
          intro h; exact hx ⟨h.1, by omega, h.2.2⟩
        · have hpv : (i + P.sizeForNative t.nativeSize - 1) % P.sizeForNative t.nativeSize ≠ v := by
            intro e; rw [e] at hp; omega
          simp only [moveOrSwap, setSlot_slots, if_true, hpv, or_false]
          by_cases hsw : P.swaps = true
          · simp only [hsw, if_true, Ne.symm hpi, if_false]
            rw [hhole]; simp [hsw]
          · simp only [hsw, Bool.false_eq_true, if_false]
            exact hprev_same
        · rw [← hsum]
          apply sum_change_two _ _ hi hpN (Ne.symm hpi)
          · intro x _ hxi hxp
            simp only [isUsed, constRefToKey, constRefToVal, moveOrSwap_slots_other P t1 hxi hxp,
              hxi, hxp, ne_eq, not_false_eq_true, and_true]
          · have hui : isUsed (moveOrSwap P t1 i ((i + P.sizeForNative t.nativeSize - 1)
                % P.sizeForNative t.nativeSize)) i = true := by
              unfold isUsed; rw [moveOrSwap_slots_dst P t1 (Ne.symm hpi)]; exact hprev_used
            simp only [hui, hprev_used, ne_eq, not_true_eq_false, and_false, if_false,
              Ne.symm hpi, hpi, not_false_eq_true, and_true, if_true, and_self, constRefToKey,
              constRefToVal, moveOrSwap_slots_dst P t1 (Ne.symm hpi)]
            abel
  have hfind := pushProbeFind_spec P t loc v hloc hv hvirgin hfirst fuel loc hloc
    (by simp only [getTableSize]; rw [cdist_self hloc]; omega)
    (by simp only [getTableSize]; rw [cdist_self hloc]; omega)
  obtain ⟨t2, h1, h2, h3, h4, h5, h6, h7, h8⟩ := key fuel t v hv (le_refl _) (by omega) rfl rfl rfl
    (by intro x _ h1 h2; omega)
    (by
      intro x hx
      by_cases hxv : x = v
      · exact absurd ⟨hxv ▸ hv, by rw [hxv], by rw [hxv]⟩ hx
      · rfl)
    (by simp)
    (by
      rw [usedSum_eq_sum]
      apply Finset.sum_congr rfl
      intro x _
      by_cases hxv : x = v
      · simp [hxv, hvirgin]
      · simp [hxv])
  refine ⟨t2, ?_, h2, h3, h4, h5, h6, ?_, h8⟩
  · unfold pushProbeAt
    rw [hfind]
    simp only [getPrevPlace, getTableSize]
    exact h1
  · rw [h7]; simp [hlv]

theorem cdist_add {N h l x : Nat} (hh : h < N) (hl : l < N) (hx : x < N)
    (hsum : cdist N h l + cdist N l x < N) : cdist N h x = cdist N h l + cdist N l x := by
  rw [cdist_eq hh hl, cdist_eq hl hx] at hsum
  rw [cdist_eq hh hl, cdist_eq hl hx, cdist_eq hh hx]
  split_ifs at hsum ⊢ <;> omega

/-- Overwriting the left-out slot with a used entry adds the entry to the sum. -/
theorem usedSum_setSlot_except {M : Type} [AddCommMonoid M] (φ : K → V → M) (d : Hash K V)
    (n loc : Nat) (e : Slot K V) (hloc : loc < n) (he : e.used = true) :
    usedSum φ (d.setSlot loc e) n = usedSumExcept φ d n loc + φ e.key e.val := by
  rw [usedSum_eq_sum]
  unfold usedSumExcept
  have := sum_change_one
    (fun i => if isUsed d i = true ∧ i ≠ loc then φ (constRefToKey d i) (constRefToVal d i) else 0)
    (fun i => if isUsed (d.setSlot loc e) i = true
      then φ (constRefToKey (d.setSlot loc e) i) (constRefToVal (d.setSlot loc e) i) else 0)
    hloc (by
      intro i _ hi
      simp [isUsed, constRefToKey, constRefToVal, hi])
  simp only [ne_eq, not_true_eq_false, and_false, if_false, add_zero, isUsed, setSlot_slots,
    if_true, he, constRefToKey, constRefToVal] at this
  simpa [isUsed, constRefToKey, constRefToVal] using this

/-- Leaving out a virgin slot does not change the sum. -/
theorem usedSumExcept_virgin {M : Type} [AddCommMonoid M] (φ : K → V → M) (d : Hash K V)
    (n loc : Nat) (h : isUsed d loc = false) : usedSumExcept φ d n loc = usedSum φ d n := by
  rw [usedSum_eq_sum]
  unfold usedSumExcept
  apply Finset.sum_congr rfl
  intro x _
  by_cases hx : x = loc
  · simp [hx, h]
  · simp [hx]

/-- The probe loop of `rehash_put`, started at `initLoc = h` in a destination whose
first virgin slot from `h` on is `v`: it stops at a slot `l` of the run; the used
slots other than `l` hold what the used slots held before; without ordering, the
table is untouched and `l = v`. -/
theorem rehashPutLoop_spec {M : Type} [AddCommMonoid M] (φ : K → V → M) (P : Params K V)
    (dest : Hash K V) (h v : Nat)
    (hh : h < getTableSize P dest) (hv : v < getTableSize P dest)
    (hvirgin : isUsed dest v = false)
    (hfirst : ∀ x, x < getTableSize P dest →
      cdist (getTableSize P dest) h x < cdist (getTableSize P dest) h v → isUsed dest x = true) :
    ∀ fuel loc, loc < getTableSize P dest →
      cdist (getTableSize P dest) h loc ≤ cdist (getTableSize P dest) h v →
      cdist (getTableSize P dest) h v < cdist (getTableSize P dest) h loc + fuel →
      ∃ d l, rehashPutLoop P h fuel dest loc = some (d, l) ∧ l < getTableSize P dest ∧
        d.nativeSize = dest.nativeSize ∧ d.numKeys = dest.numKeys ∧
        d.weightSum = dest.weightSum ∧
        usedSumExcept φ d (getTableSize P dest) l = usedSum φ dest (getTableSize P dest) ∧
        (∀ x, x ≠ l → isUsed d x = false → d.slots x = dest.slots x) ∧
        (P.HASH_ORDERED = false → d = dest ∧ l = v) := by
  have hN : 0 < getTableSize P dest := by omega
  have hvN := cdist_lt (a := h) (b := v) hN
  intro fuel
  induction fuel with
  | zero => intro loc _ h1 h2; omega
  | succ fuel ih =>
    intro loc hloc hle hfuel
    unfold rehashPutLoop
    by_cases hu : isUsed dest loc = true
    · simp only [hu, if_true]
      have hlv : loc ≠ v := by
        intro e; rw [e, hvirgin] at hu; exact Bool.noConfusion hu
      have hlt : cdist (getTableSize P dest) h loc < cdist (getTableSize P dest) h v := by
        rcases Nat.lt_or_ge (cdist (getTableSize P dest) h loc) (cdist (getTableSize P dest) h v)
          with h1 | h1
        · exact h1
        · exact absurd (cdist_inj hh hloc hv (le_antisymm hle h1)) hlv
      have hsplit := cdist_split hh hloc hv hle
      by_cases ho : (P.HASH_ORDERED && initPlaceBefore P dest h loc) = true
      · rw [if_pos ho]
        obtain ⟨t1, h1, h2, h3, h4, h5, h6, h7, h8⟩ := pushProbeAt_spec φ P dest loc v (fuel + 1)
          hloc hv hu hvirgin (by
            intro x hx hxlt
            apply hfirst x hx
            rw [cdist_add hh hloc hx (by omega)]
            omega) (by omega)
        refine ⟨t1, loc, by rw [h1]; rfl, hloc, h2, h3, h4, h8, ?_, ?_⟩
        · intro x hxl hux
          apply h6
          rintro ⟨hx, hxle⟩
          have hpos := cdist_pos hloc hx (Ne.symm hxl)
          have := h5 x hx hpos hxle
          unfold isUsed at hux
          rw [this] at hux
          have hp := cdist_prev hloc hx (Ne.symm hxl)
          have := hfirst _ (prev_lt (x := x) hN) (by
            rw [cdist_add hh hloc (prev_lt (x := x) hN) (by omega)]
            omega)
          unfold isUsed at this
          rw [this] at hux
          exact Bool.noConfusion hux
        · intro hmode
          rw [hmode] at ho
          simp at ho
      · rw [if_neg ho]
        have hn := cdist_next hh hloc (by omega)
        exact ih ((loc + 1) % getTableSize P dest) (next_lt hN) (by omega) (by omega)
    · have hu2 : isUsed dest loc = false := by simpa using hu
      simp only [hu2, Bool.false_eq_true, if_false]
      have hlv : loc = v := by
        rcases Nat.lt_or_ge (cdist (getTableSize P dest) h loc) (cdist (getTableSize P dest) h v)
          with h1 | h1
        · rw [hfirst loc hloc h1] at hu2; exact Bool.noConfusion hu2
        · exact cdist_inj hh hloc hv (le_antisymm hle h1)
      exact ⟨dest, loc, rfl, hloc, rfl, rfl, rfl, usedSumExcept_virgin φ dest _ loc hu2,
        fun _ _ _ => rfl, fun _ => ⟨rfl, hlv⟩⟩

/-! ## Rehashing -/

theorem base_empty_false (P : Params K V) (t : Hash K V) (hN : 0 < getTableSize P t) :
    base_empty P t = false := by
  unfold base_empty
  simp only [beq_eq_false_iff_ne, ne_eq]
  omega

/-- `rehash_put(i, dest)` for a used slot `i` of the source and a destination with a
virgin slot: it stops, the key counter of the destination grows by one, the
entry joins every sum over the used slots, slots that are still unused are
untouched and, without ordering, the hash invariant of the destination is
kept. -/
theorem rehash_put_spec (P : Params K V) (fuel : Nat) (src : Hash K V) (i : Nat) (dest : Hash K V)
    (hrange : initPlacesInRange P dest.nativeSize) (hvir : hasVirgin P dest)
    (hfuel : getTableSize P dest < fuel) (hused : isUsed src i = true) :
    ∃ d, rehash_put P fuel src i dest = some d ∧ d.nativeSize = dest.nativeSize ∧
      d.numKeys = dest.numKeys + 1 ∧ d.weightSum = dest.weightSum ∧
      (∀ x, isUsed d x = false → isUsed dest x = false ∧ d.slots x = dest.slots x) ∧
      (P.HASH_ORDERED = false → hashInvariant P dest → hashInvariant P d) ∧
      (∀ (M : Type) [AddCommMonoid M] (φ : K → V → M),
        usedSum φ d (getTableSize P dest) = usedSum φ dest (getTableSize P dest)
          + φ (constRefToKey src i) (constRefToVal src i)) := by
  have hh : P.getInitPlace dest.nativeSize (constRefToKey src i) < getTableSize P dest := hrange _
  have hN : 0 < getTableSize P dest := by omega
  obtain ⟨v, hv, hvirgin, hfirst⟩ := exists_first_virgin (isUsed dest) hh hvir
  have hvN := cdist_lt (a := P.getInitPlace dest.nativeSize (constRefToKey src i)) (b := v) hN
  have hspec := fun (M : Type) [AddCommMonoid M] (φ : K → V → M) =>
    rehashPutLoop_spec φ P dest _ v hh hv hvirgin hfirst fuel _ hh
      (by rw [cdist_self hh]; omega) (by rw [cdist_self hh]; omega)
  obtain ⟨d0, l, hloop, hl, h1, h2, h3, _, h5, h6⟩ := hspec Nat (fun _ _ => 0)
  have hput : rehash_put P fuel src i dest = some (added (d0.setSlot l (src.slots i))) := by
    unfold rehash_put
    rw [base_empty_false P dest hN]
    simp only [Bool.false_eq_true, if_false, hloop]
  refine ⟨_, hput, h1, by show d0.numKeys + 1 = _; rw [h2], h3, ?_, ?_, ?_⟩
  · intro x hx
    by_cases hxl : x = l
    · subst hxl
      simp [isUsed, added] at hx
      unfold isUsed at hused
      rw [hused] at hx
      exact Bool.noConfusion hx
    · have hx0 : isUsed d0 x = false := by
        simpa [isUsed, added, hxl] using hx
      have := h5 x hxl hx0
      refine ⟨?_, ?_⟩
      · unfold isUsed at hx0 ⊢; rw [← this]; exact hx0
      · simp [added, hxl, this]
  · intro hmode hinv
    obtain ⟨hd, hlv⟩ := h6 hmode
    subst hd
    subst hlv
    refine hashInvariant_fill P d0 _ l hrange rfl hl ?_ ?_ ?_ hinv
    · intro x hx; simp [added, hx]
    · simp [isUsed, added]; exact hused
    · intro x hx hlt
      apply hfirst x hx
      have : initPlaceAt P (added (d0.setSlot l (src.slots i))) l
          = P.getInitPlace d0.nativeSize (constRefToKey src i) := by
        simp [initPlaceAt, constRefToKey, added]
      rw [this] at hlt
      exact hlt
  · intro M _ φ
    obtain ⟨d1, l1, hloop1, _, _, _, _, h4, _, _⟩ := hspec M φ
    rw [hloop] at hloop1
    have e := Option.some.inj hloop1
    have e1 : d0 = d1 := congrArg Prod.fst e
    have e2 : l = l1 := congrArg Prod.snd e
    subst e1; subst e2
    have := usedSum_setSlot_except φ d0 (getTableSize P dest) l (src.slots i) hl hused
    rw [h4] at this
    have hadd : usedSum φ (added (d0.setSlot l (src.slots i))) (getTableSize P dest)
        = usedSum φ (d0.setSlot l (src.slots i)) (getTableSize P dest) :=
      usedSum_congr φ _ _ _ (fun _ _ => rfl)
    rw [hadd, this]
    rfl

theorem listUsedSum_cons {M : Type} [AddCommMonoid M] (φ : K → V → M) (t : Hash K V) (i : Nat)
    (l : List Nat) : listUsedSum φ t (i :: l)
      = (if isUsed t i then φ (constRefToKey t i) (constRefToVal t i) else 0)
        + listUsedSum φ t l := by
  simp [listUsedSum]

/-- A copy loop of `rehash` into a destination of native size `n1` that has room
for the used slots of the list: every used slot of the list is copied. -/
theorem rehashCopy_spec (P : Params K V) (fuel : Nat) (src : Hash K V) (check : Bool) (n1 : Nat)
    (hrange : initPlacesInRange P n1) (hfuel : P.sizeForNative n1 < fuel) :
    ∀ (l : List Nat) (dest : Hash K V), dest.nativeSize = n1 →
      (∀ i, i ∈ l → check = false → isUsed src i = true) →
      usedSum (fun _ _ => (1 : Nat)) dest (P.sizeForNative n1)
        + listUsedSum (fun _ _ => (1 : Nat)) src l < P.sizeForNative n1 →
      ∃ d, rehashCopy P fuel src check l dest = some d ∧ d.nativeSize = n1 ∧
        d.numKeys = dest.numKeys + listUsedSum (fun _ _ => (1 : Nat)) src l ∧
        d.weightSum = dest.weightSum ∧
        (∀ x, isUsed d x = false → isUsed dest x = false ∧ d.slots x = dest.slots x) ∧
        (P.HASH_ORDERED = false → hashInvariant P dest → hashInvariant P d) ∧
        (∀ (M : Type) [AddCommMonoid M] (φ : K → V → M),
          usedSum φ d (P.sizeForNative n1) = usedSum φ dest (P.sizeForNative n1)
            + listUsedSum φ src l) := by
  intro l
  induction l with
  | nil =>
    intro dest hn _ _
    refine ⟨dest, rfl, hn, by simp [listUsedSum], rfl, fun _ hx => ⟨hx, rfl⟩, fun _ h => h, ?_⟩
    intro M _ φ
    simp [listUsedSum]
  | cons i rest ih =>
    intro dest hn hall hroom
    unfold rehashCopy
    rw [listUsedSum_cons] at hroom
    by_cases hskip : (check && !isUsed src i) = true
    · rw [if_pos hskip]
      have hui : isUsed src i = false := by
        simp only [Bool.and_eq_true, Bool.not_eq_true'] at hskip
        exact hskip.2
      simp only [hui, Bool.false_eq_true, if_false, zero_add] at hroom
      obtain ⟨d, h1, h2, h3, h4, h5, h6, h7⟩ := ih dest hn
        (fun j hj hc => hall j (List.mem_cons_of_mem _ hj) hc) hroom
      refine ⟨d, h1, h2, ?_, h4, h5, h6, ?_⟩
      · rw [h3, listUsedSum_cons]; simp [hui]
      · intro M _ φ
        rw [h7 M φ, listUsedSum_cons]; simp [hui]
    · rw [if_neg hskip]
      have hui : isUsed src i = true := by
        cases hc : check with
        | false => exact hall i (List.mem_cons_self _ _) hc
        | true =>
          rw [hc] at hskip
          simpa using hskip
      simp only [hui, if_true] at hroom
      have hsz : getTableSize P dest = P.sizeForNative n1 := by unfold getTableSize; rw [hn]
      have hvir : hasVirgin P dest := by
        rw [hasVirgin_iff]; unfold numUsed; rw [hsz]; omega
      obtain ⟨d1, g1, g2, g3, g4, g5, g6, g7⟩ := rehash_put_spec P fuel src i dest
        (by rw [hn]; exact hrange) hvir (by rw [hsz]; exact hfuel) hui
      rw [g1]
      simp only
      have hcount := g7 Nat (fun _ _ => 1)
      rw [hsz] at hcount
      obtain ⟨d, h1, h2, h3, h4, h5, h6, h7⟩ := ih d1 (by rw [g2, hn])
        (fun j hj hc => hall j (List.mem_cons_of_mem _ hj) hc) (by rw [hcount]; omega)
      refine ⟨d, h1, h2, ?_, by rw [h4, g4], ?_, ?_, ?_⟩
      · rw [h3, g3, listUsedSum_cons]; simp [hui]; omega
      · intro x hx
        obtain ⟨a1, a2⟩ := h5 x hx
        obtain ⟨b1, b2⟩ := g5 x a1
        exact ⟨b1, by rw [a2, b2]⟩
      · intro hmode hinv
        exact h6 hmode (g6 hmode hinv)
      · intro M _ φ
        have := g7 M φ
        rw [hsz] at this
        rw [h7 M φ, this, listUsedSum_cons]
        simp only [hui, if_true]
        abel

theorem firstUnusedFrom_spec (t : Hash K V) :
    ∀ n i, (∃ v, i ≤ v ∧ v < i + n ∧ isUsed t v = false) →
      ∃ f, firstUnusedFrom t n i = some f ∧ i ≤ f ∧ f < i + n ∧ isUsed t f = false ∧
        ∀ x, i ≤ x → x < f → isUsed t x = true := by
  intro n
  induction n with
  | zero => rintro i ⟨v, h1, h2, _⟩; omega
  | succ n ih =>
    rintro i ⟨v, h1, h2, h3⟩
    unfold firstUnusedFrom
    by_cases hu : isUsed t i = true
    · rw [if_pos hu]
      have hvi : v ≠ i := by
        intro e; rw [e, hu] at h3; exact Bool.noConfusion h3
      obtain ⟨f, g1, g2, g3, g4, g5⟩ := ih (i + 1) ⟨v, by omega, by omega, h3⟩
      refine ⟨f, g1, by omega, by omega, g4, ?_⟩
      intro x hx1 hx2
      rcases Nat.eq_or_lt_of_le hx1 with e | e
      · rw [← e]; exact hu
      · exact g5 x e hx2
    · rw [if_neg hu]
      exact ⟨i, rfl, le_refl _, by omega, by simpa using hu, fun x a b => by omega⟩

theorem listUsedSum_range' {M : Type} [AddCommMonoid M] (φ : K → V → M) (t : Hash K V) :
    ∀ n a, listUsedSum φ t (List.range' a n) = ∑ k in Finset.range n,
      (if isUsed t (a + k) then φ (constRefToKey t (a + k)) (constRefToVal t (a + k)) else 0) := by
  intro n
  induction n with
  | zero => intro a; simp [listUsedSum]
  | succ n ih =>
    intro a
    rw [List.range'_succ, listUsedSum_cons, ih, Finset.sum_range_succ', add_comm]
    congr 1
    apply Finset.sum_congr rfl
    intro k _
    have : a + 1 + k = a + (k + 1) := by omega
    rw [this]

/-- The two copy loops of `rehash` visit every used slot once. -/
theorem usedSum_split {M : Type} [AddCommMonoid M] (φ : K → V → M) (t : Hash K V) (n f : Nat)
    (hf : f < n) (hvirgin : isUsed t f = false) :
    usedSum φ t n = listUsedSum φ t (List.range' (f + 1) (n - (f + 1)))
      + listUsedSum φ t (List.range' 0 f) := by
  rw [listUsedSum_range', listUsedSum_range', usedSum_eq_sum]
  have hn : n = (f + 1) + (n - (f + 1)) := by omega
  conv_lhs => rw [hn]
  rw [Finset.sum_range_add, Finset.sum_range_succ]
  simp only [hvirgin, Bool.false_eq_true, if_false, add_zero, Nat.zero_add]
  rw [add_comm]

theorem isUsed_newHash (P : Params K V) (s x : Nat) : isUsed (newHash P s) x = false := rfl

theorem usedSum_newHash {M : Type} [AddCommMonoid M] (φ : K → V → M) (P : Params K V)
    (s n : Nat) : usedSum φ (newHash P s) n = 0 := by
  induction n with
  | zero => rfl
  | succ n ih => rw [usedSum, ih, isUsed_newHash]; simp

/-- `rehash(s)` of a table whose key counter is right, into a native size `s` with
more slots than there are entries: it stops; the new table has native size `s`,
the same key counter and `weightSum`, the same entries, fresh unused slots and,
without ordering, it satisfies the hash invariant. -/
theorem rehash_spec (P : Params K V) (fuel : Nat) (t : Hash K V) (s : Nat)
    (hcount : t.numKeys = numUsed P t) (hvir : t.numKeys ≠ 0 → hasVirgin P t)
    (hrange : initPlacesInRange P s) (hroom : numUsed P t < P.sizeForNative s)
    (hfuel : P.sizeForNative s < fuel) :
    ∃ t1, rehash P fuel t s = some t1 ∧ t1.nativeSize = s ∧ t1.numKeys = t.numKeys ∧
      t1.weightSum = t.weightSum ∧
      (∀ x, isUsed t1 x = false →
        t1.slots x = { used := false, key := P.emptyKey, val := P.clearedVal }) ∧
      (P.HASH_ORDERED = false → hashInvariant P t1) ∧
      (∀ (M : Type) [AddCommMonoid M] (φ : K → V → M),
        usedSum φ t1 (P.sizeForNative s) = usedSum φ t (getTableSize P t)) := by
  simp only [rehash]
  have hfreshInv : hashInvariant P (newHash P s) := by
    intro p _ hp
    rw [isUsed_newHash] at hp
    exact Bool.noConfusion hp
  by_cases hz : size t ≠ 0
  · rw [if_pos hz]
    obtain ⟨v, hv, hvirgin⟩ := hvir hz
    obtain ⟨f, g1, _, g3, g4, g5⟩ := firstUnusedFrom_spec t (getTableSize P t) 0
      ⟨v, Nat.zero_le _, by omega, hvirgin⟩
    rw [g1]
    simp only
    have hsplit := usedSum_split (fun _ _ => (1 : Nat)) t (getTableSize P t) f (by omega) g4
    unfold numUsed at hroom hcount
    obtain ⟨d1, a1, a2, a3, a4, a5, a6, a7⟩ := rehashCopy_spec P fuel t true s hrange hfuel
      (List.range' (f + 1) (getTableSize P t - (f + 1))) (newHash P s) rfl
      (fun _ _ hc => Bool.noConfusion hc) (by rw [usedSum_newHash]; omega)
    rw [a1]
    simp only
    have hc1 := a7 Nat (fun _ _ => 1)
    rw [usedSum_newHash] at hc1
    obtain ⟨d2, b1, b2, b3, b4, b5, b6, b7⟩ := rehashCopy_spec P fuel t false s hrange hfuel
      (List.range' 0 f) d1 a2
      (fun i hi _ => g5 i (Nat.zero_le _) (by
        rw [List.mem_range'_1] at hi; omega)) (by rw [hc1]; omega)
    rw [b1]
    refine ⟨_, rfl, b2, ?_, rfl, ?_, ?_, ?_⟩
    · show d2.numKeys = t.numKeys
      rw [b3, a3, hcount, hsplit]
      show 0 + _ + _ = _
      omega
    · intro x hx
      have hx2 : isUsed d2 x = false := hx
      obtain ⟨c1, c2⟩ := b5 x hx2
      obtain ⟨e1, e2⟩ := a5 x c1
      show d2.slots x = _
      rw [c2, e2]; rfl
    · intro hmode
      exact b6 hmode (a6 hmode hfreshInv)
    · intro M _ φ
      have e1 : usedSum φ { d2 with weightSum := t.weightSum } (P.sizeForNative s)
          = usedSum φ d2 (P.sizeForNative s) := usedSum_congr φ _ _ _ (fun _ _ => rfl)
      rw [e1, b7 M φ, a7 M φ, usedSum_newHash, usedSum_split φ t (getTableSize P t) f (by omega) g4,
        zero_add]
  · rw [if_neg hz]
    have hz0 : t.numKeys = 0 := by
      unfold size at hz; omega
    refine ⟨_, rfl, rfl, hz0.symm, rfl, fun _ _ => rfl, fun _ => hfreshInv, ?_⟩
    intro M _ φ
    have e1 : usedSum φ { newHash P s with weightSum := t.weightSum } (P.sizeForNative s)
        = usedSum φ (newHash P s) (P.sizeForNative s) := usedSum_congr φ _ _ _ (fun _ _ => rfl)
    rw [e1, usedSum_newHash]
    unfold numUsed at hcount
    rw [usedSum_zero_of_count φ t _ (by omega)]

/-! ## Insertion -/

/-- `pushProbeAt(loc)` at a slot of the run that starts at `h` and ends at the
virgin slot `v`: besides what `pushProbeAt_spec` tells, the slots that the probe
from `h` passed before `loc` are untouched, and so is every slot that is still
unused. -/
theorem pushProbeAt_in_run {M : Type} [AddCommMonoid M] (φ : K → V → M) (P : Params K V)
    (t : Hash K V) (h loc v fuel : Nat)
    (hh : h < getTableSize P t) (hloc : loc < getTableSize P t) (hv : v < getTableSize P t)
    (hvirgin : isUsed t v = false)
    (hfirst : ∀ x, x < getTableSize P t →
      cdist (getTableSize P t) h x < cdist (getTableSize P t) h v → isUsed t x = true)
    (hlt : cdist (getTableSize P t) h loc < cdist (getTableSize P t) h v)
    (hfuel : cdist (getTableSize P t) h v < cdist (getTableSize P t) h loc + fuel) :
    ∃ t1, pushProbeAt P fuel t loc = some t1 ∧ t1.nativeSize = t.nativeSize ∧
      t1.numKeys = t.numKeys ∧ t1.weightSum = t.weightSum ∧
      usedSumExcept φ t1 (getTableSize P t) loc = usedSum φ t (getTableSize P t) ∧
      (∀ x, x ≠ loc → isUsed t1 x = false → t1.slots x = t.slots x) ∧
      (∀ x, x < getTableSize P t →
        cdist (getTableSize P t) h x < cdist (getTableSize P t) h loc → t1.slots x = t.slots x) ∧
      t1.slots loc = (if P.swaps then t.slots v else t.slots loc) := by
  have hN : 0 < getTableSize P t := by omega
  have hvN := cdist_lt (a := h) (b := v) hN
  have hsplit := cdist_split hh hloc hv (le_of_lt hlt)
  have hu : isUsed t loc = true := hfirst loc hloc hlt
  obtain ⟨t1, h1, h2, h3, h4, h5, h6, h7, h8⟩ := pushProbeAt_spec φ P t loc v fuel
    hloc hv hu hvirgin (by
      intro x hx hxlt
      apply hfirst x hx
      rw [cdist_add hh hloc hx (by omega)]
      omega) (by omega)
  refine ⟨t1, h1, h2, h3, h4, h8, ?_, ?_, h7⟩
  · intro x hxl hux
    apply h6
    rintro ⟨hx, hxle⟩
    have hpos := cdist_pos hloc hx (Ne.symm hxl)
    have := h5 x hx hpos hxle
    unfold isUsed at hux
    rw [this] at hux
    have hp := cdist_prev hloc hx (Ne.symm hxl)
    have := hfirst _ (prev_lt (x := x) hN) (by
      rw [cdist_add hh hloc (prev_lt (x := x) hN) (by omega)]
      omega)
    unfold isUsed at this
    rw [this] at hux
    exact Bool.noConfusion hux
  · intro x hx hxlt
    apply h6
    rintro ⟨_, hxle⟩
    have hxl : x ≠ loc := by
      intro e; rw [e] at hxlt; omega
    have h9 := cdist_split hh hx hloc (le_of_lt hxlt)
    have h10 := cdist_rev hx hloc hxl
    omega

/-- The probe loop of `placeToPut`, started at `initLoc = h` in a table whose first
virgin slot from `h` on is `v`: it stops at a slot `l` of the run; the slots
passed before `l` are untouched and each of them holds the key or does not make
the ordered mode give up; the used slots other than `l` hold what the used slots
held before; without ordering the table is untouched and `l = v`; the payload
found at `l` is the payload of `v` unless an ordered storage that does not swap
has pushed the run. -/
theorem placeToPutLoop_spec [DecidableEq K] {M : Type} [AddCommMonoid M] (φ : K → V → M)
    (P : Params K V) (t : Hash K V) (key : K) (h v : Nat)
    (hh : h < getTableSize P t) (hv : v < getTableSize P t) (hvirgin : isUsed t v = false)
    (hfirst : ∀ x, x < getTableSize P t →
      cdist (getTableSize P t) h x < cdist (getTableSize P t) h v → isUsed t x = true) :
    ∀ fuel loc num, loc < getTableSize P t →
      cdist (getTableSize P t) h loc ≤ cdist (getTableSize P t) h v →
      cdist (getTableSize P t) h v < cdist (getTableSize P t) h loc + fuel →
      (∀ x, x < getTableSize P t →
        cdist (getTableSize P t) h x < cdist (getTableSize P t) h loc →
        key ≠ constRefToKey t x → (P.HASH_ORDERED && initPlaceBefore P t h x) = false) →
      ∃ d l m, placeToPutLoop P key h fuel t loc num = some (d, l, m) ∧ l < getTableSize P t ∧
        d.nativeSize = t.nativeSize ∧ d.numKeys = t.numKeys ∧ d.weightSum = t.weightSum ∧
        cdist (getTableSize P t) h l ≤ cdist (getTableSize P t) h v ∧
        usedSumExcept φ d (getTableSize P t) l = usedSum φ t (getTableSize P t) ∧
        (∀ x, x ≠ l → isUsed d x = false → d.slots x = t.slots x) ∧
        (∀ x, x < getTableSize P t →
          cdist (getTableSize P t) h x < cdist (getTableSize P t) h l →
          d.slots x = t.slots x ∧
          (key ≠ constRefToKey t x → (P.HASH_ORDERED && initPlaceBefore P t h x) = false)) ∧
        (P.HASH_ORDERED = false → d = t ∧ l = v) ∧
        (P.HASH_ORDERED = false ∨ P.swaps = true → (d.slots l).val = (t.slots v).val) := by
  have hN : 0 < getTableSize P t := by omega
  have hvN := cdist_lt (a := h) (b := v) hN
  intro fuel
  induction fuel with
  | zero => intro loc _ _ h1 h2; omega
  | succ fuel ih =>
    intro loc num hloc hle hfuel hpre
    unfold placeToPutLoop
    by_cases hu : isUsed t loc = true
    · simp only [hu, if_true]
      have hlv : loc ≠ v := by
        intro e; rw [e, hvirgin] at hu; exact Bool.noConfusion hu
      have hlt : cdist (getTableSize P t) h loc < cdist (getTableSize P t) h v := by
        rcases Nat.lt_or_ge (cdist (getTableSize P t) h loc) (cdist (getTableSize P t) h v)
          with h1 | h1
        · exact h1
        · exact absurd (cdist_inj hh hloc hv (le_antisymm hle h1)) hlv
      have hn := cdist_next hh hloc (by omega)
      by_cases hk : key = constRefToKey t loc
      · rw [if_pos hk]
        apply ih ((loc + 1) % getTableSize P t) (num + 1) (next_lt hN) (by omega) (by omega)
        intro x hx hxlt hne
        rcases Nat.lt_or_ge (cdist (getTableSize P t) h x) (cdist (getTableSize P t) h loc)
          with h1 | h1
        · exact hpre x hx h1 hne
        · have : x = loc := cdist_inj hh hx hloc (by omega)
          rw [this] at hne
          exact absurd hk hne
      · rw [if_neg hk]
        by_cases ho : (P.HASH_ORDERED && initPlaceBefore P t h loc) = true
        · rw [if_pos ho]
          obtain ⟨t1, h1, h2, h3, h4, h5, h6, h7, h8⟩ := pushProbeAt_in_run φ P t h loc v
            (fuel + 1) hh hloc hv hvirgin hfirst hlt hfuel
          refine ⟨t1, loc, num, by rw [h1]; rfl, hloc, h2, h3, h4, hle, h5, h6,
            fun x hx hxlt => ⟨h7 x hx hxlt, hpre x hx hxlt⟩, ?_, ?_⟩
          · intro hmode
            rw [hmode] at ho
            simp at ho
          · intro hor
            have hsw : P.swaps = true := by
              rcases hor with h9 | h9
              · rw [h9] at ho; simp at ho
              · exact h9
            rw [h8, if_pos hsw]
        · rw [if_neg ho]
          apply ih ((loc + 1) % getTableSize P t) num (next_lt hN) (by omega) (by omega)
          intro x hx hxlt hne
          rcases Nat.lt_or_ge (cdist (getTableSize P t) h x) (cdist (getTableSize P t) h loc)
            with h1 | h1
          · exact hpre x hx h1 hne
          · have : x = loc := cdist_inj hh hx hloc (by omega)
            rw [this]
            simpa using ho
    · have hu2 : isUsed t loc = false := by simpa using hu
      simp only [hu2, Bool.false_eq_true, if_false]
      have hlv : loc = v := by
        rcases Nat.lt_or_ge (cdist (getTableSize P t) h loc) (cdist (getTableSize P t) h v)
          with h1 | h1
        · rw [hfirst loc hloc h1] at hu2; exact Bool.noConfusion hu2
        · exact cdist_inj hh hloc hv (le_antisymm hle h1)
      exact ⟨t, loc, num, rfl, hloc, rfl, rfl, rfl, hle, usedSumExcept_virgin φ t _ loc hu2,
        fun _ _ _ => rfl, fun x hx hxlt => ⟨rfl, hpre x hx hxlt⟩, fun _ => ⟨rfl, hlv⟩,
        fun _ => by rw [hlv]⟩

theorem put_slots (d : Hash K V) (l x : Nat) (key : K) :
    (added (setAsUsed (setKey d l key) l)).slots x
      = if x = l then { used := true, key := key, val := (d.slots l).val } else d.slots x := by
  simp only [added, setAsUsed, setKey, setSlot_slots]
  split_ifs <;> rfl

theorem initPlaceBefore_congr (P : Params K V) (t t1 : Hash K V) (h x : Nat)
    (hn : t1.nativeSize = t.nativeSize) (hs : t1.slots x = t.slots x) :
    initPlaceBefore P t1 h x = initPlaceBefore P t h x := by
  simp only [initPlaceBefore, initPlaceAt, constRefToKey, hn, hs]

/-- The probe loop of `findFrom` finds the key at `l` when the slots it passes
before `l` are used, hold other keys and do not make the ordered mode give up. -/
theorem findFromLoop_hit [DecidableEq K] (P : Params K V) (t : Hash K V) (key : K) (h l : Nat)
    (hh : h < getTableSize P t) (hl : l < getTableSize P t)
    (hpre : ∀ x, x < getTableSize P t →
      cdist (getTableSize P t) h x < cdist (getTableSize P t) h l →
      isUsed t x = true ∧ key ≠ constRefToKey t x ∧
        (P.HASH_ORDERED && initPlaceBefore P t h x) = false)
    (hused : isUsed t l = true) (hkey : key = constRefToKey t l) :
    ∀ fuel loc, loc < getTableSize P t →
      cdist (getTableSize P t) h loc ≤ cdist (getTableSize P t) h l →
      cdist (getTableSize P t) h l < cdist (getTableSize P t) h loc + fuel →
      findFromLoop P t key h fuel loc = some (true, l) := by
  have hN : 0 < getTableSize P t := by omega
  have hlN := cdist_lt (a := h) (b := l) hN
  intro fuel
  induction fuel with
  | zero => intro loc _ h1 h2; omega
  | succ fuel ih =>
    intro loc hloc hle hfuel
    unfold findFromLoop
    rcases Nat.lt_or_ge (cdist (getTableSize P t) h loc) (cdist (getTableSize P t) h l)
      with h1 | h1
    · obtain ⟨a1, a2, a3⟩ := hpre loc hloc h1
      rw [if_pos a1, if_neg a2, a3]
      simp only [Bool.false_eq_true, if_false]
      have hn := cdist_next hh hloc (by omega)
      exact ih ((loc + 1) % getTableSize P t) (next_lt hN) (by omega) (by omega)
    · have : loc = l := cdist_inj hh hloc hl (le_antisymm hle h1)
      subst this
      rw [if_pos hused, if_pos hkey]

/-- Writing `key` into the slot `l` at which a probe from the initial place `h` of
the key has stopped (possibly after a push that produced `d`), and marking it
used, inserts the key. -/
theorem write_spec [DecidableEq K] (P : Params K V) (t d : Hash K V) (key : K) (l v : Nat)
    (hrange : initPlacesInRange P t.nativeSize)
    (hv : v < getTableSize P t) (hvirgin : isUsed t v = false)
    (hfirst : ∀ x, x < getTableSize P t →
      cdist (getTableSize P t) (P.getInitPlace t.nativeSize key) x
        < cdist (getTableSize P t) (P.getInitPlace t.nativeSize key) v → isUsed t x = true)
    (hl : l < getTableSize P t) (h1 : d.nativeSize = t.nativeSize) (h2 : d.numKeys = t.numKeys)
    (h3 : d.weightSum = t.weightSum)
    (hle : cdist (getTableSize P t) (P.getInitPlace t.nativeSize key) l
      ≤ cdist (getTableSize P t) (P.getInitPlace t.nativeSize key) v)
    (h4 : ∀ (M : Type) [AddCommMonoid M] (φ : K → V → M),
      usedSumExcept φ d (getTableSize P t) l = usedSum φ t (getTableSize P t))
    (h5 : ∀ x, x ≠ l → isUsed d x = false → d.slots x = t.slots x)
    (h6 : ∀ x, x < getTableSize P t →
      cdist (getTableSize P t) (P.getInitPlace t.nativeSize key) x
        < cdist (getTableSize P t) (P.getInitPlace t.nativeSize key) l →
      d.slots x = t.slots x ∧ (key ≠ constRefToKey t x →
        (P.HASH_ORDERED && initPlaceBefore P t (P.getInitPlace t.nativeSize key) x) = false))
    (h7 : P.HASH_ORDERED = false → d = t ∧ l = v)
    (h8 : P.HASH_ORDERED = false ∨ P.swaps = true → (d.slots l).val = (t.slots v).val) :
    Inserted P t key (added (setAsUsed (setKey d l key) l)) l := by
  have hh : P.getInitPlace t.nativeSize key < getTableSize P t := hrange key
  have hN : 0 < getTableSize P t := by omega
  have hvN := cdist_lt (a := P.getInitPlace t.nativeSize key) (b := v) hN
  have hsl := put_slots d l
  have hnat : (added (setAsUsed (setKey d l key) l)).nativeSize = t.nativeSize := h1
  have hsz : getTableSize P (added (setAsUsed (setKey d l key) l)) = getTableSize P t := by
    unfold getTableSize; rw [hnat]
  have hframe : ∀ x, isUsed (added (setAsUsed (setKey d l key) l)) x = false →
      isUsed t x = false ∧ (added (setAsUsed (setKey d l key) l)).slots x = t.slots x := by
    intro x hx
    by_cases hxl : x = l
    · rw [hxl] at hx; simp [isUsed, hsl] at hx
    · have hx0 : isUsed d x = false := by simpa [isUsed, hsl, hxl] using hx
      have := h5 x hxl hx0
      refine ⟨?_, ?_⟩
      · unfold isUsed at hx0 ⊢; rw [← this]; exact hx0
      · rw [hsl, if_neg hxl, this]
  refine ⟨by rw [hsz]; exact hl, ?_, ?_, by show d.numKeys + 1 = _; rw [h2], h3, ?_, ?_, ?_, ?_,
    ?_, by rw [hnat]; exact hrange⟩
  · simp [isUsed, hsl]
  · simp [constRefToKey, hsl]
  · intro M _ φ
    have := usedSum_setSlot_except φ d (getTableSize P t) l
      { used := true, key := key, val := (d.slots l).val } hl rfl
    rw [h4 M φ] at this
    have hcongr : usedSum φ (added (setAsUsed (setKey d l key) l)) (getTableSize P t)
        = usedSum φ (d.setSlot l { used := true, key := key, val := (d.slots l).val })
          (getTableSize P t) :=
      usedSum_congr φ _ _ _ (fun x _ => by rw [hsl]; rfl)
    rw [hsz, hcongr, this]
    simp [constRefToVal, hsl]
  · intro hor hclr
    simp only [constRefToVal, hsl, if_true]
    rw [h8 hor]
    exact hclr v hv hvirgin
  · intro hclr x hx hux
    rw [hsz] at hx
    obtain ⟨a1, a2⟩ := hframe x hux
    unfold constRefToVal
    rw [a2]
    exact hclr x hx a1
  · intro hmode hinv
    obtain ⟨hd, hlv⟩ := h7 hmode
    subst hd
    subst hlv
    refine hashInvariant_fill P d _ l hrange rfl hl ?_ ?_ ?_ hinv
    · intro x hx; rw [hsl, if_neg hx]
    · simp [isUsed, hsl]
    · intro x hx hlt
      apply hfirst x hx
      have : initPlaceAt P (added (setAsUsed (setKey d l key) l)) l
          = P.getInitPlace d.nativeSize key := by
        simp [initPlaceAt, constRefToKey, hsl]; rfl
      rw [this] at hlt
      exact hlt
  · intro habs loc0 fuel1 hfuel1
    rw [hsz] at hfuel1
    unfold findFirst findFrom
    rw [base_empty_false P _ (by rw [hsz]; exact hN)]
    simp only [Bool.false_eq_true, if_false]
    rw [hnat]
    apply findFromLoop_hit P _ key _ l (by rw [hsz]; exact hh) (by rw [hsz]; exact hl)
    · intro x hx hxlt
      rw [hsz] at hx hxlt
      have hxl : x ≠ l := by
        intro e; rw [e] at hxlt; omega
      obtain ⟨b1, b2⟩ := h6 x hx hxlt
      have hsx : (added (setAsUsed (setKey d l key) l)).slots x = t.slots x := by
        rw [hsl, if_neg hxl, b1]
      have hux : isUsed t x = true := hfirst x hx (by omega)
      have hkx : key ≠ constRefToKey t x := by
        intro e
        exact habs ⟨x, hx, hux, e.symm⟩
      refine ⟨?_, ?_, ?_⟩
      · unfold isUsed; rw [hsx]; exact hux
      · unfold constRefToKey; rw [hsx]; exact hkx
      · rw [initPlaceBefore_congr P t _ _ x hnat hsx]
        exact b2 hkx
    · simp [isUsed, hsl]
    · simp [constRefToKey, hsl]
    · rw [hsz]; exact hh
    · rw [hsz, cdist_self hh]; omega
    · rw [hsz, cdist_self hh]
      have := cdist_lt (a := P.getInitPlace t.nativeSize key) (b := l) hN
      omega

/-- Placement of `key` in a table that has a virgin slot (the part of `placeToPut`
that follows the growth check): the probe loop stops at a slot `l`, and writing
the key there inserts it; without ordering the slot is the first virgin slot of
the probe sequence and no other slot changes. -/
theorem place_spec [DecidableEq K] (P : Params K V) (t : Hash K V) (key : K) (fuel : Nat)
    (hrange : initPlacesInRange P t.nativeSize) (hvir : hasVirgin P t)
    (hfuel : getTableSize P t < fuel) :
    ∃ d l m, placeToPutLoop P key (P.getInitPlace t.nativeSize key) fuel t
        (P.getInitPlace t.nativeSize key) 0 = some (d, l, m) ∧
      Inserted P t key (added (setAsUsed (setKey d l key) l)) l ∧
      d.nativeSize = t.nativeSize ∧
      (P.HASH_ORDERED = false → isUsed t l = false ∧ d = t ∧
        ∀ x, x < getTableSize P t →
          cdist (getTableSize P t) (P.getInitPlace t.nativeSize key) x
            < cdist (getTableSize P t) (P.getInitPlace t.nativeSize key) l →
          isUsed t x = true) := by
  have hh : P.getInitPlace t.nativeSize key < getTableSize P t := hrange key
  have hN : 0 < getTableSize P t := by omega
  obtain ⟨v, hv, hvirgin, hfirst⟩ := exists_first_virgin (isUsed t) hh hvir
  have hvN := cdist_lt (a := P.getInitPlace t.nativeSize key) (b := v) hN
  have hspec := fun (M : Type) [AddCommMonoid M] (φ : K → V → M) =>
    placeToPutLoop_spec φ P t key _ v hh hv hvirgin hfirst fuel _ 0 hh
      (by rw [cdist_self hh]; omega) (by rw [cdist_self hh]; omega)
      (by intro x _ hlt; rw [cdist_self hh] at hlt; omega)
  obtain ⟨d, l, m, hloop, hl, h1, h2, h3, hle, _, h5, h6, h7, h8⟩ := hspec Nat (fun _ _ => 0)
  refine ⟨d, l, m, hloop, ?_, h1, ?_⟩
  · refine write_spec P t d key l v hrange hv hvirgin hfirst hl h1 h2 h3 hle ?_ h5 h6 h7 h8
    intro M _ φ
    obtain ⟨d1, l1, m1, hloop1, _, _, _, _, _, h4, _, _, _, _⟩ := hspec M φ
    rw [hloop] at hloop1
    have e := Option.some.inj hloop1
    have e1 : d = d1 := congrArg Prod.fst e
    have e2 : l = l1 := congrArg (fun q => q.2.1) e
    subst e1; subst e2
    exact h4
  · intro hmode
    obtain ⟨hd, hlv⟩ := h7 hmode
    subst hd
    subst hlv
    exact ⟨hvirgin, rfl, hfirst⟩

/-! ## More fuel does not change a result -/

theorem pushProbeFind_mono (P : Params K V) (t : Hash K V) :
    ∀ fuel fuel1 i r, fuel ≤ fuel1 → pushProbeFind P t fuel i = some r →
      pushProbeFind P t fuel1 i = some r := by
  intro fuel
  induction fuel with
  | zero => intro fuel1 i r _ h; simp [pushProbeFind] at h
  | succ fuel ih =>
    intro fuel1 i r hle h
    cases fuel1 with
    | zero => omega
    | succ fuel1 =>
      unfold pushProbeFind at h ⊢
      split_ifs at h ⊢ with hu
      · exact ih fuel1 _ r (by omega) h
      · exact h

theorem pushProbeShift_mono (P : Params K V) (loc : Nat) :
    ∀ fuel fuel1 (t : Hash K V) i prev r, fuel ≤ fuel1 →
      pushProbeShift P loc fuel t i prev = some r →
      pushProbeShift P loc fuel1 t i prev = some r := by
  intro fuel
  induction fuel with
  | zero => intro fuel1 t i prev r _ h; simp [pushProbeShift] at h
  | succ fuel ih =>
    intro fuel1 t i prev r hle h
    cases fuel1 with
    | zero => omega
    | succ fuel1 =>
      unfold pushProbeShift at h ⊢
      split_ifs at h ⊢ with hu
      · exact ih fuel1 _ _ _ r (by omega) h
      · exact h

theorem pushProbeAt_mono (P : Params K V) (fuel fuel1 : Nat) (t : Hash K V) (loc : Nat)
    (r : Hash K V) (hle : fuel ≤ fuel1) (h : pushProbeAt P fuel t loc = some r) :
    pushProbeAt P fuel1 t loc = some r := by
  unfold pushProbeAt at h ⊢
  cases hf : pushProbeFind P t fuel loc with
  | none => rw [hf] at h; exact Option.noConfusion h
  | some i =>
    rw [hf] at h
    rw [pushProbeFind_mono P t fuel fuel1 loc i hle hf]
    exact pushProbeShift_mono P loc fuel fuel1 t i _ r hle h

theorem removeFromLoop_mono (P : Params K V) :
    ∀ fuel fuel1 (t : Hash K V) g c r, fuel ≤ fuel1 → removeFromLoop P fuel t g c = some r →
      removeFromLoop P fuel1 t g c = some r := by
  intro fuel
  induction fuel with
  | zero => intro fuel1 t g c r _ h; simp [removeFromLoop] at h
  | succ fuel ih =>
    intro fuel1 t g c r hle h
    cases fuel1 with
    | zero => omega
    | succ fuel1 =>
      simp only [removeFromLoop] at h ⊢
      split_ifs at h ⊢
      · exact ih fuel1 _ _ _ r (by omega) h
      · exact ih fuel1 _ _ _ r (by omega) h
      · exact h

theorem removeFrom_mono (P : Params K V) (fuel fuel1 : Nat) (t : Hash K V) (s : Nat)
    (r : Hash K V) (hle : fuel ≤ fuel1) (h : removeFrom P fuel t s = some r) :
    removeFrom P fuel1 t s = some r := by
  unfold removeFrom at h ⊢
  simp only at h ⊢
  cases hf : removeFromLoop P fuel (removed (remove_stage_1 P t s)) s (getNextPlace P t s) with
  | none => rw [hf] at h; exact Option.noConfusion h
  | some q =>
    rw [hf] at h
    rw [removeFromLoop_mono P fuel fuel1 _ _ _ q hle hf]
    exact h

theorem findFromLoop_mono [DecidableEq K] (P : Params K V) (t : Hash K V) (key : K)
    (initLoc : Nat) :
    ∀ fuel fuel1 loc r, fuel ≤ fuel1 → findFromLoop P t key initLoc fuel loc = some r →
      findFromLoop P t key initLoc fuel1 loc = some r := by
  intro fuel
  induction fuel with
  | zero => intro fuel1 loc r _ h; simp [findFromLoop] at h
  | succ fuel ih =>
    intro fuel1 loc r hle h
    cases fuel1 with
    | zero => omega
    | succ fuel1 =>
      unfold findFromLoop at h ⊢
      split_ifs at h ⊢
      · exact h
      · exact h
      · exact ih fuel1 _ r (by omega) h
      · exact h

theorem findFirst_mono [DecidableEq K] (P : Params K V) (fuel fuel1 : Nat) (t : Hash K V)
    (key : K) (loc0 : Nat) (r : Bool × Nat) (hle : fuel ≤ fuel1)
    (h : findFirst P fuel t key loc0 = some r) : findFirst P fuel1 t key loc0 = some r := by
  unfold findFirst findFrom at h ⊢
  split_ifs at h ⊢
  · exact h
  · exact findFromLoop_mono P t key _ fuel fuel1 _ r hle h

theorem rehashPutLoop_mono (P : Params K V) (initLoc : Nat) :
    ∀ fuel fuel1 (dest : Hash K V) loc r, fuel ≤ fuel1 →
      rehashPutLoop P initLoc fuel dest loc = some r →
      rehashPutLoop P initLoc fuel1 dest loc = some r := by
  intro fuel
  induction fuel with
  | zero => intro fuel1 dest loc r _ h; simp [rehashPutLoop] at h
  | succ fuel ih =>
    intro fuel1 dest loc r hle h
    cases fuel1 with
    | zero => omega
    | succ fuel1 =>
      unfold rehashPutLoop at h ⊢
      split_ifs at h ⊢
      · cases hp : pushProbeAt P (fuel + 1) dest loc with
        | none => rw [hp] at h; exact Option.noConfusion h
        | some q =>
          rw [hp] at h
          rw [pushProbeAt_mono P (fuel + 1) (fuel1 + 1) dest loc q hle hp]
          exact h
      · exact ih fuel1 _ _ r (by omega) h
      · exact h

theorem rehash_put_mono (P : Params K V) (fuel fuel1 : Nat) (src : Hash K V) (i : Nat)
    (dest r : Hash K V) (hle : fuel ≤ fuel1) (h : rehash_put P fuel src i dest = some r) :
    rehash_put P fuel1 src i dest = some r := by
  unfold rehash_put at h ⊢
  split_ifs at h ⊢
  simp only at h ⊢
  cases hp : rehashPutLoop P (P.getInitPlace dest.nativeSize (constRefToKey src i)) fuel dest
      (P.getInitPlace dest.nativeSize (constRefToKey src i)) with
  | none => rw [hp] at h; exact Option.noConfusion h
  | some q =>
    rw [hp] at h
    rw [rehashPutLoop_mono P _ fuel fuel1 dest _ q hle hp]
    exact h

theorem rehashCopy_mono (P : Params K V) (fuel fuel1 : Nat) (src : Hash K V) (check : Bool)
    (hle : fuel ≤ fuel1) :
    ∀ (l : List Nat) (dest r : Hash K V), rehashCopy P fuel src check l dest = some r →
      rehashCopy P fuel1 src check l dest = some r := by
  intro l
  induction l with
  | nil => intro dest r h; exact h
  | cons i rest ih =>
    intro dest r h
    unfold rehashCopy at h ⊢
    split_ifs at h ⊢
    · exact ih dest r h
    · cases hp : rehash_put P fuel src i dest with
      | none => rw [hp] at h; exact Option.noConfusion h
      | some q =>
        rw [hp] at h
        rw [rehash_put_mono P fuel fuel1 src i dest q hle hp]
        exact ih q r h

theorem rehash_mono (P : Params K V) (fuel fuel1 : Nat) (t : Hash K V) (s : Nat) (r : Hash K V)
    (hle : fuel ≤ fuel1) (h : rehash P fuel t s = some r) : rehash P fuel1 t s = some r := by
  simp only [rehash] at h ⊢
  split_ifs at h ⊢
  · cases hf : firstUnusedFrom t (getTableSize P t) 0 with
    | none => rw [hf] at h; exact Option.noConfusion h
    | some f =>
      rw [hf] at h
      simp only at h ⊢
      cases hc : rehashCopy P fuel t true (List.range' (f + 1) (getTableSize P t - (f + 1)))
          (newHash P s) with
      | none => rw [hc] at h; exact Option.noConfusion h
      | some d1 =>
        rw [hc] at h
        rw [rehashCopy_mono P fuel fuel1 t true hle _ _ d1 hc]
        simp only at h ⊢
        cases hc2 : rehashCopy P fuel t false (List.range' 0 f) d1 with
        | none => rw [hc2] at h; exact Option.noConfusion h
        | some d2 =>
          rw [hc2] at h
          rw [rehashCopy_mono P fuel fuel1 t false hle _ _ d2 hc2]
          exact h
  · exact h

theorem trim_mono (P : Params K V) (fuel fuel1 : Nat) (t r : Hash K V) (hle : fuel ≤ fuel1)
    (h : trim P fuel t = some r) : trim P fuel1 t = some r := by
  unfold trim at h ⊢
  cases ht : P.trim t.nativeSize t.numKeys with
  | none => rw [ht] at h; exact h
  | some s => rw [ht] at h; exact rehash_mono P fuel fuel1 t s r hle h

theorem placeToPutLoop_mono [DecidableEq K] (P : Params K V) (key : K) (initLoc : Nat) :
    ∀ fuel fuel1 (t : Hash K V) loc num r, fuel ≤ fuel1 →
      placeToPutLoop P key initLoc fuel t loc num = some r →
      placeToPutLoop P key initLoc fuel1 t loc num = some r := by
  intro fuel
  induction fuel with
  | zero => intro fuel1 t loc num r _ h; simp [placeToPutLoop] at h
  | succ fuel ih =>
    intro fuel1 t loc num r hle h
    cases fuel1 with
    | zero => omega
    | succ fuel1 =>
      unfold placeToPutLoop at h ⊢
      split_ifs at h ⊢
      · exact ih fuel1 _ _ _ r (by omega) h
      · cases hp : pushProbeAt P (fuel + 1) t loc with
        | none => rw [hp] at h; exact Option.noConfusion h
        | some q =>
          rw [hp] at h
          rw [pushProbeAt_mono P (fuel + 1) (fuel1 + 1) t loc q hle hp]
          exact h
      · exact ih fuel1 _ _ _ r (by omega) h
      · exact h

theorem placeToPut_mono [DecidableEq K] (P : Params K V) (fuel fuel1 : Nat) (t : Hash K V)
    (key : K) (r : Hash K V × Nat × Nat) (hle : fuel ≤ fuel1)
    (h : placeToPut P fuel t key = some r) : placeToPut P fuel1 t key = some r := by
  simp only [placeToPut] at h ⊢
  have hg : ∀ g, (match P.aboutToPut t.nativeSize t.numKeys with
      | some oldSize => rehash P fuel t oldSize
      | none => some t) = some g →
      (match P.aboutToPut t.nativeSize t.numKeys with
      | some oldSize => rehash P fuel1 t oldSize
      | none => some t) = some g := by
    intro g hg
    cases ha : P.aboutToPut t.nativeSize t.numKeys with
    | none => rw [ha] at hg; exact hg
    | some s => rw [ha] at hg; exact rehash_mono P fuel fuel1 t s g hle hg
  cases hgr : (match P.aboutToPut t.nativeSize t.numKeys with
      | some oldSize => rehash P fuel t oldSize
      | none => some t) with
  | none => rw [hgr] at h; exact Option.noConfusion h
  | some g =>
    rw [hgr] at h
    rw [hg g hgr]
    simp only at h ⊢
    split_ifs at h ⊢
    cases hl : placeToPutLoop P key (P.getInitPlace g.nativeSize key) fuel g
        (P.getInitPlace g.nativeSize key) 0 with
    | none => rw [hl] at h; exact Option.noConfusion h
    | some q =>
      rw [hl] at h
      rw [placeToPutLoop_mono P key _ fuel fuel1 g _ 0 q hle hl]
      exact h

theorem forcedFind_mono [DecidableEq K] (P : Params K V) (fuel fuel1 : Nat) (t : Hash K V)
    (key : K) (loc0 : Nat) (r : Hash K V × Nat × Bool) (hle : fuel ≤ fuel1)
    (h : forcedFind P fuel t key loc0 = some r) : forcedFind P fuel1 t key loc0 = some r := by
  simp only [forcedFind] at h ⊢
  cases hf : findFirst P fuel t key loc0 with
  | none => rw [hf] at h; exact Option.noConfusion h
  | some q =>
    rw [hf] at h
    rw [findFirst_mono P fuel fuel1 t key loc0 q hle hf]
    obtain ⟨b, loc⟩ := q
    cases b with
    | true => exact h
    | false =>
      simp only at h ⊢
      cases ha : P.aboutToPut t.nativeSize t.numKeys with
      | some s =>
        rw [ha] at h
        simp only at h ⊢
        cases hr : rehash P fuel t s with
        | none => rw [hr] at h; exact Option.noConfusion h
        | some t1 =>
          rw [hr] at h
          rw [rehash_mono P fuel fuel1 t s t1 hle hr]
          simp only at h ⊢
          cases hp : placeToPut P fuel t1 key with
          | none => rw [hp] at h; exact Option.noConfusion h
          | some q2 =>
            rw [hp] at h
            rw [placeToPut_mono P fuel fuel1 t1 key q2 hle hp]
            exact h
      | none =>
        rw [ha] at h
        simp only at h ⊢
        split_ifs at h ⊢ with hb ho
        · cases hp : pushProbeAt P fuel t loc with
          | none => rw [hp] at h; exact Option.noConfusion h
          | some q2 =>
            rw [hp] at h
            rw [pushProbeAt_mono P fuel fuel1 t loc q2 hle hp]
            exact h
        · exact h

theorem remove_mono [DecidableEq K] (P : Params K V) (fuel fuel1 : Nat) (t : Hash K V)
    (key : K) (r : Bool × Hash K V) (hle : fuel ≤ fuel1)
    (h : remove P fuel t key = some r) : remove P fuel1 t key = some r := by
  simp only [remove] at h ⊢
  cases hf : findFirst P fuel t key 0 with
  | none => rw [hf] at h; exact Option.noConfusion h
  | some q =>
    rw [hf] at h
    rw [findFirst_mono P fuel fuel1 t key 0 q hle hf]
    obtain ⟨b, loc⟩ := q
    cases b with
    | false => exact h
    | true =>
      simp only at h ⊢
      cases hr : removeFrom P fuel t loc with
      | none => rw [hr] at h; exact Option.noConfusion h
      | some t1 =>
        rw [hr] at h
        rw [removeFrom_mono P fuel fuel1 t loc t1 hle hr]
        simp only at h ⊢
        cases ht : trim P fuel t1 with
        | none => rw [ht] at h; simp at h
        | some t2 =>
          rw [ht] at h
          rw [trim_mono P fuel fuel1 t1 t2 hle ht]
          exact h

/-! ## Insertion with growth -/

theorem stored_iff_sum [DecidableEq K] (t : Hash K V) (k : K) (n : Nat) :
    (∃ p, p < n ∧ isUsed t p = true ∧ constRefToKey t p = k) ↔
      0 < usedSum (fun k1 _ => if k1 = k then (1 : Nat) else 0) t n := by
  induction n with
  | zero => simp [usedSum]
  | succ n ih =>
    rw [usedSum]
    constructor
    · rintro ⟨p, hp, hu, hk⟩
      rcases Nat.lt_or_ge p n with h | h
      · have := ih.1 ⟨p, h, hu, hk⟩
        omega
      · have : p = n := by omega
        subst this
        rw [if_pos hu, if_pos hk]
        omega
    · intro h
      by_cases h1 : 0 < usedSum (fun k1 _ => if k1 = k then (1 : Nat) else 0) t n
      · obtain ⟨p, hp, hu, hk⟩ := ih.2 h1
        exact ⟨p, by omega, hu, hk⟩
      · refine ⟨n, by omega, ?_, ?_⟩
        · by_contra hu
          rw [if_neg hu] at h
          omega
        · by_contra hk
          split_ifs at h <;> omega

/-- Tables with the same sums over the used slots store the same keys. -/
theorem stored_of_sums [DecidableEq K] (P : Params K V) (t t1 : Hash K V) (k : K)
    (hs : ∀ (M : Type) [AddCommMonoid M] (φ : K → V → M),
      usedSum φ t1 (getTableSize P t1) = usedSum φ t (getTableSize P t)) :
    stored P t1 k ↔ stored P t k := by
  unfold stored
  rw [stored_iff_sum, stored_iff_sum, hs]

theorem numUsed_le (P : Params K V) (t : Hash K V) : numUsed P t ≤ getTableSize P t :=
  usedSum_one_le t _

/-- An insertion raises the number of used slots by one. -/
theorem Inserted.numUsed [DecidableEq K] {P : Params K V} {t t1 : Hash K V} {key : K} {l : Nat}
    (h : Inserted P t key t1 l) : numUsed P t1 = numUsed P t + 1 :=
  h.sums Nat (fun _ _ => 1)

/-- An insertion into a rehashed copy of a table is an insertion into the table. -/
theorem Inserted.of_rehash [DecidableEq K] {P : Params K V} {t t1 t2 : Hash K V} {key : K}
    {l : Nat} (h : Inserted P t1 key t2 l)
    (h1 : t1.numKeys = t.numKeys) (h2 : t1.weightSum = t.weightSum)
    (h3 : ∀ x, isUsed t1 x = false →
      t1.slots x = { used := false, key := P.emptyKey, val := P.clearedVal })
    (h4 : P.HASH_ORDERED = false → hashInvariant P t1)
    (h5 : ∀ (M : Type) [AddCommMonoid M] (φ : K → V → M),
      usedSum φ t1 (getTableSize P t1) = usedSum φ t (getTableSize P t)) :
    Inserted P t key t2 l := by
  have hclr : virginCleared P t1 := by
    intro x _ hx
    unfold constRefToVal
    rw [h3 x hx]
  refine ⟨h.loc_lt, h.used, h.key_eq, by rw [h.numKeys, h1], by rw [h.weightSum, h2], ?_,
    fun hor _ => h.cleared hor hclr, fun _ => h.virgins hclr, fun hm _ => h.hash hm (h4 hm), ?_,
    h.range⟩
  · intro M _ φ
    rw [h.sums M φ, h5 M φ]
  · intro habs
    exact h.found (fun hs => habs ((stored_of_sums P t t1 key h5).1 hs))

/-- `placeToPut(key)` on a table whose key counter is right and that is not full,
under a controller that keeps the table from filling up: it stops, with or
without a rehash, and inserts the key; the table still has a virgin slot. -/
theorem placeToPut_spec [DecidableEq K] (P : Params K V) (t : Hash K V) (key : K) (fuel : Nat)
    (hsafe : controllerSafe P) (hcount : t.numKeys = numUsed P t)
    (halloc : getTableSize P t = 0 ∨ (initPlacesInRange P t.nativeSize ∧ hasVirgin P t))
    (hfuel : getTableSize P t < fuel)
    (hfuel1 : ∀ s, P.aboutToPut t.nativeSize t.numKeys = some s → P.sizeForNative s < fuel) :
    ∃ t1 l m, placeToPut P fuel t key = some (t1, l, m) ∧ Inserted P t key t1 l ∧
      hasVirgin P t1 ∧
      t1.nativeSize = (P.aboutToPut t.nativeSize t.numKeys).getD t.nativeSize := by
  obtain ⟨hs1, hs2, _⟩ := hsafe
  have hm : t.numKeys ≤ P.sizeForNative t.nativeSize := by
    rw [hcount]; exact numUsed_le P t
  simp only [placeToPut]
  cases ha : P.aboutToPut t.nativeSize t.numKeys with
  | some s =>
    obtain ⟨hr, hroom⟩ := hs1 _ _ s hm ha
    obtain ⟨t1, g1, g2, g3, g4, g5, g6, g7⟩ := rehash_spec P fuel t s hcount
      (by
        intro hne
        rcases halloc with h0 | ⟨_, hv⟩
        · have := numUsed_le P t
          omega
        · exact hv)
      hr (by rw [← hcount]; omega) (hfuel1 s ha)
    have hsz1 : getTableSize P t1 = P.sizeForNative s := by unfold getTableSize; rw [g2]
    have hvir1 : hasVirgin P t1 := by
      rw [hasVirgin_iff, hsz1]
      have := g7 Nat (fun _ _ => 1)
      unfold numUsed
      rw [hsz1, this]
      unfold numUsed at hcount
      omega
    obtain ⟨d, l, m, hloop, hins, hdn, _⟩ := place_spec P t1 key fuel (by rw [g2]; exact hr) hvir1
      (by rw [hsz1]; exact hfuel1 s ha)
    have hins2 := hins.of_rehash g3 g4 g5 g6 (by intro M _ φ; rw [hsz1]; exact g7 M φ)
    have hn2 : (added (setAsUsed (setKey d l key) l)).nativeSize = s := by
      show d.nativeSize = s
      rw [hdn, g2]
    refine ⟨_, l, m, ?_, hins2, ?_, ?_⟩
    · simp only [g1, base_empty_false P t1 (by rw [hsz1]; omega), Bool.false_eq_true, if_false,
        hloop]
    · rw [hasVirgin_iff, hins2.numUsed]
      unfold getTableSize
      rw [hn2, ← hcount]
      exact hroom
    · rw [hn2]; rfl
  | none =>
    have hroom := hs2 _ _ hm ha
    have hN : 0 < getTableSize P t := by unfold getTableSize; omega
    rcases halloc with h0 | ⟨hr, hv⟩
    · omega
    · obtain ⟨d, l, m, hloop, hins, hdn, _⟩ := place_spec P t key fuel hr hv hfuel
      have hn2 : (added (setAsUsed (setKey d l key) l)).nativeSize = t.nativeSize := hdn
      refine ⟨_, l, m, ?_, hins, ?_, ?_⟩
      · simp only [base_empty_false P t hN, Bool.false_eq_true, if_false, hloop]
      · rw [hasVirgin_iff, hins.numUsed]
        unfold getTableSize
        rw [hn2, ← hcount]
        exact hroom
      · rw [hn2]; rfl

/-- The growth branch of `forcedFind`: `rehash(newSize)` followed by `placeToPut`. -/
theorem forcedFind_grow [DecidableEq K] (P : Params K V) (t : Hash K V) (key : K) (fuel s : Nat)
    (hsafe : controllerSafe P) (hcount : t.numKeys = numUsed P t)
    (halloc : getTableSize P t = 0 ∨ (initPlacesInRange P t.nativeSize ∧ hasVirgin P t))
    (ha : P.aboutToPut t.nativeSize t.numKeys = some s)
    (hfuel1 : P.sizeForNative s < fuel)
    (hfuel2 : ∀ s2, P.aboutToPut s t.numKeys = some s2 → P.sizeForNative s2 < fuel) :
    ∃ t2 l, (match rehash P fuel t s with
        | none => none
        | some t1 =>
          match placeToPut P fuel t1 key with
          | none => none
          | some (t2, loc2, _) => some (t2, loc2, false)) = some (t2, l, false) ∧
      Inserted P t key t2 l ∧ hasVirgin P t2 ∧
      t2.nativeSize = (P.aboutToPut s t.numKeys).getD s := by
  have hm : t.numKeys ≤ P.sizeForNative t.nativeSize := by
    rw [hcount]; exact numUsed_le P t
  obtain ⟨hr, hroom⟩ := hsafe.1 _ _ s hm ha
  obtain ⟨t1, g1, g2, g3, g4, g5, g6, g7⟩ := rehash_spec P fuel t s hcount
    (by
      intro hne
      rcases halloc with h0 | ⟨_, hv⟩
      · have := numUsed_le P t
        omega
      · exact hv)
    hr (by rw [← hcount]; omega) hfuel1
  have hsz1 : getTableSize P t1 = P.sizeForNative s := by unfold getTableSize; rw [g2]
  have hnu1 : numUsed P t1 = numUsed P t := by
    have := g7 Nat (fun _ _ => 1)
    unfold numUsed
    rw [hsz1, this]
  have hvir1 : hasVirgin P t1 := by
    rw [hasVirgin_iff, hsz1, hnu1, ← hcount]; omega
  obtain ⟨t2, l, m, hput, hins, hvir2, hn2⟩ := placeToPut_spec P t1 key fuel hsafe
    (by rw [g3, hnu1, hcount]) (Or.inr ⟨by rw [g2]; exact hr, hvir1⟩) (by rw [hsz1]; exact hfuel1)
    (by rw [g2, g3]; exact hfuel2)
  refine ⟨t2, l, ?_, hins.of_rehash g3 g4 g5 g6 (by intro M _ φ; rw [hsz1]; exact g7 M φ), hvir2,
    by rw [hn2, g2, g3]⟩
  simp only [g1, hput]

/-- `forcedFind(key)` on a table whose key counter is right and that is not full,
under a controller that keeps the table from filling up: it stops; when
`findFirst` finds the key the table is returned as it is, with the slot of the
key; otherwise the key is inserted, after a rehash if the controller asks for
one, and the table still has a virgin slot. -/
theorem forcedFind_spec [DecidableEq K] (P : Params K V) (t : Hash K V) (key : K)
    (loc0 fuel : Nat) (hsafe : controllerSafe P) (hcount : t.numKeys = numUsed P t)
    (halloc : getTableSize P t = 0 ∨ (initPlacesInRange P t.nativeSize ∧ hasVirgin P t))
    (hfuel : getTableSize P t < fuel)
    (hfuel1 : ∀ s, P.aboutToPut t.nativeSize t.numKeys = some s → P.sizeForNative s < fuel ∧
      ∀ s2, P.aboutToPut s t.numKeys = some s2 → P.sizeForNative s2 < fuel) :
    ∃ t1 l b l0, forcedFind P fuel t key loc0 = some (t1, l, b) ∧
      findFirst P fuel t key loc0 = some (b, l0) ∧
      (b = true → t1 = t ∧ l = l0 ∧ l < getTableSize P t ∧ isUsed t l = true ∧
        constRefToKey t l = key) ∧
      (b = false → Inserted P t key t1 l ∧ hasVirgin P t1 ∧
        (∀ s, P.aboutToPut t.nativeSize t.numKeys = some s →
          t1.nativeSize = (P.aboutToPut s t.numKeys).getD s) ∧
        (P.aboutToPut t.nativeSize t.numKeys = none → l = l0 ∧ t1.nativeSize = t.nativeSize ∧
          (P.HASH_ORDERED = false → isUsed t l = false ∧
            ∀ x, x ≠ l → t1.slots x = t.slots x))) := by
  have hm : t.numKeys ≤ P.sizeForNative t.nativeSize := by
    rw [hcount]; exact numUsed_le P t
  simp only [forcedFind]
  rcases halloc with h0 | ⟨hr, hvir⟩
  · have hfind : findFirst P fuel t key loc0 = some (false, loc0) := by
      unfold findFirst
      have : base_empty P t = true := by unfold base_empty; simp [h0]
      rw [this]; rfl
    rw [hfind]
    simp only
    cases ha : P.aboutToPut t.nativeSize t.numKeys with
    | none =>
      have := hsafe.2.1 _ _ hm ha
      unfold getTableSize at h0
      omega
    | some s =>
      obtain ⟨t2, l, h1, h2, h3, h4⟩ := forcedFind_grow P t key fuel s hsafe hcount (Or.inl h0) ha
        (hfuel1 s ha).1 (hfuel1 s ha).2
      exact ⟨t2, l, false, loc0, h1, rfl, fun e => Bool.noConfusion e,
        fun _ => ⟨h2, h3, fun s1 e => by rw [← Option.some.inj e]; exact h4,
          fun e => Option.noConfusion e⟩⟩
  · obtain ⟨v, b, l0, hv, hvirgin, hfirst, hfind, hl, hle, hpre, hb1, hb2⟩ :=
      findFirst_spec P t key loc0 fuel hr hvir hfuel
    have hh : P.getInitPlace t.nativeSize key < getTableSize P t := hr key
    have hN : 0 < getTableSize P t := by omega
    have hvN := cdist_lt (a := P.getInitPlace t.nativeSize key) (b := v) hN
    rw [hfind]
    cases b with
    | true =>
      exact ⟨t, l0, true, l0, rfl, rfl, fun _ => ⟨rfl, rfl, hl, (hb1 rfl).1, (hb1 rfl).2.symm⟩,
        fun e => Bool.noConfusion e⟩
    | false =>
      simp only
      cases ha : P.aboutToPut t.nativeSize t.numKeys with
      | some s =>
        obtain ⟨t2, l, h1, h2, h3, h4⟩ := forcedFind_grow P t key fuel s hsafe hcount
          (Or.inr ⟨hr, hvir⟩) ha (hfuel1 s ha).1 (hfuel1 s ha).2
        exact ⟨t2, l, false, l0, h1, rfl, fun e => Bool.noConfusion e,
          fun _ => ⟨h2, h3, fun s1 e => by rw [← Option.some.inj e]; exact h4,
            fun e => Option.noConfusion e⟩⟩
      | none =>
        have hroom := hsafe.2.1 _ _ hm ha
        simp only [base_empty_false P t hN, Bool.false_eq_true, if_false]
        rcases hb2 rfl with hlv | ⟨hu, hk, ho⟩
        · subst hlv
          have hcond : (P.HASH_ORDERED && isUsed t l0) = false := by rw [hvirgin]; simp
          rw [hcond]
          simp only [Bool.false_eq_true, if_false]
          have hins := write_spec P t t key l0 l0 hr hv hvirgin hfirst hl rfl rfl rfl hle
            (fun M _ φ => usedSumExcept_virgin φ t _ l0 hvirgin) (fun _ _ _ => rfl)
            (fun x hx hxlt => ⟨rfl, fun _ => (hpre x hx hxlt).2⟩) (fun _ => ⟨rfl, rfl⟩)
            (fun _ => rfl)
          refine ⟨_, l0, false, l0, rfl, rfl, fun e => Bool.noConfusion e, fun _ => ⟨hins, ?_,
            fun _ e => Option.noConfusion e,
            fun _ => ⟨rfl, rfl, fun _ => ⟨hvirgin, fun x hx => by rw [put_slots, if_neg hx]⟩⟩⟩⟩
          rw [hasVirgin_iff, hins.numUsed]
          show _ < P.sizeForNative t.nativeSize
          rw [← hcount]; exact hroom
        · have hmode : P.HASH_ORDERED = true := by
            simp only [Bool.and_eq_true] at ho
            exact ho.1
          have hcond : (P.HASH_ORDERED && isUsed t l0) = true := by rw [hmode, hu]; rfl
          rw [hcond]
          simp only [if_true]
          have hlv : l0 ≠ v := by
            intro e; rw [e, hvirgin] at hu; exact Bool.noConfusion hu
          have hlt : cdist (getTableSize P t) (P.getInitPlace t.nativeSize key) l0
              < cdist (getTableSize P t) (P.getInitPlace t.nativeSize key) v := by
            rcases Nat.lt_or_ge (cdist (getTableSize P t) (P.getInitPlace t.nativeSize key) l0)
              (cdist (getTableSize P t) (P.getInitPlace t.nativeSize key) v) with h1 | h1
            · exact h1
            · exact absurd (cdist_inj hh hl hv (le_antisymm hle h1)) hlv
          have hpush := fun (M : Type) [AddCommMonoid M] (φ : K → V → M) =>
            pushProbeAt_in_run φ P t _ l0 v fuel hh hl hv hvirgin hfirst hlt (by omega)
          obtain ⟨d, g1, g2, g3, g4, _, g6, g7, g8⟩ := hpush Nat (fun _ _ => 0)
          rw [g1]
          simp only
          have hins := write_spec P t d key l0 v hr hv hvirgin hfirst hl g2 g3 g4 hle
            (by
              intro M _ φ
              obtain ⟨d1, e1, _, _, _, e5, _, _, _⟩ := hpush M φ
              rw [g1] at e1
              have := Option.some.inj e1
              subst this
              exact e5) g6
            (fun x hx hxlt => ⟨g7 x hx hxlt, fun _ => (hpre x hx hxlt).2⟩)
            (fun hm2 => by rw [hmode] at hm2; exact Bool.noConfusion hm2)
            (by
              intro hor
              have hsw : P.swaps = true := by
                rcases hor with h9 | h9
                · rw [hmode] at h9; exact Bool.noConfusion h9
                · exact h9
              rw [g8, if_pos hsw])
          refine ⟨_, l0, false, l0, rfl, rfl, fun e => Bool.noConfusion e, fun _ => ⟨hins, ?_,
            fun _ e => Option.noConfusion e,
            fun _ => ⟨rfl, g2, fun hm2 => by rw [hmode] at hm2; exact Bool.noConfusion hm2⟩⟩⟩
          rw [hasVirgin_iff, hins.numUsed]
          show _ < P.sizeForNative d.nativeSize
          rw [g2, ← hcount]; exact hroom

/-! ## Fuel -/

theorem fuelBound_size (P : Params K V) (t : Hash K V) (fuel : Nat) (h : fuelBound P t ≤ fuel) :
    getTableSize P t < fuel := by
  unfold fuelBound at h; omega

theorem fuelBound_grow (P : Params K V) (t : Hash K V) (fuel : Nat) (h : fuelBound P t ≤ fuel) :
    ∀ s, P.aboutToPut t.nativeSize t.numKeys = some s → P.sizeForNative s < fuel ∧
      ∀ s2, P.aboutToPut s t.numKeys = some s2 → P.sizeForNative s2 < fuel := by
  intro s hs
  unfold fuelBound growSize at h
  rw [hs] at h
  simp only at h
  refine ⟨by omega, ?_⟩
  intro s2 hs2
  rw [hs2] at h
  simp only at h
  omega

theorem fuelBound_trim (P : Params K V) (t : Hash K V) (fuel : Nat) (h : fuelBound P t ≤ fuel) :
    ∀ s, P.trim t.nativeSize (t.numKeys - 1) = some s → P.sizeForNative s < fuel := by
  intro s hs
  unfold fuelBound trimSize at h
  rw [hs] at h
  simp only at h
  omega

/-! ## `keyFoundAt` -/

/-- Without ordering, `keyFoundAt(place)` answers true at a slot at which the hash
invariant holds. -/
theorem keyFoundAt_of_hashInvariantAt (P : Params K V) (t : Hash K V) (place fuel : Nat)
    (hmode : P.HASH_ORDERED = false) (hrange : initPlacesInRange P t.nativeSize)
    (hp : place < getTableSize P t) (hinv : hashInvariantAt P t place)
    (hfuel : getTableSize P t < fuel) : keyFoundAt P fuel t place = some true := by
  have hh := initPlaceAt_lt P t hrange place
  have hN : 0 < getTableSize P t := by omega
  have hpath := (hashInvariantAt_iff P t hh hp).1 hinv
  have hpN := cdist_lt (a := initPlaceAt P t place) (b := place) hN
  have key : ∀ fuel i, i < getTableSize P t →
      cdist (getTableSize P t) (initPlaceAt P t place) i
        ≤ cdist (getTableSize P t) (initPlaceAt P t place) place →
      cdist (getTableSize P t) (initPlaceAt P t place) place
        < cdist (getTableSize P t) (initPlaceAt P t place) i + fuel →
      keyFoundAtLoop P t place (initPlaceAt P t place) fuel i = some true := by
    intro fuel
    induction fuel with
    | zero => intro i _ h1 h2; omega
    | succ fuel ih =>
      intro i hi hle hf
      unfold keyFoundAtLoop
      rw [hpath i hi hle]
      simp only [Bool.not_true, Bool.false_eq_true, if_false]
      by_cases hip : i = place
      · rw [if_pos hip]
      · rw [if_neg hip, hmode]
        simp only [Bool.false_and, Bool.false_eq_true, if_false]
        have hlt : cdist (getTableSize P t) (initPlaceAt P t place) i
            < cdist (getTableSize P t) (initPlaceAt P t place) place := by
          rcases Nat.lt_or_ge (cdist (getTableSize P t) (initPlaceAt P t place) i)
            (cdist (getTableSize P t) (initPlaceAt P t place) place) with h1 | h1
          · exact h1
          · exact absurd (cdist_inj hh hi hp (le_antisymm hle h1)) hip
        have hn := cdist_next hh hi (by omega)
        exact ih ((i + 1) % getTableSize P t) (next_lt hN) (by omega) (by omega)
  unfold keyFoundAt
  exact key fuel _ hh (by rw [cdist_self hh]; omega) (by rw [cdist_self hh]; omega)

/-! ## The invariant that `keyFoundAt` checks -/

theorem checkedInvariant_hash (P : Params K V) (t : Hash K V) (h : checkedInvariant P t) :
    hashInvariant P t := fun p hp hu j hj => (h p hp hu j hj).1

theorem hashInvariant_checked (P : Params K V) (t : Hash K V) (hmode : P.HASH_ORDERED = false)
    (h : hashInvariant P t) : checkedInvariant P t :=
  fun p hp hu j hj => ⟨h p hp hu j hj, fun ho => by rw [hmode] at ho; exact Bool.noConfusion ho⟩

theorem initPlaceBefore_self (P : Params K V) (t : Hash K V) (x : Nat) :
    initPlaceBefore P t (initPlaceAt P t x) x = false := by
  unfold initPlaceBefore
  by_cases h : initPlaceAt P t x > x <;> simp [h]

/-- In a table that satisfies the invariant of its mode, a probe for `key` that
has passed only other keys and has not given up, and that ends at the virgin
slot `v` or gives up at `l`, shows that `key` is not stored. -/
theorem not_stored_of_probe (P : Params K V) (t : Hash K V) (key : K) (v l : Nat)
    (hrange : initPlacesInRange P t.nativeSize) (hinv : checkedInvariant P t)
    (hv : v < getTableSize P t) (hvirgin : isUsed t v = false) (hl : l < getTableSize P t)
    (hpre : ∀ x, x < getTableSize P t →
      cdist (getTableSize P t) (P.getInitPlace t.nativeSize key) x
        < cdist (getTableSize P t) (P.getInitPlace t.nativeSize key) l →
      key ≠ constRefToKey t x ∧
        (P.HASH_ORDERED && initPlaceBefore P t (P.getInitPlace t.nativeSize key) x) = false)
    (hend : l = v ∨ (isUsed t l = true ∧ key ≠ constRefToKey t l ∧
      (P.HASH_ORDERED && initPlaceBefore P t (P.getInitPlace t.nativeSize key) l) = true)) :
    ¬ stored P t key := by
  rintro ⟨p, hp, hup, hkp⟩
  have hh : P.getInitPlace t.nativeSize key < getTableSize P t := hrange key
  have hN : 0 < getTableSize P t := by omega
  have hip : initPlaceAt P t p = P.getInitPlace t.nativeSize key := by
    unfold initPlaceAt; rw [hkp]
  have hbefore := stored_before_virgin P t hrange (checkedInvariant_hash P t hinv) hp hup hv
    hvirgin
  rw [hip] at hbefore
  rcases hend with hlv | ⟨hu, hk, ho⟩
  · rw [hlv] at hpre
    exact (hpre p hp hbefore).1 hkp.symm
  · rcases Nat.lt_or_ge (cdist (getTableSize P t) (P.getInitPlace t.nativeSize key) p)
      (cdist (getTableSize P t) (P.getInitPlace t.nativeSize key) l) with h1 | h1
    · exact (hpre p hp h1).1 hkp.symm
    · have hpl : p ≠ l := by
        intro e; rw [e] at hkp; exact hk hkp.symm
      have hlt : cdist (getTableSize P t) (P.getInitPlace t.nativeSize key) l
          < cdist (getTableSize P t) (P.getInitPlace t.nativeSize key) p := by
        rcases Nat.lt_or_ge (cdist (getTableSize P t) (P.getInitPlace t.nativeSize key) l)
          (cdist (getTableSize P t) (P.getInitPlace t.nativeSize key) p) with h2 | h2
        · exact h2
        · exact absurd (cdist_inj hh hp hl (le_antisymm h2 h1)) hpl
      simp only [Bool.and_eq_true] at ho
      have := (hinv p hp hup (cdist (getTableSize P t) (P.getInitPlace t.nativeSize key) l)
        (by rw [hip]; omega)).2 ho.1 (by rw [hip]; exact hlt)
      rw [hip, cyc_add_cdist hh hl] at this
      apply this
      refine ⟨ho.2, ?_⟩
      intro e
      have := initPlaceBefore_self P t l
      rw [← e, ho.2] at this
      exact Bool.noConfusion this

/-- `findFirst` answers true exactly for the stored keys, in a table that satisfies
the invariant of its mode and has a virgin slot. -/
theorem findFirst_iff_stored [DecidableEq K] (P : Params K V) (t : Hash K V) (key : K)
    (loc0 fuel : Nat) (hrange : initPlacesInRange P t.nativeSize) (hinv : checkedInvariant P t)
    (hvir : hasVirgin P t) (hfuel : getTableSize P t < fuel) :
    ∃ b l, findFirst P fuel t key loc0 = some (b, l) ∧ l < getTableSize P t ∧
      (b = true ↔ stored P t key) ∧ (b = true → isUsed t l = true ∧ constRefToKey t l = key) := by
  obtain ⟨v, b, l, hv, hvirgin, hfirst, hfind, hl, hle, hpre, hb1, hb2⟩ :=
    findFirst_spec P t key loc0 fuel hrange hvir hfuel
  refine ⟨b, l, hfind, hl, ⟨fun hb => ⟨l, hl, (hb1 hb).1, (hb1 hb).2.symm⟩, ?_⟩,
    fun hb => ⟨(hb1 hb).1, (hb1 hb).2.symm⟩⟩
  intro hs
  cases hbb : b with
  | true => rfl
  | false =>
    exact absurd hs (not_stored_of_probe P t key v l hrange hinv hv hvirgin hl hpre (hb2 hbb))

/-! ## The concrete configuration is safe -/

theorem modParams_safe (ordered swaps : Bool) : controllerSafe (modParams ordered swaps) := by
  refine ⟨?_, ?_, ?_⟩
  · intro n m s hm h
    simp only [modParams] at hm h
    split_ifs at h with hc
    have hs : 2 * n + 2 = s := Option.some.inj h
    subst hs
    exact ⟨fun k => Nat.mod_lt _ (by omega), by show m + 1 < 2 * n + 2; omega⟩
  · intro n m hm h
    simp only [modParams] at hm h
    split_ifs at h with hc
    show m + 1 < n
    omega
  · intro n m s hm h
    simp only [modParams] at hm h
    split_ifs at h with hc
    have hs : n / 2 = s := Option.some.inj h
    subst hs
    exact ⟨fun k => Nat.mod_lt _ (by omega), by show m < n / 2; omega⟩

/-! ## Claims on insertion -/

/-- The table returned by an insertion is not larger than the fuel bound of the
table it started from. -/
theorem size_after_insert (P : Params K V) (t t1 : Hash K V) (fuel : Nat)
    (hfuel : fuelBound P t ≤ fuel)
    (h1 : ∀ s, P.aboutToPut t.nativeSize t.numKeys = some s →
      t1.nativeSize = (P.aboutToPut s t.numKeys).getD s)
    (h2 : P.aboutToPut t.nativeSize t.numKeys = none → t1.nativeSize = t.nativeSize) :
    getTableSize P t1 < fuel := by
  unfold getTableSize
  cases ha : P.aboutToPut t.nativeSize t.numKeys with
  | none => rw [h2 ha]; exact fuelBound_size P t fuel hfuel
  | some s =>
    rw [h1 s ha]
    obtain ⟨g1, g2⟩ := fuelBound_grow P t fuel hfuel s ha
    cases hb : P.aboutToPut s t.numKeys with
    | none => exact g1
    | some s2 => exact g2 s2 hb

/-- C2: insertion preserves the hash invariant.  Without ordering, in a table that
satisfies the hash invariant and has a virgin slot, `forcedFind(k)` for a key `k`
that is not stored stops (for every fuel from `fuelBound` on), inserts the key,
with or without a growth rehash first, and leaves a table that satisfies the hash
invariant at every used slot, the new one included: `keyFoundAt(location)`
answers true.  The controller is assumed to keep its key counter right and the
table from filling up. -/
theorem forcedFind_preserves_hashInvariant [DecidableEq K] (P : Params K V) (t : Hash K V)
    (key : K) (loc0 fuel : Nat) (hmode : P.HASH_ORDERED = false) (hsafe : controllerSafe P)
    (hrange : initPlacesInRange P t.nativeSize) (hcount : t.numKeys = numUsed P t)
    (hinv : hashInvariant P t) (hvir : hasVirgin P t) (habs : ¬ stored P t key)
    (hfuel : fuelBound P t ≤ fuel) :
    ∃ t1 loc, forcedFind P fuel t key loc0 = some (t1, loc, false) ∧ hashInvariant P t1 ∧
      loc < getTableSize P t1 ∧ isUsed t1 loc = true ∧ constRefToKey t1 loc = key ∧
      hashInvariantAt P t1 loc ∧ keyFoundAt P fuel t1 loc = some true := by
  obtain ⟨t1, l, b, l0, hff, hfind, hb1, hb2⟩ := forcedFind_spec P t key loc0 fuel hsafe hcount
    (Or.inr ⟨hrange, hvir⟩) (fuelBound_size P t fuel hfuel) (fuelBound_grow P t fuel hfuel)
  cases b with
  | true =>
    obtain ⟨_, _, g3, g4, g5⟩ := hb1 rfl
    exact absurd ⟨l, g3, g4, g5⟩ habs
  | false =>
    obtain ⟨hins, _, hn1, hn2⟩ := hb2 rfl
    have hinv1 := hins.hash hmode hinv
    have hat := hinv1 l hins.loc_lt hins.used
    refine ⟨t1, l, hff, hinv1, hins.loc_lt, hins.used, hins.key_eq, hat, ?_⟩
    exact keyFoundAt_of_hashInvariantAt P t1 l fuel hmode hins.range hins.loc_lt hat
      (size_after_insert P t t1 fuel hfuel hn1 (fun e => (hn2 e).2.1))

/-- C2 with a growth rehash: the key 15 is inserted into `wrapTable`, whose four
slots hold three keys. -/
theorem forcedFind_preserves_hashInvariant_witness :
    hashInvariant (modParams false false) wrapTable ∧ ¬ stored (modParams false false) wrapTable 15 ∧
      ∃ t1 loc, forcedFind (modParams false false) 15 wrapTable 15 0 = some (t1, loc, false) ∧
        hashInvariant (modParams false false) t1 ∧
        loc < getTableSize (modParams false false) t1 ∧ isUsed t1 loc = true ∧
        constRefToKey t1 loc = 15 ∧ hashInvariantAt (modParams false false) t1 loc ∧
        keyFoundAt (modParams false false) 15 t1 loc = some true :=
  ⟨by decide, by decide,
    forcedFind_preserves_hashInvariant (modParams false false) wrapTable 15 0 15 rfl
      (modParams_safe false false) (modParams_range false false 4 (by decide)) (by decide)
      (by decide) (by decide) (by decide) (by decide)⟩

/-- Lookup reads the status and the key of the slots only. -/
theorem findFirst_congr [DecidableEq K] (P : Params K V) (t t1 : Hash K V) (key : K)
    (loc0 fuel : Nat) (hn : t1.nativeSize = t.nativeSize)
    (hs : ∀ x, isUsed t1 x = isUsed t x ∧ constRefToKey t1 x = constRefToKey t x) :
    findFirst P fuel t1 key loc0 = findFirst P fuel t key loc0 := by
  have hsz : getTableSize P t1 = getTableSize P t := by unfold getTableSize; rw [hn]
  have hb : ∀ h x, initPlaceBefore P t1 h x = initPlaceBefore P t h x := by
    intro h x
    simp only [initPlaceBefore, initPlaceAt, hn, (hs x).2]
  have key : ∀ h fuel loc, findFromLoop P t1 key h fuel loc = findFromLoop P t key h fuel loc := by
    intro h fuel
    induction fuel with
    | zero => intro loc; rfl
    | succ fuel ih =>
      intro loc
      unfold findFromLoop
      rw [(hs loc).1, (hs loc).2, hb, ih]
      simp only [getNextPlace, hsz]
  unfold findFirst findFrom base_empty
  rw [hsz, hn, key]

theorem setValue_slots (P : Params K V) (t : Hash K V) (loc x : Nat) (v : V) :
    (setValue P t loc v).slots x
      = if x = loc then { t.slots loc with val := v } else t.slots x := by
  simp only [setValue, setVal, setSlot_slots]

/-- C3: insert-then-find round trip.  On a table that satisfies the hash invariant
(as `keyFoundAt` checks it in the mode of the table) and is not full,
`forcedFind(k, loc)` returns (for every fuel from `fuelBound` on), and afterwards
`findFirst(k, loc2)` returns true with `loc2 = loc`; the key stored at `loc` is
`k`, and a payload written at `loc` with `setValue` is the payload found at the
slot that `findFirst` reports.  This holds whether the key was present, was
inserted in place, or was inserted after a rehash.  The controller is assumed to
keep its key counter right and the table from filling up. -/
theorem forcedFind_then_findFirst [DecidableEq K] (P : Params K V) (t : Hash K V) (key : K)
    (loc0 loc1 fuel : Nat) (hsafe : controllerSafe P) (hcount : t.numKeys = numUsed P t)
    (halloc : getTableSize P t = 0 ∨ (initPlacesInRange P t.nativeSize ∧ hasVirgin P t))
    (hinv : checkedInvariant P t) (hfuel : fuelBound P t ≤ fuel) :
    ∃ t1 loc b, forcedFind P fuel t key loc0 = some (t1, loc, b) ∧
      findFirst P fuel t1 key loc1 = some (true, loc) ∧
      isUsed t1 loc = true ∧ constRefToKey t1 loc = key ∧
      ∀ v, findFirst P fuel (setValue P t1 loc v) key loc1 = some (true, loc) ∧
        constRefToVal (setValue P t1 loc v) loc = v := by
  obtain ⟨t1, l, b, l0, hff, hfind, hb1, hb2⟩ := forcedFind_spec P t key loc0 fuel hsafe hcount
    halloc (fuelBound_size P t fuel hfuel) (fuelBound_grow P t fuel hfuel)
  have hval : ∀ v, findFirst P fuel (setValue P t1 l v) key loc1 = findFirst P fuel t1 key loc1 ∧
      constRefToVal (setValue P t1 l v) l = v := by
    intro v
    refine ⟨findFirst_congr P t1 _ key loc1 fuel rfl ?_, by simp [constRefToVal, setValue_slots]⟩
    intro x
    by_cases hx : x = l
    · simp [isUsed, constRefToKey, setValue_slots, hx]
    · simp [isUsed, constRefToKey, setValue_slots, hx]
  cases b with
  | true =>
    obtain ⟨g1, g2, g3, g4, g5⟩ := hb1 rfl
    subst g1
    subst g2
    have hf1 : findFirst P fuel t1 key loc1 = some (true, l) := by
      rw [findFirst_allocated P t1 key loc1 loc0 fuel (by omega)]; exact hfind
    exact ⟨t1, l, true, hff, hf1, g4, g5, fun v => ⟨by rw [(hval v).1]; exact hf1, (hval v).2⟩⟩
  | false =>
    obtain ⟨hins, _, hn1, hn2⟩ := hb2 rfl
    have habs : ¬ stored P t key := by
      rcases halloc with h0 | ⟨hr, hv⟩
      · rintro ⟨p, hp, _⟩; omega
      · obtain ⟨b2, l2, e1, _, e3, _⟩ := findFirst_iff_stored P t key loc0 fuel hr hinv hv
          (fuelBound_size P t fuel hfuel)
        rw [hfind] at e1
        have : b2 = false := (congrArg Prod.fst (Option.some.inj e1)).symm
        rw [this] at e3
        intro hs
        exact Bool.noConfusion (e3.2 hs)
    have hf1 := hins.found habs loc1 fuel
      (size_after_insert P t t1 fuel hfuel hn1 (fun e => (hn2 e).2.1))
    exact ⟨t1, l, false, hff, hf1, hins.used, hins.key_eq,
      fun v => ⟨by rw [(hval v).1]; exact hf1, (hval v).2⟩⟩

/-- C3 with a rehash: the key 6 is inserted into the table of the five keys 1 to 5,
whose controller asks for growth. -/
theorem forcedFind_then_findFirst_witness :
    checkedInvariant (modParams false false) scenarioTable ∧
      ∃ t1 loc b, forcedFind (modParams false false) 27 scenarioTable 6 0 = some (t1, loc, b) ∧
        findFirst (modParams false false) 27 t1 6 0 = some (true, loc) ∧
        isUsed t1 loc = true ∧ constRefToKey t1 loc = 6 ∧
        ∀ v, findFirst (modParams false false) 27 (setValue (modParams false false) t1 loc v) 6 0
            = some (true, loc) ∧
          constRefToVal (setValue (modParams false false) t1 loc v) loc = v :=
  ⟨by decide,
    forcedFind_then_findFirst (modParams false false) scenarioTable 6 0 0 27
      (modParams_safe false false) (by decide)
      (Or.inr ⟨modParams_range false false 8 (by decide), by decide⟩) (by decide) (by decide)⟩

/-! ## Removal -/

/-- The scan loop of `removeFrom` does not touch `weightSum`, the key counter or the
native size. -/
theorem removeFromLoop_fields (P : Params K V) :
    ∀ fuel (t : Hash K V) g c t1 g1, removeFromLoop P fuel t g c = some (t1, g1) →
      t1.weightSum = t.weightSum ∧ t1.numKeys = t.numKeys ∧ t1.nativeSize = t.nativeSize := by
  intro fuel
  induction fuel with
  | zero => intro t g c t1 g1 h; simp [removeFromLoop] at h
  | succ fuel ih =>
    intro t g c t1 g1 h
    simp only [removeFromLoop] at h
    split_ifs at h
    · exact ih (moveOrSwap P t g c) _ _ _ _ h
    · exact ih t _ _ _ _ h
    · have e : t = t1 := congrArg Prod.fst (Option.some.inj h)
      rw [← e]
      exact ⟨rfl, rfl, rfl⟩

/-- Whenever `removeFrom(s)` returns, `weightSum` has lost the weight of slot `s`,
the key counter has dropped by one and the native size is as before. -/
theorem removeFrom_fields (P : Params K V) (fuel : Nat) (t t1 : Hash K V) (s : Nat)
    (h : removeFrom P fuel t s = some t1) :
    t1.weightSum = t.weightSum - weightAt P t s ∧ t1.numKeys = t.numKeys - 1 ∧
      t1.nativeSize = t.nativeSize := by
  unfold removeFrom at h
  simp only at h
  cases hl : removeFromLoop P fuel (removed (remove_stage_1 P t s)) s (getNextPlace P t s) with
  | none => rw [hl] at h; exact Option.noConfusion h
  | some q =>
    obtain ⟨t2, g⟩ := q
    rw [hl] at h
    obtain ⟨h1, h2, h3⟩ := removeFromLoop_fields P fuel _ _ _ _ _ hl
    have := Option.some.inj h
    rw [← this]
    exact ⟨h1, h2, h3⟩

/-- `removeFrom(s)` at a used slot of a table with a virgin slot: it stops; the
fields change as `removeFrom_fields` tells; the entry of `s` leaves every sum over
the used slots; the table still has a virgin slot; unused slots stay cleared;
the hash invariant is kept. -/
theorem removeFrom_spec (P : Params K V) (t : Hash K V) (s fuel : Nat)
    (hrange : initPlacesInRange P t.nativeSize) (hvir : hasVirgin P t)
    (hs : s < getTableSize P t) (hused : isUsed t s = true) (hfuel : getTableSize P t < fuel) :
    ∃ t1, removeFrom P fuel t s = some t1 ∧ t1.nativeSize = t.nativeSize ∧
      t1.numKeys = t.numKeys - 1 ∧ t1.weightSum = t.weightSum - weightAt P t s ∧
      (∀ (M : Type) [AddCommMonoid M] (φ : K → V → M),
        usedSum φ t1 (getTableSize P t) + φ (constRefToKey t s) (constRefToVal t s)
          = usedSum φ t (getTableSize P t)) ∧
      hasVirgin P t1 ∧ (virginCleared P t → virginCleared P t1) ∧
      (hashInvariant P t → hashInvariant P t1) ∧
      (∀ x, isUsed t1 x = true → isUsed t x = true) := by
  obtain ⟨v, hv, hvirgin, hfirst⟩ := exists_first_virgin (isUsed t) hs hvir
  have hspec := fun (M : Type) [AddCommMonoid M] (φ : K → V → M) =>
    removeFrom_sum φ P t s v fuel hrange hs hused hv hvirgin hfirst hfuel
  obtain ⟨t1, hrem, _, h2, h3, h4, h5, h6, g, hg, hgv, hgu, hgc, hgo⟩ := hspec Nat (fun _ _ => 0)
  have hsz : getTableSize P t1 = getTableSize P t := by unfold getTableSize; rw [h2]
  refine ⟨t1, hrem, h2, h3, h4, ?_, ⟨g, by rw [hsz]; exact hg, hgu⟩, ?_, ?_, h5⟩
  · intro M _ φ
    obtain ⟨t2, hrem2, e, _⟩ := hspec M φ
    rw [hrem] at hrem2
    rw [Option.some.inj hrem2]
    exact e
  · intro hclr x hx hux
    rw [hsz] at hx
    by_cases hxg : x = g
    · rw [hxg]; exact hgc
    · have hu0 : isUsed t x = false := by rw [← hgo x hxg]; exact hux
      have : t1.slots x = t.slots x := by
        apply h6
        rintro ⟨_, hlt⟩
        rw [hfirst x hx hlt] at hu0
        exact Bool.noConfusion hu0
      unfold constRefToVal
      rw [this]
      exact hclr x hx hu0
  · intro hinv
    obtain ⟨t2, hrem2, _, hinv2⟩ := removeFrom_preserves_hashInvariant_aux P t s fuel hrange hinv
      hvir hs hused hfuel
    rw [hrem] at hrem2
    rw [Option.some.inj hrem2]
    exact hinv2

/-- `trim()` on a table whose key counter is right and that is not full, under a
controller that keeps the table from filling up: it stops, with or without a
rehash; counter, `weightSum` and entries are as before; the table is not full;
unused slots stay cleared; without ordering the hash invariant is kept. -/
theorem trim_spec (P : Params K V) (t : Hash K V) (fuel : Nat) (hsafe : controllerSafe P)
    (hcount : t.numKeys = numUsed P t)
    (halloc : getTableSize P t = 0 ∨ (initPlacesInRange P t.nativeSize ∧ hasVirgin P t))
    (hfuel : ∀ s, P.trim t.nativeSize t.numKeys = some s → P.sizeForNative s < fuel) :
    ∃ t1, trim P fuel t = some t1 ∧ t1.numKeys = t.numKeys ∧ t1.weightSum = t.weightSum ∧
      t1.nativeSize = (P.trim t.nativeSize t.numKeys).getD t.nativeSize ∧
      (∀ (M : Type) [AddCommMonoid M] (φ : K → V → M),
        usedSum φ t1 (getTableSize P t1) = usedSum φ t (getTableSize P t)) ∧
      (getTableSize P t1 = 0 ∨ (initPlacesInRange P t1.nativeSize ∧ hasVirgin P t1)) ∧
      (virginCleared P t → virginCleared P t1) ∧
      (P.HASH_ORDERED = false → hashInvariant P t → hashInvariant P t1) := by
  have hm : t.numKeys ≤ P.sizeForNative t.nativeSize := by
    rw [hcount]; exact numUsed_le P t
  unfold trim
  cases ht : P.trim t.nativeSize t.numKeys with
  | none =>
    exact ⟨t, rfl, rfl, rfl, rfl, fun _ _ _ => rfl, halloc, fun h => h, fun _ h => h⟩
  | some s =>
    obtain ⟨hr, hroom⟩ := hsafe.2.2 _ _ s hm ht
    obtain ⟨t1, g1, g2, g3, g4, g5, g6, g7⟩ := rehash_spec P fuel t s hcount
      (by
        intro hne
        rcases halloc with h0 | ⟨_, hv⟩
        · have := numUsed_le P t
          omega
        · exact hv)
      hr (by rw [← hcount]; exact hroom) (hfuel s ht)
    have hsz1 : getTableSize P t1 = P.sizeForNative s := by unfold getTableSize; rw [g2]
    refine ⟨t1, g1, g3, g4, g2, ?_, Or.inr ⟨by rw [g2]; exact hr, ?_⟩, ?_, fun hmode _ => g6 hmode⟩
    · intro M _ φ; rw [hsz1]; exact g7 M φ
    · rw [hasVirgin_iff, hsz1]
      have := g7 Nat (fun _ _ => 1)
      unfold numUsed
      rw [hsz1, this]
      unfold numUsed at hcount
      omega
    · intro _ x _ hx
      unfold constRefToVal
      rw [g5 x hx]

/-- `remove(key)` on a table whose key counter is right and that is not full, under
a controller that keeps the table from filling up: it stops; when `findFirst`
does not find the key the table is returned as it is; otherwise the entry at the
slot found leaves the table: the key counter drops by one, `weightSum` by the
weight of the entry, every sum over the used slots by the entry; the table is
not full, unused slots stay cleared and, without ordering, the hash invariant
is kept. -/
theorem remove_spec [DecidableEq K] (P : Params K V) (t : Hash K V) (key : K) (fuel : Nat)
    (hsafe : controllerSafe P) (hcount : t.numKeys = numUsed P t)
    (halloc : getTableSize P t = 0 ∨ (initPlacesInRange P t.nativeSize ∧ hasVirgin P t))
    (hfuel : fuelBound P t ≤ fuel) :
    ∃ b t1 l, remove P fuel t key = some (b, t1) ∧ findFirst P fuel t key 0 = some (b, l) ∧
      (b = false → t1 = t) ∧
      (b = true → l < getTableSize P t ∧ isUsed t l = true ∧ constRefToKey t l = key ∧
        t1.numKeys = t.numKeys - 1 ∧ t1.weightSum = t.weightSum - weightAt P t l ∧
        t1.nativeSize = (P.trim t.nativeSize (t.numKeys - 1)).getD t.nativeSize ∧
        (∀ (M : Type) [AddCommMonoid M] (φ : K → V → M),
          usedSum φ t1 (getTableSize P t1) + φ (constRefToKey t l) (constRefToVal t l)
            = usedSum φ t (getTableSize P t)) ∧
        (getTableSize P t1 = 0 ∨ (initPlacesInRange P t1.nativeSize ∧ hasVirgin P t1)) ∧
        (virginCleared P t → virginCleared P t1) ∧
        (P.HASH_ORDERED = false → hashInvariant P t → hashInvariant P t1)) := by
  simp only [remove]
  rcases halloc with h0 | ⟨hr, hvir⟩
  · have hfind : findFirst P fuel t key 0 = some (false, 0) := by
      unfold findFirst
      have : base_empty P t = true := by unfold base_empty; simp [h0]
      rw [this]; rfl
    rw [hfind]
    exact ⟨false, t, 0, rfl, rfl, fun _ => rfl, fun e => Bool.noConfusion e⟩
  · obtain ⟨v, b, l, hv, hvirgin, hfirst, hfind, hl, hle, hpre, hb1, hb2⟩ :=
      findFirst_spec P t key 0 fuel hr hvir (fuelBound_size P t fuel hfuel)
    rw [hfind]
    cases b with
    | false => exact ⟨false, t, l, rfl, rfl, fun _ => rfl, fun e => Bool.noConfusion e⟩
    | true =>
      obtain ⟨hu, hk⟩ := hb1 rfl
      obtain ⟨t1, g1, g2, g3, g4, g5, g6, g7, g8, _⟩ := removeFrom_spec P t l fuel hr hvir hl hu
        (fuelBound_size P t fuel hfuel)
      have hsz1 : getTableSize P t1 = getTableSize P t := by unfold getTableSize; rw [g2]
      have hpos : 0 < numUsed P t := by
        have := g5 Nat (fun _ _ => 1)
        unfold numUsed
        omega
      have hcount1 : t1.numKeys = numUsed P t1 := by
        have := g5 Nat (fun _ _ => 1)
        unfold numUsed at hcount hpos ⊢
        rw [g3, hsz1, hcount]
        omega
      obtain ⟨t2, e1, e2, e3, e4, e5, e6, e7, e8⟩ := trim_spec P t1 fuel hsafe hcount1
        (Or.inr ⟨by rw [g2]; exact hr, g6⟩) (by
          rw [g2, g3]
          exact fuelBound_trim P t fuel hfuel)
      simp only [g1, e1, Option.map_some']
      refine ⟨true, t2, l, rfl, rfl, fun e => Bool.noConfusion e, fun _ => ⟨hl, hu, hk.symm,
        by rw [e2, g3], by rw [e3, g4], by rw [e4, g2, g3], ?_, e6, fun h => e7 (g7 h),
        fun hm h => e8 hm (g8 h)⟩⟩
      intro M _ φ
      rw [e5 M φ, hsz1]
      exact g5 M φ

/-! ## Claims on lookup and removal -/

/-- C7 on a probe that wraps around the end of the table: key 11 of `wrapTable`. -/
theorem findFirst_correct_unordered_witness :
    hashInvariant (modParams false false) wrapTable ∧ hasVirgin (modParams false false) wrapTable ∧
      ∃ b loc, findFirst (modParams false false) 5 wrapTable 11 0 = some (b, loc) ∧
        contains (modParams false false) 5 wrapTable 11 = some b ∧
        loc < getTableSize (modParams false false) wrapTable ∧
        (b = true ↔ stored (modParams false false) wrapTable 11) ∧
        (b = true → isUsed wrapTable loc = true ∧ constRefToKey wrapTable loc = 11 ∧
          ∀ j, j < cdist (getTableSize (modParams false false) wrapTable)
              ((modParams false false).getInitPlace wrapTable.nativeSize 11) loc →
            isUsed wrapTable (((modParams false false).getInitPlace wrapTable.nativeSize 11 + j)
              % getTableSize (modParams false false) wrapTable) = true ∧
            constRefToKey wrapTable
              (((modParams false false).getInitPlace wrapTable.nativeSize 11 + j)
                % getTableSize (modParams false false) wrapTable) ≠ 11) ∧
        (b = false → isUsed wrapTable loc = false ∧
          ∀ j, j < cdist (getTableSize (modParams false false) wrapTable)
              ((modParams false false).getInitPlace wrapTable.nativeSize 11) loc →
            isUsed wrapTable (((modParams false false).getInitPlace wrapTable.nativeSize 11 + j)
              % getTableSize (modParams false false) wrapTable) = true) :=
  ⟨by decide, by decide,
    findFirst_correct_unordered (modParams false false) wrapTable 11 0 5 rfl
      (modParams_range false false 4 (by decide)) (by decide) (by decide) (by decide)⟩

/-- With pairwise distinct keys, a key is counted at most once. -/
theorem distinct_count_le [DecidableEq K] (P : Params K V) (t : Hash K V) (k : K)
    (hd : distinctKeys P t) :
    ∀ n, n ≤ getTableSize P t → usedSum (fun k1 _ => if k1 = k then (1 : Nat) else 0) t n ≤ 1 := by
  intro n
  induction n with
  | zero => intro _; simp [usedSum]
  | succ n ih =>
    intro hn
    rw [usedSum]
    have h1 := ih (by omega)
    by_cases hu : isUsed t n = true
    · rw [if_pos hu]
      by_cases hk : constRefToKey t n = k
      · rw [if_pos hk]
        have : ¬ 0 < usedSum (fun k1 _ => if k1 = k then (1 : Nat) else 0) t n := by
          intro hpos
          obtain ⟨p, hp, hup, hkp⟩ := (stored_iff_sum t k n).2 hpos
          have := hd p (by omega) n (by omega) hup hu (by rw [hkp, hk])
          omega
        omega
      · rw [if_neg hk]; omega
    · rw [if_neg hu]; omega

/-- C4: erase of a present key.  On a table with pairwise distinct keys that
satisfies the hash invariant (as `keyFoundAt` checks it in the mode of the table),
is not full and stores `k`, `remove(k)` returns true (for every fuel from
`fuelBound` on), afterwards `contains(k)` is false and `size()` is one less than
before.  The controller is assumed to keep its key counter right and the table
from filling up. -/
theorem remove_present [DecidableEq K] (P : Params K V) (t : Hash K V) (key : K) (fuel : Nat)
    (hsafe : controllerSafe P) (hcount : t.numKeys = numUsed P t)
    (hrange : initPlacesInRange P t.nativeSize) (hvir : hasVirgin P t)
    (hinv : checkedInvariant P t) (hdist : distinctKeys P t) (hst : stored P t key)
    (hfuel : fuelBound P t ≤ fuel) :
    ∃ t1, remove P fuel t key = some (true, t1) ∧ contains P fuel t1 key = some false ∧
      size t1 + 1 = size t := by
  obtain ⟨b, t1, l, hrem, hfind, _, hb⟩ := remove_spec P t key fuel hsafe hcount
    (Or.inr ⟨hrange, hvir⟩) hfuel
  obtain ⟨b2, l2, e1, _, e3, _⟩ := findFirst_iff_stored P t key 0 fuel hrange hinv hvir
    (fuelBound_size P t fuel hfuel)
  rw [hfind] at e1
  have hbt : b = true := by
    have hbb : b = b2 := congrArg Prod.fst (Option.some.inj e1)
    rw [hbb]; exact e3.2 hst
  subst hbt
  obtain ⟨hl, hu, hk, g1, _, g3, g4, g5, _, _⟩ := hb rfl
  have hpos : 0 < numUsed P t := by
    have := g4 Nat (fun _ _ => 1)
    unfold numUsed
    omega
  have hnot : ¬ stored P t1 key := by
    intro hs1
    have h1 := (stored_iff_sum t1 key _).1 hs1
    have h2 := g4 Nat (fun k1 _ => if k1 = key then 1 else 0)
    rw [if_pos hk] at h2
    have h3 := distinct_count_le P t key hdist _ (le_refl _)
    omega
  have hfuel1 : getTableSize P t1 < fuel := by
    unfold getTableSize
    rw [g3]
    cases ht : P.trim t.nativeSize (t.numKeys - 1) with
    | none => exact fuelBound_size P t fuel hfuel
    | some s => exact fuelBound_trim P t fuel hfuel s ht
  refine ⟨t1, hrem, ?_, by unfold size; rw [g1, hcount]; omega⟩
  unfold contains
  rcases g5 with h0 | ⟨hr1, hv1⟩
  · unfold findFirst
    have : base_empty P t1 = true := by unfold base_empty; simp [h0]
    rw [this]; rfl
  · obtain ⟨v, b3, l3, _, _, _, hf3, hl3, _, _, hb3, _⟩ := findFirst_spec P t1 key 0 fuel hr1 hv1
      hfuel1
    rw [hf3]
    cases b3 with
    | false => rfl
    | true => exact absurd ⟨l3, hl3, (hb3 rfl).1, (hb3 rfl).2.symm⟩ hnot

/-- C4 on the concrete scenario: the key 3 is erased from the table of the keys
1 to 5. -/
theorem remove_present_witness :
    checkedInvariant (modParams false false) scenarioTable ∧
      distinctKeys (modParams false false) scenarioTable ∧
      stored (modParams false false) scenarioTable 3 ∧ size scenarioTable = 5 ∧
      ∃ t1, remove (modParams false false) 27 scenarioTable 3 = some (true, t1) ∧
        contains (modParams false false) 27 t1 3 = some false ∧ size t1 + 1 = size scenarioTable :=
  ⟨by decide, by decide, by decide, rfl,
    remove_present (modParams false false) scenarioTable 3 27 (modParams_safe false false)
      (by decide) (modParams_range false false 8 (by decide)) (by decide) (by decide) (by decide)
      (by decide) (by decide)⟩

/-- C6: erase of an absent key.  On a table that is not full (a table without
storage included), `remove(k)` for a key `k` that is not stored returns false (for
every fuel above the table size) and returns the table as it was: every slot, the
key counter, the native size and `weightSum` are unchanged. -/
theorem remove_absent [DecidableEq K] (P : Params K V) (t : Hash K V) (key : K) (fuel : Nat)
    (halloc : getTableSize P t = 0 ∨ (initPlacesInRange P t.nativeSize ∧ hasVirgin P t))
    (habs : ¬ stored P t key) (hfuel : getTableSize P t < fuel) :
    remove P fuel t key = some (false, t) := by
  simp only [remove]
  rcases halloc with h0 | ⟨hr, hvir⟩
  · have hfind : findFirst P fuel t key 0 = some (false, 0) := by
      unfold findFirst
      have : base_empty P t = true := by unfold base_empty; simp [h0]
      rw [this]; rfl
    rw [hfind]
  · obtain ⟨v, b, l, _, _, _, hfind, hl, _, _, hb1, _⟩ := findFirst_spec P t key 0 fuel hr hvir
      hfuel
    rw [hfind]
    cases b with
    | false => rfl
    | true => exact absurd ⟨l, hl, (hb1 rfl).1, (hb1 rfl).2.symm⟩ habs

/-- C6 on the table of the keys 1 to 5 (key 9 is absent, its probe passes key 1) and
on a table without storage. -/
theorem remove_absent_witness :
    remove (modParams false false) 9 scenarioTable 9 = some (false, scenarioTable) ∧
      remove (modParams false false) 1 (newHash (modParams false false) 0) 9
        = some (false, newHash (modParams false false) 0) :=
  ⟨remove_absent (modParams false false) scenarioTable 9 9
      (Or.inr ⟨modParams_range false false 8 (by decide), by decide⟩) (by decide) (by decide),
    remove_absent (modParams false false) (newHash (modParams false false) 0) 9 1
      (Or.inl rfl) (by decide) (by decide)⟩

theorem usedKeys_eq_sum (t : Hash K V) (n : Nat) :
    ((((List.range n).filter (fun i => isUsed t i)).map (constRefToKey t) : List K) : Multiset K)
      = usedSum (fun k _ => ({k} : Multiset K)) t n := by
  induction n with
  | zero => rfl
  | succ n ih =>
    rw [List.range_succ, List.filter_append, List.map_append, ← Multiset.coe_add, ih, usedSum]
    congr 1
    by_cases hu : isUsed t n = true
    · simp [hu]
    · simp [hu]

/-- C9: removal subtracts exactly the departing weight.  Whenever `removeFrom(s)`
returns, `weight()` is the former `weight()` minus `weightAt(s)`, whatever the
scan loop relocates; and `removeFrom(s)` does return at a used slot of a table
with a virgin slot. -/
theorem removeFrom_subtracts_weight (P : Params K V) (t : Hash K V) (s fuel : Nat) :
    (∀ t1, removeFrom P fuel t s = some t1 → weight t1 = weight t - weightAt P t s) ∧
    (initPlacesInRange P t.nativeSize → hasVirgin P t → s < getTableSize P t →
      isUsed t s = true → getTableSize P t < fuel →
      ∃ t1, removeFrom P fuel t s = some t1 ∧ weight t1 = weight t - weightAt P t s) := by
  refine ⟨fun t1 h => (removeFrom_fields P fuel t t1 s h).1, ?_⟩
  intro hrange hvir hs hused hfuel
  obtain ⟨t1, h1, _, _, h4, _⟩ := removeFrom_spec P t s fuel hrange hvir hs hused hfuel
  exact ⟨t1, h1, h4⟩

/-- C9 on the concrete scenario: the entry of weight 3 leaves the table of total
weight 15. -/
theorem removeFrom_subtracts_weight_witness :
    weight scenarioTable = 15 ∧ weightAt (modParams false false) scenarioTable 3 = 3 ∧
      (∃ t1, removeFrom (modParams false false) 9 scenarioTable 3 = some t1 ∧
        weight t1 = weight scenarioTable - weightAt (modParams false false) scenarioTable 3) ∧
      (removeFrom (modParams false false) 9 scenarioTable 3).map weight = some 12 :=
  ⟨rfl, rfl,
    (removeFrom_subtracts_weight (modParams false false) scenarioTable 3 9).2
      (modParams_range false false 8 (by decide)) (by decide) (by decide) (by decide) (by decide),
    by decide⟩

/-! ## Sequences of operations -/

theorem step_mono [DecidableEq K] (P : Params K V) (fuel fuel1 : Nat) (t t1 : Hash K V)
    (op : Op K V) (hle : fuel ≤ fuel1) (h : step P fuel t op = some t1) :
    step P fuel1 t op = some t1 := by
  cases op with
  | forcedFind key =>
    simp only [step, Option.map_eq_some'] at h ⊢
    obtain ⟨r, h1, h2⟩ := h
    exact ⟨r, forcedFind_mono P fuel fuel1 t key 0 r hle h1, h2⟩
  | placeToPut key =>
    simp only [step, Option.map_eq_some'] at h ⊢
    obtain ⟨r, h1, h2⟩ := h
    exact ⟨r, placeToPut_mono P fuel fuel1 t key r hle h1, h2⟩
  | setValue loc value => exact h
  | guardedWrite loc value => exact h
  | removeFrom loc =>
    simp only [step] at h ⊢
    split_ifs at h ⊢
    exact removeFrom_mono P fuel fuel1 t loc t1 hle h
  | remove key =>
    simp only [step, Option.map_eq_some'] at h ⊢
    obtain ⟨r, h1, h2⟩ := h
    exact ⟨r, remove_mono P fuel fuel1 t key r hle h1, h2⟩
  | trim => exact trim_mono P fuel fuel1 t t1 hle h
  | rehash s =>
    simp only [step] at h ⊢
    split_ifs at h ⊢
    exact rehash_mono P fuel fuel1 t s t1 hle h

/-- A payload write at a used slot keeps every used slot used and replaces the
payload of the entry. -/
theorem setVal_facts (P : Params K V) (t : Hash K V) (loc : Nat) (v : V)
    (hloc : loc < getTableSize P t) (hu : isUsed t loc = true) :
    (∀ x, isUsed (setVal t loc v) x = isUsed t x) ∧
    (∀ (M : Type) [AddCommMonoid M] (φ : K → V → M),
      usedSum φ (setVal t loc v) (getTableSize P t) + φ (constRefToKey t loc) (constRefToVal t loc)
        = usedSum φ t (getTableSize P t) + φ (constRefToKey t loc) v) ∧
    (∀ x, x ≠ loc → (setVal t loc v).slots x = t.slots x) := by
  have hs : ∀ x, (setVal t loc v).slots x
      = if x = loc then { t.slots loc with val := v } else t.slots x := by
    intro x; simp only [setVal, setSlot_slots]
  have hused : ∀ x, isUsed (setVal t loc v) x = isUsed t x := by
    intro x
    by_cases hx : x = loc
    · simp [isUsed, hs, hx]
    · simp [isUsed, hs, hx]
  refine ⟨hused, ?_, fun x hx => by rw [hs, if_neg hx]⟩
  intro M _ φ
  have := usedSum_replace φ t (setVal t loc v) (getTableSize P t) loc hloc
    (fun x hx => by rw [hs, if_neg hx]) hu (by rw [hused]; exact hu)
  simpa [constRefToKey, constRefToVal, hs] using this

/-- A table that differs from a legal table in payloads of used slots only, with
`weightSum` adjusted by the change of weight, is legal. -/
theorem legal_of_write (P : Params K V) (t t1 : Hash K V) (loc : Nat) (v : V)
    (hloc : loc < getTableSize P t) (hu : isUsed t loc = true)
    (hn : t1.nativeSize = t.nativeSize) (hk : t1.numKeys = t.numKeys)
    (hs : t1.slots = (setVal t loc v).slots)
    (hw : t1.weightSum = t.weightSum + (P.getWeight v - weightAt P t loc))
    (hc : CountLegal P t) :
    CountLegal P t1 ∧ (WeightLegal P t → WeightLegal P t1) := by
  obtain ⟨f1, f2, f3⟩ := setVal_facts P t loc v hloc hu
  have hsz : getTableSize P t1 = getTableSize P t := by unfold getTableSize; rw [hn]
  have hused : ∀ x, isUsed t1 x = isUsed t x := by
    intro x; unfold isUsed; rw [hs]; exact f1 x
  have hsum : ∀ (M : Type) [AddCommMonoid M] (φ : K → V → M),
      usedSum φ t1 (getTableSize P t) = usedSum φ (setVal t loc v) (getTableSize P t) := by
    intro M _ φ
    exact usedSum_congr φ _ _ _ (fun x _ => by rw [hs])
  refine ⟨⟨?_, ?_⟩, ?_⟩
  · have := f2 Nat (fun _ _ => 1)
    have h2 := hc.count
    unfold size numUsed at h2 ⊢
    rw [hk, hsz, hsum, h2]
    omega
  · rcases hc.alloc with h0 | ⟨hr, v0, hv0, hv1⟩
    · exact Or.inl (by rw [hsz]; exact h0)
    · exact Or.inr ⟨by rw [hn]; exact hr, v0, by rw [hsz]; exact hv0, by rw [hused]; exact hv1⟩
  · intro hwl
    refine ⟨?_, ?_⟩
    · have := f2 Int (fun _ v1 => P.getWeight v1)
      have h2 := hwl.weight
      unfold weight scannedWeight at h2 ⊢
      rw [hw, hsz, hsum, h2]
      unfold weightAt
      unfold constRefToVal at this
      linarith
    · intro x hx hux
      rw [hsz] at hx
      rw [hused] at hux
      have hxl : x ≠ loc := by
        intro e; rw [e, hu] at hux; exact Bool.noConfusion hux
      unfold constRefToVal
      rw [hs, f3 x hxl]
      exact hwl.cleared x hx hux

/-- An insertion into a legal table leaves a legal table. -/
theorem legal_of_inserted [DecidableEq K] (P : Params K V) (t t1 : Hash K V) (key : K) (l : Nat)
    (hins : Inserted P t key t1 l) (hvir : hasVirgin P t1) (hc : CountLegal P t) :
    CountLegal P t1 ∧ (WeightLegal P t → P.getWeight P.clearedVal = 0 →
      (P.HASH_ORDERED = false ∨ P.swaps = true) → WeightLegal P t1) := by
  refine ⟨⟨?_, Or.inr ⟨hins.range, hvir⟩⟩, ?_⟩
  · have h2 := hc.count
    unfold size at h2 ⊢
    rw [hins.numKeys, hins.numUsed, h2]
  · intro hwl hzero hmove
    refine ⟨?_, hins.virgins hwl.cleared⟩
    have := hins.sums Int (fun _ v1 => P.getWeight v1)
    have h2 := hwl.weight
    unfold weight scannedWeight at h2 ⊢
    rw [hins.weightSum, this, hins.cleared hmove hwl.cleared, hzero, h2, add_zero]

/-- A table that holds the entries of a legal table less one (`w` is the weight of
the entry that left), with counter and `weightSum` adjusted, is legal. -/
theorem legal_of_removed (P : Params K V) (t t1 : Hash K V) (k : K) (v : V)
    (hk : t1.numKeys = t.numKeys - 1) (hw : t1.weightSum = t.weightSum - P.getWeight v)
    (hs : ∀ (M : Type) [AddCommMonoid M] (φ : K → V → M),
      usedSum φ t1 (getTableSize P t1) + φ k v = usedSum φ t (getTableSize P t))
    (ha : getTableSize P t1 = 0 ∨ (initPlacesInRange P t1.nativeSize ∧ hasVirgin P t1))
    (hcl : virginCleared P t → virginCleared P t1) (hc : CountLegal P t) :
    CountLegal P t1 ∧ (WeightLegal P t → WeightLegal P t1) := by
  refine ⟨⟨?_, ha⟩, ?_⟩
  · have := hs Nat (fun _ _ => 1)
    have h2 := hc.count
    unfold size numUsed at h2 ⊢
    rw [hk, h2]
    omega
  · intro hwl
    refine ⟨?_, hcl hwl.cleared⟩
    have := hs Int (fun _ v1 => P.getWeight v1)
    have h2 := hwl.weight
    unfold weight scannedWeight at h2 ⊢
    rw [hw, h2]
    linarith

/-- A table that holds the entries of a legal table, with the same counter and
`weightSum`, is legal. -/
theorem legal_of_same (P : Params K V) (t t1 : Hash K V)
    (hk : t1.numKeys = t.numKeys) (hw : t1.weightSum = t.weightSum)
    (hs : ∀ (M : Type) [AddCommMonoid M] (φ : K → V → M),
      usedSum φ t1 (getTableSize P t1) = usedSum φ t (getTableSize P t))
    (ha : getTableSize P t1 = 0 ∨ (initPlacesInRange P t1.nativeSize ∧ hasVirgin P t1))
    (hcl : virginCleared P t → virginCleared P t1) (hc : CountLegal P t) :
    CountLegal P t1 ∧ (WeightLegal P t → WeightLegal P t1) := by
  refine ⟨⟨?_, ha⟩, ?_⟩
  · have := hs Nat (fun _ _ => 1)
    have h2 := hc.count
    unfold size numUsed at h2 ⊢
    rw [hk, h2, this]
  · intro hwl
    refine ⟨?_, hcl hwl.cleared⟩
    have := hs Int (fun _ v1 => P.getWeight v1)
    have h2 := hwl.weight
    unfold weight scannedWeight at h2 ⊢
    rw [hw, h2, this]

/-- Every operation turns a legal table into a legal table: the counter invariant
always, the weight invariant when the cleared payload has weight zero and a new
key finds the cleared payload in its slot (no ordering, or a storage that
swaps). -/
theorem step_legal [DecidableEq K] (P : Params K V) (fuel : Nat) (t t1 : Hash K V) (op : Op K V)
    (hsafe : controllerSafe P) (hop : opOK P op) (hc : CountLegal P t)
    (hstep : step P fuel t op = some t1) :
    CountLegal P t1 ∧ (WeightLegal P t → P.getWeight P.clearedVal = 0 →
      (P.HASH_ORDERED = false ∨ P.swaps = true) → WeightLegal P t1) := by
  have hcount : t.numKeys = numUsed P t := hc.count
  cases op with
  | forcedFind key =>
    have hbig := step_mono P fuel (max fuel (fuelBound P t)) t t1 _ (le_max_left _ _) hstep
    simp only [step, Option.map_eq_some'] at hbig
    obtain ⟨r, h1, h2⟩ := hbig
    obtain ⟨t2, l, b, l0, hff, _, hb1, hb2⟩ := forcedFind_spec P t key 0 _ hsafe hcount hc.alloc
      (fuelBound_size P t _ (le_max_right _ _)) (fuelBound_grow P t _ (le_max_right _ _))
    rw [hff] at h1
    have e : t2 = t1 := by rw [← h2, ← Option.some.inj h1]
    subst e
    cases b with
    | true =>
      rw [(hb1 rfl).1]
      exact ⟨hc, fun h _ _ => h⟩
    | false =>
      obtain ⟨hins, hv, _⟩ := hb2 rfl
      exact legal_of_inserted P t t2 key l hins hv hc
  | placeToPut key =>
    have hbig := step_mono P fuel (max fuel (fuelBound P t)) t t1 _ (le_max_left _ _) hstep
    simp only [step, Option.map_eq_some'] at hbig
    obtain ⟨r, h1, h2⟩ := hbig
    obtain ⟨t2, l, m, hpp, hins, hv, _⟩ := placeToPut_spec P t key _ hsafe hcount hc.alloc
      (fuelBound_size P t _ (le_max_right _ _))
      (fun s hs => (fuelBound_grow P t _ (le_max_right _ _) s hs).1)
    rw [hpp] at h1
    have e : t2 = t1 := by rw [← h2, ← Option.some.inj h1]
    subst e
    exact legal_of_inserted P t t2 key l hins hv hc
  | setValue loc value =>
    simp only [step] at hstep
    split_ifs at hstep with hg
    have e := Option.some.inj hstep
    subst e
    obtain ⟨g1, g2⟩ := legal_of_write P t (setValue P t loc value) loc value hg.1 hg.2 rfl rfl rfl
      (by
        show t.weightSum + (P.getWeight ((setVal t loc value).slots loc).val - weightAt P t loc) = _
        simp [setVal]) hc
    exact ⟨g1, fun h _ _ => g2 h⟩
  | guardedWrite loc value =>
    simp only [step] at hstep
    split_ifs at hstep with hg
    have e := Option.some.inj hstep
    subst e
    obtain ⟨g1, g2⟩ := legal_of_write P t (guardedWrite P t loc value) loc value hg.1 hg.2 rfl rfl
      rfl (by
        show t.weightSum + (P.getWeight ((setVal t loc value).slots loc).val - weightAt P t loc) = _
        simp [setVal]) hc
    exact ⟨g1, fun h _ _ => g2 h⟩
  | removeFrom loc =>
    have hbig := step_mono P fuel (max fuel (getTableSize P t + 1)) t t1 _ (le_max_left _ _) hstep
    simp only [step] at hbig
    split_ifs at hbig with hg
    rcases hc.alloc with h0 | ⟨hr, hv⟩
    · omega
    · obtain ⟨t2, g1, g2, g3, g4, g5, g6, g7, _⟩ := removeFrom_spec P t loc _ hr hv hg.1 hg.2
        (lt_of_lt_of_le (Nat.lt_succ_self _) (le_max_right _ _))
      rw [g1] at hbig
      have e := Option.some.inj hbig
      subst e
      have hsz : getTableSize P t2 = getTableSize P t := by unfold getTableSize; rw [g2]
      obtain ⟨a1, a2⟩ := legal_of_removed P t t2 (constRefToKey t loc) (constRefToVal t loc) g3 g4
        (by intro M _ φ; rw [hsz]; exact g5 M φ) (Or.inr ⟨by rw [g2]; exact hr, g6⟩) g7 hc
      exact ⟨a1, fun h _ _ => a2 h⟩
  | remove key =>
    have hbig := step_mono P fuel (max fuel (fuelBound P t)) t t1 _ (le_max_left _ _) hstep
    simp only [step, Option.map_eq_some'] at hbig
    obtain ⟨r, h1, h2⟩ := hbig
    obtain ⟨b, t2, l, hrem, _, hb1, hb2⟩ := remove_spec P t key _ hsafe hcount hc.alloc
      (le_max_right _ _)
    rw [hrem] at h1
    have e : t2 = t1 := by rw [← h2, ← Option.some.inj h1]
    subst e
    cases b with
    | false =>
      rw [hb1 rfl]
      exact ⟨hc, fun h _ _ => h⟩
    | true =>
      obtain ⟨_, _, _, g1, g2, _, g4, g5, g6, _⟩ := hb2 rfl
      obtain ⟨a1, a2⟩ := legal_of_removed P t t2 (constRefToKey t l) (constRefToVal t l) g1 g2 g4
        g5 g6 hc
      exact ⟨a1, fun h _ _ => a2 h⟩
  | trim =>
    have hbig := step_mono P fuel (max fuel (trimSize P t.nativeSize t.numKeys + 1)) t t1 _
      (le_max_left _ _) hstep
    simp only [step] at hbig
    obtain ⟨t2, g1, g2, g3, _, g5, g6, g7, _⟩ := trim_spec P t
      (max fuel (trimSize P t.nativeSize t.numKeys + 1)) hsafe hcount hc.alloc (by
      intro s hs
      have h1 : trimSize P t.nativeSize t.numKeys = P.sizeForNative s := by
        unfold trimSize; rw [hs]
      have h2 := le_max_right fuel (trimSize P t.nativeSize t.numKeys + 1)
      omega)
    rw [g1] at hbig
    have e := Option.some.inj hbig
    subst e
    obtain ⟨a1, a2⟩ := legal_of_same P t t2 g2 g3 g5 g6 g7 hc
    exact ⟨a1, fun h _ _ => a2 h⟩
  | rehash s =>
    have hbig := step_mono P fuel (max fuel (P.sizeForNative s + 1)) t t1 _ (le_max_left _ _)
      hstep
    simp only [step] at hbig
    split_ifs at hbig with hg
    obtain ⟨t2, g1, g2, g3, g4, g5, _, g7⟩ := rehash_spec P _ t s hcount
      (by
        intro hne
        rcases hc.alloc with h0 | ⟨_, hv⟩
        · have := numUsed_le P t
          omega
        · exact hv)
      hop hg (lt_of_lt_of_le (Nat.lt_succ_self _) (le_max_right _ _))
    rw [g1] at hbig
    have e := Option.some.inj hbig
    subst e
    have hsz : getTableSize P t2 = P.sizeForNative s := by unfold getTableSize; rw [g2]
    obtain ⟨a1, a2⟩ := legal_of_same P t t2 g3 g4 (by intro M _ φ; rw [hsz]; exact g7 M φ)
      (Or.inr ⟨by rw [g2]; exact hop, by
        rw [hasVirgin_iff, hsz]
        have := g7 Nat (fun _ _ => 1)
        unfold numUsed at hg ⊢
        rw [hsz, this]
        exact hg⟩)
      (fun _ x _ hx => by unfold constRefToVal; rw [g5 x hx]) hc
    exact ⟨a1, fun h _ _ => a2 h⟩

/-- The empty table built by the constructor is legal. -/
theorem newHash_legal (P : Params K V) (n0 : Nat)
    (hn0 : P.sizeForNative n0 = 0 ∨ initPlacesInRange P n0) :
    CountLegal P (newHash P n0) ∧ WeightLegal P (newHash P n0) := by
  refine ⟨⟨?_, ?_⟩, ⟨?_, fun _ _ _ => rfl⟩⟩
  · show 0 = usedSum (fun _ _ => 1) (newHash P n0) _
    rw [usedSum_newHash]
  · by_cases h0 : P.sizeForNative n0 = 0
    · exact Or.inl h0
    · rcases hn0 with h | h
      · exact absurd h h0
      · exact Or.inr ⟨h, 0, Nat.pos_of_ne_zero h0, rfl⟩
  · show (0 : Int) = usedSum (fun _ v => P.getWeight v) (newHash P n0) _
    rw [usedSum_newHash]

/-- Every sequence of operations turns a legal table into a legal table. -/
theorem run_legal [DecidableEq K] (P : Params K V) (fuel : Nat) (hsafe : controllerSafe P) :
    ∀ (ops : List (Op K V)) (t t1 : Hash K V), (∀ op, op ∈ ops → opOK P op) → CountLegal P t →
      run P fuel ops t = some t1 →
      CountLegal P t1 ∧ (WeightLegal P t → P.getWeight P.clearedVal = 0 →
        (P.HASH_ORDERED = false ∨ P.swaps = true) → WeightLegal P t1) := by
  intro ops
  induction ops with
  | nil =>
    intro t t1 _ hc h
    have e : t = t1 := Option.some.inj h
    subst e
    exact ⟨hc, fun h _ _ => h⟩
  | cons op rest ih =>
    intro t t1 hops hc h
    simp only [run] at h
    cases hs : step P fuel t op with
    | none => rw [hs] at h; exact Option.noConfusion h
    | some t2 =>
      rw [hs] at h
      obtain ⟨a1, a2⟩ := step_legal P fuel t t2 op hsafe (hops op (List.mem_cons_self _ _)) hc hs
      obtain ⟨b1, b2⟩ := ih t2 t1 (fun o ho => hops o (List.mem_cons_of_mem _ ho)) a1 h
      exact ⟨b1, fun hw hz hm => b2 (a2 hw hz hm) hz hm⟩

/-- Every operation whose demands are met returns, given enough fuel. -/
theorem step_progress [DecidableEq K] (P : Params K V) (t : Hash K V) (op : Op K V)
    (hsafe : controllerSafe P) (hop : opOK P op) (hc : CountLegal P t) (hready : opReady P t op) :
    ∃ F, ∀ fuel, F ≤ fuel → ∃ t1, step P fuel t op = some t1 := by
  have hcount : t.numKeys = numUsed P t := hc.count
  cases op with
  | forcedFind key =>
    refine ⟨fuelBound P t, fun fuel hf => ?_⟩
    obtain ⟨t2, l, b, l0, hff, _⟩ := forcedFind_spec P t key 0 fuel hsafe hcount hc.alloc
      (fuelBound_size P t _ hf) (fuelBound_grow P t _ hf)
    exact ⟨t2, by simp only [step, hff, Option.map_some']⟩
  | placeToPut key =>
    refine ⟨fuelBound P t, fun fuel hf => ?_⟩
    obtain ⟨t2, l, m, hpp, _⟩ := placeToPut_spec P t key fuel hsafe hcount hc.alloc
      (fuelBound_size P t _ hf) (fun s hs => (fuelBound_grow P t _ hf s hs).1)
    exact ⟨t2, by simp only [step, hpp, Option.map_some']⟩
  | setValue loc value =>
    have hg : loc < getTableSize P t ∧ isUsed t loc = true := hready
    exact ⟨0, fun fuel _ => ⟨setValue P t loc value, by simp only [step]; rw [if_pos hg]⟩⟩
  | guardedWrite loc value =>
    have hg : loc < getTableSize P t ∧ isUsed t loc = true := hready
    exact ⟨0, fun fuel _ => ⟨guardedWrite P t loc value, by simp only [step]; rw [if_pos hg]⟩⟩
  | removeFrom loc =>
    refine ⟨getTableSize P t + 1, fun fuel hf => ?_⟩
    have hg : loc < getTableSize P t ∧ isUsed t loc = true := hready
    rcases hc.alloc with h0 | ⟨hr, hv⟩
    · omega
    · obtain ⟨t2, g1, _⟩ := removeFrom_spec P t loc fuel hr hv hg.1 hg.2 (by omega)
      exact ⟨t2, by simp only [step]; rw [if_pos hg, g1]⟩
  | remove key =>
    refine ⟨fuelBound P t, fun fuel hf => ?_⟩
    obtain ⟨b, t2, l, hrem, _⟩ := remove_spec P t key fuel hsafe hcount hc.alloc hf
    exact ⟨t2, by simp only [step, hrem, Option.map_some']⟩
  | trim =>
    refine ⟨trimSize P t.nativeSize t.numKeys + 1, fun fuel hf => ?_⟩
    obtain ⟨t2, g1, _⟩ := trim_spec P t fuel hsafe hcount hc.alloc (by
      intro s hs
      have h1 : trimSize P t.nativeSize t.numKeys = P.sizeForNative s := by
        unfold trimSize; rw [hs]
      omega)
    exact ⟨t2, by simp only [step, g1]⟩
  | rehash s =>
    refine ⟨P.sizeForNative s + 1, fun fuel hf => ?_⟩
    have hg : numUsed P t < P.sizeForNative s := hready
    obtain ⟨t2, g1, _⟩ := rehash_spec P fuel t s hcount
      (by
        intro hne
        rcases hc.alloc with h0 | ⟨_, hv⟩
        · have := numUsed_le P t
          omega
        · exact hv)
      hop hg (by omega)
    exact ⟨t2, by simp only [step]; rw [if_pos hg, g1]⟩

/-- C10: the count invariant.  With the controller modelled as a key counter that
`added()` increments and `removed()` decrements, starting from an empty table,
after every finite sequence of `forcedFind`, `placeToPut`, `removeFrom`,
`remove(key)`, `trim` and rehashes (and payload writes), `size()` is the number of
used slots; and from the table reached every further operation whose demands are
met returns, given enough fuel, with the invariant again.  The controller is
assumed to keep the table from filling up. -/
theorem count_invariant [DecidableEq K] (P : Params K V) (n0 fuel : Nat) (ops : List (Op K V))
    (t : Hash K V) (hsafe : controllerSafe P)
    (hn0 : P.sizeForNative n0 = 0 ∨ initPlacesInRange P n0)
    (hops : ∀ op, op ∈ ops → opOK P op) (hrun : run P fuel ops (newHash P n0) = some t) :
    size t = numUsed P t ∧
      ∀ op, opOK P op → opReady P t op → ∃ F, ∀ fuel1, F ≤ fuel1 →
        ∃ t1, step P fuel1 t op = some t1 ∧ size t1 = numUsed P t1 := by
  obtain ⟨c0, _⟩ := newHash_legal P n0 hn0
  obtain ⟨c1, _⟩ := run_legal P fuel hsafe ops _ t hops c0 hrun
  refine ⟨c1.count, fun op hop hready => ?_⟩
  obtain ⟨F, hF⟩ := step_progress P t op hsafe hop c1 hready
  refine ⟨F, fun fuel1 hf => ?_⟩
  obtain ⟨t1, h1⟩ := hF fuel1 hf
  exact ⟨t1, h1, (step_legal P fuel1 t t1 op hsafe hop c1 h1).1.count⟩

theorem scenarioOps_ok (ordered swaps : Bool) :
    ∀ op, op ∈ scenarioOps → opOK (modParams ordered swaps) op := by
  intro op hop
  simp only [scenarioOps, List.mem_cons, List.mem_singleton, List.not_mem_nil, or_false] at hop
  rcases hop with h | h | h | h | h | h | h | h | h | h | h <;> rw [h] <;> exact trivial

/-- C10 on the concrete scenario: after the insertion of the keys 1 to 5 and the
erasure of key 3 the size is 4, the number of used slots. -/
theorem count_invariant_witness :
    ∃ t, run (modParams false false) 30 scenarioOps (newHash (modParams false false) 8) = some t ∧
      size t = 4 ∧
      (size t = numUsed (modParams false false) t ∧
        ∀ op, opOK (modParams false false) op → opReady (modParams false false) t op →
          ∃ F, ∀ fuel1, F ≤ fuel1 → ∃ t1, step (modParams false false) fuel1 t op = some t1 ∧
            size t1 = numUsed (modParams false false) t1) :=
  ⟨(run (modParams false false) 30 scenarioOps (newHash (modParams false false) 8)).get
      (by decide),
    (Option.some_get _).symm, by decide,
    count_invariant (modParams false false) 8 30 scenarioOps _ (modParams_safe false false)
      (Or.inr (modParams_range false false 8 (by decide)))
      (scenarioOps_ok false false) (Option.some_get _).symm⟩

/-! ## The read-only iterator -/

/-- The used slots from index `a` on, in increasing order. -/
theorem usedFrom_step (t : Hash K V) (N a : Nat) (ha : a < N) :
    (List.range' a (N - a)).filter (fun i => isUsed t i)
      = if isUsed t a then a :: (List.range' (a + 1) (N - (a + 1))).filter (fun i => isUsed t i)
        else (List.range' (a + 1) (N - (a + 1))).filter (fun i => isUsed t i) := by
  have e : N - a = (N - (a + 1)) + 1 := by omega
  rw [e, List.range'_succ, List.filter_cons]

/-- Unused slots contribute nothing to the list of the used slots. -/
theorem usedFrom_skip (t : Hash K V) (N : Nat) :
    ∀ d a, a + d ≤ N → (∀ x, a ≤ x → x < a + d → isUsed t x = false) →
      (List.range' a (N - a)).filter (fun i => isUsed t i)
        = (List.range' (a + d) (N - (a + d))).filter (fun i => isUsed t i) := by
  intro d
  induction d with
  | zero => intro a _ _; rfl
  | succ d ih =>
    intro a ha hun
    rw [usedFrom_step t N a (by omega), hun a (Nat.le_refl _) (by omega)]
    simp only [Bool.false_eq_true, if_false]
    rw [ih (a + 1) (by omega) (fun x h1 h2 => hun x (by omega) (by omega))]
    have e : a + 1 + d = a + (d + 1) := by omega
    rw [e]

/-- The loop of `advanceIter` stops at the next used slot, or at the table size
when no used slot follows. -/
theorem const_iterator.constAdvanceLoop_spec (P : Params K V) (t : Hash K V) :
    ∀ fuel loc, loc < getTableSize P t → getTableSize P t - loc ≤ fuel →
      ∃ l1, const_iterator.advanceLoop P t fuel loc = some l1 ∧ loc < l1 ∧
        l1 ≤ getTableSize P t ∧ (∀ x, loc < x → x < l1 → isUsed t x = false) ∧
        (l1 < getTableSize P t → isUsed t l1 = true) := by
  intro fuel
  induction fuel with
  | zero => intro loc h1 h2; omega
  | succ fuel ih =>
    intro loc hloc hfuel
    unfold const_iterator.advanceLoop
    by_cases hc : (decide (loc + 1 < getTableSize P t) && !isUsed t (loc + 1)) = true
    · rw [if_pos hc]
      simp only [Bool.and_eq_true, decide_eq_true_eq, Bool.not_eq_true'] at hc
      obtain ⟨l1, h1, h2, h3, h4, h5⟩ := ih (loc + 1) hc.1 (by omega)
      refine ⟨l1, h1, by omega, h3, ?_, h5⟩
      intro x hx1 hx2
      by_cases hx : x = loc + 1
      · rw [hx]; exact hc.2
      · exact h4 x (by omega) hx2
    · rw [if_neg hc]
      refine ⟨loc + 1, rfl, by omega, by omega, fun x h1 h2 => by omega, ?_⟩
      intro hlt
      simp only [Bool.and_eq_true, decide_eq_true_eq, Bool.not_eq_true', not_and] at hc
      have := hc hlt
      cases hu : isUsed t (loc + 1)
      · exact absurd hu this
      · rfl

/-- From a used slot, or from the table size, the iterator takes the positions of
the used slots that follow, in increasing order. -/
theorem const_iterator.positions_spec (P : Params K V) (t : Hash K V) (fuel : Nat)
    (hfuel : getTableSize P t < fuel) :
    ∀ steps loc, loc ≤ getTableSize P t → (loc < getTableSize P t → isUsed t loc = true) →
      getTableSize P t - loc < steps →
      const_iterator.positions P fuel t steps loc
        = some ((List.range' loc (getTableSize P t - loc)).filter (fun i => isUsed t i)) := by
  intro steps
  induction steps with
  | zero => intro loc _ _ h; omega
  | succ steps ih =>
    intro loc hle hused hsteps
    unfold const_iterator.positions const_iterator.finished
    by_cases hfin : loc = getTableSize P t
    · rw [if_pos (by simpa using hfin), hfin]
      simp
    · rw [if_neg (by simpa using hfin)]
      have hlt : loc < getTableSize P t := by omega
      obtain ⟨l1, h1, h2, h3, h4, h5⟩ :=
        const_iterator.constAdvanceLoop_spec P t fuel loc hlt (by omega)
      unfold const_iterator.advanceIter
      rw [h1]
      simp only
      rw [ih l1 h3 h5 (by omega), usedFrom_step t _ loc hlt, hused hlt]
      simp only [if_true, Option.map_some']
      have hskip := usedFrom_skip t (getTableSize P t) (l1 - (loc + 1)) (loc + 1) (by omega)
        (fun x hx1 hx2 => h4 x (by omega) (by omega))
      have e : loc + 1 + (l1 - (loc + 1)) = l1 := by omega
      rw [e] at hskip
      rw [hskip]

/-- The traversal with a `const_iterator` yields the used slots in increasing
order. -/
theorem const_iterator.traverse_spec (P : Params K V) (t : Hash K V) (fuel : Nat)
    (hfuel : getTableSize P t < fuel) :
    const_iterator.traverse P fuel t
      = some ((List.range (getTableSize P t)).filter (fun i => isUsed t i)) := by
  unfold const_iterator.traverse const_iterator.begin
  rw [List.range_eq_range']
  by_cases hc : (decide (getTableSize P t > 0) && !isUsed t 0) = true
  · rw [if_pos hc]
    simp only [Bool.and_eq_true, decide_eq_true_eq, Bool.not_eq_true'] at hc
    obtain ⟨l1, h1, h2, h3, h4, h5⟩ :=
      const_iterator.constAdvanceLoop_spec P t fuel 0 hc.1 (by omega)
    unfold const_iterator.advanceIter
    rw [h1]
    simp only
    rw [const_iterator.positions_spec P t fuel hfuel fuel l1 h3 h5 (by omega)]
    have hskip := usedFrom_skip t (getTableSize P t) l1 0 (by omega) (fun x _ hx2 => by
      by_cases hx : x = 0
      · rw [hx]; exact hc.2
      · exact h4 x (by omega) (by omega))
    simp only [Nat.zero_add, Nat.sub_zero] at hskip
    rw [hskip]
  · rw [if_neg hc]
    simp only
    have h := const_iterator.positions_spec P t fuel hfuel fuel 0 (Nat.zero_le _) (by
      intro hlt
      simp only [Bool.and_eq_true, decide_eq_true_eq, Bool.not_eq_true', not_and] at hc
      have := hc hlt
      cases hu : isUsed t 0
      · exact absurd hu this
      · rfl) (by omega)
    simpa using h

/-- C13: the read-only iterator enumerates exactly the used slots.  For every
table, the positions that a `const_iterator` takes from `begin()` until
`finished()` (the loops stop for every fuel above the table size) form the
strictly increasing list of all indices of used slots, each exactly once;
`finished()` holds exactly at the position `getTableSize()`; on a table with no
slots or with no used slot the iterator is finished right after construction. -/
theorem const_iterator_enumerates (P : Params K V) (t : Hash K V) (fuel : Nat)
    (hfuel : getTableSize P t < fuel) :
    ∃ l, const_iterator.traverse P fuel t = some l ∧
      l = (List.range (getTableSize P t)).filter (fun i => isUsed t i) ∧
      List.Pairwise (fun a b => a < b) l ∧ l.Nodup ∧
      (∀ i, i ∈ l ↔ i < getTableSize P t ∧ isUsed t i = true) ∧
      (∀ loc, const_iterator.finished P t loc = true ↔ loc = getTableSize P t) ∧
      ((getTableSize P t = 0 ∨ ∀ i, i < getTableSize P t → isUsed t i = false) →
        ∃ loc, const_iterator.begin P fuel t = some loc ∧
          const_iterator.finished P t loc = true ∧ l = []) := by
  have hsorted : List.Pairwise (fun a b => a < b)
      ((List.range (getTableSize P t)).filter (fun i => isUsed t i)) :=
    List.Pairwise.filter _ (List.pairwise_lt_range _)
  refine ⟨_, const_iterator.traverse_spec P t fuel hfuel, rfl, hsorted, ?_, ?_, ?_, ?_⟩
  · exact List.Nodup.filter _ (List.nodup_range _)
  · intro i
    simp [List.mem_filter]
  · intro loc
    simp [const_iterator.finished]
  · intro hempty
    have hnil : (List.range (getTableSize P t)).filter (fun i => isUsed t i) = [] := by
      rw [List.filter_eq_nil_iff]
      intro i hi
      rw [List.mem_range] at hi
      rcases hempty with h0 | hall
      · omega
      · simp [hall i hi]
    unfold const_iterator.begin
    by_cases hc : (decide (getTableSize P t > 0) && !isUsed t 0) = true
    · rw [if_pos hc]
      simp only [Bool.and_eq_true, decide_eq_true_eq, Bool.not_eq_true'] at hc
      obtain ⟨l1, h1, h2, h3, h4, h5⟩ :=
        const_iterator.constAdvanceLoop_spec P t fuel 0 hc.1 (by omega)
      refine ⟨l1, h1, ?_, hnil⟩
      have : l1 = getTableSize P t := by
        rcases hempty with h0 | hall
        · omega
        · by_contra hne
          have hlt : l1 < getTableSize P t := by omega
          have := h5 hlt
          rw [hall l1 hlt] at this
          exact Bool.noConfusion this
      simp [const_iterator.finished, this]
    · rw [if_neg hc]
      refine ⟨0, rfl, ?_, hnil⟩
      simp only [Bool.and_eq_true, decide_eq_true_eq, Bool.not_eq_true', not_and] at hc
      rcases hempty with h0 | hall
      · simp [const_iterator.finished, h0]
      · by_cases hN : getTableSize P t > 0
        · have := hc hN
          rw [hall 0 hN] at this
          exact absurd rfl this
        · have h0 : getTableSize P t = 0 := by omega
          simp [const_iterator.finished, h0]

theorem const_iterator_enumerates_witness :
    getTableSize (modParams false false) scenarioTable < 9 ∧
    ∃ l, const_iterator.traverse (modParams false false) 9 scenarioTable = some l ∧
      l = [1, 2, 3, 4, 5] :=
  ⟨by decide, by
    obtain ⟨l, h1, h2, _⟩ := const_iterator_enumerates (modParams false false) scenarioTable 9
      (by decide)
    exact ⟨l, h1, by rw [h2]; decide⟩⟩

/-! ## Random selection -/

/-- Whenever the loop of `randSlot` returns, it returns the first value of the
source, from its position on, that is a used slot. -/
theorem randSlotLoop_spec (t : Hash K V) :
    ∀ fuel src r, randSlotLoop t fuel src = some r →
      ∃ k, k < fuel ∧ r.1 = src.draws (src.pos + k) ∧ isUsed t r.1 = true ∧
        (∀ j, j < k → isUsed t (src.draws (src.pos + j)) = false) ∧
        r.2 = { src with pos := src.pos + k + 1 } := by
  intro fuel
  induction fuel with
  | zero => intro src r h; exact Option.noConfusion h
  | succ fuel ih =>
    intro src r h
    unfold randSlotLoop at h
    by_cases hu : isUsed t src.next.1 = true
    · rw [if_neg (by simp [hu])] at h
      have hr : r = src.next := (Option.some.inj h).symm
      refine ⟨0, Nat.succ_pos _, ?_, ?_, fun j hj => absurd hj (Nat.not_lt_zero _), ?_⟩
      · rw [hr]; rfl
      · rw [hr]; exact hu
      · rw [hr]; rfl
    · rw [if_pos (by simpa using hu)] at h
      obtain ⟨k, h1, h2, h3, h4, h5⟩ := ih _ r h
      have e : ∀ j, src.next.2.pos + j = src.pos + (j + 1) := by
        intro j; show src.pos + 1 + j = _; omega
      refine ⟨k + 1, by omega, ?_, h3, ?_, ?_⟩
      · rw [h2, e]; rfl
      · intro j hj
        cases j with
        | zero =>
          cases hc : isUsed t (src.draws (src.pos + 0))
          · rfl
          · exact absurd hc hu
        | succ j =>
          have := h4 j (by omega)
          rw [e] at this
          exact this
      · rw [h5]
        show ({ draws := src.draws, pos := src.pos + 1 + k + 1 } : RandSource) = _
        have e2 : src.pos + 1 + k + 1 = src.pos + (k + 1) + 1 := by omega
        rw [e2]

/-- The loop of `randSlot` returns as soon as the source yields a used slot. -/
theorem randSlotLoop_returns (t : Hash K V) :
    ∀ k fuel src, k < fuel → isUsed t (src.draws (src.pos + k)) = true →
      ∃ r, randSlotLoop t fuel src = some r := by
  intro k
  induction k with
  | zero =>
    intro fuel src hk hu
    obtain ⟨f, rfl⟩ : ∃ f, fuel = f + 1 := ⟨fuel - 1, by omega⟩
    unfold randSlotLoop
    have hu1 : isUsed t src.next.1 = true := hu
    rw [if_neg (by simp [hu1])]
    exact ⟨_, rfl⟩
  | succ k ih =>
    intro fuel src hk hu
    obtain ⟨f, rfl⟩ : ∃ f, fuel = f + 1 := ⟨fuel - 1, by omega⟩
    unfold randSlotLoop
    by_cases hu1 : isUsed t src.next.1 = true
    · rw [if_neg (by simp [hu1])]
      exact ⟨_, rfl⟩
    · rw [if_pos (by simpa using hu1)]
      apply ih f src.next.2 (by omega)
      have e : src.next.2.pos + k = src.pos + (k + 1) := by
        show src.pos + 1 + k = _; omega
      rw [e]
      exact hu

/-- C16: uniform selection by rejection.  With the random source taken as a
sequence of indices below `getTableSize()`, `randSlot` returns the first index of
the sequence (from the position of the source on) whose slot is used: whenever it
returns, the result is a used slot below `getTableSize()`, all indices drawn
before it were unused slots, and `randKey` returns the key stored there; and it
does return when a used slot is drawn within the fuel. -/
theorem randSlot_first_used (P : Params K V) (t : Hash K V) (src : RandSource) (fuel : Nat)
    (hsrc : ∀ i, src.draws i < getTableSize P t) :
    (∀ slot src1, randSlot fuel t src = some (slot, src1) →
      ∃ k, k < fuel ∧ slot = src.draws (src.pos + k) ∧
        (∀ j, j < k → isUsed t (src.draws (src.pos + j)) = false) ∧
        isUsed t slot = true ∧ slot < getTableSize P t ∧ src1.pos = src.pos + k + 1 ∧
        randKey fuel t src = some (constRefToKey t slot, src1)) ∧
    (∀ k, k < fuel → isUsed t (src.draws (src.pos + k)) = true →
      ∃ slot src1, randSlot fuel t src = some (slot, src1)) := by
  constructor
  · intro slot src1 h
    obtain ⟨k, h1, h2, h3, h4, h5⟩ := randSlotLoop_spec t fuel src (slot, src1) h
    have h2 : slot = src.draws (src.pos + k) := h2
    refine ⟨k, h1, h2, h4, h3, ?_, ?_, ?_⟩
    · rw [h2]; exact hsrc _
    · show src1.pos = _
      have : src1 = { src with pos := src.pos + k + 1 } := h5
      rw [this]
    · unfold randKey
      rw [h]; rfl
  · intro k hk hu
    obtain ⟨r, hr⟩ := randSlotLoop_returns t k fuel src hk hu
    exact ⟨r.1, r.2, hr⟩

theorem randSlot_first_used_witness :
    (∀ i, (if i = 0 then 0 else if i = 1 then 6 else 3) < getTableSize (modParams false false)
      scenarioTable) ∧
    ∃ slot src1,
      randSlot 5 scenarioTable ⟨fun i => if i = 0 then 0 else if i = 1 then 6 else 3, 0⟩
        = some (slot, src1) ∧ isUsed scenarioTable slot = true ∧ slot < 8 := by
  have hsrc : ∀ i, (if i = 0 then 0 else if i = 1 then 6 else 3)
      < getTableSize (modParams false false) scenarioTable := by
    intro i
    show _ < 8
    split_ifs <;> omega
  have hthm := randSlot_first_used (modParams false false) scenarioTable
    ⟨fun i => if i = 0 then 0 else if i = 1 then 6 else 3, 0⟩ 5 hsrc
  obtain ⟨slot, src1, h⟩ := hthm.2 2 (by decide) (by decide)
  obtain ⟨k, _, _, _, h4, h5, _⟩ := hthm.1 slot src1 h
  exact ⟨hsrc, slot, src1, h, h4, h5⟩

/-! ## What does not ask the controller for a new size -/

/-- The probe loop of `findFrom` does not consult the growth and shrink decisions
of the controller. -/
theorem findFromLoop_withController [DecidableEq K] (P : Params K V)
    (a b : Nat → Nat → Option Nat) (t : Hash K V) (key : K) (initLoc : Nat) :
    ∀ fuel loc, findFromLoop (P.withController a b) t key initLoc fuel loc
      = findFromLoop P t key initLoc fuel loc := by
  intro fuel
  induction fuel with
  | zero => intro loc; rfl
  | succ fuel ih =>
    intro loc
    unfold findFromLoop
    rw [ih]
    rfl

theorem findFirst_withController [DecidableEq K] (P : Params K V)
    (a b : Nat → Nat → Option Nat) (fuel : Nat) (t : Hash K V) (key : K) (loc : Nat) :
    findFirst (P.withController a b) fuel t key loc = findFirst P fuel t key loc := by
  unfold findFirst findFrom
  rw [findFromLoop_withController]
  rfl

/-- The scan loop of `removeFrom` does not consult the growth and shrink decisions
of the controller. -/
theorem removeFromLoop_withController (P : Params K V) (a b : Nat → Nat → Option Nat) :
    ∀ fuel (t : Hash K V) g c, removeFromLoop (P.withController a b) fuel t g c
      = removeFromLoop P fuel t g c := by
  intro fuel
  induction fuel with
  | zero => intro t g c; rfl
  | succ fuel ih =>
    intro t g c
    unfold removeFromLoop
    simp only [ih]
    rfl

theorem removeFrom_withController (P : Params K V) (a b : Nat → Nat → Option Nat) (fuel : Nat)
    (t : Hash K V) (s : Nat) :
    removeFrom (P.withController a b) fuel t s = removeFrom P fuel t s := by
  unfold removeFrom
  simp only [removeFromLoop_withController]
  rfl

/-! ## Claims on insertion: presence and counting -/

/-- C18: `forcedFind` reports prior presence and does not disturb an existing key.
On a table that satisfies the hash invariant (as `keyFoundAt` checks it in the
mode of the table) and is not full, `forcedFind(k, loc)` returns (for every fuel
from `fuelBound` on) true exactly when `k` was stored before the call; on true
the table is returned as it was (all slots, key counter, native size), `loc` is
a used slot holding `k`, and the answer does not depend on the growth decision of
the controller, which is not consulted; on false `size()` has grown by one and
`loc` holds the new key.  The controller is assumed to keep its key counter
right and the table from filling up. -/
theorem forcedFind_reports_presence [DecidableEq K] (P : Params K V) (t : Hash K V) (key : K)
    (loc0 fuel : Nat) (hsafe : controllerSafe P) (hcount : t.numKeys = numUsed P t)
    (halloc : getTableSize P t = 0 ∨ (initPlacesInRange P t.nativeSize ∧ hasVirgin P t))
    (hinv : checkedInvariant P t) (hfuel : fuelBound P t ≤ fuel) :
    ∃ t1 loc b, forcedFind P fuel t key loc0 = some (t1, loc, b) ∧
      (b = true ↔ stored P t key) ∧
      (b = true → t1 = t ∧ loc < getTableSize P t ∧ isUsed t loc = true ∧
        constRefToKey t loc = key ∧
        ∀ a c, forcedFind (P.withController a c) fuel t key loc0 = some (t, loc, true)) ∧
      (b = false → size t1 = size t + 1 ∧ isUsed t1 loc = true ∧
        constRefToKey t1 loc = key) := by
  obtain ⟨t1, l, b, l0, hff, hfind, hb1, hb2⟩ := forcedFind_spec P t key loc0 fuel hsafe hcount
    halloc (fuelBound_size P t fuel hfuel) (fuelBound_grow P t fuel hfuel)
  have hiff : b = true ↔ stored P t key := by
    rcases halloc with h0 | ⟨hr, hv⟩
    · have hfalse : findFirst P fuel t key loc0 = some (false, loc0) := by
        unfold findFirst
        have : base_empty P t = true := by unfold base_empty; simp [h0]
        rw [this]; rfl
      rw [hfalse] at hfind
      have hb : b = false := (congrArg Prod.fst (Option.some.inj hfind)).symm
      constructor
      · intro h; rw [hb] at h; exact Bool.noConfusion h
      · rintro ⟨p, hp, _⟩; omega
    · obtain ⟨b2, l2, e1, _, e3, _⟩ := findFirst_iff_stored P t key loc0 fuel hr hinv hv
        (fuelBound_size P t fuel hfuel)
      rw [hfind] at e1
      have : b2 = b := (congrArg Prod.fst (Option.some.inj e1)).symm
      rw [this] at e3
      exact e3
  refine ⟨t1, l, b, hff, hiff, ?_, ?_⟩
  · intro hb
    obtain ⟨g1, g2, g3, g4, g5⟩ := hb1 hb
    refine ⟨g1, g3, g4, g5, ?_⟩
    intro a c
    unfold forcedFind
    rw [findFirst_withController, hfind, hb, g2]
  · intro hb
    obtain ⟨hins, _⟩ := hb2 hb
    exact ⟨hins.numKeys, hins.used, hins.key_eq⟩

/-- C18 on the table of the keys 1 to 5: the key 3 is reported as present at slot
3 and the table is returned as it is. -/
theorem forcedFind_reports_presence_witness :
    checkedInvariant (modParams false false) scenarioTable ∧
      ∃ t1 loc b, forcedFind (modParams false false) 27 scenarioTable 3 0 = some (t1, loc, b) ∧
        (b = true ↔ stored (modParams false false) scenarioTable 3) ∧ b = true ∧ loc = 3 := by
  obtain ⟨t1, loc, b, h1, h2, _, _⟩ := forcedFind_reports_presence (modParams false false)
    scenarioTable 3 0 27 (modParams_safe false false) (by decide)
    (Or.inr ⟨modParams_range false false 8 (by decide), by decide⟩) (by decide) (by decide)
  have hev : (forcedFind (modParams false false) 27 scenarioTable 3 0).map (fun r => r.2)
      = some (3, true) := by decide
  rw [h1] at hev
  have e : (loc, b) = (3, true) := Option.some.inj hev
  exact ⟨by decide, t1, loc, b, h1, h2, congrArg Prod.snd e, congrArg Prod.fst e⟩

/-- Without ordering the probe loop of `placeToPut` counts the slots of the probe
sequence that hold the key: what it adds to `numFound` is the number of such
slots between `location` and the first virgin slot `v`. -/
theorem placeToPutLoop_count [DecidableEq K] (P : Params K V) (t : Hash K V) (key : K) (h v : Nat)
    (hmode : P.HASH_ORDERED = false)
    (hh : h < getTableSize P t) (hv : v < getTableSize P t) (hvirgin : isUsed t v = false)
    (hfirst : ∀ x, x < getTableSize P t →
      cdist (getTableSize P t) h x < cdist (getTableSize P t) h v → isUsed t x = true) :
    ∀ fuel loc num d l m, loc < getTableSize P t →
      cdist (getTableSize P t) h loc ≤ cdist (getTableSize P t) h v →
      placeToPutLoop P key h fuel t loc num = some (d, l, m) →
      m + (∑ x in Finset.range (getTableSize P t),
          if cdist (getTableSize P t) h x < cdist (getTableSize P t) h loc ∧ isUsed t x = true ∧
            key = constRefToKey t x then 1 else 0)
        = num + (∑ x in Finset.range (getTableSize P t),
          if cdist (getTableSize P t) h x < cdist (getTableSize P t) h v ∧ isUsed t x = true ∧
            key = constRefToKey t x then 1 else 0) := by
  have hN : 0 < getTableSize P t := by omega
  have hvN := cdist_lt (a := h) (b := v) hN
  intro fuel
  induction fuel with
  | zero => intro loc num d l m _ _ hr; exact Option.noConfusion hr
  | succ fuel ih =>
    intro loc num d l m hloc hle hr
    unfold placeToPutLoop at hr
    by_cases hu : isUsed t loc = true
    · rw [if_pos hu] at hr
      have hlv : loc ≠ v := by
        intro e; rw [e, hvirgin] at hu; exact Bool.noConfusion hu
      have hlt : cdist (getTableSize P t) h loc < cdist (getTableSize P t) h v := by
        rcases Nat.lt_or_ge (cdist (getTableSize P t) h loc) (cdist (getTableSize P t) h v)
          with h1 | h1
        · exact h1
        · exact absurd (cdist_inj hh hloc hv (le_antisymm hle h1)) hlv
      have hnext := cdist_next hh hloc (by omega)
      have hstep := sum_change_one
        (fun x => if cdist (getTableSize P t) h x < cdist (getTableSize P t) h loc ∧
          isUsed t x = true ∧ key = constRefToKey t x then 1 else 0)
        (fun x => if cdist (getTableSize P t) h x
            < cdist (getTableSize P t) h ((loc + 1) % getTableSize P t) ∧
          isUsed t x = true ∧ key = constRefToKey t x then 1 else 0) hloc
        (by
          intro x hx hxl
          have hne : cdist (getTableSize P t) h x ≠ cdist (getTableSize P t) h loc :=
            fun e => hxl (cdist_inj hh hx hloc e)
          have hiff : cdist (getTableSize P t) h x
                < cdist (getTableSize P t) h ((loc + 1) % getTableSize P t)
              ↔ cdist (getTableSize P t) h x < cdist (getTableSize P t) h loc := by
            rw [hnext]; omega
          simp only [hiff])
      simp only [lt_irrefl, false_and, if_false, add_zero] at hstep
      have hself : cdist (getTableSize P t) h loc
          < cdist (getTableSize P t) h ((loc + 1) % getTableSize P t) := by
        rw [hnext]; omega
      simp only [hself, hu, true_and] at hstep
      by_cases hk : key = constRefToKey t loc
      · rw [if_pos hk] at hr
        have := ih _ (num + 1) d l m (next_lt hN) (by rw [hnext]; omega) hr
        unfold getNextPlace at this
        rw [hstep, if_pos hk] at this
        omega
      · rw [if_neg hk] at hr
        simp only [hmode, Bool.false_and, Bool.false_eq_true, if_false] at hr
        have := ih _ num d l m (next_lt hN) (by rw [hnext]; omega) hr
        unfold getNextPlace at this
        rw [hstep, if_neg hk] at this
        omega
    · rw [if_neg hu] at hr
      have e := Option.some.inj hr
      have em : num = m := congrArg (fun q => q.2.2) e
      have hlv : loc = v := by
        by_contra hne
        have hlt : cdist (getTableSize P t) h loc < cdist (getTableSize P t) h v := by
          rcases Nat.lt_or_ge (cdist (getTableSize P t) h loc) (cdist (getTableSize P t) h v)
            with h1 | h1
          · exact h1
          · exact absurd (cdist_inj hh hloc hv (le_antisymm hle h1)) hne
        exact hu (hfirst loc hloc hlt)
      rw [hlv, em]

/-- Without ordering, in a table that satisfies the hash invariant and has a virgin
slot, the probe loop of `placeToPut` leaves the table as it is, stops at the
first virgin slot of the probe sequence and has counted every used slot that
holds the key. -/
theorem place_count [DecidableEq K] (P : Params K V) (t : Hash K V) (key : K) (fuel : Nat)
    (hmode : P.HASH_ORDERED = false)
    (hrange : initPlacesInRange P t.nativeSize) (hvir : hasVirgin P t)
    (hinv : hashInvariant P t) (hfuel : getTableSize P t < fuel) :
    ∃ l m, placeToPutLoop P key (P.getInitPlace t.nativeSize key) fuel t
        (P.getInitPlace t.nativeSize key) 0 = some (t, l, m) ∧
      l < getTableSize P t ∧ isUsed t l = false ∧ m = numEqual P t key ∧
      Inserted P t key (added (setAsUsed (setKey t l key) l)) l := by
  have hh : P.getInitPlace t.nativeSize key < getTableSize P t := hrange key
  obtain ⟨d, l, m, hloop, hins, hdn, hun⟩ := place_spec P t key fuel hrange hvir hfuel
  obtain ⟨hl0, hd, hfirst⟩ := hun hmode
  subst hd
  have hl : l < getTableSize P d := by
    have := hins.loc_lt
    exact this
  refine ⟨l, m, hloop, hl, hl0, ?_, hins⟩
  have hcnt := placeToPutLoop_count P d key _ l hmode hh hl hl0 hfirst fuel _ 0 d l m hh
    (by rw [cdist_self hh]; omega) hloop
  rw [cdist_self hh] at hcnt
  simp only [Nat.not_lt_zero, false_and, if_false, Finset.sum_const_zero, add_zero,
    zero_add] at hcnt
  rw [hcnt]
  unfold numEqual
  rw [usedSum_eq_sum]
  apply Finset.sum_congr rfl
  intro x hx
  rw [Finset.mem_range] at hx
  by_cases hu : isUsed d x = true
  · by_cases hk : key = constRefToKey d x
    · have hb := stored_before_virgin P d hrange hinv hx hu hl hl0
      have hi : initPlaceAt P d x = P.getInitPlace d.nativeSize key := by
        unfold initPlaceAt; rw [← hk]
      rw [hi] at hb
      rw [if_pos ⟨hb, hu, hk⟩, if_pos hu, if_pos hk.symm]
    · rw [if_neg (fun h => hk h.2.2), if_pos hu, if_neg (fun h => hk h.symm)]
  · rw [if_neg (fun h => hu h.2.1), if_neg hu]

/-- C19: `placeToPut` counts equal keys and always adds an entry.  Without
ordering, on a table that satisfies the hash invariant and has a virgin slot,
`placeToPut(k, loc)` returns (for every fuel from `fuelBound` on) the number of
used slots that held a key equal to `k` before the call; with `tr` the table
after the growth check (the table itself, or the rehashed table when the
controller asks for growth), `loc` is a virgin slot of `tr`, and the result is
`tr` with `k` written to `loc`, the slot marked used and the key counter
incremented: `size()` has grown by one and one more slot holds `k`.  The
controller is assumed to keep its key counter right and the table from filling
up. -/
theorem placeToPut_counts [DecidableEq K] (P : Params K V) (t : Hash K V) (key : K) (fuel : Nat)
    (hmode : P.HASH_ORDERED = false) (hsafe : controllerSafe P)
    (hcount : t.numKeys = numUsed P t) (hrange : initPlacesInRange P t.nativeSize)
    (hvir : hasVirgin P t) (hinv : hashInvariant P t) (hfuel : fuelBound P t ≤ fuel) :
    ∃ tr t1 loc m, placeToPut P fuel t key = some (t1, loc, m) ∧
      (match P.aboutToPut t.nativeSize t.numKeys with
        | some s => rehash P fuel t s
        | none => some t) = some tr ∧
      m = numEqual P t key ∧ loc < getTableSize P tr ∧ isUsed tr loc = false ∧
      t1 = added (setAsUsed (setKey tr loc key) loc) ∧
      isUsed t1 loc = true ∧ constRefToKey t1 loc = key ∧
      size t1 = size t + 1 ∧ numEqual P t1 key = m + 1 := by
  obtain ⟨hs1, hs2, _⟩ := hsafe
  have hm : t.numKeys ≤ P.sizeForNative t.nativeSize := by
    rw [hcount]; exact numUsed_le P t
  have hsize := fuelBound_size P t fuel hfuel
  simp only [placeToPut]
  cases ha : P.aboutToPut t.nativeSize t.numKeys with
  | some s =>
    obtain ⟨hr, hroom⟩ := hs1 _ _ s hm ha
    have hfs := (fuelBound_grow P t fuel hfuel s ha).1
    obtain ⟨tr, g1, g2, g3, g4, g5, g6, g7⟩ := rehash_spec P fuel t s hcount (fun _ => hvir)
      hr (by rw [← hcount]; omega) hfs
    have hsz1 : getTableSize P tr = P.sizeForNative s := by unfold getTableSize; rw [g2]
    have hvir1 : hasVirgin P tr := by
      rw [hasVirgin_iff, hsz1]
      have := g7 Nat (fun _ _ => 1)
      unfold numUsed
      rw [hsz1, this]
      unfold numUsed at hcount
      omega
    obtain ⟨l, m, hloop, hl, hl0, hmeq, hins⟩ := place_count P tr key fuel hmode
      (by rw [g2]; exact hr) hvir1 (g6 hmode) (by rw [hsz1]; exact hfs)
    have hins2 := hins.of_rehash g3 g4 g5 g6 (by intro M _ φ; rw [hsz1]; exact g7 M φ)
    have hne : numEqual P tr key = numEqual P t key := by
      unfold numEqual
      rw [hsz1]
      exact g7 Nat _
    refine ⟨tr, _, l, m, ?_, g1, by rw [hmeq, hne], hl, hl0, rfl, hins2.used, hins2.key_eq,
      hins2.numKeys, ?_⟩
    · simp only [g1, base_empty_false P tr (by rw [hsz1]; omega), Bool.false_eq_true, if_false,
        hloop]
    · have := hins2.sums Nat (fun k _ => if k = key then 1 else 0)
      unfold numEqual
      rw [this, hmeq, hne]
      simp [numEqual]
  | none =>
    have hN : 0 < getTableSize P t := by
      obtain ⟨v, hv, _⟩ := hvir
      omega
    obtain ⟨l, m, hloop, hl, hl0, hmeq, hins⟩ := place_count P t key fuel hmode hrange hvir hinv
      hsize
    refine ⟨t, _, l, m, ?_, rfl, hmeq, hl, hl0, rfl, hins.used, hins.key_eq, hins.numKeys, ?_⟩
    · simp only [base_empty_false P t hN, Bool.false_eq_true, if_false, hloop]
    · have := hins.sums Nat (fun k _ => if k = key then 1 else 0)
      unfold numEqual
      rw [this, hmeq]
      simp [numEqual]

/-- C19 on a table with the keys 9 and 17: `placeToPut(9)` reports one equal key
and the table then holds three entries. -/
theorem placeToPut_counts_witness :
    hashInvariant (modParams false false) sparseTable ∧ hasVirgin (modParams false false) sparseTable ∧
      ∃ t1 loc m, placeToPut (modParams false false) 13 sparseTable 9 = some (t1, loc, m) ∧
        m = 1 ∧ size t1 = 3 ∧ numEqual (modParams false false) t1 9 = 2 := by
  obtain ⟨tr, t1, loc, m, h1, _, h3, _, _, _, _, _, h9, h10⟩ :=
    placeToPut_counts (modParams false false) sparseTable 9 13 rfl (modParams_safe false false)
      (by decide) (modParams_range false false 8 (by decide)) (by decide) (by decide) (by decide)
  have hm : m = 1 := by rw [h3]; decide
  refine ⟨by decide, by decide, t1, loc, m, h1, hm, ?_, ?_⟩
  · rw [h9]; rfl
  · rw [h10, hm]

/-! ## `clear` -/

/-- The loop of `clear` marks the listed slots unused and leaves the status of the
other slots and the controller as they are. -/
theorem clearLoop_spec (P : Params K V) :
    ∀ (l : List Nat) (t : Hash K V),
      (clearLoop P l t).nativeSize = t.nativeSize ∧ (clearLoop P l t).numKeys = t.numKeys ∧
      (∀ x, x ∈ l → isUsed (clearLoop P l t) x = false) ∧
      (∀ x, x ∉ l → isUsed (clearLoop P l t) x = isUsed t x) := by
  intro l
  induction l with
  | nil => intro t; exact ⟨rfl, rfl, fun x hx => absurd hx (List.not_mem_nil x), fun _ _ => rfl⟩
  | cons i rest ih =>
    intro t
    unfold clearLoop
    obtain ⟨h1, h2, h4, h5⟩ := ih (if isUsed t i then final_remove P t i else t)
    have hstat : ∀ x, isUsed (if isUsed t i then final_remove P t i else t) x
        = if x = i then false else isUsed t x := by
      intro x
      by_cases hu : isUsed t i = true
      · rw [if_pos hu]
        simp only [final_remove, setAsEmpty, remove_stage_2, remove_stage_1, setVal, isUsed,
          setSlot_slots]
        split_ifs <;> rfl
      · rw [if_neg hu]
        by_cases hx : x = i
        · rw [if_pos hx, hx]
          simpa using hu
        · rw [if_neg hx]
    refine ⟨?_, ?_, ?_, ?_⟩
    · rw [h1]; split_ifs <;> rfl
    · rw [h2]; split_ifs <;> rfl
    · intro x hx
      by_cases hxr : x ∈ rest
      · exact h4 x hxr
      · rw [h5 x hxr, hstat]
        have : x = i := by
          rcases List.mem_cons.1 hx with h | h
          · exact h
          · exact absurd h hxr
        rw [if_pos this]
    · intro x hx
      have hxi : x ≠ i := fun e => hx (by rw [e]; exact List.mem_cons_self _ _)
      have hxr : x ∉ rest := fun h => hx (List.mem_cons_of_mem _ h)
      rw [h5 x hxr, hstat, if_neg hxi]

/-- A checking copy loop of `rehash` over slots that are all unused copies
nothing. -/
theorem rehashCopy_skip (P : Params K V) (fuel : Nat) (src : Hash K V) :
    ∀ (l : List Nat) (dest : Hash K V), (∀ i, i ∈ l → isUsed src i = false) →
      rehashCopy P fuel src true l dest = some dest := by
  intro l
  induction l with
  | nil => intro dest _; rfl
  | cons i rest ih =>
    intro dest h
    unfold rehashCopy
    rw [if_pos (by simp [h i (List.mem_cons_self _ _)])]
    exact ih dest (fun j hj => h j (List.mem_cons_of_mem _ hj))

/-- C17: `clear()` empties the table.  For every table whose key counter is zero
when no storage is allocated (as the counter invariant says), `clear()` returns,
and afterwards `size()` is 0, no slot is used and `contains(k)` is false for
every key `k` (for every positive fuel).  The absent `final_remove` is taken from
the spec: it leaves the slot unused. -/
theorem clear_empties [DecidableEq K] (P : Params K V) (fuel : Nat) (t : Hash K V)
    (halloc : getTableSize P t = 0 → size t = 0) :
    ∃ t1, clear P fuel t = some t1 ∧ size t1 = 0 ∧ t1.nativeSize = 0 ∧
      (∀ x, isUsed t1 x = false) ∧ numUsed P t1 = 0 ∧
      ∀ k fuel1, 0 < fuel1 → contains P fuel1 t1 k = some false := by
  have hresult : ∀ w : Int, ∃ t1 : Hash K V, t1 = { newHash P 0 with weightSum := w } ∧
      size t1 = 0 ∧ t1.nativeSize = 0 ∧ (∀ x, isUsed t1 x = false) ∧ numUsed P t1 = 0 ∧
      ∀ k fuel1, 0 < fuel1 → contains P fuel1 t1 k = some false := by
    intro w
    refine ⟨_, rfl, rfl, rfl, fun _ => rfl, ?_, ?_⟩
    · unfold numUsed
      have e : usedSum (fun _ _ => (1 : Nat)) { newHash P 0 with weightSum := w }
          (getTableSize P { newHash P 0 with weightSum := w })
          = usedSum (fun _ _ => (1 : Nat)) (newHash P 0)
            (getTableSize P { newHash P 0 with weightSum := w }) :=
        usedSum_congr _ _ _ _ (fun _ _ => rfl)
      rw [e, usedSum_newHash]
    · intro k fuel1 hf
      obtain ⟨f, rfl⟩ : ∃ f, fuel1 = f + 1 := ⟨fuel1 - 1, by omega⟩
      unfold contains findFirst
      by_cases hb : base_empty P { newHash P 0 with weightSum := w } = true
      · rw [if_pos hb]; rfl
      · rw [if_neg hb]
        unfold findFrom findFromLoop
        have : isUsed ({ newHash P 0 with weightSum := w } : Hash K V)
            (P.getInitPlace ({ newHash P 0 with weightSum := w } : Hash K V).nativeSize k)
            = false := rfl
        rw [this]
        rfl
  unfold clear
  simp only
  by_cases hN : getTableSize P t = 0
  · have hb : base_empty P t = true := by unfold base_empty; simp [hN]
    simp only [hb, Bool.not_true, Bool.false_eq_true, if_false]
    obtain ⟨t1, e, h⟩ := hresult t.weightSum
    refine ⟨t1, ?_, h⟩
    simp only [rehash]
    rw [if_neg (by rw [halloc hN]; exact fun h => h rfl), e]
  · have hb : base_empty P t = false := by unfold base_empty; simp [hN]
    simp only [hb, Bool.not_false, if_true]
    obtain ⟨c1, c2, c4, c5⟩ := clearLoop_spec P (List.range (getTableSize P t)) t
    have hsz : getTableSize P (clearLoop P (List.range (getTableSize P t)) t) = getTableSize P t :=
      congrArg P.sizeForNative c1
    have hun : ∀ x, x < getTableSize P t →
        isUsed (clearLoop P (List.range (getTableSize P t)) t) x = false :=
      fun x hx => c4 x (List.mem_range.2 hx)
    obtain ⟨t1, e, h⟩ := hresult (clearLoop P (List.range (getTableSize P t)) t).weightSum
    refine ⟨t1, ?_, h⟩
    simp only [rehash]
    by_cases hz : size (clearLoop P (List.range (getTableSize P t)) t) ≠ 0
    · rw [if_pos hz, hsz]
      obtain ⟨n, hn⟩ : ∃ n, getTableSize P t = n + 1 := ⟨getTableSize P t - 1, by omega⟩
      have hfirst : firstUnusedFrom (clearLoop P (List.range (getTableSize P t)) t)
          (getTableSize P t) 0 = some 0 := by
        rw [hn]
        unfold firstUnusedFrom
        rw [← hn, hun 0 (by omega)]
        rfl
      rw [hfirst]
      simp only
      rw [rehashCopy_skip P fuel _ _ _ (by
        intro i hi
        rw [List.mem_range'_1] at hi
        exact hun i (by omega))]
      simp only [List.range'_zero]
      rw [e]
      rfl
    · rw [if_neg hz, e]

/-- C17 on the table of the keys 1 to 5. -/
theorem clear_empties_witness :
    (getTableSize (modParams false false) scenarioTable = 0 → size scenarioTable = 0) ∧
    ∃ t1, clear (modParams false false) 1 scenarioTable = some t1 ∧ size t1 = 0 ∧
      t1.nativeSize = 0 ∧ (∀ x, isUsed t1 x = false) ∧ numUsed (modParams false false) t1 = 0 ∧
      ∀ k fuel1, 0 < fuel1 → contains (modParams false false) fuel1 t1 k = some false :=
  ⟨by decide, clear_empties (modParams false false) 1 scenarioTable (by decide)⟩

/-! ## Weighted selection -/

/-- The running total of the weights of the used slots before slot `i`. -/
theorem weightBefore_succ (P : Params K V) (t : Hash K V) (i : Nat) :
    usedSum (fun _ v => P.getWeight v) t (i + 1)
      = usedSum (fun _ v => P.getWeight v) t i + (if isUsed t i then weightAt P t i else 0) := rfl

/-- With weights that are not negative the running total does not decrease. -/
theorem weightBefore_mono (P : Params K V) (t : Hash K V) (N : Nat)
    (hpos : ∀ x, x < N → isUsed t x = true → 0 ≤ weightAt P t x) :
    ∀ b a, a ≤ b → b ≤ N →
      usedSum (fun _ v => P.getWeight v) t a ≤ usedSum (fun _ v => P.getWeight v) t b := by
  intro b
  induction b with
  | zero => intro a ha _; have : a = 0 := by omega
            rw [this]
  | succ b ih =>
    intro a ha hb
    rcases Nat.lt_or_ge a (b + 1) with h | h
    · have h1 := ih a (by omega) (by omega)
      rw [weightBefore_succ]
      by_cases hu : isUsed t b = true
      · rw [if_pos hu]
        have := hpos b (by omega) hu
        omega
      · rw [if_neg hu]; omega
    · have : a = b + 1 := by omega
      rw [this]

/-- The scan of `weighedSlotSelect`, started at slot `i` with the running total of
the slots before `i` not above `u`, in a table whose total weight is above `u`:
it returns the first used slot at which the running total exceeds `u`. -/
theorem weighedSlotSelectLoop_spec (P : Params K V) (t : Hash K V) (u : Int) (N : Nat)
    (htotal : u < usedSum (fun _ v => P.getWeight v) t N) :
    ∀ n i, i + n = N → usedSum (fun _ v => P.getWeight v) t i ≤ u →
      ∃ s, weighedSlotSelectLoop P t u n i (usedSum (fun _ v => P.getWeight v) t i) = some s ∧
        i ≤ s ∧ s < N ∧ isUsed t s = true ∧
        usedSum (fun _ v => P.getWeight v) t s ≤ u ∧
        u < usedSum (fun _ v => P.getWeight v) t s + weightAt P t s := by
  intro n
  induction n with
  | zero =>
    intro i hi hacc
    have : i = N := by omega
    rw [this] at hacc
    omega
  | succ n ih =>
    intro i hi hacc
    unfold weighedSlotSelectLoop
    by_cases hu : isUsed t i = true
    · rw [if_pos hu]
      by_cases hlt : u < usedSum (fun _ v => P.getWeight v) t i + weightAt P t i
      · rw [if_pos hlt]
        exact ⟨i, rfl, Nat.le_refl _, by omega, hu, hacc, hlt⟩
      · rw [if_neg hlt]
        have hs := weightBefore_succ P t i
        rw [if_pos hu] at hs
        rw [← hs]
        obtain ⟨s, h1, h2, h3⟩ := ih (i + 1) (by omega) (by rw [hs]; omega)
        exact ⟨s, h1, by omega, h3⟩
    · rw [if_neg hu]
      have hs := weightBefore_succ P t i
      rw [if_neg hu, add_zero] at hs
      rw [← hs]
      obtain ⟨s, h1, h2, h3⟩ := ih (i + 1) (by omega) (by rw [hs]; omega)
      exact ⟨s, h1, by omega, h3⟩

/-- `weighedSlotSelect(u)` for a value below the total weight and not negative. -/
theorem weighedSlotSelect_spec (P : Params K V) (t : Hash K V) (u : Int)
    (h0 : 0 ≤ u) (h1 : u < scannedWeight P t) :
    ∃ s, weighedSlotSelect P t u = some s ∧ s < getTableSize P t ∧ isUsed t s = true ∧
      usedSum (fun _ v => P.getWeight v) t s ≤ u ∧
      u < usedSum (fun _ v => P.getWeight v) t s + weightAt P t s := by
  obtain ⟨s, g1, _, g3⟩ := weighedSlotSelectLoop_spec P t u (getTableSize P t) h1
    (getTableSize P t) 0 (by omega) h0
  exact ⟨s, g1, g3⟩

/-- With weights that are not negative, a value selects the slot in whose interval
of the running total it lies. -/
theorem weighedSlotSelect_iff (P : Params K V) (t : Hash K V) (u : Int) (s : Nat)
    (hpos : ∀ x, x < getTableSize P t → isUsed t x = true → 0 ≤ weightAt P t x)
    (hs : s < getTableSize P t) (hu : isUsed t s = true)
    (h0 : 0 ≤ u) (h1 : u < scannedWeight P t) :
    weighedSlotSelect P t u = some s ↔
      usedSum (fun _ v => P.getWeight v) t s ≤ u ∧
        u < usedSum (fun _ v => P.getWeight v) t s + weightAt P t s := by
  obtain ⟨s1, g1, g2, g3, g4, g5⟩ := weighedSlotSelect_spec P t u h0 h1
  constructor
  · intro h
    rw [g1] at h
    have : s1 = s := Option.some.inj h
    rw [← this]
    exact ⟨g4, g5⟩
  · rintro ⟨k1, k2⟩
    rw [g1]
    have hss : s1 = s := by
      rcases Nat.lt_trichotomy s1 s with h | h | h
      · have hm := weightBefore_mono P t (getTableSize P t) hpos s (s1 + 1) (by omega) (by omega)
        rw [weightBefore_succ, if_pos g3] at hm
        omega
      · exact h
      · have hm := weightBefore_mono P t (getTableSize P t) hpos s1 (s + 1) (by omega) (by omega)
        rw [weightBefore_succ, if_pos hu] at hm
        omega
    rw [hss]

/-- C15: the weighted selection rule.  In a table whose `weight()` is the sum of
the weights of its used slots, for every draw `u = src.next(W)` with
`0 ≤ u < W = weight()` (so that `W` is positive), `weighedRandSlot` returns a used slot `s` such that
the weights of the used slots scanned before `s` sum to at most `u` and that sum
plus `weightAt(s)` exceeds `u`, and `weighedRandKey` returns the key of `s`; hence,
with weights that are not negative, the number of integers `u` in `[0, W)` that
select a used slot `s` is `weightAt(s)`.  The scan `weighedSlotSelect` is taken
from the spec. -/
theorem weighedRandSlot_rule (P : Params K V) (t : Hash K V)
    (hw : weight t = scannedWeight P t) :
    (∀ next : Int → Int, 0 ≤ next (weight t) → next (weight t) < weight t →
      ∃ s, weighedRandSlot P t next = some s ∧
        weighedRandKey P t next = some (constRefToKey t s) ∧
        s < getTableSize P t ∧ isUsed t s = true ∧
        usedSum (fun _ v => P.getWeight v) t s ≤ next (weight t) ∧
        next (weight t) < usedSum (fun _ v => P.getWeight v) t s + weightAt P t s) ∧
    ((∀ x, x < getTableSize P t → isUsed t x = true → 0 ≤ weightAt P t x) →
      ∀ s, s < getTableSize P t → isUsed t s = true →
        (((Finset.Ico (0 : Int) (weight t)).filter
          (fun u => weighedSlotSelect P t u = some s)).card : Int) = weightAt P t s) := by
  constructor
  · intro next h0 h1
    obtain ⟨s, g1, g2⟩ := weighedSlotSelect_spec P t (next (weight t)) h0 (by rw [← hw]; exact h1)
    refine ⟨s, g1, ?_, g2⟩
    unfold weighedRandKey weighedRandSlot
    rw [g1]; rfl
  · intro hpos s hs hu
    have hlow := weightBefore_mono P t (getTableSize P t) hpos s 0 (Nat.zero_le _) (by omega)
    have hhigh := weightBefore_mono P t (getTableSize P t) hpos (getTableSize P t) (s + 1)
      (by omega) (Nat.le_refl _)
    rw [weightBefore_succ, if_pos hu] at hhigh
    have hzero : usedSum (fun _ v => P.getWeight v) t 0 = 0 := rfl
    rw [hzero] at hlow
    have hset : (Finset.Ico (0 : Int) (weight t)).filter
          (fun u => weighedSlotSelect P t u = some s)
        = Finset.Ico (usedSum (fun _ v => P.getWeight v) t s)
          (usedSum (fun _ v => P.getWeight v) t s + weightAt P t s) := by
      ext u
      rw [Finset.mem_filter, Finset.mem_Ico, Finset.mem_Ico]
      constructor
      · rintro ⟨⟨a0, a1⟩, hsel⟩
        exact (weighedSlotSelect_iff P t u s hpos hs hu a0 (by rw [← hw]; exact a1)).1 hsel
      · rintro ⟨b0, b1⟩
        have a0 : 0 ≤ u := by omega
        have a1 : u < weight t := by
          rw [hw]; unfold scannedWeight; omega
        exact ⟨⟨a0, a1⟩,
          (weighedSlotSelect_iff P t u s hpos hs hu a0 (by rw [← hw]; exact a1)).2 ⟨b0, b1⟩⟩
    rw [hset, Int.card_Ico]
    have := hpos s hs hu
    rw [Int.toNat_of_nonneg (by omega)]
    omega

/-- C15 for entries with the weights 1, 1 and 2: of the four values of `u`, one
selects the first entry, one the second and two the third. -/
theorem weighedRandSlot_rule_witness :
    weight weightsTable = scannedWeight (modParams false false) weightsTable ∧
    0 < weight weightsTable ∧
    (List.range 4).map (fun u => weighedSlotSelect (modParams false false) weightsTable u)
      = [some 0, some 2, some 3, some 3] ∧
    (((Finset.Ico (0 : Int) (weight weightsTable)).filter
      (fun u => weighedSlotSelect (modParams false false) weightsTable u = some 3)).card : Int)
        = 2 := by
  have h := (weighedRandSlot_rule (modParams false false) weightsTable (by decide)).2
    (by decide) 3 (by decide) (by decide)
  exact ⟨by decide, by decide, by decide, h⟩

/-! ## The mutating iterator -/

theorem tailSum_zero {M : Type} [AddCommMonoid M] (φ : K → V → M) (t : Hash K V) (N e : Nat) :
    tailSum φ t N e 0 = usedSum φ t N := by
  rw [usedSum_eq_sum]
  unfold tailSum
  apply Finset.sum_congr rfl
  intro x _
  simp

/-- Slots that are not used do not count: the threshold may move over them. -/
theorem tailSum_skip {M : Type} [AddCommMonoid M] (φ : K → V → M) (t : Hash K V)
    (N e m m1 : Nat) (hle : m ≤ m1)
    (hno : ∀ x, x < N → isUsed t x = true → m ≤ cdist N e x → m1 ≤ cdist N e x) :
    tailSum φ t N e m = tailSum φ t N e m1 := by
  unfold tailSum
  apply Finset.sum_congr rfl
  intro x hx
  rw [Finset.mem_range] at hx
  by_cases hu : isUsed t x = true
  · by_cases hm : m ≤ cdist N e x
    · rw [if_pos ⟨hu, hm⟩, if_pos ⟨hu, hno x hx hu hm⟩]
    · rw [if_neg (fun h => hm h.2), if_neg (fun h => hm (le_trans hle h.2))]
  · rw [if_neg (fun h => hu h.1), if_neg (fun h => hu h.1)]

/-- The used slot that lies exactly `m` steps behind `e` is the first term of the
sum. -/
theorem tailSum_pop {M : Type} [AddCommMonoid M] (φ : K → V → M) (t : Hash K V)
    (N e loc : Nat) (he : e < N) (hloc : loc < N) (hu : isUsed t loc = true) :
    tailSum φ t N e (cdist N e loc)
      = tailSum φ t N e (cdist N e loc + 1) + φ (constRefToKey t loc) (constRefToVal t loc) := by
  unfold tailSum
  have h := sum_change_one
    (fun x => if isUsed t x = true ∧ cdist N e loc + 1 ≤ cdist N e x then
      φ (constRefToKey t x) (constRefToVal t x) else 0)
    (fun x => if isUsed t x = true ∧ cdist N e loc ≤ cdist N e x then
      φ (constRefToKey t x) (constRefToVal t x) else 0) hloc
    (by
      intro x hx hxl
      have hne : cdist N e x ≠ cdist N e loc := fun h => hxl (cdist_inj he hx hloc h)
      have hiff : cdist N e loc ≤ cdist N e x ↔ cdist N e loc + 1 ≤ cdist N e x := by omega
      simp only [hiff])
  simp only [hu, true_and, le_refl, if_true] at h
  rw [if_neg (by omega), add_zero] at h
  exact h

theorem tailSum_top {M : Type} [AddCommMonoid M] (φ : K → V → M) (t : Hash K V)
    (N e m : Nat) (hm : N ≤ m) : tailSum φ t N e m = 0 := by
  unfold tailSum
  apply Finset.sum_eq_zero
  intro x hx
  rw [Finset.mem_range] at hx
  have := cdist_lt (a := e) (b := x) (by omega : 0 < N)
  rw [if_neg (by omega)]

/-- The sum over the used slots splits at a threshold. -/
theorem usedSum_head_tail {M : Type} [AddCommMonoid M] (φ : K → V → M) (t : Hash K V)
    (N e m : Nat) :
    usedSum φ t N = (∑ x in Finset.range N,
        (if isUsed t x = true ∧ cdist N e x < m then φ (constRefToKey t x) (constRefToVal t x)
          else 0)) + tailSum φ t N e m := by
  rw [usedSum_eq_sum]
  unfold tailSum
  rw [← Finset.sum_add_distrib]
  apply Finset.sum_congr rfl
  intro x _
  by_cases hu : isUsed t x = true
  · by_cases hm : m ≤ cdist N e x
    · rw [if_pos hu, if_neg (by omega), if_pos ⟨hu, hm⟩, zero_add]
    · rw [if_pos hu, if_pos ⟨hu, by omega⟩, if_neg (fun h => hm h.2), add_zero]
  · rw [if_neg hu, if_neg (fun h => hu h.1), if_neg (fun h => hu h.1), add_zero]

/-- A removal that leaves the slots before the threshold alone takes the removed
entry out of the sum behind the threshold. -/
theorem tailSum_removed {M : Type} [AddCancelCommMonoid M] (φ : K → V → M) (t t2 : Hash K V)
    (N e m : Nat) (a : M)
    (hsum : usedSum φ t2 N + a = usedSum φ t N)
    (hframe : ∀ x, x < N → cdist N e x < m → t2.slots x = t.slots x) :
    tailSum φ t2 N e m + a = tailSum φ t N e m := by
  rw [usedSum_head_tail φ t N e m, usedSum_head_tail φ t2 N e m] at hsum
  have hhead : (∑ x in Finset.range N,
        (if isUsed t2 x = true ∧ cdist N e x < m then φ (constRefToKey t2 x) (constRefToVal t2 x)
          else 0))
      = ∑ x in Finset.range N,
        (if isUsed t x = true ∧ cdist N e x < m then φ (constRefToKey t x) (constRefToVal t x)
          else 0) := by
    apply Finset.sum_congr rfl
    intro x hx
    rw [Finset.mem_range] at hx
    by_cases hm : cdist N e x < m
    · have := hframe x hx hm
      unfold isUsed constRefToKey constRefToVal
      rw [this]
    · rw [if_neg (fun h => hm h.2), if_neg (fun h => hm h.2)]
  rw [hhead, add_assoc] at hsum
  exact add_left_cancel hsum

/-- The loop of `iterator::advanceIter`, started at a slot other than `endLoc = e`
in a table whose slot `e` is unused: it stops at the next used slot before `e`
is reached, or marks the iterator as finished when no used slot is left. -/
theorem iterator.advanceLoop_spec (P : Params K V) (t : Hash K V) (e : Nat)
    (he : e < getTableSize P t) (hve : isUsed t e = false) :
    ∀ fuel loc, loc < getTableSize P t → loc ≠ e →
      getTableSize P t - cdist (getTableSize P t) e loc < fuel →
      ∃ l1, iterator.advanceLoop P t e fuel loc = some l1 ∧
        ((l1 < getTableSize P t ∧ isUsed t l1 = true ∧
            cdist (getTableSize P t) e loc < cdist (getTableSize P t) e l1 ∧
            ∀ x, x < getTableSize P t → isUsed t x = true →
              cdist (getTableSize P t) e loc < cdist (getTableSize P t) e x →
              cdist (getTableSize P t) e l1 ≤ cdist (getTableSize P t) e x) ∨
          (l1 = getTableSize P t ∧
            ∀ x, x < getTableSize P t → isUsed t x = true →
              cdist (getTableSize P t) e x ≤ cdist (getTableSize P t) e loc)) := by
  have hN : 0 < getTableSize P t := by omega
  intro fuel
  induction fuel with
  | zero => intro loc _ _ h; omega
  | succ fuel ih =>
    intro loc hloc hle hfuel
    unfold iterator.advanceLoop
    rw [if_pos hle]
    have hdN := cdist_lt (a := e) (b := loc) hN
    have hnl : getNextPlace P t loc = (loc + 1) % getTableSize P t := rfl
    rw [hnl]
    by_cases hlast : cdist (getTableSize P t) e loc + 1 < getTableSize P t
    · have hnext := cdist_next he hloc hlast
      have hne : (loc + 1) % getTableSize P t ≠ e := by
        intro h
        rw [h, cdist_self he] at hnext
        omega
      by_cases hu : isUsed t ((loc + 1) % getTableSize P t) = true
      · rw [if_pos hu]
        refine ⟨_, rfl, Or.inl ⟨next_lt hN, hu, by omega, ?_⟩⟩
        intro x _ _ hx
        omega
      · rw [if_neg hu]
        obtain ⟨l1, h1, h2⟩ := ih ((loc + 1) % getTableSize P t) (next_lt hN) hne (by omega)
        refine ⟨l1, h1, ?_⟩
        rcases h2 with ⟨a1, a2, a3, a4⟩ | ⟨a1, a2⟩
        · refine Or.inl ⟨a1, a2, by omega, ?_⟩
          intro x hx hxu hxd
          apply a4 x hx hxu
          have : cdist (getTableSize P t) e x ≠ cdist (getTableSize P t) e loc + 1 := by
            intro h
            rw [← hnext] at h
            have := cdist_inj he hx (next_lt hN) h
            rw [this] at hxu
            exact hu hxu
          omega
        · refine Or.inr ⟨a1, ?_⟩
          intro x hx hxu
          have h3 := a2 x hx hxu
          have : cdist (getTableSize P t) e x ≠ cdist (getTableSize P t) e loc + 1 := by
            intro h
            rw [← hnext] at h
            have := cdist_inj he hx (next_lt hN) h
            rw [this] at hxu
            exact hu hxu
          omega
    · have hnext : (loc + 1) % getTableSize P t = e := by
        rw [cdist_eq he hloc] at hlast hdN
        rw [next_eq hloc]
        split_ifs at hlast hdN ⊢ <;> omega
      rw [hnext, if_neg (by rw [hve]; exact Bool.noConfusion)]
      obtain ⟨f, rfl⟩ : ∃ f, fuel = f + 1 := ⟨fuel - 1, by omega⟩
      unfold iterator.advanceLoop
      rw [if_neg (by simp)]
      refine ⟨_, rfl, Or.inr ⟨rfl, ?_⟩⟩
      intro x hx _
      have := cdist_lt (a := e) (b := x) hN
      omega

/-- The loop of the constructor that looks for the first used slot behind the end
point `e`, in a table that has a used slot further on. -/
theorem iterator.firstUsedLoop_spec (P : Params K V) (t : Hash K V) (e : Nat)
    (he : e < getTableSize P t) :
    ∀ fuel loc, loc < getTableSize P t →
      (∃ u, u < getTableSize P t ∧ isUsed t u = true ∧
        cdist (getTableSize P t) e loc < cdist (getTableSize P t) e u) →
      getTableSize P t - cdist (getTableSize P t) e loc ≤ fuel →
      ∃ l1, iterator.firstUsedLoop P t fuel loc = some l1 ∧ l1 < getTableSize P t ∧
        isUsed t l1 = true ∧
        cdist (getTableSize P t) e loc < cdist (getTableSize P t) e l1 ∧
        ∀ x, x < getTableSize P t → isUsed t x = true →
          cdist (getTableSize P t) e loc < cdist (getTableSize P t) e x →
          cdist (getTableSize P t) e l1 ≤ cdist (getTableSize P t) e x := by
  have hN : 0 < getTableSize P t := by omega
  intro fuel
  induction fuel with
  | zero =>
    intro loc _ _ h
    have := cdist_lt (a := e) (b := loc) hN
    omega
  | succ fuel ih =>
    rintro loc hloc ⟨u, hu1, hu2, hu3⟩ hfuel
    have hdu := cdist_lt (a := e) (b := u) hN
    have hnext := cdist_next he hloc (by omega)
    unfold iterator.firstUsedLoop
    have hnl : getNextPlace P t loc = (loc + 1) % getTableSize P t := rfl
    rw [hnl]
    by_cases hused : isUsed t ((loc + 1) % getTableSize P t) = true
    · rw [if_neg (by simp [hused])]
      refine ⟨_, rfl, next_lt hN, hused, by omega, ?_⟩
      intro x _ _ hx
      omega
    · rw [if_pos (by simpa using hused)]
      have hne : ∀ x, x < getTableSize P t → isUsed t x = true →
          cdist (getTableSize P t) e x ≠ cdist (getTableSize P t) e loc + 1 := by
        intro x hx hxu h
        rw [← hnext] at h
        have := cdist_inj he hx (next_lt hN) h
        rw [this] at hxu
        exact hused hxu
      obtain ⟨l1, h1, h2, h3, h4, h5⟩ := ih ((loc + 1) % getTableSize P t) (next_lt hN)
        ⟨u, hu1, hu2, by have := hne u hu1 hu2; omega⟩ (by omega)
      refine ⟨l1, h1, h2, h3, by omega, ?_⟩
      intro x hx hxu hxd
      apply h5 x hx hxu
      have := hne x hx hxu
      omega

/-- One `advanceIter` of an iteration, from a slot other than the end point: the
iterator comes to the next used slot or is finished, and no used slot lies
between the two positions. -/
theorem iterator.advance_step (P : Params K V) (N e : Nat) (t : Hash K V) (it : iterator)
    (fuel : Nat) (hsz : getTableSize P t = N) (hrange : initPlacesInRange P t.nativeSize)
    (he : e < N) (hvirgin : isUsed t e = false) (hend : it.endLoc = e) (hloc : it.loc < N)
    (hne : it.loc ≠ e) (hfuel : N < fuel) :
    ∃ it1, iterator.advanceIter P fuel t it = some it1 ∧ IterInv P N e t it1 ∧
      iterator.rank N e it < iterator.rank N e it1 ∧
      ∀ {M : Type} [AddCommMonoid M] (φ : K → V → M),
        tailSum φ t N e (iterator.rank N e it + 1) = tailSum φ t N e (iterator.rank N e it1) := by
  have hN : 0 < N := by omega
  have hdN := cdist_lt (a := e) (b := it.loc) hN
  obtain ⟨l1, h1, h2⟩ := iterator.advanceLoop_spec P t e (by rw [hsz]; exact he) hvirgin fuel
    it.loc (by rw [hsz]; exact hloc) hne (by rw [hsz]; omega)
  rw [hsz] at h2
  have hrank : iterator.rank N e it = cdist N e it.loc := by
    unfold iterator.rank; rw [if_pos hloc]
  refine ⟨{ it with loc := l1 }, ?_, ?_, ?_, ?_⟩
  · unfold iterator.advanceIter
    rw [hend, h1]; rfl
  · refine ⟨hsz, hrange, he, hvirgin, hend, ?_⟩
    rcases h2 with ⟨a1, a2, _, _⟩ | ⟨a1, _⟩
    · exact Or.inr ⟨a1, a2⟩
    · exact Or.inl a1
  · rw [hrank]
    unfold iterator.rank
    rcases h2 with ⟨a1, a2, a3, _⟩ | ⟨a1, _⟩
    · rw [if_pos (show ({ it with loc := l1 } : iterator).loc < N from a1)]
      exact a3
    · rw [if_neg (show ¬ ({ it with loc := l1 } : iterator).loc < N from by
        show ¬ l1 < N
        omega)]
      exact hdN
  · intro M _ φ
    rw [hrank]
    unfold iterator.rank
    rcases h2 with ⟨a1, a2, a3, a4⟩ | ⟨a1, a2⟩
    · rw [if_pos (show ({ it with loc := l1 } : iterator).loc < N from a1)]
      apply tailSum_skip φ t N e _ _ (by show _ ≤ cdist N e l1; omega)
      intro x hx hxu hxd
      exact a4 x hx hxu (by omega)
    · rw [if_neg (show ¬ ({ it with loc := l1 } : iterator).loc < N from by
        show ¬ l1 < N
        omega)]
      apply tailSum_skip φ t N e _ _ (by omega)
      intro x hx hxu hxd
      have := a2 x hx hxu
      omega

/-- One `remove()` of an iteration: the current entry leaves the sum of what is
still to be visited, and nothing else does, whatever the local rehash moves. -/
theorem iterator.remove_step (P : Params K V) (N e : Nat) (t : Hash K V) (it : iterator)
    (fuel : Nat) (hinv : IterInv P N e t it) (hloc : it.loc < N) (hfuel : N < fuel) :
    ∃ t1 it1, iterator.remove P fuel t it = some (t1, it1) ∧ IterInv P N e t1 it1 ∧
      removeFrom P fuel t it.loc = some t1 ∧
      iterator.rank N e it ≤ iterator.rank N e it1 ∧
      ∀ {M : Type} [AddCancelCommMonoid M] (φ : K → V → M),
        tailSum φ t1 N e (iterator.rank N e it1)
            + φ (constRefToKey t it.loc) (constRefToVal t it.loc)
          = tailSum φ t N e (iterator.rank N e it) := by
  obtain ⟨hsz, hrange, he, hvirgin, hend, hpos⟩ := hinv
  have hN : 0 < N := by omega
  have hused : isUsed t it.loc = true := by
    rcases hpos with h | ⟨_, h⟩
    · omega
    · exact h
  have hne : it.loc ≠ e := by
    intro h; rw [h, hvirgin] at hused; exact Bool.noConfusion hused
  have hrank : iterator.rank N e it = cdist N e it.loc := by
    unfold iterator.rank; rw [if_pos hloc]
  obtain ⟨v, hv, hvv, hfirst⟩ := exists_first_virgin (isUsed t) hloc ⟨e, he, hvirgin⟩
  have hsums := fun (M : Type) [AddCommMonoid M] (φ : K → V → M) =>
    removeFrom_sum φ P t it.loc v fuel hrange (by rw [hsz]; exact hloc) hused
      (by rw [hsz]; exact hv) hvv (by rw [hsz]; exact hfirst) (by rw [hsz]; exact hfuel)
  obtain ⟨t2, hrem, _, hnat, _, _, hmono, hframe, _⟩ := hsums Nat (fun _ _ => 0)
  rw [hsz] at hframe
  have hsz2 : getTableSize P t2 = N := by
    unfold getTableSize; rw [hnat]; exact hsz
  have hvirgin2 : isUsed t2 e = false := by
    cases h : isUsed t2 e
    · rfl
    · have := hmono e h
      rw [hvirgin] at this
      exact Bool.noConfusion this
  have hve : cdist N it.loc v ≤ cdist N it.loc e := by
    by_contra hlt
    have := hfirst e he (by omega)
    rw [hvirgin] at this
    exact Bool.noConfusion this
  have hframe2 : ∀ x, x < N → cdist N e x < cdist N e it.loc → t2.slots x = t.slots x := by
    intro x hx hxd
    apply hframe
    rintro ⟨_, hlt⟩
    rw [cdist_eq hloc hv, cdist_eq hloc he] at hve
    rw [cdist_eq he hx, cdist_eq he hloc] at hxd
    rw [cdist_eq hloc hx, cdist_eq hloc hv] at hlt
    split_ifs at hve hxd hlt <;> omega
  have htail : ∀ {M : Type} [AddCancelCommMonoid M] (φ : K → V → M),
      tailSum φ t2 N e (cdist N e it.loc) + φ (constRefToKey t it.loc) (constRefToVal t it.loc)
        = tailSum φ t N e (cdist N e it.loc) := by
    intro M _ φ
    obtain ⟨t3, hrem3, hs3, _⟩ := hsums M φ
    rw [hrem] at hrem3
    have e3 : t2 = t3 := Option.some.inj hrem3
    subst e3
    rw [hsz] at hs3
    exact tailSum_removed φ t t2 N e _ _ hs3 hframe2
  by_cases hu2 : isUsed t2 it.loc = true
  · refine ⟨t2, it, ?_, ⟨hsz2, by rw [hnat]; exact hrange, he, hvirgin2, hend,
      Or.inr ⟨hloc, hu2⟩⟩, hrem, Nat.le_refl _, ?_⟩
    · unfold iterator.remove
      rw [hrem]
      simp only [hu2, Bool.not_true, Bool.false_eq_true, if_false]
    · intro M _ φ
      rw [hrank]
      exact htail φ
  · obtain ⟨it1, g1, g2, g3, g4⟩ := iterator.advance_step P N e t2 it fuel hsz2
      (by rw [hnat]; exact hrange) he hvirgin2 hend hloc hne hfuel
    refine ⟨t2, it1, ?_, g2, hrem, Nat.le_of_lt g3, ?_⟩
    · unfold iterator.remove
      rw [hrem]
      simp only
      rw [if_pos (by simpa using hu2), g1]
      rfl
    · intro M _ φ
      rw [← g4 φ, hrank, ← htail φ]
      congr 1
      symm
      apply tailSum_skip φ t2 N e _ _ (Nat.le_succ _)
      intro x hx hxu hxd
      have hxl : x ≠ it.loc := by
        intro h; rw [h] at hxu; exact hu2 hxu
      have : cdist N e x ≠ cdist N e it.loc := fun h => hxl (cdist_inj he hx hloc h)
      omega

/-- An iteration driven from a state between two steps: whatever the choices, it
comes to its end within as many steps as there are entries left to visit, and
the entries that were current are, with their multiplicities, the entries that
were left to visit. -/
theorem iterator.drive_spec (P : Params K V) (N e fuel : Nat) (choices : Nat → Bool)
    (hfuel : N < fuel) {M : Type} [AddCancelCommMonoid M] (φ : K → V → M) :
    ∀ steps k (t : Hash K V) (it : iterator), IterInv P N e t it →
      tailSum (fun _ _ => (1 : Nat)) t N e (iterator.rank N e it) < steps →
      ∃ l tEnd, iterator.drive P fuel choices steps k t it = some (l, tEnd) ∧
        (l.map (fun p => φ p.1 p.2)).sum = tailSum φ t N e (iterator.rank N e it) ∧
        l.length = tailSum (fun _ _ => (1 : Nat)) t N e (iterator.rank N e it) ∧
        getTableSize P tEnd = N := by
  intro steps
  induction steps with
  | zero => intro k t it _ h; omega
  | succ steps ih =>
    intro k t it hinv hsteps
    unfold iterator.drive
    by_cases hfin : iterator.finished P t it = true
    · rw [if_pos hfin]
      have hl : it.loc = N := by
        unfold iterator.finished at hfin
        rw [hinv.size_eq] at hfin
        simpa using hfin
      have hr : iterator.rank N e it = N := by
        unfold iterator.rank; rw [if_neg (by omega)]
      refine ⟨[], t, rfl, ?_, ?_, hinv.size_eq⟩
      · rw [hr, tailSum_top φ t N e N (Nat.le_refl _)]; rfl
      · rw [hr, tailSum_top _ t N e N (Nat.le_refl _)]; rfl
    · rw [if_neg hfin]
      have hne : it.loc ≠ N := by
        intro h
        apply hfin
        unfold iterator.finished
        rw [hinv.size_eq, h]
        simp
      obtain ⟨hloc, hused⟩ : it.loc < N ∧ isUsed t it.loc = true := by
        rcases hinv.pos with h | h
        · exact absurd h hne
        · exact h
      have hrank : iterator.rank N e it = cdist N e it.loc := by
        unfold iterator.rank; rw [if_pos hloc]
      have hle : it.loc ≠ e := by
        intro h; rw [h, hinv.virgin] at hused; exact Bool.noConfusion hused
      simp only
      cases hc : choices k with
      | true =>
        simp only [if_true]
        obtain ⟨t1, it1, g1, g2, _, _, g5⟩ := iterator.remove_step P N e t it fuel hinv hloc hfuel
        have hcount := g5 (fun _ _ => (1 : Nat))
        beta_reduce at hcount
        obtain ⟨l, tEnd, h1, h2, h3, h4⟩ := ih (k + 1) t1 it1 g2 (by omega)
        rw [g1]
        simp only
        rw [h1]
        refine ⟨_, tEnd, rfl, ?_, ?_, h4⟩
        · rw [List.map_cons, List.sum_cons, h2, ← g5 φ, add_comm]
        · rw [List.length_cons, h3, ← hcount]
      | false =>
        simp only [Bool.false_eq_true, if_false]
        obtain ⟨it1, g1, g2, _, g4⟩ := iterator.advance_step P N e t it fuel hinv.size_eq
          hinv.range hinv.he hinv.virgin hinv.endLoc hloc hle hfuel
        have hpop1 := tailSum_pop (fun _ _ => (1 : Nat)) t N e it.loc hinv.he hloc hused
        have hpop := tailSum_pop φ t N e it.loc hinv.he hloc hused
        rw [← hrank] at hpop1 hpop
        rw [g4] at hpop1 hpop
        beta_reduce at hpop1
        obtain ⟨l, tEnd, h1, h2, h3, h4⟩ := ih (k + 1) t it1 g2 (by omega)
        rw [g1]
        simp only [Option.map_some']
        rw [h1]
        refine ⟨_, tEnd, rfl, ?_, ?_, h4⟩
        · rw [List.map_cons, List.sum_cons, h2, hpop, add_comm]
        · rw [List.length_cons, h3, hpop1]

theorem exists_used_of_count (t : Hash K V) :
    ∀ n, usedSum (fun _ _ => (1 : Nat)) t n ≠ 0 → ∃ u, u < n ∧ isUsed t u = true := by
  intro n
  induction n with
  | zero => intro h; exact absurd rfl h
  | succ n ih =>
    intro h
    rw [usedSum] at h
    by_cases hu : isUsed t n = true
    · exact ⟨n, Nat.lt_succ_self _, hu⟩
    · rw [if_neg hu, add_zero] at h
      obtain ⟨u, h1, h2⟩ := ih h
      exact ⟨u, by omega, h2⟩

theorem list_sum_singletons (l : List (K × V)) :
    (l.map (fun p => ({(p.1, p.2)} : Multiset (K × V)))).sum = (l : Multiset (K × V)) := by
  induction l with
  | nil => rfl
  | cons a l ih =>
    rw [List.map_cons, List.sum_cons, ih, Multiset.singleton_add, Multiset.cons_coe]

/-- The constructor of the iterator on a table that holds entries and has a virgin
slot: the end point is the first unused slot, the position the first used slot
behind it, and everything is still to be visited. -/
theorem iterator.begin_spec (P : Params K V) (t : Hash K V) (junk fuel : Nat)
    (hrange : initPlacesInRange P t.nativeSize) (hvir : hasVirgin P t)
    (hcount : size t = numUsed P t) (hne : numUsed P t ≠ 0)
    (hfuel : getTableSize P t < fuel) :
    ∃ it, iterator.begin P fuel t junk = some it ∧
      IterInv P (getTableSize P t) it.endLoc t it ∧
      ∀ {M : Type} [AddCommMonoid M] (φ : K → V → M),
        tailSum φ t (getTableSize P t) it.endLoc (iterator.rank (getTableSize P t) it.endLoc it)
          = usedSum φ t (getTableSize P t) := by
  obtain ⟨v, hv, hvv⟩ := hvir
  have hN : 0 < getTableSize P t := by omega
  obtain ⟨e, g1, _, g3, g4, _⟩ := firstUnusedFrom_spec t (getTableSize P t) 0
    ⟨v, Nat.zero_le _, by omega, hvv⟩
  have he : e < getTableSize P t := by omega
  obtain ⟨u, hu1, hu2⟩ := exists_used_of_count t (getTableSize P t) hne
  have hue : e ≠ u := by
    intro h; rw [← h, g4] at hu2; exact Bool.noConfusion hu2
  obtain ⟨l1, h1, h2, h3, h4, h5⟩ := iterator.firstUsedLoop_spec P t e he fuel e he
    ⟨u, hu1, hu2, by rw [cdist_self he]; exact cdist_pos he hu1 hue⟩
    (by rw [cdist_self he]; omega)
  refine ⟨{ loc := l1, endLoc := e }, ?_, ⟨rfl, hrange, he, g4, rfl, Or.inr ⟨h2, h3⟩⟩, ?_⟩
  · unfold iterator.begin
    rw [if_neg (by rw [hcount]; exact hne), g1]
    simp only
    rw [h1]; rfl
  · intro M _ φ
    rw [← tailSum_zero φ t (getTableSize P t) e]
    symm
    apply tailSum_skip φ t _ e _ _ (Nat.zero_le _)
    intro x hx hxu _
    have hxe : e ≠ x := by
      intro h; rw [← h, g4] at hxu; exact Bool.noConfusion hxu
    have hpos := cdist_pos he hx hxe
    rw [cdist_self he] at h5
    show iterator.rank _ e { loc := l1, endLoc := e } ≤ _
    unfold iterator.rank
    rw [if_pos (show ({ loc := l1, endLoc := e } : iterator).loc < _ from h2)]
    exact h5 x hx hxu hpos

/-- C12: the mutating iterator visits each entry exactly once, even with removals.
On a table with a virgin slot whose key counter is right, an iterator driven from
`begin()` until `finished()`, with an arbitrary choice between `operator++` and
`remove()` at every step, comes to its end (for every fuel above the table
size), and the list of the entries that were current at the steps is, as a
multiset, the multiset of the entries that were in the table at `begin()`: no
entry is skipped and none is seen twice, whatever the local rehash relocates.
The number of steps is the number of entries, and the table keeps its size. -/
theorem iterator_visits_once (P : Params K V) (t : Hash K V) (choices : Nat → Bool)
    (junk fuel : Nat) (hrange : initPlacesInRange P t.nativeSize) (hvir : hasVirgin P t)
    (hcount : size t = numUsed P t) (hfuel : getTableSize P t < fuel) :
    ∃ l tEnd, iterator.iterate P fuel choices t junk = some (l, tEnd) ∧
      (l : Multiset (K × V)) = entries P t ∧ l.length = numUsed P t ∧
      getTableSize P tEnd = getTableSize P t := by
  unfold iterator.iterate
  by_cases hne : numUsed P t = 0
  · have hb : iterator.begin P fuel t junk
        = some { loc := getTableSize P t, endLoc := junk } := by
      unfold iterator.begin
      rw [if_pos (by rw [hcount]; exact hne)]
    rw [hb]
    simp only
    obtain ⟨f, rfl⟩ : ∃ f, fuel = f + 1 := ⟨fuel - 1, by omega⟩
    unfold iterator.drive
    rw [if_pos (by simp [iterator.finished])]
    refine ⟨[], t, rfl, ?_, by rw [hne]; rfl, rfl⟩
    unfold entries
    rw [usedSum_zero_of_count _ t _ hne]
    rfl
  · obtain ⟨it, h1, h2, h3⟩ := iterator.begin_spec P t junk fuel hrange hvir hcount hne hfuel
    rw [h1]
    simp only
    have hle : tailSum (fun _ _ => (1 : Nat)) t (getTableSize P t) it.endLoc
        (iterator.rank (getTableSize P t) it.endLoc it) < fuel := by
      rw [h3]
      have := numUsed_le P t
      unfold numUsed at this
      omega
    obtain ⟨l, tEnd, g1, g2, g3, g4⟩ := iterator.drive_spec P (getTableSize P t) it.endLoc fuel
      choices hfuel (fun k v => ({(k, v)} : Multiset (K × V))) fuel 0 t it h2 hle
    refine ⟨l, tEnd, g1, ?_, ?_, g4⟩
    · rw [← list_sum_singletons l, g2, h3]
      rfl
    · rw [g3, h3]
      rfl

/-- C12 on the table whose run wraps around the end: with `remove()` at the even
steps and `operator++` at the odd ones, the entries with the keys 3, 7 and 11 are
current once each. -/
theorem iterator_visits_once_witness :
    hasVirgin (modParams false false) wrapTable ∧
    ∃ l tEnd, iterator.iterate (modParams false false) 5 (fun k => k % 2 == 0) wrapTable 0
        = some (l, tEnd) ∧
      (l : Multiset (Nat × Int)) = entries (modParams false false) wrapTable ∧ l.length = 3 := by
  obtain ⟨l, tEnd, h1, h2, h3, _⟩ := iterator_visits_once (modParams false false) wrapTable
    (fun k => k % 2 == 0) 0 5 (modParams_range false false 4 (by decide)) (by decide)
    (by decide) (by decide)
  exact ⟨by decide, l, tEnd, h1, h2, by rw [h3]; decide⟩

/-! ## Removal by slot keeps the storage -/

theorem iterator.advanceLoop_withController (P : Params K V) (a b : Nat → Nat → Option Nat)
    (t : Hash K V) (e : Nat) :
    ∀ fuel loc, iterator.advanceLoop (P.withController a b) t e fuel loc
      = iterator.advanceLoop P t e fuel loc := by
  intro fuel
  induction fuel with
  | zero => intro loc; rfl
  | succ fuel ih =>
    intro loc
    unfold iterator.advanceLoop
    simp only [ih]
    rfl

theorem iterator.remove_withController (P : Params K V) (a b : Nat → Nat → Option Nat)
    (fuel : Nat) (t : Hash K V) (it : iterator) :
    iterator.remove (P.withController a b) fuel t it = iterator.remove P fuel t it := by
  unfold iterator.remove iterator.advanceIter
  simp only [removeFrom_withController, iterator.advanceLoop_withController]

/-- Whenever `iterator::remove` returns, the table has the native size it had and
the iterator has the end point it had. -/
theorem iterator.remove_fields (P : Params K V) (fuel : Nat) (t t1 : Hash K V)
    (it it1 : iterator) (h : iterator.remove P fuel t it = some (t1, it1)) :
    t1.nativeSize = t.nativeSize ∧ it1.endLoc = it.endLoc := by
  unfold iterator.remove at h
  cases hr : removeFrom P fuel t it.loc with
  | none => rw [hr] at h; exact Option.noConfusion h
  | some t2 =>
    rw [hr] at h
    simp only at h
    have hn := (removeFrom_fields P fuel t t2 it.loc hr).2.2
    by_cases hu : (!isUsed t2 it.loc) = true
    · rw [if_pos hu] at h
      unfold iterator.advanceIter at h
      cases ha : iterator.advanceLoop P t2 it.endLoc fuel it.loc with
      | none => rw [ha] at h; exact Option.noConfusion h
      | some l =>
        rw [ha] at h
        have e := Option.some.inj h
        have e1 : t2 = t1 := congrArg Prod.fst e
        have e2 : ({ it with loc := l } : iterator) = it1 := congrArg Prod.snd e
        rw [← e1, ← e2]
        exact ⟨hn, rfl⟩
    · rw [if_neg hu] at h
      have e := Option.some.inj h
      have e1 : t2 = t1 := congrArg Prod.fst e
      have e2 : it = it1 := congrArg Prod.snd e
      rw [← e1, ← e2]
      exact ⟨hn, rfl⟩

/-- C14: no reallocation during removal by slot.  Whenever `removeFrom(s)` or
`iterator::remove()` returns, the native size and `getTableSize()` are as before,
also after two removals through the same iterator, whose end point stays; both
give the same result under every other growth and shrink decision of the
controller, which they do not consult (no rehash is invoked); and both do return
on a table with a virgin slot, at a used slot. -/
theorem removeFrom_keeps_storage (P : Params K V) (t : Hash K V) (s fuel : Nat) (it : iterator) :
    (∀ t1, removeFrom P fuel t s = some t1 →
      t1.nativeSize = t.nativeSize ∧ getTableSize P t1 = getTableSize P t) ∧
    (∀ t1 it1, iterator.remove P fuel t it = some (t1, it1) →
      t1.nativeSize = t.nativeSize ∧ getTableSize P t1 = getTableSize P t ∧
      it1.endLoc = it.endLoc ∧
      ∀ t2 it2, iterator.remove P fuel t1 it1 = some (t2, it2) →
        t2.nativeSize = t.nativeSize ∧ getTableSize P t2 = getTableSize P t ∧
        it2.endLoc = it.endLoc) ∧
    (∀ a b, removeFrom (P.withController a b) fuel t s = removeFrom P fuel t s ∧
      iterator.remove (P.withController a b) fuel t it = iterator.remove P fuel t it) ∧
    (initPlacesInRange P t.nativeSize → getTableSize P t < fuel →
      (s < getTableSize P t → isUsed t s = true → hasVirgin P t →
        ∃ t1, removeFrom P fuel t s = some t1) ∧
      (∀ e, IterInv P (getTableSize P t) e t it → it.loc < getTableSize P t →
        ∃ t1 it1, iterator.remove P fuel t it = some (t1, it1))) := by
  refine ⟨?_, ?_, ?_, ?_⟩
  · intro t1 h
    have hn := (removeFrom_fields P fuel t t1 s h).2.2
    exact ⟨hn, congrArg P.sizeForNative hn⟩
  · intro t1 it1 h
    obtain ⟨hn, he⟩ := iterator.remove_fields P fuel t t1 it it1 h
    refine ⟨hn, congrArg P.sizeForNative hn, he, ?_⟩
    intro t2 it2 h2
    obtain ⟨hn2, he2⟩ := iterator.remove_fields P fuel t1 t2 it1 it2 h2
    exact ⟨hn2.trans hn, congrArg P.sizeForNative (hn2.trans hn), he2.trans he⟩
  · intro a b
    exact ⟨removeFrom_withController P a b fuel t s, iterator.remove_withController P a b fuel t it⟩
  · intro hrange hfuel
    constructor
    · intro hs hused hvir
      obtain ⟨t1, h1, _⟩ := removeFrom_spec P t s fuel hrange hvir hs hused hfuel
      exact ⟨t1, h1⟩
    · intro e hinv hloc
      obtain ⟨t1, it1, h1, _⟩ := iterator.remove_step P (getTableSize P t) e t it fuel hinv hloc
        hfuel
      exact ⟨t1, it1, h1⟩

/-- C14 on the table of the keys 1 to 5: the removal at slot 3 returns a table of
eight slots. -/
theorem removeFrom_keeps_storage_witness :
    ∃ t1, removeFrom (modParams false false) 9 scenarioTable 3 = some t1 ∧
      getTableSize (modParams false false) t1 = 8 := by
  have h := removeFrom_keeps_storage (modParams false false) scenarioTable 3 9 ⟨3, 0⟩
  obtain ⟨t1, h1⟩ := (h.2.2.2 (modParams_range false false 8 (by decide)) (by decide)).1
    (by decide) (by decide) (by decide)
  exact ⟨t1, h1, (h.1 t1 h1).2⟩

/-! ## The disjoint sets forest -/

theorem ForestInv.rep_idem {F : DisjointSetsForest} {rep h : Nat → Nat} {B : Nat}
    (I : ForestInv F rep h B) (i : Nat) (hi : i < F.size) : rep (rep i) = rep i :=
  I.root_rep (rep i) (I.rep_lt i hi) (I.rep_root i hi)

/-- The height does not drop on the way to the root, and grows from an element
that is not a root. -/
theorem ForestInv.height_rep {F : DisjointSetsForest} {rep h : Nat → Nat} {B : Nat}
    (I : ForestInv F rep h B) :
    ∀ d i, i < F.size → B - h i ≤ d →
      h i ≤ h (rep i) ∧ (F.fathers i ≠ i → h i < h (rep i)) := by
  intro d
  induction d with
  | zero =>
    intro i hi hd
    by_cases hr : F.fathers i = i
    · rw [I.root_rep i hi hr]
      exact ⟨Nat.le_refl _, fun h => absurd hr h⟩
    · have h1 := I.height i hi hr
      have h2 := I.bound _ (I.lt i hi)
      omega
  | succ d ih =>
    intro i hi hd
    by_cases hr : F.fathers i = i
    · rw [I.root_rep i hi hr]
      exact ⟨Nat.le_refl _, fun h => absurd hr h⟩
    · have h1 := I.height i hi hr
      have h2 := I.bound _ (I.lt i hi)
      have h3 := (ih (F.fathers i) (I.lt i hi) (by omega)).1
      rw [I.rep_father i hi] at h3
      exact ⟨by omega, fun _ => by omega⟩

/-- `getSetID` returns the root of the tree of the element, given fuel for the
height that is left above it; the forest it leaves has the same roots, heights,
sizes and size distribution. -/
theorem DisjointSetsForest.getSetID_spec (packTree : Bool) (rep h : Nat → Nat) (B : Nat) :
    ∀ fuel (F : DisjointSetsForest) x, ForestInv F rep h B → x < F.size → B - h x < fuel →
      ∃ F1, DisjointSetsForest.getSetID packTree fuel F x = some (rep x, F1) ∧
        ForestInv F1 rep h B ∧ F1.size = F.size ∧ F1.setSizes = F.setSizes ∧
        F1.sizeDistribution = F.sizeDistribution ∧ (packTree = false → F1 = F) := by
  intro fuel
  induction fuel with
  | zero => intro F x _ _ h; omega
  | succ fuel ih =>
    intro F x I hx hfuel
    unfold DisjointSetsForest.getSetID
    by_cases hr : F.fathers x = x
    · rw [if_pos hr, I.root_rep x hx hr]
      exact ⟨F, rfl, I, rfl, rfl, rfl, fun _ => rfl⟩
    · rw [if_neg hr]
      have h1 := I.height x hx hr
      have h2 := I.bound _ (I.lt x hx)
      obtain ⟨F1, g1, I1, g3, g4, g5, g6⟩ := ih F (F.fathers x) I (I.lt x hx) (by omega)
      rw [g1, I.rep_father x hx]
      simp only
      cases hp : packTree with
      | false =>
        simp only [Bool.false_eq_true, if_false]
        exact ⟨F1, rfl, I1, g3, g4, g5, fun _ => g6 hp⟩
      | true =>
        simp only [if_true]
        have hx1 : x < F1.size := by rw [g3]; exact hx
        have hstrict := (I.height_rep (B - h x) x hx (Nat.le_refl _)).2 hr
        refine ⟨_, rfl, ?_, g3, g4, g5, fun h => Bool.noConfusion h⟩
        refine ⟨?_, I1.rep_lt, ?_, ?_, ?_, ?_, I1.bound⟩
        · intro i hi
          show arraySet F1.fathers x (rep x) i < F1.size
          unfold arraySet
          split_ifs
          · exact I1.rep_lt x hx1
          · exact I1.lt i hi
        · intro i hi
          show arraySet F1.fathers x (rep x) (rep i) = rep i
          unfold arraySet
          split_ifs with he
          · rw [← he, I1.rep_idem i hi]
          · exact I1.rep_root i hi
        · intro i hi
          show rep (arraySet F1.fathers x (rep x) i) = rep i
          unfold arraySet
          split_ifs with he
          · rw [he, I1.rep_idem x hx1]
          · exact I1.rep_father i hi
        · intro i hi
          show arraySet F1.fathers x (rep x) i = i → rep i = i
          unfold arraySet
          split_ifs with he
          · intro h2; rw [he]; rw [he] at h2; exact h2
          · exact I1.root_rep i hi
        · intro i hi
          show arraySet F1.fathers x (rep x) i ≠ i → h i < h (arraySet F1.fathers x (rep x) i)
          unfold arraySet
          split_ifs with he
          · intro _; rw [he]; exact hstrict
          · exact I1.height i hi

theorem ForestInv.mono {F : DisjointSetsForest} {rep h : Nat → Nat} {B B1 : Nat}
    (I : ForestInv F rep h B) (hB : B ≤ B1) : ForestInv F rep h B1 :=
  ⟨I.lt, I.rep_lt, I.rep_root, I.rep_father, I.root_rep, I.height,
    fun i hi => le_trans (I.bound i hi) hB⟩

/-- Linking the root `s` to another root `l`: the elements of the tree of `s` get
the root `l`, and the height of `l` grows above that of `s`. -/
theorem ForestInv.link {F F1 : DisjointSetsForest} {rep h : Nat → Nat} {B : Nat}
    (I : ForestInv F rep h B) (s l : Nat) (hs : s < F.size) (hl : l < F.size)
    (hrs : rep s = s) (hrl : rep l = l) (hsl : s ≠ l)
    (hsize : F1.size = F.size) (hf : F1.fathers = arraySet F.fathers s l) :
    ForestInv F1 (fun i => if rep i = s then l else rep i)
      (fun i => if i = l then max (h l) (h s + 1) else h i) (B + 1) := by
  have hroot_l : F.fathers l = l := by have := I.rep_root l hl; rw [hrl] at this; exact this
  refine ⟨?_, ?_, ?_, ?_, ?_, ?_, ?_⟩
  · intro i hi
    rw [hsize] at hi ⊢
    rw [hf]
    unfold arraySet
    split_ifs
    · exact hl
    · exact I.lt i hi
  · intro i hi
    rw [hsize] at hi ⊢
    show (if rep i = s then l else rep i) < F.size
    split_ifs
    · exact hl
    · exact I.rep_lt i hi
  · intro i hi
    rw [hsize] at hi
    rw [hf]
    show arraySet F.fathers s l (if rep i = s then l else rep i) = if rep i = s then l else rep i
    unfold arraySet
    by_cases h1 : rep i = s
    · rw [if_pos h1, if_neg (fun e => hsl e.symm)]
      exact hroot_l
    · rw [if_neg h1, if_neg h1]
      exact I.rep_root i hi
  · intro i hi
    rw [hsize] at hi
    rw [hf]
    show (if rep (arraySet F.fathers s l i) = s then l else rep (arraySet F.fathers s l i))
      = if rep i = s then l else rep i
    unfold arraySet
    by_cases h1 : i = s
    · rw [if_pos h1, hrl, if_neg (fun e => hsl e.symm), h1, hrs, if_pos rfl]
    · rw [if_neg h1, I.rep_father i hi]
  · intro i hi
    rw [hsize] at hi
    rw [hf]
    show arraySet F.fathers s l i = i → (if rep i = s then l else rep i) = i
    unfold arraySet
    by_cases h1 : i = s
    · rw [if_pos h1]
      intro e
      exact absurd (e.trans h1).symm hsl
    · rw [if_neg h1]
      intro e
      have := I.root_rep i hi e
      rw [this, if_neg h1]
  · intro i hi
    rw [hsize] at hi
    rw [hf]
    show arraySet F.fathers s l i ≠ i →
      (if i = l then max (h l) (h s + 1) else h i)
        < if arraySet F.fathers s l i = l then max (h l) (h s + 1) else h (arraySet F.fathers s l i)
    unfold arraySet
    by_cases h1 : i = s
    · rw [if_pos h1, if_pos rfl, h1, if_neg hsl]
      intro _
      omega
    · rw [if_neg h1]
      intro hne
      have hil : i ≠ l := by
        intro e; rw [e] at hne; exact hne hroot_l
      rw [if_neg hil]
      have := I.height i hi hne
      split_ifs with he
      · rw [he] at this
        omega
      · exact this
  · intro i hi
    rw [hsize] at hi
    show (if i = l then max (h l) (h s + 1) else h i) ≤ B + 1
    have h1 := I.bound i hi
    have h2 := I.bound l hl
    have h3 := I.bound s hs
    split_ifs <;> omega

/-- `mergeSets(a, b)` in a forest built by merges: it returns, the answer tells
whether the two roots differ, and after a merge the elements of the tree with
fewer elements (the tree of `a` on a tie) have the root of the other tree. -/
theorem DisjointSetsForest.mergeSets_spec (packTree sizeDist : Bool) (rep h : Nat → Nat)
    (B fuel : Nat) (F : DisjointSetsForest) (a b : Nat) (I : ForestInv F rep h B)
    (ha : a < F.size) (hb : b < F.size) (hfuel : B < fuel) :
    ∃ F1 rep1 h1, DisjointSetsForest.mergeSets packTree sizeDist fuel F a b
        = some (decide (rep a ≠ rep b), F1) ∧
      ForestInv F1 rep1 h1 (B + 1) ∧ F1.size = F.size ∧
      (rep a = rep b → rep1 = rep ∧ F1.setSizes = F.setSizes) ∧
      (rep a ≠ rep b →
        rep1 = (fun i =>
          if rep i = (if F.setSizes (rep a) > F.setSizes (rep b) then rep b else rep a) then
            (if F.setSizes (rep a) > F.setSizes (rep b) then rep a else rep b)
          else rep i) ∧
        F1.setSizes = arraySet F.setSizes
          (if F.setSizes (rep a) > F.setSizes (rep b) then rep a else rep b)
          (F.setSizes (if F.setSizes (rep a) > F.setSizes (rep b) then rep a else rep b)
            + F.setSizes (if F.setSizes (rep a) > F.setSizes (rep b) then rep b else rep a))) := by
  obtain ⟨F1, g1, I1, s1, z1, _, _⟩ := DisjointSetsForest.getSetID_spec packTree rep h B fuel F a I
    ha (by omega)
  obtain ⟨F2, g2, I2, s2, z2, _, _⟩ := DisjointSetsForest.getSetID_spec packTree rep h B fuel F1 b
    I1 (by rw [s1]; exact hb) (by omega)
  have hsize : F2.size = F.size := by rw [s2, s1]
  have hz : F2.setSizes = F.setSizes := by rw [z2, z1]
  have hra : rep a < F2.size := I2.rep_lt a (by rw [hsize]; exact ha)
  have hrb : rep b < F2.size := I2.rep_lt b (by rw [hsize]; exact hb)
  have hia : rep (rep a) = rep a := I2.rep_idem a (by rw [hsize]; exact ha)
  have hib : rep (rep b) = rep b := I2.rep_idem b (by rw [hsize]; exact hb)
  unfold DisjointSetsForest.mergeSets
  rw [g1]
  simp only
  rw [g2]
  simp only
  by_cases heq : rep a = rep b
  · rw [if_pos heq]
    refine ⟨F2, rep, h, ?_, I2.mono (Nat.le_succ _), hsize, fun _ => ⟨rfl, hz⟩,
      fun hne => absurd heq hne⟩
    simp [heq]
  · rw [if_neg heq, hz]
    have hdec : decide (rep a ≠ rep b) = true := by simp [heq]
    rw [hdec]
    by_cases hgt : F.setSizes (rep a) > F.setSizes (rep b)
    · simp only [if_pos hgt]
      refine ⟨_, (fun i => if rep i = rep b then rep a else rep i),
        (fun i => if i = rep a then max (h (rep a)) (h (rep b) + 1) else h i), rfl,
        I2.link (rep b) (rep a) hrb hra hib hia (fun e => heq e.symm) ?_ ?_, ?_,
        fun e => absurd e heq, fun _ => ⟨rfl, ?_⟩⟩
      · cases sizeDist <;> rfl
      · cases sizeDist <;> rfl
      · cases sizeDist <;> exact hsize
      · cases sizeDist <;> simp [hz]
    · simp only [if_neg hgt]
      refine ⟨_, (fun i => if rep i = rep a then rep b else rep i),
        (fun i => if i = rep b then max (h (rep b)) (h (rep a) + 1) else h i), rfl,
        I2.link (rep a) (rep b) hra hrb hia hib heq ?_ ?_, ?_,
        fun e => absurd e heq, fun _ => ⟨rfl, ?_⟩⟩
      · cases sizeDist <;> rfl
      · cases sizeDist <;> rfl
      · cases sizeDist <;> exact hsize
      · cases sizeDist <;> simp [hz]

/-- The forest of singletons: every element is its own root. -/
theorem DisjointSetsForest.create_inv (n : Nat) :
    ForestInv (DisjointSetsForest.create n) (fun i => i) (fun _ => 0) 0 :=
  ⟨fun _ hi => hi, fun _ hi => hi, fun _ _ => rfl, fun _ _ => rfl, fun _ _ _ => rfl,
    fun _ _ hne => absurd rfl hne, fun _ _ => Nat.le_refl _⟩

/-- A sequence of merges returns, given fuel for the height that the trees may
reach, and leaves a forest in which `getSetID` finds the roots. -/
theorem DisjointSetsForest.runMerges_spec (packTree sizeDist : Bool) (n fuel : Nat) :
    ∀ (ops : List (Nat × Nat)) (F : DisjointSetsForest) (rep h : Nat → Nat) (B : Nat),
      ForestInv F rep h B → F.size = n → (∀ p, p ∈ ops → p.1 < n ∧ p.2 < n) →
      B + ops.length < fuel + 1 →
      ∃ F1 rep1 h1, DisjointSetsForest.runMerges packTree sizeDist fuel ops F = some F1 ∧
        ForestInv F1 rep1 h1 (B + ops.length) ∧ F1.size = n := by
  intro ops
  induction ops with
  | nil => intro F rep h B I hn _ _; exact ⟨F, rep, h, rfl, I, hn⟩
  | cons p rest ih =>
    intro F rep h B I hn hops hfuel
    obtain ⟨hp1, hp2⟩ := hops p (List.mem_cons_self _ _)
    rw [List.length_cons] at hfuel
    obtain ⟨F1, rep1, h1, g1, I1, s1, _⟩ := DisjointSetsForest.mergeSets_spec packTree sizeDist
      rep h B fuel F p.1 p.2 I (by rw [hn]; exact hp1) (by rw [hn]; exact hp2) (by omega)
    obtain ⟨F2, rep2, h2, g2, I2, s2⟩ := ih F1 rep1 h1 (B + 1) I1 (by rw [s1]; exact hn)
      (fun q hq => hops q (List.mem_cons_of_mem _ hq)) (by omega)
    unfold DisjointSetsForest.runMerges
    rw [g1]
    simp only
    rw [g2]
    refine ⟨F2, rep2, h2, rfl, ?_, s2⟩
    rw [List.length_cons]
    have e : B + (rest.length + 1) = B + 1 + rest.length := by omega
    rw [e]
    exact I2

theorem DisjointSetsForest.setID_spec (packTree : Bool) (rep h : Nat → Nat) (B fuel : Nat)
    (F : DisjointSetsForest) (x : Nat) (I : ForestInv F rep h B) (hx : x < F.size)
    (hfuel : B < fuel) : DisjointSetsForest.setID packTree fuel F x = some (rep x) := by
  obtain ⟨F1, g1, _⟩ := DisjointSetsForest.getSetID_spec packTree rep h B fuel F x I hx (by omega)
  unfold DisjointSetsForest.setID
  rw [g1]; rfl

/-- C20: `mergeSets` returns whether a merge happened.  Starting from the forest
of `n` singletons (in which `getSetID(i) = i` for all `i < n`), after any sequence
of merges of elements below `n` (which returns, for every fuel above the number
of merges plus one), `mergeSets(a, b)` returns true exactly when `getSetID(a)` and
`getSetID(b)` differ before the call; after the call `getSetID(a) = getSetID(b)`,
and for all elements `x`, `y` the set IDs of `x` and `y` are equal afterwards
exactly when they were equal before or both were among the set IDs of `a` and
`b`.  This holds with and without path compression and size distribution. -/
theorem mergeSets_reports (packTree sizeDist : Bool) (n fuel : Nat) (ops : List (Nat × Nat))
    (a b : Nat) (hops : ∀ p, p ∈ ops → p.1 < n ∧ p.2 < n) (ha : a < n) (hb : b < n)
    (hfuel : ops.length + 1 < fuel) :
    (∀ i, i < n →
      DisjointSetsForest.setID packTree fuel (DisjointSetsForest.create n) i = some i) ∧
    ∃ F ra rb F1,
      DisjointSetsForest.runMerges packTree sizeDist fuel ops (DisjointSetsForest.create n)
        = some F ∧
      DisjointSetsForest.setID packTree fuel F a = some ra ∧
      DisjointSetsForest.setID packTree fuel F b = some rb ∧
      DisjointSetsForest.mergeSets packTree sizeDist fuel F a b = some (decide (ra ≠ rb), F1) ∧
      (∃ c, DisjointSetsForest.setID packTree fuel F1 a = some c ∧
        DisjointSetsForest.setID packTree fuel F1 b = some c) ∧
      ∀ x y, x < n → y < n →
        ∃ rx ry rx1 ry1, DisjointSetsForest.setID packTree fuel F x = some rx ∧
          DisjointSetsForest.setID packTree fuel F y = some ry ∧
          DisjointSetsForest.setID packTree fuel F1 x = some rx1 ∧
          DisjointSetsForest.setID packTree fuel F1 y = some ry1 ∧
          (rx1 = ry1 ↔ rx = ry ∨ ((rx = ra ∨ rx = rb) ∧ (ry = ra ∨ ry = rb))) := by
  constructor
  · intro i hi
    exact DisjointSetsForest.setID_spec packTree _ _ 0 fuel _ i
      (DisjointSetsForest.create_inv n) hi (by omega)
  · obtain ⟨F, rep, h, g1, I, hn⟩ := DisjointSetsForest.runMerges_spec packTree sizeDist n fuel ops
      _ _ _ 0 (DisjointSetsForest.create_inv n) rfl hops (by omega)
    rw [Nat.zero_add] at I
    obtain ⟨F1, rep1, h1, m1, I1, s1, m4, m5⟩ := DisjointSetsForest.mergeSets_spec packTree
      sizeDist rep h ops.length fuel F a b I (by rw [hn]; exact ha) (by rw [hn]; exact hb)
      (by omega)
    have hid : ∀ x, x < n → DisjointSetsForest.setID packTree fuel F x = some (rep x) :=
      fun x hx => DisjointSetsForest.setID_spec packTree rep h _ fuel F x I (by rw [hn]; exact hx)
        (by omega)
    have hid1 : ∀ x, x < n → DisjointSetsForest.setID packTree fuel F1 x = some (rep1 x) :=
      fun x hx => DisjointSetsForest.setID_spec packTree rep1 h1 _ fuel F1 x I1
        (by rw [s1, hn]; exact hx) (by omega)
    have hrep1 : ∀ x, rep1 x = rep1 a ↔ (rep x = rep a ∨ rep x = rep b) := by
      intro x
      by_cases heq : rep a = rep b
      · rw [(m4 heq).1]
        omega
      · rw [(m5 heq).1]
        simp only
        split_ifs <;> omega
    have hrel : ∀ x y, rep1 x = rep1 y ↔
        rep x = rep y ∨ ((rep x = rep a ∨ rep x = rep b) ∧ (rep y = rep a ∨ rep y = rep b)) := by
      intro x y
      by_cases heq : rep a = rep b
      · rw [(m4 heq).1]
        omega
      · rw [(m5 heq).1]
        simp only
        split_ifs <;> omega
    refine ⟨F, rep a, rep b, F1, g1, hid a ha, hid b hb, m1, ⟨rep1 a, hid1 a ha, ?_⟩, ?_⟩
    · rw [hid1 b hb]
      have := (hrel a b).2 (Or.inr ⟨Or.inl rfl, Or.inr rfl⟩)
      rw [this]
    · intro x y hx hy
      exact ⟨rep x, rep y, rep1 x, rep1 y, hid x hx, hid y hy, hid1 x hx, hid1 y hy, hrel x y⟩

/-- C20 on six elements: after the merges of 0 with 1, 2 with 3 and 1 with 3, the
elements 0 and 2 are in one set and `mergeSets(0, 2)` returns false, while
`mergeSets(0, 4)` returns true. -/
theorem mergeSets_reports_witness :
    (∃ F, DisjointSetsForest.runMerges true true 9 [(0, 1), (2, 3), (1, 3)]
        (DisjointSetsForest.create 6) = some F ∧
      (DisjointSetsForest.mergeSets true true 9 F 0 2).map Prod.fst = some false ∧
      (DisjointSetsForest.mergeSets true true 9 F 0 4).map Prod.fst = some true) := by
  obtain ⟨F, ra, rb, F1, h1, h2, h3, h4, _⟩ := (mergeSets_reports true true 6 9
    [(0, 1), (2, 3), (1, 3)] 0 2 (by decide) (by decide) (by decide) (by decide)).2
  refine ⟨F, h1, ?_, ?_⟩
  · rw [h4]
    have e : DisjointSetsForest.runMerges true true 9 [(0, 1), (2, 3), (1, 3)]
        (DisjointSetsForest.create 6)
        = some F := h1
    have ha : (DisjointSetsForest.runMerges true true 9 [(0, 1), (2, 3), (1, 3)]
        (DisjointSetsForest.create 6)).bind (fun G => DisjointSetsForest.setID true 9 G 0)
        = some 3 := by decide
    have hb : (DisjointSetsForest.runMerges true true 9 [(0, 1), (2, 3), (1, 3)]
        (DisjointSetsForest.create 6)).bind (fun G => DisjointSetsForest.setID true 9 G 2)
        = some 3 := by decide
    rw [e] at ha hb
    have ha2 : DisjointSetsForest.setID true 9 F 0 = some 3 := ha
    have hb2 : DisjointSetsForest.setID true 9 F 2 = some 3 := hb
    rw [h2] at ha2
    rw [h3] at hb2
    have e1 : ra = 3 := Option.some.inj ha2
    have e2 : rb = 3 := Option.some.inj hb2
    rw [e1, e2]
    rfl
  · have hc : (DisjointSetsForest.runMerges true true 9 [(0, 1), (2, 3), (1, 3)]
        (DisjointSetsForest.create 6)).bind
          (fun G => (DisjointSetsForest.mergeSets true true 9 G 0 4).map Prod.fst)
        = some true := by decide
    rw [h1] at hc
    exact hc

/-! ## Distances measured towards a fixed slot -/

/-- `initPlaceBefore(initProbe, currLoc)` holds exactly when the key at `currLoc`
is fewer cyclic steps away from its initial place than `currLoc` is from
`initProbe`. -/
theorem initPlaceBefore_iff (P : Params K V) (t : Hash K V) (p c : Nat)
    (hp : p < getTableSize P t) (hc : c < getTableSize P t)
    (hH : initPlaceAt P t c < getTableSize P t) :
    initPlaceBefore P t p c = true ↔
      cdist (getTableSize P t) (initPlaceAt P t c) c < cdist (getTableSize P t) p c := by
  unfold initPlaceBefore
  rw [cdist_eq hH hc, cdist_eq hp hc]
  by_cases h1 : initPlaceAt P t c > c <;> by_cases h2 : p > c <;>
    simp [h1, h2] <;> split_ifs <;> omega

/-- Two slots with the slot `b` on the way from `a` to `v`: the distance from `a`
to `b` is the difference of the distances to `v`. -/
theorem cdist_to {N a b v : Nat} (ha : a < N) (hb : b < N) (hv : v < N)
    (h : cdist N b v ≤ cdist N a v) : cdist N a b = cdist N a v - cdist N b v := by
  rw [cdist_eq hb hv, cdist_eq ha hv] at h
  rw [cdist_eq ha hb, cdist_eq ha hv, cdist_eq hb hv]
  split_ifs at h ⊢ <;> omega

/-- Two slots with `v` on the way from `a` to `b`. -/
theorem cdist_to_wrap {N a b v : Nat} (ha : a < N) (hb : b < N) (hv : v < N)
    (h : cdist N a v < cdist N b v) : cdist N a b = N - (cdist N b v - cdist N a v) := by
  rw [cdist_eq hb hv, cdist_eq ha hv] at h
  rw [cdist_eq ha hb, cdist_eq ha hv, cdist_eq hb hv]
  split_ifs at h ⊢ <;> omega

theorem cdist_inj_left {N a b v : Nat} (ha : a < N) (hb : b < N) (hv : v < N)
    (h : cdist N a v = cdist N b v) : a = b := by
  rw [cdist_eq ha hv, cdist_eq hb hv] at h
  split_ifs at h <;> omega

/-- One step back is one step further from `v`, except from the slot behind `v`. -/
theorem cdist_prev_to {N x v : Nat} (hx : x < N) (hv : v < N) (h : cdist N x v + 1 < N) :
    cdist N ((x + N - 1) % N) v = cdist N x v + 1 := by
  have hN : 0 < N := by omega
  rw [cdist_eq hx hv] at h
  rw [cdist_eq (prev_lt hN) hv, cdist_eq hx hv, prev_eq hx]
  split_ifs at h ⊢ <;> omega

/-- A slot `y` lies on the cyclic sequence from `g` to `p`, which does not pass
`v` before `p`, exactly when its distance to `v` lies between those of `p` and
`g`. -/
theorem on_path_iff {N g p y v : Nat} (hg : g < N) (hp : p < N) (hy : y < N) (hv : v < N)
    (hgp : cdist N p v ≤ cdist N g v) :
    cdist N g y ≤ cdist N g p ↔ (cdist N p v ≤ cdist N y v ∧ cdist N y v ≤ cdist N g v) := by
  have h1 := cdist_to hg hp hv hgp
  have hN : 0 < N := by omega
  have h3 := cdist_lt (a := g) (b := v) hN
  have h4 := cdist_lt (a := y) (b := v) hN
  rcases Nat.lt_or_ge (cdist N g v) (cdist N y v) with h | h
  · have h2 := cdist_to_wrap hg hy hv h
    omega
  · have h2 := cdist_to hg hy hv h
    omega

/-- In a table whose slot `v` is unused, the invariant that `keyFoundAt` checks
can be read towards `v`. -/
theorem orderedTowards_of_checked (P : Params K V) (t : Hash K V) (v : Nat)
    (hrange : initPlacesInRange P t.nativeSize) (hv : v < getTableSize P t)
    (hvirgin : isUsed t v = false) (hinv : checkedInvariant P t) :
    orderedTowards P t v := by
  have hN : 0 < getTableSize P t := by omega
  have hlin : ∀ p, p < getTableSize P t → isUsed t p = true →
      cdist (getTableSize P t) p v ≤ cdist (getTableSize P t) (initPlaceAt P t p) v ∧
      cdist (getTableSize P t) (initPlaceAt P t p) p
        = cdist (getTableSize P t) (initPlaceAt P t p) v - cdist (getTableSize P t) p v := by
    intro p hp hup
    have hb := stored_before_virgin P t hrange (checkedInvariant_hash P t hinv) hp hup hv hvirgin
    have hs := cdist_split (initPlaceAt_lt P t hrange p) hp hv (Nat.le_of_lt hb)
    omega
  intro p hp hup
  have hH := initPlaceAt_lt P t hrange p
  obtain ⟨hl1, hl2⟩ := hlin p hp hup
  refine ⟨hl1, ?_⟩
  intro y hy hy1 hy2
  have hon := (on_path_iff hH hp hy hv hl1).2 ⟨hy1, hy2⟩
  have hc := hinv p hp hup (cdist (getTableSize P t) (initPlaceAt P t p) y) hon
  rw [cyc_add_cdist hH hy] at hc
  refine ⟨hc.1, ?_⟩
  intro hmode hyp
  have hlt : cdist (getTableSize P t) (initPlaceAt P t p) y
      < cdist (getTableSize P t) (initPlaceAt P t p) p := by
    rcases Nat.lt_or_ge (cdist (getTableSize P t) (initPlaceAt P t p) y)
      (cdist (getTableSize P t) (initPlaceAt P t p) p) with h | h
    · exact h
    · exact absurd (cdist_inj hH hy hp (le_antisymm hon h)) hyp
  have hno := hc.2 hmode hlt
  by_contra hcon
  apply hno
  have hHy := initPlaceAt_lt P t hrange y
  obtain ⟨hy3, hy4⟩ := hlin y hy hc.1
  have hd := cdist_to hH hy hv hy2
  have hb : initPlaceBefore P t (initPlaceAt P t p) y = true := by
    rw [initPlaceBefore_iff P t _ y hH hy hHy]
    omega
  refine ⟨hb, ?_⟩
  intro e
  rw [e] at hcon
  omega

/-- The invariant read towards a slot gives the invariant that `keyFoundAt`
checks. -/
theorem checked_of_orderedTowards (P : Params K V) (t : Hash K V) (v : Nat)
    (hrange : initPlacesInRange P t.nativeSize) (hv : v < getTableSize P t)
    (hinv : orderedTowards P t v) : checkedInvariant P t := by
  have hN : 0 < getTableSize P t := by omega
  intro p hp hup j hj
  have hH := initPlaceAt_lt P t hrange p
  obtain ⟨hl1, hl2⟩ := hinv p hp hup
  have hjN : j < getTableSize P t := lt_of_le_of_lt hj (cdist_lt hN)
  have hy : (initPlaceAt P t p + j) % getTableSize P t < getTableSize P t := Nat.mod_lt _ hN
  have hdj := cdist_cyc_add hH hjN
  have hon := (on_path_iff hH hp hy hv hl1).1 (by rw [hdj]; exact hj)
  obtain ⟨hu, hord⟩ := hl2 _ hy hon.1 hon.2
  refine ⟨hu, ?_⟩
  intro hmode hlt
  rintro ⟨hb, _⟩
  have hyp : (initPlaceAt P t p + j) % getTableSize P t ≠ p := by
    intro e
    rw [e] at hdj
    omega
  have ho := hord hmode hyp
  have hHy := initPlaceAt_lt P t hrange ((initPlaceAt P t p + j) % getTableSize P t)
  rw [initPlaceBefore_iff P t _ _ hH hy hHy] at hb
  obtain ⟨hy1, _⟩ := hinv _ hy hu
  have hd1 := cdist_to hH hy hv hon.2
  have hd2 := cdist_to hHy hy hv hy1
  omega

/-- Insertion into a run keeps the invariant: the table `T` is the table `t` with
a new entry of initial place `h` at slot `l`, the entries between `l` and the
unused slot `v` moved one step forward; the entries between `h` and `l` have
initial places not behind `h`, and the entry that was at `l` has its initial
place behind `h` (both in ordered mode only). -/
theorem orderedTowards_insert (P : Params K V) (t T : Hash K V) (h l v : Nat)
    (hnat : T.nativeSize = t.nativeSize)
    (hl : l < getTableSize P t) (hv : v < getTableSize P t)
    (hrun : ∀ x, x < getTableSize P t → 0 < cdist (getTableSize P t) x v →
      cdist (getTableSize P t) x v ≤ cdist (getTableSize P t) h v → isUsed t x = true)
    (hle : cdist (getTableSize P t) l v ≤ cdist (getTableSize P t) h v)
    (hbefore : P.HASH_ORDERED = true → ∀ x, x < getTableSize P t →
      cdist (getTableSize P t) l v < cdist (getTableSize P t) x v →
      cdist (getTableSize P t) x v ≤ cdist (getTableSize P t) h v →
      cdist (getTableSize P t) h v ≤ cdist (getTableSize P t) (initPlaceAt P t x) v)
    (hat : P.HASH_ORDERED = true → l ≠ v →
      cdist (getTableSize P t) (initPlaceAt P t l) v < cdist (getTableSize P t) h v)
    (hnewU : isUsed T l = true) (hnewH : initPlaceAt P T l = h)
    (hshift : ∀ x, x < getTableSize P t →
      cdist (getTableSize P t) x v < cdist (getTableSize P t) l v →
      T.slots x = t.slots ((x + getTableSize P t - 1) % getTableSize P t))
    (hrest : ∀ x, x < getTableSize P t →
      cdist (getTableSize P t) l v < cdist (getTableSize P t) x v → T.slots x = t.slots x)
    (hinv : orderedTowards P t v) : orderedTowards P T v := by
  have hN : 0 < getTableSize P t := by omega
  have hsz : getTableSize P T = getTableSize P t := congrArg P.sizeForNative hnat
  have hlN := cdist_lt (a := l) (b := v) hN
  have hv0 : cdist (getTableSize P t) v v = 0 := cdist_self hv
  -- what a slot before `l` holds
  have hfar : ∀ x, x < getTableSize P t →
      cdist (getTableSize P t) l v < cdist (getTableSize P t) x v →
      isUsed T x = isUsed t x ∧ initPlaceAt P T x = initPlaceAt P t x := by
    intro x hx hlt
    have e := hrest x hx hlt
    refine ⟨by unfold isUsed; rw [e], ?_⟩
    unfold initPlaceAt constRefToKey
    rw [e, hnat]
  -- what a slot behind `l` holds
  have hnear : ∀ x, x < getTableSize P t →
      cdist (getTableSize P t) x v < cdist (getTableSize P t) l v →
      cdist (getTableSize P t) ((x + getTableSize P t - 1) % getTableSize P t) v
          = cdist (getTableSize P t) x v + 1 ∧
        isUsed t ((x + getTableSize P t - 1) % getTableSize P t) = true ∧
        isUsed T x = true ∧
        initPlaceAt P T x
          = initPlaceAt P t ((x + getTableSize P t - 1) % getTableSize P t) := by
    intro x hx hlt
    have e := hshift x hx hlt
    have hq := cdist_prev_to hx hv (by omega)
    have huq := hrun _ (prev_lt (x := x) hN) (by omega) (by omega)
    refine ⟨hq, huq, ?_, ?_⟩
    · unfold isUsed at huq ⊢; rw [e]; exact huq
    · unfold initPlaceAt constRefToKey
      rw [e, hnat]
  unfold orderedTowards
  rw [hsz]
  intro p hp hup
  rcases Nat.lt_trichotomy (cdist (getTableSize P t) p v) (cdist (getTableSize P t) l v)
    with hc | hc | hc
  · -- a moved entry
    obtain ⟨hq, huq, _, hHq⟩ := hnear p hp hc
    have hqN := prev_lt (x := p) hN
    obtain ⟨hq1, hq2⟩ := hinv _ hqN huq
    rw [hHq]
    refine ⟨by omega, ?_⟩
    intro y hy hy1 hy2
    rcases Nat.eq_or_lt_of_le hy1 with hep | hlt
    · have : p = y := cdist_inj_left hp hy hv hep
      rw [← this]
      exact ⟨hup, fun _ hne => absurd rfl hne⟩
    · obtain ⟨hyu, hyo⟩ := hq2 y hy (by omega) hy2
      rcases Nat.lt_trichotomy (cdist (getTableSize P t) y v) (cdist (getTableSize P t) l v)
        with hd | hd | hd
      · obtain ⟨hq', huq', huT, hHy⟩ := hnear y hy hd
        refine ⟨huT, ?_⟩
        intro hmode _
        rw [hHy]
        have hq'N := prev_lt (x := y) hN
        rcases Nat.lt_or_ge (cdist (getTableSize P t)
            (initPlaceAt P t ((p + getTableSize P t - 1) % getTableSize P t)) v)
          (cdist (getTableSize P t) ((y + getTableSize P t - 1) % getTableSize P t) v)
          with hout | hin
        · have := (hinv _ hq'N huq').1
          omega
        · have hne : (y + getTableSize P t - 1) % getTableSize P t
              ≠ (p + getTableSize P t - 1) % getTableSize P t := by
            intro e
            rw [e] at hq'
            omega
          exact (hq2 _ hq'N (by omega) hin).2 hmode hne
      · have hyl : y = l := cdist_inj_left hy hl hv hd
        rw [hyl]
        refine ⟨hnewU, ?_⟩
        intro hmode _
        rw [hnewH]
        have hlv : l ≠ v := by
          intro e
          rw [e, hv0] at hc
          omega
        have h1 := hat hmode hlv
        by_cases hlq : l = (p + getTableSize P t - 1) % getTableSize P t
        · rw [← hlq]
          omega
        · rw [hyl] at hyo
          have := hyo hmode hlq
          omega
      · obtain ⟨e1, e2⟩ := hfar y hy hd
        rw [e1, e2]
        refine ⟨hyu, ?_⟩
        intro hmode _
        apply hyo hmode
        intro e
        rw [e] at hd
        omega
  · -- the new entry
    have hpl : p = l := cdist_inj_left hp hl hv hc
    rw [hpl, hnewH]
    refine ⟨hle, ?_⟩
    intro y hy hy1 hy2
    rcases Nat.eq_or_lt_of_le hy1 with hep | hlt
    · have : l = y := cdist_inj_left hl hy hv hep
      rw [← this]
      exact ⟨hnewU, fun _ hne => absurd rfl hne⟩
    · obtain ⟨e1, e2⟩ := hfar y hy hlt
      rw [e1, e2]
      exact ⟨hrun y hy (by omega) hy2, fun hmode _ => hbefore hmode y hy hlt hy2⟩
  · -- an entry before `l`
    obtain ⟨e1, e2⟩ := hfar p hp hc
    rw [e1] at hup
    rw [e2]
    obtain ⟨hp1, hp2⟩ := hinv p hp hup
    refine ⟨hp1, ?_⟩
    intro y hy hy1 hy2
    obtain ⟨f1, f2⟩ := hfar y hy (by omega)
    rw [f1, f2]
    exact hp2 y hy hy1 hy2

/-- The probe loop of `rehash_put`, started at `initLoc = h` in a destination whose
first virgin slot from `h` on is `v`: where it stops and what the table looks
like then.  It stops at `v` with the table untouched, or, in ordered mode, at a
slot `l` whose key has its initial place behind `h`, after `pushProbeAt(l)` has
moved the entries from `l` up to `v` one step forward; the slots passed before
do not make the ordered mode give up. -/
theorem rehashPutLoop_shape (P : Params K V) (dest : Hash K V) (h v : Nat)
    (hh : h < getTableSize P dest) (hv : v < getTableSize P dest)
    (hvirgin : isUsed dest v = false)
    (hfirst : ∀ x, x < getTableSize P dest →
      cdist (getTableSize P dest) h x < cdist (getTableSize P dest) h v → isUsed dest x = true) :
    ∀ fuel loc, loc < getTableSize P dest →
      cdist (getTableSize P dest) h loc ≤ cdist (getTableSize P dest) h v →
      cdist (getTableSize P dest) h v < cdist (getTableSize P dest) h loc + fuel →
      (∀ x, x < getTableSize P dest →
        cdist (getTableSize P dest) h x < cdist (getTableSize P dest) h loc →
        (P.HASH_ORDERED && initPlaceBefore P dest h x) = false) →
      ∃ d l, rehashPutLoop P h fuel dest loc = some (d, l) ∧ l < getTableSize P dest ∧
        cdist (getTableSize P dest) h l ≤ cdist (getTableSize P dest) h v ∧
        d.nativeSize = dest.nativeSize ∧
        (∀ x, x < getTableSize P dest →
          cdist (getTableSize P dest) h x < cdist (getTableSize P dest) h l →
          (P.HASH_ORDERED && initPlaceBefore P dest h x) = false) ∧
        (l ≠ v → P.HASH_ORDERED = true ∧ initPlaceBefore P dest h l = true) ∧
        (∀ x, x < getTableSize P dest → 0 < cdist (getTableSize P dest) l x →
          cdist (getTableSize P dest) l x ≤ cdist (getTableSize P dest) l v →
          d.slots x = dest.slots ((x + getTableSize P dest - 1) % getTableSize P dest)) ∧
        (∀ x, ¬ (x < getTableSize P dest ∧
            cdist (getTableSize P dest) l x ≤ cdist (getTableSize P dest) l v) →
          d.slots x = dest.slots x) := by
  have hN : 0 < getTableSize P dest := by omega
  have hvN := cdist_lt (a := h) (b := v) hN
  intro fuel
  induction fuel with
  | zero => intro loc _ h1 h2; omega
  | succ fuel ih =>
    intro loc hloc hle hfuel hpassed
    unfold rehashPutLoop
    by_cases hu : isUsed dest loc = true
    · simp only [hu, if_true]
      have hlv : loc ≠ v := by
        intro e; rw [e, hvirgin] at hu; exact Bool.noConfusion hu
      have hlt : cdist (getTableSize P dest) h loc < cdist (getTableSize P dest) h v := by
        rcases Nat.lt_or_ge (cdist (getTableSize P dest) h loc) (cdist (getTableSize P dest) h v)
          with h1 | h1
        · exact h1
        · exact absurd (cdist_inj hh hloc hv (le_antisymm hle h1)) hlv
      have hsplit := cdist_split hh hloc hv hle
      by_cases ho : (P.HASH_ORDERED && initPlaceBefore P dest h loc) = true
      · rw [if_pos ho]
        obtain ⟨t1, h1, h2, _, _, h5, h6, _, _⟩ := pushProbeAt_spec (fun _ _ => (0 : Nat)) P dest
          loc v (fuel + 1) hloc hv hu hvirgin (by
            intro x hx hxlt
            apply hfirst x hx
            rw [cdist_add hh hloc hx (by omega)]
            omega) (by omega)
        simp only [Bool.and_eq_true] at ho
        exact ⟨t1, loc, by rw [h1]; rfl, hloc, hle, h2, hpassed, fun _ => ho, h5, h6⟩
      · rw [if_neg ho]
        have hn := cdist_next hh hloc (by omega)
        apply ih ((loc + 1) % getTableSize P dest) (next_lt hN) (by omega) (by omega)
        intro x hx hxlt
        rw [hn] at hxlt
        rcases Nat.lt_or_ge (cdist (getTableSize P dest) h x) (cdist (getTableSize P dest) h loc)
          with h1 | h1
        · exact hpassed x hx h1
        · have : x = loc := cdist_inj hh hx hloc (by omega)
          rw [this]
          simpa using ho
    · have hu2 : isUsed dest loc = false := by simpa using hu
      simp only [hu2, Bool.false_eq_true, if_false]
      have hlv : loc = v := by
        rcases Nat.lt_or_ge (cdist (getTableSize P dest) h loc) (cdist (getTableSize P dest) h v)
          with h1 | h1
        · rw [hfirst loc hloc h1] at hu2; exact Bool.noConfusion hu2
        · exact cdist_inj hh hloc hv (le_antisymm hle h1)
      refine ⟨dest, loc, rfl, hloc, hle, rfl, hpassed, fun hne => absurd hlv hne, ?_,
        fun _ _ => rfl⟩
      intro x hx hpos hxle
      rw [hlv, cdist_self hv] at hxle
      rw [hlv] at hpos
      omega

/-- `rehash_put` keeps the invariant that `keyFoundAt` checks, in both modes: the
assertion `dest.keyFoundAt(loc)` at its end holds for every slot. -/
theorem rehash_put_checked (P : Params K V) (fuel : Nat) (src : Hash K V) (i : Nat)
    (dest d : Hash K V) (hrange : initPlacesInRange P dest.nativeSize) (hvir : hasVirgin P dest)
    (hfuel : getTableSize P dest < fuel) (hused : isUsed src i = true)
    (hinv : checkedInvariant P dest) (hput : rehash_put P fuel src i dest = some d) :
    checkedInvariant P d := by
  have hh : P.getInitPlace dest.nativeSize (constRefToKey src i) < getTableSize P dest := hrange _
  have hN : 0 < getTableSize P dest := by omega
  obtain ⟨v, hv, hvirgin, hfirst⟩ := exists_first_virgin (isUsed dest) hh hvir
  have hvN := cdist_lt (a := P.getInitPlace dest.nativeSize (constRefToKey src i)) (b := v) hN
  obtain ⟨d0, l, hloop, hl, hle, hnat, hpassed, hat, hshift, hrest⟩ :=
    rehashPutLoop_shape P dest _ v hh hv hvirgin hfirst fuel _ hh
      (by rw [cdist_self hh]; omega) (by rw [cdist_self hh]; omega)
      (by intro x _ hlt; rw [cdist_self hh] at hlt; omega)
  unfold rehash_put at hput
  rw [base_empty_false P dest hN] at hput
  simp only [Bool.false_eq_true, if_false, hloop] at hput
  have hd : d = added (d0.setSlot l (src.slots i)) := (Option.some.inj hput).symm
  have hdn : d.nativeSize = dest.nativeSize := by rw [hd]; exact hnat
  have hds : ∀ x, d.slots x = if x = l then src.slots i else d0.slots x := by
    intro x; rw [hd]; exact setSlot_slots d0 l x (src.slots i)
  have hsz : getTableSize P d = getTableSize P dest := congrArg P.sizeForNative hdn
  have hO := orderedTowards_of_checked P dest v hrange hv hvirgin hinv
  have hsplit := cdist_split hh hl hv hle
  have hlN := cdist_lt (a := l) (b := v) hN
  have hv0 := cdist_self hv
  have hrun : ∀ x, x < getTableSize P dest → 0 < cdist (getTableSize P dest) x v →
      cdist (getTableSize P dest) x v
        ≤ cdist (getTableSize P dest) (P.getInitPlace dest.nativeSize (constRefToKey src i)) v →
      isUsed dest x = true := by
    intro x hx hpos hxle
    apply hfirst x hx
    have := cdist_to hh hx hv hxle
    omega
  apply checked_of_orderedTowards P d v (by rw [hdn]; exact hrange) (by rw [hsz]; exact hv)
  refine orderedTowards_insert P dest d _ l v hdn hl hv hrun (by omega) ?_ ?_ ?_ ?_ ?_ ?_ hO
  · intro hmode x hx hx1 hx2
    have hux := hrun x hx (by omega) hx2
    have e1 := cdist_to hh hx hv hx2
    have e2 := cdist_to hh hl hv (by omega)
    have hb := hpassed x hx (by omega)
    rw [hmode, Bool.true_and] at hb
    have hHx := initPlaceAt_lt P dest hrange x
    have hlin := (hO x hx hux).1
    have e3 := cdist_to hHx hx hv hlin
    by_contra hcon
    have : initPlaceBefore P dest (P.getInitPlace dest.nativeSize (constRefToKey src i)) x
        = true := by
      rw [initPlaceBefore_iff P dest _ x hh hx hHx]
      omega
    rw [hb] at this
    exact Bool.noConfusion this
  · intro _ hlv
    obtain ⟨_, hb⟩ := hat hlv
    have hHl := initPlaceAt_lt P dest hrange l
    rw [initPlaceBefore_iff P dest _ l hh hl hHl] at hb
    have hlt : cdist (getTableSize P dest) (P.getInitPlace dest.nativeSize (constRefToKey src i)) l
        < cdist (getTableSize P dest) (P.getInitPlace dest.nativeSize (constRefToKey src i)) v := by
      rcases Nat.lt_or_ge
        (cdist (getTableSize P dest) (P.getInitPlace dest.nativeSize (constRefToKey src i)) l)
        (cdist (getTableSize P dest) (P.getInitPlace dest.nativeSize (constRefToKey src i)) v)
        with h1 | h1
      · exact h1
      · exact absurd (cdist_inj hh hl hv (le_antisymm hle h1)) hlv
    have hul := hfirst l hl hlt
    have hlin := (hO l hl hul).1
    have e2 := cdist_to hh hl hv (by omega)
    have e3 := cdist_to hHl hl hv hlin
    omega
  · unfold isUsed
    rw [hds, if_pos rfl]
    exact hused
  · unfold initPlaceAt constRefToKey
    rw [hds, if_pos rfl, hdn]
  · intro x hx hxl
    have hne : x ≠ l := by
      intro e; rw [e] at hxl; omega
    rw [hds, if_neg hne]
    have e := cdist_to hl hx hv (by omega)
    exact hshift x hx (by omega) (by omega)
  · intro x hx hxl
    have hne : x ≠ l := by
      intro e; rw [e] at hxl; omega
    rw [hds, if_neg hne]
    apply hrest
    rintro ⟨_, hc⟩
    have e := cdist_to_wrap hl hx hv hxl
    have := cdist_lt (a := x) (b := v) hN
    omega

/-- A copy loop of `rehash` keeps the invariant that `keyFoundAt` checks in the
destination, in both modes. -/
theorem rehashCopy_checked (P : Params K V) (fuel : Nat) (src : Hash K V) (check : Bool)
    (n1 : Nat) (hrange : initPlacesInRange P n1) (hfuel : P.sizeForNative n1 < fuel) :
    ∀ (l : List Nat) (dest : Hash K V), dest.nativeSize = n1 →
      (∀ i, i ∈ l → check = false → isUsed src i = true) →
      usedSum (fun _ _ => (1 : Nat)) dest (P.sizeForNative n1)
        + listUsedSum (fun _ _ => (1 : Nat)) src l < P.sizeForNative n1 →
      checkedInvariant P dest →
      ∀ d, rehashCopy P fuel src check l dest = some d → checkedInvariant P d := by
  intro l
  induction l with
  | nil =>
    intro dest _ _ _ hinv d hd
    have : dest = d := Option.some.inj hd
    rw [← this]; exact hinv
  | cons i rest ih =>
    intro dest hn hall hroom hinv d hd
    unfold rehashCopy at hd
    rw [listUsedSum_cons] at hroom
    by_cases hskip : (check && !isUsed src i) = true
    · rw [if_pos hskip] at hd
      have hui : isUsed src i = false := by
        simp only [Bool.and_eq_true, Bool.not_eq_true'] at hskip
        exact hskip.2
      simp only [hui, Bool.false_eq_true, if_false, zero_add] at hroom
      exact ih dest hn (fun j hj hc => hall j (List.mem_cons_of_mem _ hj) hc) hroom hinv d hd
    · rw [if_neg hskip] at hd
      have hui : isUsed src i = true := by
        cases hc : check with
        | false => exact hall i (List.mem_cons_self _ _) hc
        | true =>
          rw [hc] at hskip
          simpa using hskip
      simp only [hui, if_true] at hroom
      have hsz : getTableSize P dest = P.sizeForNative n1 := by unfold getTableSize; rw [hn]
      have hvir : hasVirgin P dest := by
        rw [hasVirgin_iff]; unfold numUsed; rw [hsz]; omega
      obtain ⟨d1, g1, g2, _, _, _, _, g7⟩ := rehash_put_spec P fuel src i dest
        (by rw [hn]; exact hrange) hvir (by rw [hsz]; exact hfuel) hui
      rw [g1] at hd
      simp only at hd
      have hcount := g7 Nat (fun _ _ => 1)
      rw [hsz] at hcount
      have hinv1 := rehash_put_checked P fuel src i dest d1 (by rw [hn]; exact hrange) hvir
        (by rw [hsz]; exact hfuel) hui hinv g1
      exact ih d1 (by rw [g2, hn]) (fun j hj hc => hall j (List.mem_cons_of_mem _ hj) hc)
        (by rw [hcount]; omega) hinv1 d hd

/-- `rehash` builds a table that satisfies the invariant that `keyFoundAt` checks,
in both modes. -/
theorem rehash_checked (P : Params K V) (fuel : Nat) (t t1 : Hash K V) (s : Nat)
    (hvir : t.numKeys ≠ 0 → hasVirgin P t)
    (hrange : initPlacesInRange P s) (hroom : numUsed P t < P.sizeForNative s)
    (hfuel : P.sizeForNative s < fuel) (hre : rehash P fuel t s = some t1) :
    checkedInvariant P t1 := by
  have hfresh : checkedInvariant P (newHash P s) := by
    intro p _ hp
    rw [isUsed_newHash] at hp
    exact Bool.noConfusion hp
  have hweight : ∀ (d : Hash K V) (w : Int), checkedInvariant P d →
      checkedInvariant P { d with weightSum := w } := fun _ _ h => h
  simp only [rehash] at hre
  by_cases hz : size t ≠ 0
  · rw [if_pos hz] at hre
    obtain ⟨v, hv, hvirgin⟩ := hvir hz
    obtain ⟨f, g1, _, g3, g4, g5⟩ := firstUnusedFrom_spec t (getTableSize P t) 0
      ⟨v, Nat.zero_le _, by omega, hvirgin⟩
    rw [g1] at hre
    simp only at hre
    have hsplit := usedSum_split (fun _ _ => (1 : Nat)) t (getTableSize P t) f (by omega) g4
    unfold numUsed at hroom
    obtain ⟨d1, a1, a2, _, _, _, _, a7⟩ := rehashCopy_spec P fuel t true s hrange hfuel
      (List.range' (f + 1) (getTableSize P t - (f + 1))) (newHash P s) rfl
      (fun _ _ hc => Bool.noConfusion hc) (by rw [usedSum_newHash]; omega)
    have hinv1 := rehashCopy_checked P fuel t true s hrange hfuel
      (List.range' (f + 1) (getTableSize P t - (f + 1))) (newHash P s) rfl
      (fun _ _ hc => Bool.noConfusion hc) (by rw [usedSum_newHash]; omega) hfresh d1 a1
    rw [a1] at hre
    simp only at hre
    have hc1 := a7 Nat (fun _ _ => 1)
    rw [usedSum_newHash] at hc1
    obtain ⟨d2, b1, _⟩ := rehashCopy_spec P fuel t false s hrange hfuel
      (List.range' 0 f) d1 a2
      (fun i hi _ => g5 i (Nat.zero_le _) (by
        rw [List.mem_range'_1] at hi; omega)) (by rw [hc1]; omega)
    have hinv2 := rehashCopy_checked P fuel t false s hrange hfuel
      (List.range' 0 f) d1 a2
      (fun i hi _ => g5 i (Nat.zero_le _) (by
        rw [List.mem_range'_1] at hi; omega)) (by rw [hc1]; omega) hinv1 d2 b1
    rw [b1] at hre
    have e := Option.some.inj hre
    rw [← e]
    exact hweight d2 _ hinv2
  · rw [if_neg hz] at hre
    have e := Option.some.inj hre
    rw [← e]
    exact hweight _ _ hfresh

/-- C11: rehash preserves contents.  For every table with a virgin slot whose key
counter is right, and every native size `s` with more slots than there are
entries, `rehash(s)` returns (for every fuel above the new number of slots); the
multiset of the entries (key and payload) is the same as before, `size()` is
unchanged, every key that was stored is found by `findFirst` in the new table,
and the new table satisfies the hash invariant, also as `keyFoundAt` checks it in
ordered mode.  The native sizes that the controller asks for on growth
(`aboutToPut`) and on shrinking (`trim()`, which is `rehash` with that size) are
such sizes when the controller keeps the table from filling up. -/
theorem rehash_preserves_contents [DecidableEq K] (P : Params K V) (t : Hash K V)
    (s fuel : Nat) (hcount : t.numKeys = numUsed P t) (hvir : hasVirgin P t)
    (hrange : initPlacesInRange P s) (hroom : numUsed P t < P.sizeForNative s)
    (hfuel : P.sizeForNative s < fuel) :
    (∃ t1, rehash P fuel t s = some t1 ∧ entries P t1 = entries P t ∧ size t1 = size t ∧
      t1.nativeSize = s ∧ hashInvariant P t1 ∧ checkedInvariant P t1 ∧
      ∀ k, stored P t k →
        ∃ loc, findFirst P fuel t1 k 0 = some (true, loc) ∧ isUsed t1 loc = true ∧
          constRefToKey t1 loc = k) ∧
    (controllerSafe P →
      (∀ s1, P.aboutToPut t.nativeSize t.numKeys = some s1 →
        initPlacesInRange P s1 ∧ numUsed P t < P.sizeForNative s1) ∧
      (∀ s1, P.trim t.nativeSize t.numKeys = some s1 →
        trim P fuel t = rehash P fuel t s1 ∧
        initPlacesInRange P s1 ∧ numUsed P t < P.sizeForNative s1)) := by
  constructor
  · obtain ⟨t1, g1, g2, g3, _, _, _, g7⟩ := rehash_spec P fuel t s hcount (fun _ => hvir) hrange
      hroom hfuel
    have hinv := rehash_checked P fuel t t1 s (fun _ => hvir) hrange hroom hfuel g1
    have hsz1 : getTableSize P t1 = P.sizeForNative s := by unfold getTableSize; rw [g2]
    have hsums : ∀ (M : Type) [AddCommMonoid M] (φ : K → V → M),
        usedSum φ t1 (getTableSize P t1) = usedSum φ t (getTableSize P t) := by
      intro M _ φ
      rw [hsz1]
      exact g7 M φ
    have hvir1 : hasVirgin P t1 := by
      rw [hasVirgin_iff, hsz1]
      have := hsums Nat (fun _ _ => 1)
      unfold numUsed
      rw [hsz1] at this
      rw [hsz1, this]
      exact hroom
    refine ⟨t1, g1, hsums _ _, g3, g2, checkedInvariant_hash P t1 hinv, hinv, ?_⟩
    intro k hk
    have hk1 := (stored_of_sums P t t1 k hsums).2 hk
    obtain ⟨b, l, e1, _, e3, e4⟩ := findFirst_iff_stored P t1 k 0 fuel (by rw [g2]; exact hrange)
      hinv hvir1 (by rw [hsz1]; exact hfuel)
    have hb : b = true := e3.2 hk1
    rw [hb] at e1
    exact ⟨l, e1, (e4 hb).1, (e4 hb).2⟩
  · intro hsafe
    have hm : t.numKeys ≤ P.sizeForNative t.nativeSize := by
      rw [hcount]; exact numUsed_le P t
    constructor
    · intro s1 hs1
      obtain ⟨hr, hroom1⟩ := hsafe.1 _ _ s1 hm hs1
      exact ⟨hr, by rw [← hcount]; omega⟩
    · intro s1 hs1
      obtain ⟨hr, hroom1⟩ := hsafe.2.2 _ _ s1 hm hs1
      refine ⟨?_, hr, by rw [← hcount]; omega⟩
      unfold trim
      rw [hs1]

/-- C11 in ordered mode: the table of the keys 1 to 5 is rehashed to the native
size 18 that the controller asks for on growth. -/
theorem rehash_preserves_contents_witness :
    hasVirgin (modParams true true) scenarioTable ∧
    (modParams true true).aboutToPut scenarioTable.nativeSize scenarioTable.numKeys = some 18 ∧
    ∃ t1, rehash (modParams true true) 19 scenarioTable 18 = some t1 ∧
      entries (modParams true true) t1 = entries (modParams true true) scenarioTable ∧
      size t1 = 5 ∧ checkedInvariant (modParams true true) t1 := by
  obtain ⟨⟨t1, h1, h2, h3, _, _, h6, _⟩, _⟩ := rehash_preserves_contents (modParams true true)
    scenarioTable 18 19 (by decide) (by decide) (modParams_range true true 18 (by decide))
    (by decide) (by decide)
  exact ⟨by decide, by decide, t1, h1, h2, h3, h6⟩


/-! ## The wrap-around tests -/

theorem cdist_cast {N a b : Nat} (ha : a < N) (hb : b < N) :
    ((cdist N a b : Nat) : Int) = ((b : Int) - (a : Int)) % (N : Int) := by
  rw [cdist_eq ha hb]
  split_ifs with h
  · rw [Int.emod_eq_of_lt (by omega) (by omega)]; omega
  · have : ((b : Int) - (a : Int)) % (N : Int) = ((b : Int) - (a : Int) + (N : Int)) % (N : Int) := by
      rw [Int.add_emod_self]
    rw [this, Int.emod_eq_of_lt (by omega) (by omega)]; omega

theorem removeFromLoop_step (P : Params K V) (fuel : Nat) (t : Hash K V) (g c : Nat) :
    removeFromLoop P (fuel + 1) t g c =
      if isUsed t c then
        if fillTest (initPlaceAt P t c) g c then
          removeFromLoop P fuel (moveOrSwap P t g c) c (getNextPlace P t c)
        else removeFromLoop P fuel t g (getNextPlace P t c)
      else some (t, g) := rfl

theorem onProbePath_iff {N h g c : Nat} (hh : h < N) (hg : g < N) (hc : c < N) :
    onProbePath N h g c ↔ cdist N g c ≤ cdist N h c := by
  constructor
  · rintro ⟨j, hj, rfl⟩
    have hN : 0 < N := by omega
    have hjN : j < N := lt_of_le_of_lt hj (cdist_lt hN)
    have h1 := @cdist_cyc_add N h j hh hjN
    have h2 := @cdist_split N h ((h + j) % N) c hh (Nat.mod_lt _ hN) hc (by omega)
    omega
  · intro hle
    refine ⟨cdist N h g, ?_, cyc_add_cdist hh hg⟩
    have := cdist_back hh hg hc hle
    omega

/-- C24: the test of `removeFrom` that decides whether the entry at the scanned
slot `c` (initial place `h`) is moved into the gap `g` is the cyclic interval
test `(c - h) mod N ≥ (c - g) mod N`, which holds exactly when the gap lies on
the cyclic probe path from `h` to `c`; the scan loop of `removeFrom` moves the
entry exactly when the test holds.  The equivalence also holds for `g = c`. -/
theorem fillTest_is_cyclic_interval (N h g c : Nat) (hh : h < N) (hg : g < N) (hc : c < N) :
    (fillTest h g c = true ↔ cyclicIntervalTest N h g c) ∧
    (cyclicIntervalTest N h g c ↔ onProbePath N h g c) ∧
    ∀ (P : Params K V) (t : Hash K V) (fuel : Nat), isUsed t c = true →
      initPlaceAt P t c = h →
      removeFromLoop P (fuel + 1) t g c =
        if cyclicIntervalTest N h g c then
          removeFromLoop P fuel (moveOrSwap P t g c) c (getNextPlace P t c)
        else removeFromLoop P fuel t g (getNextPlace P t c) := by
  have key : fillTest h g c = true ↔ cyclicIntervalTest N h g c := by
    unfold fillTest cyclicIntervalTest
    rw [fillTest_iff hh hg hc, ge_iff_le, ← cdist_cast hg hc, ← cdist_cast hh hc]
    exact Int.ofNat_le.symm
  refine ⟨key, ?_, ?_⟩
  · rw [onProbePath_iff hh hg hc]
    unfold cyclicIntervalTest
    rw [ge_iff_le, ← cdist_cast hg hc, ← cdist_cast hh hc]
    exact Int.ofNat_le
  · intro P t fuel hu hinit
    rw [removeFromLoop_step, if_pos hu, hinit]
    by_cases hT : cyclicIntervalTest N h g c
    · rw [if_pos (key.mpr hT), if_pos hT]
    · have : fillTest h g c = false := by
        cases hf : fillTest h g c
        · rfl
        · exact absurd (key.mp hf) hT
      rw [this, if_neg hT]; rfl

theorem fillTest_is_cyclic_interval_witness :
    (fillTest 3 0 1 = true ↔ cyclicIntervalTest 4 3 0 1) ∧ fillTest 3 0 1 = true ∧
      fillTest 0 3 1 = false ∧ ¬ cyclicIntervalTest 4 0 3 1 :=
  ⟨(fillTest_is_cyclic_interval 4 3 0 1 (by decide) (by decide) (by decide)
      (K := Nat) (V := Int)).1, by decide, by decide, by decide⟩

/-- C25: `initPlaceBefore(p, c)` is the strict cyclic ordering of initial places:
with `h` the initial place of the key at `c`, it is true exactly when
`(c - p) mod N > (c - h) mod N`; it is false when `h = p`. -/
theorem initPlaceBefore_is_strict_cyclic (P : Params K V) (t : Hash K V) (p c : Nat)
    (hp : p < getTableSize P t) (hc : c < getTableSize P t)
    (hH : initPlaceAt P t c < getTableSize P t) :
    (initPlaceBefore P t p c = true ↔
      followsProbeStart (getTableSize P t) p (initPlaceAt P t c) c) ∧
    (initPlaceAt P t c = p → initPlaceBefore P t p c = false) := by
  constructor
  · rw [initPlaceBefore_iff P t p c hp hc hH]
    unfold followsProbeStart
    rw [gt_iff_lt, ← cdist_cast hp hc, ← cdist_cast hH hc]
    exact Int.ofNat_lt.symm
  · intro h
    rw [← h]
    exact initPlaceBefore_self P t c

theorem initPlaceBefore_is_strict_cyclic_witness :
    (initPlaceBefore (modParams true true) wrapTable 2 0 = true ↔
      followsProbeStart 4 2 3 0) ∧
    initPlaceBefore (modParams true true) wrapTable 2 0 = true ∧
    initPlaceBefore (modParams true true) wrapTable 3 0 = false :=
  ⟨(initPlaceBefore_is_strict_cyclic (modParams true true) wrapTable 2 0 (by decide) (by decide)
      (by decide)).1, by decide, by decide⟩

/-! ## Locality of `removeFrom` and the shift of `pushProbeAt` -/

/-- C30: the local rehash is local.  With `v` the first virgin slot reached from
the used slot `s`, `removeFrom(s)` changes only slots of the cyclic range
`[s, v)`: every other slot, `v` included, keeps content and status; exactly one
slot `g` of the range goes from used to virgin, and the status of every other
slot is as before (no slot goes from virgin to used). -/
theorem removeFrom_is_local (P : Params K V) (t : Hash K V) (s fuel : Nat)
    (hrange : initPlacesInRange P t.nativeSize) (hvir : hasVirgin P t)
    (hs : s < getTableSize P t) (hused : isUsed t s = true) (hfuel : getTableSize P t < fuel) :
    ∃ v t1, v < getTableSize P t ∧ isUsed t v = false ∧
      (∀ x, x < getTableSize P t →
        cdist (getTableSize P t) s x < cdist (getTableSize P t) s v → isUsed t x = true) ∧
      removeFrom P fuel t s = some t1 ∧
      (∀ x, ¬ (x < getTableSize P t ∧
          cdist (getTableSize P t) s x < cdist (getTableSize P t) s v) →
        t1.slots x = t.slots x) ∧
      t1.slots v = t.slots v ∧
      ∃ g, g < getTableSize P t ∧ cdist (getTableSize P t) s g < cdist (getTableSize P t) s v ∧
        isUsed t g = true ∧ isUsed t1 g = false ∧ ∀ x, x ≠ g → isUsed t1 x = isUsed t x := by
  obtain ⟨v, hv, hvirgin, hfirst⟩ := exists_first_virgin (fun x => isUsed t x) hs hvir
  obtain ⟨t1, h1, -, -, -, -, -, hframe, g, hg, hgv, hgu, -, hrest⟩ :=
    removeFrom_sum (fun _ _ => (1 : Nat)) P t s v fuel hrange hs hused hv hvirgin hfirst hfuel
  refine ⟨v, t1, hv, hvirgin, hfirst, h1, hframe, hframe v (fun h => by omega), g, hg, hgv,
    hfirst g hg hgv, hgu, hrest⟩

theorem removeFrom_is_local_witness :
    hasVirgin (modParams false false) wrapTable ∧
    ∃ v t1, v < 4 ∧ isUsed wrapTable v = false ∧
      removeFrom (modParams false false) 5 wrapTable 3 = some t1 ∧
      t1.slots v = wrapTable.slots v ∧
      ∃ g, isUsed wrapTable g = true ∧ isUsed t1 g = false ∧
        ∀ x, x ≠ g → isUsed t1 x = isUsed wrapTable x := by
  obtain ⟨v, t1, h1, h2, -, h3, -, h4, g, -, -, h5, h6, h7⟩ :=
    removeFrom_is_local (modParams false false) wrapTable 3 5 (modParams_range _ _ 4 (by decide))
      (by decide) (by decide) (by decide) (by decide)
  exact ⟨by decide, v, t1, h1, h2, h3, h4, g, h5, h6, h7⟩

theorem prev_next {N s : Nat} (hs : s < N) : ((s + 1) % N + N - 1) % N = s := by
  have hN : 0 < N := by omega
  by_cases h : s + 1 < N
  · rw [Nat.mod_eq_of_lt h, prev_eq h, if_neg (Nat.succ_ne_zero s)]; omega
  · have h0 : s + 1 = N := by omega
    rw [h0, Nat.mod_self, prev_eq hN, if_pos rfl]; omega

/-- C28: `pushProbeAt(loc)` shifts one run forward by one slot.  With `v` the
first virgin slot reached from the used slot `loc`: the content of every slot
`s` of the cyclic range `[loc, v)` is afterwards at `nextPlace(s)`, one step
further from `loc` (so the relative order is kept); every slot outside the
cyclic range `[loc, v]` is unchanged; the entries of the table are then held by
the slots other than `loc`, which is free for the new key: it holds what the
virgin slot held when the storage swaps (then it is unused), and a stale copy of
the entry that moved to `nextPlace(loc)` otherwise. -/
theorem pushProbeAt_shifts_run (P : Params K V) (t : Hash K V) (loc fuel : Nat)
    (hvir : hasVirgin P t) (hloc : loc < getTableSize P t) (hused : isUsed t loc = true)
    (hfuel : getTableSize P t ≤ fuel) :
    ∃ v t1, v < getTableSize P t ∧ isUsed t v = false ∧
      (∀ x, x < getTableSize P t →
        cdist (getTableSize P t) loc x < cdist (getTableSize P t) loc v → isUsed t x = true) ∧
      pushProbeAt P fuel t loc = some t1 ∧
      (∀ s, s < getTableSize P t →
        cdist (getTableSize P t) loc s < cdist (getTableSize P t) loc v →
        t1.slots (getNextPlace P t s) = t.slots s ∧
        cdist (getTableSize P t) loc (getNextPlace P t s)
          = cdist (getTableSize P t) loc s + 1) ∧
      (∀ x, ¬ (x < getTableSize P t ∧
          cdist (getTableSize P t) loc x ≤ cdist (getTableSize P t) loc v) →
        t1.slots x = t.slots x) ∧
      usedSumExcept (fun k w => ({(k, w)} : Multiset (K × V))) t1 (getTableSize P t) loc
        = entries P t ∧
      t1.slots loc = (if P.swaps then t.slots v else t.slots loc) ∧
      (P.swaps = true → isUsed t1 loc = false) ∧
      t1.nativeSize = t.nativeSize ∧ size t1 = size t := by
  obtain ⟨v, hv, hvirgin, hfirst⟩ := exists_first_virgin (fun x => isUsed t x) hloc hvir
  have hN : 0 < getTableSize P t := by omega
  have hvlt := @cdist_lt (getTableSize P t) loc v hN
  obtain ⟨t1, h1, h2, h3, -, h5, h6, h7, h8⟩ :=
    pushProbeAt_spec (fun k w => ({(k, w)} : Multiset (K × V))) P t loc v fuel hloc hv hused
      hvirgin hfirst (by omega)
  refine ⟨v, t1, hv, hvirgin, hfirst, h1, ?_, h6, h8, h7, ?_, h2, h3⟩
  · intro s hs hsv
    have hnext : cdist (getTableSize P t) loc ((s + 1) % getTableSize P t)
        = cdist (getTableSize P t) loc s + 1 := cdist_next hloc hs (by omega)
    refine ⟨?_, hnext⟩
    unfold getNextPlace
    rw [h5 _ (next_lt hN) (by omega) (by omega), prev_next hs]
  · intro hsw
    unfold isUsed
    rw [h7, if_pos hsw]
    exact hvirgin

theorem pushProbeAt_shifts_run_witness :
    hasVirgin (modParams true true) wrapTable ∧
    ∃ v t1, v < 4 ∧ pushProbeAt (modParams true true) 4 wrapTable 3 = some t1 ∧
      (∀ s, s < 4 → cdist 4 3 s < cdist 4 3 v →
        t1.slots ((s + 1) % 4) = wrapTable.slots s) ∧
      isUsed t1 3 = false := by
  obtain ⟨v, t1, h1, -, -, h2, h3, -, -, -, h4, -, -⟩ :=
    pushProbeAt_shifts_run (modParams true true) wrapTable 3 4 (by decide) (by decide) (by decide)
      (by decide)
  exact ⟨by decide, v, t1, h1, h2, fun s hs hsv => (h3 s hs hsv).1, h4 rfl⟩

/-! ## `keyFoundAt` decides the invariant of the mode -/

theorem keyFoundAtLoop_spec (P : Params K V) (t : Hash K V) (place h : Nat)
    (hh : h < getTableSize P t) (hp : place < getTableSize P t) :
    ∀ fuel d, d ≤ cdist (getTableSize P t) h place →
      cdist (getTableSize P t) h place < d + fuel →
      (∀ j, j < d → isUsed t ((h + j) % getTableSize P t) = true ∧
        (P.HASH_ORDERED = true →
          ¬ (initPlaceBefore P t h ((h + j) % getTableSize P t) = true ∧
            h ≠ initPlaceAt P t ((h + j) % getTableSize P t)))) →
      ∃ b, keyFoundAtLoop P t place h fuel ((h + d) % getTableSize P t) = some b ∧
        (b = true ↔ ∀ j, j ≤ cdist (getTableSize P t) h place →
          isUsed t ((h + j) % getTableSize P t) = true ∧
          (P.HASH_ORDERED = true → j < cdist (getTableSize P t) h place →
            ¬ (initPlaceBefore P t h ((h + j) % getTableSize P t) = true ∧
              h ≠ initPlaceAt P t ((h + j) % getTableSize P t)))) := by
  have hN : 0 < getTableSize P t := by omega
  have hDlt := @cdist_lt (getTableSize P t) h place hN
  intro fuel
  induction fuel with
  | zero => intro d h1 h2; omega
  | succ fuel ih =>
    intro d hd hfuel hpre
    have hdN : d < getTableSize P t := by omega
    have hcd : cdist (getTableSize P t) h ((h + d) % getTableSize P t) = d :=
      cdist_cyc_add hh hdN
    unfold keyFoundAtLoop
    by_cases hu : isUsed t ((h + d) % getTableSize P t) = true
    · have hu1 : (!isUsed t ((h + d) % getTableSize P t)) = false := by rw [hu]; rfl
      rw [hu1]
      simp only [Bool.false_eq_true, if_false]
      by_cases hat : (h + d) % getTableSize P t = place
      · rw [if_pos hat]
        have hdD : d = cdist (getTableSize P t) h place := by rw [← hat]; exact hcd.symm
        refine ⟨true, rfl, ?_⟩
        constructor
        · intro _ j hj
          by_cases hjd : j < d
          · exact ⟨(hpre j hjd).1, fun ho _ => (hpre j hjd).2 ho⟩
          · have : j = d := by omega
            subst this
            exact ⟨hu, fun _ hlt => by omega⟩
        · intro _; rfl
      · rw [if_neg hat]
        have hdD : d < cdist (getTableSize P t) h place := by
          rcases Nat.lt_or_ge d (cdist (getTableSize P t) h place) with h1 | h1
          · exact h1
          · exfalso
            apply hat
            have : d = cdist (getTableSize P t) h place := by omega
            rw [this]
            exact cyc_add_cdist hh hp
        by_cases hviol : (P.HASH_ORDERED && (initPlaceBefore P t h ((h + d) % getTableSize P t)
            && decide (h ≠ initPlaceAt P t ((h + d) % getTableSize P t)))) = true
        · rw [if_pos hviol]
          refine ⟨false, rfl, ?_⟩
          constructor
          · intro hf; exact absurd hf (by decide)
          · intro hall
            exfalso
            simp only [Bool.and_eq_true, decide_eq_true_eq] at hviol
            exact (hall d hd).2 hviol.1 hdD ⟨hviol.2.1, hviol.2.2⟩
        · rw [if_neg hviol]
          have hnext : getNextPlace P t ((h + d) % getTableSize P t)
              = (h + (d + 1)) % getTableSize P t := by
            unfold getNextPlace
            rw [Nat.mod_add_mod]; rfl
          rw [hnext]
          apply ih (d + 1) (by omega) (by omega)
          intro j hj
          by_cases hjd : j < d
          · exact hpre j hjd
          · have : j = d := by omega
            subst this
            refine ⟨hu, fun ho hb => hviol ?_⟩
            simp only [Bool.and_eq_true, decide_eq_true_eq]
            exact ⟨ho, hb.1, hb.2⟩
    · have hu0 : isUsed t ((h + d) % getTableSize P t) = false := by
        cases hx : isUsed t ((h + d) % getTableSize P t)
        · rfl
        · exact absurd hx hu
      have hu1 : (!isUsed t ((h + d) % getTableSize P t)) = true := by rw [hu0]; rfl
      rw [if_pos hu1]
      refine ⟨false, rfl, ?_⟩
      constructor
      · intro hf; exact absurd hf (by decide)
      · intro hall
        rw [(hall d hd).1] at hu0
        exact absurd hu0 (by decide)

theorem keyFoundAt_iff_checked (P : Params K V) (t : Hash K V) (place fuel : Nat)
    (hrange : initPlacesInRange P t.nativeSize) (hp : place < getTableSize P t)
    (hfuel : getTableSize P t ≤ fuel) :
    ∃ b, keyFoundAt P fuel t place = some b ∧ (b = true ↔ checkedInvariantAt P t place) := by
  have hh := initPlaceAt_lt P t hrange place
  have hN : 0 < getTableSize P t := by omega
  have hDlt := @cdist_lt (getTableSize P t) (initPlaceAt P t place) place hN
  obtain ⟨b, h1, h2⟩ := keyFoundAtLoop_spec P t place (initPlaceAt P t place) hh hp fuel 0
    (Nat.zero_le _) (by omega) (fun j hj => by omega)
  rw [Nat.add_zero, Nat.mod_eq_of_lt hh] at h1
  exact ⟨b, h1, h2⟩

theorem keyFoundAt_all_iff (P : Params K V) (t : Hash K V) (fuel : Nat)
    (hrange : initPlacesInRange P t.nativeSize) (hfuel : getTableSize P t ≤ fuel) :
    (∀ p, p < getTableSize P t → isUsed t p = true → keyFoundAt P fuel t p = some true) ↔
      checkedInvariant P t := by
  constructor
  · intro h p hp hu
    obtain ⟨b, h1, h2⟩ := keyFoundAt_iff_checked P t p fuel hrange hp hfuel
    rw [h p hp hu] at h1
    exact h2.mp (Option.some.inj h1).symm
  · intro h p hp hu
    obtain ⟨b, h1, h2⟩ := keyFoundAt_iff_checked P t p fuel hrange hp hfuel
    rw [h1, h2.mpr (h p hp hu)]

/-- C26: early termination in ordered mode never misses a stored key.  For a table
in ordered mode with a virgin slot in which `keyFoundAt(p)` holds for every used
slot `p` (this includes the hash invariant), `findFirst(k)` returns, and returns
true exactly when `k` is stored.  When it returns false at a used slot, it has
taken the break there (`initPlaceBefore(initLoc, location)` holds), and `k` is
the key of no used slot, so of no later slot of the run. -/
theorem findFirst_ordered_never_misses [DecidableEq K] (P : Params K V) (t : Hash K V) (key : K)
    (loc0 fuel : Nat) (hmode : P.HASH_ORDERED = true)
    (hrange : initPlacesInRange P t.nativeSize) (hvir : hasVirgin P t)
    (hkey : ∀ p, p < getTableSize P t → isUsed t p = true → keyFoundAt P fuel t p = some true)
    (hfuel : getTableSize P t < fuel) :
    hashInvariant P t ∧
    ∃ b l, findFirst P fuel t key loc0 = some (b, l) ∧ contains P fuel t key = some b ∧
      (b = true ↔ stored P t key) ∧
      (b = true → isUsed t l = true ∧ constRefToKey t l = key) ∧
      (b = false → isUsed t l = true →
        initPlaceBefore P t (P.getInitPlace t.nativeSize key) l = true ∧
        ∀ x, x < getTableSize P t → isUsed t x = true → constRefToKey t x ≠ key) := by
  have hinv : checkedInvariant P t := (keyFoundAt_all_iff P t fuel hrange (by omega)).mp hkey
  refine ⟨checkedInvariant_hash P t hinv, ?_⟩
  obtain ⟨v, b, l, hv, hvirgin, -, hfind, hl, -, hpre, htrue, hfalse⟩ :=
    findFirst_spec P t key loc0 fuel hrange hvir hfuel
  have hfind0 : findFirst P fuel t key 0 = some (b, l) := by
    rw [findFirst_allocated P t key 0 loc0 fuel (by omega)]; exact hfind
  refine ⟨b, l, hfind, by unfold contains; rw [hfind0]; rfl, ?_, ?_, ?_⟩
  · constructor
    · intro hb
      exact ⟨l, hl, (htrue hb).1, (htrue hb).2.symm⟩
    · intro hst
      cases hb : b
      · exact absurd hst (not_stored_of_probe P t key v l hrange hinv hv hvirgin hl hpre
          (hfalse hb))
      · rfl
  · intro hb
    exact ⟨(htrue hb).1, (htrue hb).2.symm⟩
  · intro hb hu
    have hns := not_stored_of_probe P t key v l hrange hinv hv hvirgin hl hpre (hfalse hb)
    constructor
    · rcases hfalse hb with h1 | ⟨-, -, h3⟩
      · rw [h1, hvirgin] at hu; exact absurd hu (by decide)
      · rw [hmode] at h3; simpa using h3
    · intro x hx hxu hk
      exact hns ⟨x, hx, hxu, hk⟩

theorem findFirst_ordered_never_misses_witness :
    hasVirgin (modParams true true) orderedTable ∧
    (∀ p, p < 8 → isUsed orderedTable p = true →
      keyFoundAt (modParams true true) 9 orderedTable p = some true) ∧
    findFirst (modParams true true) 9 orderedTable 22 0 = some (false, 0) ∧
    isUsed orderedTable 0 = true ∧
    ∃ b l, findFirst (modParams true true) 9 orderedTable 22 0 = some (b, l) ∧
      (b = true ↔ stored (modParams true true) orderedTable 22) := by
  obtain ⟨-, b, l, h1, -, h2, -, -⟩ :=
    findFirst_ordered_never_misses (modParams true true) orderedTable 22 0 9 rfl
      (modParams_range _ _ 8 (by decide)) (by decide) (by decide) (by decide)
  exact ⟨by decide, by decide, by decide, by decide, b, l, h1, h2⟩

/-! ## The order of re-insertion in `rehash` -/

theorem rehashCopyTrace_fst (P : Params K V) (fuel : Nat) (src : Hash K V) (check : Bool) :
    ∀ (l : List Nat) (dest : Hash K V),
      (rehashCopyTrace P fuel src check l dest).map Prod.fst = rehashCopy P fuel src check l dest := by
  intro l
  induction l with
  | nil => intro dest; rfl
  | cons i rest ih =>
    intro dest
    unfold rehashCopyTrace rehashCopy
    by_cases hc : (check && !isUsed src i) = true
    · rw [if_pos hc, if_pos hc]; exact ih dest
    · rw [if_neg hc, if_neg hc]
      cases hput : rehash_put P fuel src i dest with
      | none => rfl
      | some d =>
        simp only [Option.map_map]
        rw [← ih d]
        cases rehashCopyTrace P fuel src check rest d <;> rfl

theorem rehashCopyTrace_snd (P : Params K V) (fuel : Nat) (src : Hash K V) (check : Bool) :
    ∀ (l : List Nat) (dest : Hash K V) (r : Hash K V × List Nat),
      rehashCopyTrace P fuel src check l dest = some r →
      r.2 = l.filter (fun i => !(check && !isUsed src i)) := by
  intro l
  induction l with
  | nil =>
    intro dest r h
    simp only [rehashCopyTrace, Option.some.injEq] at h
    rw [← h]; rfl
  | cons i rest ih =>
    intro dest r h
    unfold rehashCopyTrace at h
    by_cases hc : (check && !isUsed src i) = true
    · rw [if_pos hc] at h
      rw [ih dest r h, List.filter_cons_of_neg (by rw [hc]; decide)]
    · rw [if_neg hc] at h
      have hc1 : (!(check && !isUsed src i)) = true := by
        cases hx : (check && !isUsed src i)
        · rfl
        · exact absurd hx hc
      cases hput : rehash_put P fuel src i dest with
      | none => rw [hput] at h; exact absurd h (by simp)
      | some d =>
        rw [hput] at h
        dsimp only at h
        cases hrec : rehashCopyTrace P fuel src check rest d with
        | none => rw [hrec] at h; exact absurd h (by simp)
        | some r1 =>
          rw [hrec] at h
          simp only [Option.map_some', Option.some.injEq] at h
          rw [← h]
          show i :: r1.2 = _
          rw [ih d r1 hrec, List.filter_cons, if_pos hc1]

theorem rehashTrace_fst (P : Params K V) (fuel : Nat) (t : Hash K V) (s : Nat) :
    (rehashTrace P fuel t s).map Prod.fst = rehash P fuel t s := by
  unfold rehashTrace rehash
  by_cases h0 : size t ≠ 0
  · simp only [if_pos h0]
    cases hf : firstUnusedFrom t (getTableSize P t) 0 with
    | none => rfl
    | some f =>
      simp only []
      rw [← rehashCopyTrace_fst P fuel t true]
      cases h1 : rehashCopyTrace P fuel t true
          (List.range' (f + 1) (getTableSize P t - (f + 1))) (newHash P s) with
      | none => rfl
      | some r1 =>
        simp only [Option.map_some']
        rw [← rehashCopyTrace_fst P fuel t false]
        cases h2 : rehashCopyTrace P fuel t false (List.range' 0 f) r1.1 with
        | none => rfl
        | some r2 => rfl
  · simp only [if_neg h0]; rfl

/-- C29: the traversal order of `rehash`.  For a table that is not empty and has a
virgin slot, with `f` the smallest index of a virgin slot, `rehash` re-inserts
first the used slots with index in `(f, N)` in increasing order and then the
slots `0 .. f-1`, all of them used, in increasing order; every used slot is
re-inserted exactly once and no virgin slot is. -/
theorem rehash_traversal_order (P : Params K V) (t : Hash K V) (s fuel : Nat)
    (hne : size t ≠ 0) (hcount : t.numKeys = numUsed P t) (hvir : hasVirgin P t)
    (hrange : initPlacesInRange P s) (hroom : numUsed P t < P.sizeForNative s)
    (hfuel : P.sizeForNative s < fuel) :
    ∃ f t1 l, rehashTrace P fuel t s = some (t1, l) ∧ rehash P fuel t s = some t1 ∧
      f < getTableSize P t ∧ isUsed t f = false ∧ (∀ x, x < f → isUsed t x = true) ∧
      l = (List.range' (f + 1) (getTableSize P t - (f + 1))).filter (fun i => isUsed t i)
        ++ List.range' 0 f ∧
      l.Nodup ∧ (∀ i, i ∈ l ↔ (i < getTableSize P t ∧ isUsed t i = true)) := by
  obtain ⟨t1, hre, -⟩ := rehash_spec P fuel t s hcount (fun _ => hvir) hrange hroom hfuel
  obtain ⟨v, hv, hvirgin⟩ := hvir
  obtain ⟨f, hf, -, hfN, hfu, hfirst⟩ :=
    firstUnusedFrom_spec t (getTableSize P t) 0 ⟨v, Nat.zero_le _, by omega, hvirgin⟩
  have hfst := rehashTrace_fst P fuel t s
  rw [hre] at hfst
  cases hr : rehashTrace P fuel t s with
  | none => rw [hr] at hfst; exact absurd hfst (by simp)
  | some r =>
    rw [hr] at hfst
    have hr1 : r.1 = t1 := by simpa using hfst
    have hl : r.2 = (List.range' (f + 1) (getTableSize P t - (f + 1))).filter
        (fun i => isUsed t i) ++ List.range' 0 f := by
      unfold rehashTrace at hr
      simp only [if_pos hne, hf] at hr
      cases h1 : rehashCopyTrace P fuel t true
          (List.range' (f + 1) (getTableSize P t - (f + 1))) (newHash P s) with
      | none => rw [h1] at hr; exact absurd hr (by simp)
      | some r1 =>
        rw [h1] at hr
        dsimp only at hr
        cases h2 : rehashCopyTrace P fuel t false (List.range' 0 f) r1.1 with
        | none => rw [h2] at hr; exact absurd hr (by simp)
        | some r2 =>
          rw [h2] at hr
          simp only [Option.map_some', Option.some.injEq] at hr
          rw [← hr]
          show r1.2 ++ r2.2 = _
          rw [rehashCopyTrace_snd P fuel t true _ _ r1 h1,
            rehashCopyTrace_snd P fuel t false _ _ r2 h2]
          congr 1
          · apply List.filter_congr
            intro x _
            simp
          · simp
    have hmem : ∀ i, i ∈ r.2 ↔ (i < getTableSize P t ∧ isUsed t i = true) := by
      intro i
      rw [hl, List.mem_append, List.mem_filter, List.mem_range', List.mem_range']
      constructor
      · rintro (⟨⟨k, hk, rfl⟩, hu⟩ | ⟨k, hk, rfl⟩)
        · exact ⟨by omega, hu⟩
        · exact ⟨by omega, hfirst _ (Nat.zero_le _) (by omega)⟩
      · rintro ⟨hi, hu⟩
        rcases Nat.lt_trichotomy i f with h | h | h
        · exact Or.inr ⟨i, h, by omega⟩
        · rw [h, hfu] at hu; exact absurd hu (by decide)
        · exact Or.inl ⟨⟨i - (f + 1), by omega, by omega⟩, hu⟩
    refine ⟨f, t1, r.2, by rw [← hr1], hre, by omega, hfu,
      fun x hx => hfirst x (Nat.zero_le _) hx, hl, ?_, hmem⟩
    rw [hl]
    apply List.Nodup.append
    · exact (List.nodup_range' _ _).filter _
    · exact List.nodup_range' _ _
    · intro x hx1 hx2
      rw [List.mem_filter, List.mem_range'] at hx1
      rw [List.mem_range'] at hx2
      obtain ⟨⟨k, hk, hk1⟩, -⟩ := hx1
      obtain ⟨k2, hk2, hk3⟩ := hx2
      omega

theorem rehash_traversal_order_witness :
    size wrapTable ≠ 0 ∧ hasVirgin (modParams false false) wrapTable ∧
    (rehashTrace (modParams false false) 9 wrapTable 8).map Prod.snd = some [3, 0, 1] ∧
    ∃ f t1 l, rehashTrace (modParams false false) 9 wrapTable 8 = some (t1, l) ∧
      f < 4 ∧ isUsed wrapTable f = false ∧ (∀ x, x < f → isUsed wrapTable x = true) ∧
      l.Nodup := by
  obtain ⟨f, t1, l, h1, -, h2, h3, h4, -, h5, -⟩ :=
    rehash_traversal_order (modParams false false) wrapTable 8 9 (by decide) (by decide)
      (by decide) (modParams_range _ _ 8 (by decide)) (by decide) (by decide)
  exact ⟨by decide, by decide, by decide, f, t1, l, h1, h2, h3, h4, h5⟩

/-! ## Set sizes in the disjoint sets forest -/

theorem SizesInv.link_sizes {F F1 : DisjointSetsForest} {rep : Nat → Nat} (S : SizesInv F rep)
    (s l : Nat) (hs : s < F.size) (hl : l < F.size) (hrs : rep s = s) (hrl : rep l = l)
    (hsl : s ≠ l) (hsize : F1.size = F.size)
    (hsz : F1.setSizes = arraySet F.setSizes l (F.setSizes l + F.setSizes s)) :
    SizesInv F1 (fun i => if rep i = s then l else rep i) := by
  intro r hr hroot
  rw [hsize] at hr
  simp only at hroot
  rw [hsz, hsize]
  unfold arraySet setCount
  by_cases hrl1 : r = l
  · subst hrl1
    rw [if_pos rfl, S r hl hrl, S s hs hrs]
    unfold setCount
    rw [← Finset.card_union_of_disjoint]
    · congr 1
      ext x
      simp only [Finset.mem_union, Finset.mem_filter, Finset.mem_range]
      constructor
      · rintro (⟨h1, h2⟩ | ⟨h1, h2⟩)
        · refine ⟨h1, ?_⟩
          rw [if_neg (by omega)]; exact h2
        · exact ⟨h1, by rw [if_pos h2]⟩
      · rintro ⟨h1, h2⟩
        by_cases hx : rep x = s
        · exact Or.inr ⟨h1, hx⟩
        · rw [if_neg hx] at h2; exact Or.inl ⟨h1, h2⟩
    · rw [Finset.disjoint_filter]
      intro x _ h1 h2
      omega
  · rw [if_neg hrl1]
    have hrs1 : rep r ≠ s := by
      intro h
      rw [if_pos h] at hroot
      exact hrl1 hroot.symm
    rw [if_neg hrs1] at hroot
    rw [S r hr hroot]
    unfold setCount
    congr 1
    ext x
    simp only [Finset.mem_filter, Finset.mem_range]
    constructor
    · rintro ⟨h1, h2⟩
      refine ⟨h1, ?_⟩
      rw [if_neg (by omega)]; exact h2
    · rintro ⟨h1, h2⟩
      refine ⟨h1, ?_⟩
      by_cases hx : rep x = s
      · rw [if_pos hx] at h2; exact absurd h2.symm hrl1
      · rw [if_neg hx] at h2; exact h2

theorem DisjointSetsForest.create_sizes (n : Nat) :
    SizesInv (DisjointSetsForest.create n) (fun i => i) := by
  intro r hr _
  have hr1 : r < n := hr
  show 1 = setCount (fun i => i) n r
  unfold setCount
  have : (Finset.range n).filter (fun x => x = r) = {r} := by
    ext x
    simp only [Finset.mem_filter, Finset.mem_range, Finset.mem_singleton]
    constructor
    · rintro ⟨_, h⟩; exact h
    · intro h; exact ⟨by omega, h⟩
  rw [this, Finset.card_singleton]

theorem DisjointSetsForest.mergeSets_sizes (packTree sizeDist : Bool) (rep h : Nat → Nat)
    (B fuel : Nat) (F : DisjointSetsForest) (a b : Nat) (I : ForestInv F rep h B)
    (S : SizesInv F rep) (ha : a < F.size) (hb : b < F.size) (hfuel : B < fuel) :
    ∃ F1 rep1 h1, DisjointSetsForest.mergeSets packTree sizeDist fuel F a b
        = some (decide (rep a ≠ rep b), F1) ∧
      ForestInv F1 rep1 h1 (B + 1) ∧ SizesInv F1 rep1 ∧ F1.size = F.size ∧
      (rep a = rep b → rep1 = rep) ∧
      (rep a ≠ rep b →
        rep1 = (fun i =>
          if rep i = (if setCount rep F.size (rep a) > setCount rep F.size (rep b) then rep b
              else rep a) then
            (if setCount rep F.size (rep a) > setCount rep F.size (rep b) then rep a else rep b)
          else rep i)) := by
  obtain ⟨F1, rep1, h1, m1, I1, s1, m4, m5⟩ := DisjointSetsForest.mergeSets_spec packTree
    sizeDist rep h B fuel F a b I ha hb hfuel
  have hra := I.rep_lt a ha
  have hrb := I.rep_lt b hb
  have hia := I.rep_idem a ha
  have hib := I.rep_idem b hb
  have hca := S (rep a) hra hia
  have hcb := S (rep b) hrb hib
  refine ⟨F1, rep1, h1, m1, I1, ?_, s1, fun heq => (m4 heq).1, ?_⟩
  · by_cases heq : rep a = rep b
    · obtain ⟨e1, e2⟩ := m4 heq
      intro r hr hroot
      rw [e1] at hroot
      rw [e2, s1, e1]
      rw [s1] at hr
      exact S r hr hroot
    · obtain ⟨e1, e2⟩ := m5 heq
      rw [e1]
      by_cases hgt : F.setSizes (rep a) > F.setSizes (rep b)
      · simp only [if_pos hgt] at e2 ⊢
        exact S.link_sizes (rep b) (rep a) hrb hra hib hia (Ne.symm heq) s1 e2
      · simp only [if_neg hgt] at e2 ⊢
        exact S.link_sizes (rep a) (rep b) hra hrb hia hib heq s1 e2
  · intro heq
    rw [(m5 heq).1, hca, hcb]

theorem DisjointSetsForest.runMerges_sizes (packTree sizeDist : Bool) (n fuel : Nat) :
    ∀ (ops : List (Nat × Nat)) (F : DisjointSetsForest) (rep h : Nat → Nat) (B : Nat),
      ForestInv F rep h B → SizesInv F rep → F.size = n →
      (∀ p, p ∈ ops → p.1 < n ∧ p.2 < n) → B + ops.length < fuel + 1 →
      ∃ F1 rep1 h1, DisjointSetsForest.runMerges packTree sizeDist fuel ops F = some F1 ∧
        ForestInv F1 rep1 h1 (B + ops.length) ∧ SizesInv F1 rep1 ∧ F1.size = n := by
  intro ops
  induction ops with
  | nil => intro F rep h B I S hn _ _; exact ⟨F, rep, h, rfl, I, S, hn⟩
  | cons p rest ih =>
    intro F rep h B I S hn hops hfuel
    obtain ⟨hp1, hp2⟩ := hops p (List.mem_cons_self _ _)
    rw [List.length_cons] at hfuel
    obtain ⟨F1, rep1, h1, g1, I1, S1, s1, -⟩ := DisjointSetsForest.mergeSets_sizes packTree
      sizeDist rep h B fuel F p.1 p.2 I S (by rw [hn]; exact hp1) (by rw [hn]; exact hp2)
      (by omega)
    obtain ⟨F2, rep2, h2, g2, I2, S2, s2⟩ := ih F1 rep1 h1 (B + 1) I1 S1 (by rw [s1]; exact hn)
      (fun q hq => hops q (List.mem_cons_of_mem _ hq)) (by omega)
    unfold DisjointSetsForest.runMerges
    rw [g1]
    simp only
    rw [g2]
    refine ⟨F2, rep2, h2, rfl, ?_, S2, s2⟩
    rw [List.length_cons]
    have e : B + (rest.length + 1) = B + 1 + rest.length := by omega
    rw [e]
    exact I2

theorem numWithSetID_eq (packTree : Bool) (rep h : Nat → Nat) (B fuel : Nat)
    (F : DisjointSetsForest) (I : ForestInv F rep h B) (hfuel : B < fuel) (r : Nat) :
    numWithSetID packTree fuel F F.size (some r) = setCount rep F.size r := by
  unfold numWithSetID setCount
  congr 1
  apply Finset.filter_congr
  intro x hx
  rw [Finset.mem_range] at hx
  rw [DisjointSetsForest.setID_spec packTree rep h B fuel F x I hx hfuel]
  exact ⟨fun h => Option.some.inj h, fun h => by rw [h]⟩

/-- C21: `getSetSize` returns the true size of the set.  After the construction with
`n` elements and any sequence of merges of elements below `n`, `getSetSize(e)`
returns, for every `e < n`, the number of elements `x < n` with
`getSetID(x) = getSetID(e)`, counted in the forest before the call and, as path
compression changes no set ID, also in the forest after it. -/
theorem getSetSize_is_set_size (packTree sizeDist : Bool) (n fuel : Nat)
    (ops : List (Nat × Nat)) (e : Nat) (hops : ∀ p, p ∈ ops → p.1 < n ∧ p.2 < n)
    (he : e < n) (hfuel : ops.length < fuel) :
    ∃ F sz F1,
      DisjointSetsForest.runMerges packTree sizeDist fuel ops (DisjointSetsForest.create n)
        = some F ∧
      DisjointSetsForest.getSetSize packTree fuel F e = some (sz, F1) ∧
      sz = numWithSetID packTree fuel F n (DisjointSetsForest.setID packTree fuel F e) ∧
      sz = numWithSetID packTree fuel F1 n (DisjointSetsForest.setID packTree fuel F1 e) := by
  obtain ⟨F, rep, h, g1, I, S, hn⟩ := DisjointSetsForest.runMerges_sizes packTree sizeDist n fuel
    ops _ _ _ 0 (DisjointSetsForest.create_inv n) (DisjointSetsForest.create_sizes n) rfl hops
    (by omega)
  rw [Nat.zero_add] at I
  have heF : e < F.size := by rw [hn]; exact he
  obtain ⟨F1, g2, I1, s1, z1, -, -⟩ :=
    DisjointSetsForest.getSetID_spec packTree rep h ops.length fuel F e I heF (by omega)
  have hsz : F.setSizes (rep e) = setCount rep F.size (rep e) :=
    S (rep e) (I.rep_lt e heF) (I.rep_idem e heF)
  refine ⟨F, F1.setSizes (rep e), F1, g1, ?_, ?_, ?_⟩
  · unfold DisjointSetsForest.getSetSize
    rw [g2]; rfl
  · rw [DisjointSetsForest.setID_spec packTree rep h _ fuel F e I heF hfuel, z1, hsz, ← hn]
    exact (numWithSetID_eq packTree rep h _ fuel F I hfuel (rep e)).symm
  · rw [DisjointSetsForest.setID_spec packTree rep h _ fuel F1 e I1 (by rw [s1]; exact heF) hfuel,
      z1, hsz, ← hn, ← s1]
    exact (numWithSetID_eq packTree rep h _ fuel F1 I1 hfuel (rep e)).symm

theorem getSetSize_is_set_size_witness :
    (∃ F sz F1,
      DisjointSetsForest.runMerges true true 9 [(0, 1), (2, 3), (1, 3)]
        (DisjointSetsForest.create 6) = some F ∧
      DisjointSetsForest.getSetSize true 9 F 0 = some (sz, F1) ∧
      sz = numWithSetID true 9 F 6 (DisjointSetsForest.setID true 9 F 0)) ∧
    ((DisjointSetsForest.runMerges true true 9 [(0, 1), (2, 3), (1, 3)]
        (DisjointSetsForest.create 6)).bind
      (fun G => (DisjointSetsForest.getSetSize true 9 G 0).map Prod.fst)) = some 4 := by
  obtain ⟨F, sz, F1, h1, h2, h3, -⟩ := getSetSize_is_set_size true true 6 9
    [(0, 1), (2, 3), (1, 3)] 0 (by decide) (by decide) (by decide)
  exact ⟨⟨F, sz, F1, h1, h2, h3⟩, by decide⟩

/-- C22: union by size.  After any sequence of merges on the forest of `n`
singletons, `mergeSets(a, b)` returns true exactly when the set IDs `ra` of `a`
and `rb` of `b` differ, and then the set ID of every element of either set is
afterwards `ra` when the set of `a` had strictly more elements than the set of
`b`, and `rb` otherwise: when the set of `b` had strictly more elements, and
when both sets had the same number of elements. -/
theorem mergeSets_union_by_size (packTree sizeDist : Bool) (n fuel : Nat)
    (ops : List (Nat × Nat)) (a b : Nat) (hops : ∀ p, p ∈ ops → p.1 < n ∧ p.2 < n)
    (ha : a < n) (hb : b < n) (hfuel : ops.length + 1 < fuel) :
    ∃ F ra rb F1,
      DisjointSetsForest.runMerges packTree sizeDist fuel ops (DisjointSetsForest.create n)
        = some F ∧
      DisjointSetsForest.setID packTree fuel F a = some ra ∧
      DisjointSetsForest.setID packTree fuel F b = some rb ∧
      DisjointSetsForest.mergeSets packTree sizeDist fuel F a b = some (decide (ra ≠ rb), F1) ∧
      (ra ≠ rb → ∀ x, x < n →
        (DisjointSetsForest.setID packTree fuel F x = some ra ∨
          DisjointSetsForest.setID packTree fuel F x = some rb) →
        DisjointSetsForest.setID packTree fuel F1 x
          = some (if numWithSetID packTree fuel F n (some ra)
              > numWithSetID packTree fuel F n (some rb) then ra else rb)) := by
  obtain ⟨F, rep, h, g1, I, S, hn⟩ := DisjointSetsForest.runMerges_sizes packTree sizeDist n fuel
    ops _ _ _ 0 (DisjointSetsForest.create_inv n) (DisjointSetsForest.create_sizes n) rfl hops
    (by omega)
  rw [Nat.zero_add] at I
  obtain ⟨F1, rep1, h1, m1, I1, -, s1, -, m5⟩ := DisjointSetsForest.mergeSets_sizes packTree
    sizeDist rep h ops.length fuel F a b I S (by rw [hn]; exact ha) (by rw [hn]; exact hb)
    (by omega)
  have hid : ∀ x, x < n → DisjointSetsForest.setID packTree fuel F x = some (rep x) :=
    fun x hx => DisjointSetsForest.setID_spec packTree rep h _ fuel F x I (by rw [hn]; exact hx)
      (by omega)
  have hid1 : ∀ x, x < n → DisjointSetsForest.setID packTree fuel F1 x = some (rep1 x) :=
    fun x hx => DisjointSetsForest.setID_spec packTree rep1 h1 _ fuel F1 x I1
      (by rw [s1, hn]; exact hx) (by omega)
  refine ⟨F, rep a, rep b, F1, g1, hid a ha, hid b hb, m1, ?_⟩
  intro hne x hx hor
  rw [hid1 x hx, m5 hne, ← hn,
    numWithSetID_eq packTree rep h _ fuel F I (by omega) (rep a),
    numWithSetID_eq packTree rep h _ fuel F I (by omega) (rep b)]
  rw [hid x hx] at hor
  have hor1 : rep x = rep a ∨ rep x = rep b :=
    hor.elim (fun h => Or.inl (Option.some.inj h)) (fun h => Or.inr (Option.some.inj h))
  congr 1
  simp only
  split_ifs <;> omega

theorem mergeSets_union_by_size_witness :
    (∃ F ra rb F1,
      DisjointSetsForest.runMerges true true 9 [(0, 1), (2, 3), (1, 3)]
        (DisjointSetsForest.create 6) = some F ∧
      DisjointSetsForest.setID true 9 F 0 = some ra ∧
      DisjointSetsForest.setID true 9 F 4 = some rb ∧
      DisjointSetsForest.mergeSets true true 9 F 0 4 = some (decide (ra ≠ rb), F1)) ∧
    ((DisjointSetsForest.runMerges true true 9 [(0, 1), (2, 3), (1, 3)]
        (DisjointSetsForest.create 6)).bind
      (fun G => (DisjointSetsForest.mergeSets true true 9 G 0 4).bind
        (fun r => (List.range 6).mapM (fun x => DisjointSetsForest.setID true 9 r.2 x))))
      = some [3, 3, 3, 3, 3, 5] ∧
    ((DisjointSetsForest.runMerges true true 9 [(0, 1), (2, 3), (1, 3)]
        (DisjointSetsForest.create 6)).bind
      (fun G => (DisjointSetsForest.mergeSets true true 9 G 4 5).bind
        (fun r => (List.range 6).mapM (fun x => DisjointSetsForest.setID true 9 r.2 x))))
      = some [3, 3, 3, 3, 5, 5] := by
  obtain ⟨F, ra, rb, F1, h1, h2, h3, h4, -⟩ := mergeSets_union_by_size true true 6 9
    [(0, 1), (2, 3), (1, 3)] 0 4 (by decide) (by decide) (by decide) (by decide)
  exact ⟨⟨F, ra, rb, F1, h1, h2, h3, h4⟩, by decide, by decide⟩

/-! ## `shuffle` -/

theorem perm_cons_set_getElem {E : Type} :
    ∀ (l : List E) (j : Nat) (h : j < l.length) (x : E),
      List.Perm (l[j] :: l.set j x) (x :: l) := by
  intro l
  induction l with
  | nil => intro j h; exact absurd h (Nat.not_lt_zero _)
  | cons a r ih =>
    intro j h x
    cases j with
    | zero => exact List.Perm.swap _ _ _
    | succ j =>
      have hj : j < r.length := by simpa using h
      show List.Perm (r[j] :: a :: r.set j x) (x :: a :: r)
      exact (List.Perm.swap _ _ _).trans (((ih j hj x).cons a).trans (List.Perm.swap _ _ _))

theorem perm_swap_set {E : Type} :
    ∀ (l : List E) (i j : Nat) (hi : i < l.length) (hj : j < l.length), i ≤ j →
      List.Perm ((l.set i l[j]).set j l[i]) l := by
  intro l
  induction l with
  | nil => intro i j hi; exact absurd hi (Nat.not_lt_zero _)
  | cons a r ih =>
    intro i j hi hj hij
    cases i with
    | zero =>
      cases j with
      | zero => exact List.Perm.refl _
      | succ j =>
        have hj1 : j < r.length := by simpa using hj
        show List.Perm (r[j] :: r.set j a) (a :: r)
        exact perm_cons_set_getElem r j hj1 a
    | succ i =>
      cases j with
      | zero => omega
      | succ j =>
        have hi1 : i < r.length := by simpa using hi
        have hj1 : j < r.length := by simpa using hj
        show List.Perm (a :: (r.set i r[j]).set j r[i]) (a :: r)
        exact (ih i j hi1 hj1 (by omega)).cons a

theorem shuffleLoop_perm {E : Type} (C : ElemConv E) (N : Nat) (calls : Nat → Nat → Nat)
    (hcalls : ∀ c k, 0 < k → calls c k < k) :
    ∀ n i (order : List E) (c : Nat), i + n = N → order.length = N →
      (∀ x, x ∈ order → C.ofSizeT (C.toSizeT x) = x) →
      ∃ order1, shuffleLoop C N n i order ⟨calls, c⟩ = some (order1, ⟨calls, c + n⟩) ∧
        order1.length = N ∧ List.Perm order1 order := by
  intro n
  induction n with
  | zero => intro i order c _ hlen _; exact ⟨order, rfl, hlen, List.Perm.refl _⟩
  | succ n ih =>
    intro i order c hin hlen hconv
    have hi : i < order.length := by omega
    have htoss := hcalls c (N - i) (by omega)
    have ht : calls c (N - i) + i < order.length := by omega
    have hx : vecAt order i = some order[i] := by
      unfold vecAt; exact List.getElem?_eq_getElem hi
    have hy : vecAt order (calls c (N - i) + i) = some order[calls c (N - i) + i] := by
      unfold vecAt; exact List.getElem?_eq_getElem ht
    have h1 : vecAssign order i order[calls c (N - i) + i]
        = some (order.set i order[calls c (N - i) + i]) := by
      unfold vecAssign; rw [if_pos hi]
    have h2 : vecAssign (order.set i order[calls c (N - i) + i]) (calls c (N - i) + i)
        (C.ofSizeT (C.toSizeT order[i]))
        = some ((order.set i order[calls c (N - i) + i]).set (calls c (N - i) + i) order[i]) := by
      unfold vecAssign
      rw [if_pos (by rw [List.length_set]; exact ht), hconv _ (List.getElem_mem _)]
    have hperm := perm_swap_set order i (calls c (N - i) + i) hi ht (by omega)
    obtain ⟨order1, g1, l1, p1⟩ := ih (i + 1)
      ((order.set i order[calls c (N - i) + i]).set (calls c (N - i) + i) order[i]) (c + 1)
      (by omega) (by rw [List.length_set, List.length_set]; exact hlen)
      (fun x hx => hconv x (hperm.subset hx))
    refine ⟨order1, ?_, l1, p1.trans hperm⟩
    unfold shuffleLoop
    simp only [Generator.next, hx, hy, h1, h2]
    rw [g1]
    have e : c + 1 + n = c + (n + 1) := by omega
    rw [e]

/-- What `shuffle` does when the element type converts to `size_t` and back
without loss (as `size_t` itself does) and every call `next(k)` of the generator
returns a value below `k`: it returns a vector of the same length that is a
permutation of the given one, after one call of the generator for each index
`i`, and the index tossed for `i` lies in `[i, N)`. -/
theorem shuffle_perm_of_lossless {E : Type} (C : ElemConv E) (order : List E)
    (calls : Nat → Nat → Nat) (c : Nat) (hcalls : ∀ c k, 0 < k → calls c k < k)
    (hconv : ∀ x, x ∈ order → C.ofSizeT (C.toSizeT x) = x) :
    (∃ order1, shuffle C order ⟨calls, c⟩ = some (order1, ⟨calls, c + order.length⟩) ∧
      order1.length = order.length ∧ List.Perm order1 order) ∧
    ∀ i, i < order.length →
      i ≤ calls (c + i) (order.length - i) + i ∧
        calls (c + i) (order.length - i) + i < order.length := by
  constructor
  · exact shuffleLoop_perm C order.length calls hcalls order.length 0 order c (by omega) rfl hconv
  · intro i hi
    have := hcalls (c + i) (order.length - i) (by omega)
    omega

/-- C23 at a vector of doubles: `shuffle` of the vector `{0.5, 1.5}` with a
generator that always returns 0 yields `{0, 1}`, and with a generator that
returns the largest value allowed it yields `{1.5, 0}`; neither is a permutation
of the given vector, because the element kept in `size_t temp` loses its
fractional part. -/
theorem shuffle_truncates_doubles :
    (shuffle doubleConv [1 / 2, 3 / 2] ⟨fun _ _ => 0, 0⟩).map Prod.fst = some [0, 1] ∧
    (shuffle doubleConv [1 / 2, 3 / 2] ⟨fun _ k => k - 1, 0⟩).map Prod.fst = some [3 / 2, 0] ∧
    ¬ List.Perm ([0, 1] : List ℚ) [1 / 2, 3 / 2] ∧
    ¬ List.Perm ([3 / 2, 0] : List ℚ) [1 / 2, 3 / 2] ∧
    (∀ c k, 0 < k → (fun (_ : Nat) (_ : Nat) => 0) c k < k) ∧
    (∀ c k, 0 < k → (fun (_ : Nat) (k : Nat) => k - 1) c k < k) := by
  refine ⟨by with_unfolding_all decide, by with_unfolding_all decide, ?_, ?_, ?_, ?_⟩
  · intro h
    have := h.subset (List.mem_cons_self _ _)
    norm_num at this
  · intro h
    have := h.symm.subset (List.mem_cons_self _ _)
    norm_num at this
  · intro c k hk; exact hk
  · intro c k hk; show k - 1 < k; omega

/-! ## Insertion into an ordered table -/

/-- The step common to all insertions: in a table `t` that satisfies the invariant
of its mode, let `v` be the first virgin slot on the probe path from `h`, and `l`
a slot on this path such that no slot before `l` holds a key whose initial place
follows `h`, while the key at `l` (when `l` is used) does.  When `d` is `t` with
the run from `l` to `v` shifted by one slot, and `T` is `d` with a used slot at
`l` whose key has the initial place `h`, then `T` satisfies the invariant. -/
theorem insert_checked (P : Params K V) (t d T : Hash K V) (h l v : Nat)
    (hrange : initPlacesInRange P t.nativeSize)
    (hh : h < getTableSize P t) (hl : l < getTableSize P t) (hv : v < getTableSize P t)
    (hvirgin : isUsed t v = false)
    (hfirst : ∀ x, x < getTableSize P t →
      cdist (getTableSize P t) h x < cdist (getTableSize P t) h v → isUsed t x = true)
    (hle : cdist (getTableSize P t) h l ≤ cdist (getTableSize P t) h v)
    (hpassed : ∀ x, x < getTableSize P t →
      cdist (getTableSize P t) h x < cdist (getTableSize P t) h l →
      (P.HASH_ORDERED && initPlaceBefore P t h x) = false)
    (hat : l ≠ v → P.HASH_ORDERED = true ∧ initPlaceBefore P t h l = true)
    (hshift : ∀ x, x < getTableSize P t → 0 < cdist (getTableSize P t) l x →
      cdist (getTableSize P t) l x ≤ cdist (getTableSize P t) l v →
      d.slots x = t.slots ((x + getTableSize P t - 1) % getTableSize P t))
    (hrest : ∀ x, ¬ (x < getTableSize P t ∧
        cdist (getTableSize P t) l x ≤ cdist (getTableSize P t) l v) →
      d.slots x = t.slots x)
    (hTn : T.nativeSize = t.nativeSize) (hTs : ∀ x, x ≠ l → T.slots x = d.slots x)
    (hTu : isUsed T l = true) (hTh : initPlaceAt P T l = h)
    (hinv : checkedInvariant P t) : checkedInvariant P T := by
  have hN : 0 < getTableSize P t := by omega
  have hvN := cdist_lt (a := h) (b := v) hN
  have hsz : getTableSize P T = getTableSize P t := congrArg P.sizeForNative hTn
  have hO := orderedTowards_of_checked P t v hrange hv hvirgin hinv
  have hsplit := cdist_split hh hl hv hle
  have hlN := cdist_lt (a := l) (b := v) hN
  have hv0 := cdist_self hv
  have hrun : ∀ x, x < getTableSize P t → 0 < cdist (getTableSize P t) x v →
      cdist (getTableSize P t) x v ≤ cdist (getTableSize P t) h v → isUsed t x = true := by
    intro x hx hpos hxle
    apply hfirst x hx
    have := cdist_to hh hx hv hxle
    omega
  apply checked_of_orderedTowards P T v (by rw [hTn]; exact hrange) (by rw [hsz]; exact hv)
  refine orderedTowards_insert P t T h l v hTn hl hv hrun (by omega) ?_ ?_ hTu hTh ?_ ?_ hO
  · intro hmode x hx hx1 hx2
    have hux := hrun x hx (by omega) hx2
    have e1 := cdist_to hh hx hv hx2
    have e2 := cdist_to hh hl hv (by omega)
    have hb := hpassed x hx (by omega)
    rw [hmode, Bool.true_and] at hb
    have hHx := initPlaceAt_lt P t hrange x
    have hlin := (hO x hx hux).1
    have e3 := cdist_to hHx hx hv hlin
    by_contra hcon
    have : initPlaceBefore P t h x = true := by
      rw [initPlaceBefore_iff P t _ x hh hx hHx]
      omega
    rw [hb] at this
    exact Bool.noConfusion this
  · intro _ hlv
    obtain ⟨_, hb⟩ := hat hlv
    have hHl := initPlaceAt_lt P t hrange l
    rw [initPlaceBefore_iff P t _ l hh hl hHl] at hb
    have hlt : cdist (getTableSize P t) h l < cdist (getTableSize P t) h v := by
      rcases Nat.lt_or_ge (cdist (getTableSize P t) h l) (cdist (getTableSize P t) h v)
        with h1 | h1
      · exact h1
      · exact absurd (cdist_inj hh hl hv (le_antisymm hle h1)) hlv
    have hul := hfirst l hl hlt
    have hlin := (hO l hl hul).1
    have e2 := cdist_to hh hl hv (by omega)
    have e3 := cdist_to hHl hl hv hlin
    omega
  · intro x hx hxl
    have hne : x ≠ l := by
      intro e; rw [e] at hxl; omega
    rw [hTs x hne]
    have e := cdist_to hl hx hv (by omega)
    exact hshift x hx (by omega) (by omega)
  · intro x hx hxl
    have hne : x ≠ l := by
      intro e; rw [e] at hxl; omega
    rw [hTs x hne]
    apply hrest
    rintro ⟨_, hc⟩
    have e := cdist_to_wrap hl hx hv hxl
    have := cdist_lt (a := x) (b := v) hN
    omega

theorem placeToPutLoop_shape [DecidableEq K] (P : Params K V) (t : Hash K V) (key : K)
    (h v : Nat) (hh : h < getTableSize P t) (hv : v < getTableSize P t)
    (hvirgin : isUsed t v = false)
    (hfirst : ∀ x, x < getTableSize P t →
      cdist (getTableSize P t) h x < cdist (getTableSize P t) h v → isUsed t x = true)
    (hkey : ∀ x, key = constRefToKey t x → initPlaceAt P t x = h) :
    ∀ fuel loc num, loc < getTableSize P t →
      cdist (getTableSize P t) h loc ≤ cdist (getTableSize P t) h v →
      cdist (getTableSize P t) h v < cdist (getTableSize P t) h loc + fuel →
      (∀ x, x < getTableSize P t →
        cdist (getTableSize P t) h x < cdist (getTableSize P t) h loc →
        (P.HASH_ORDERED && initPlaceBefore P t h x) = false) →
      ∃ d l m, placeToPutLoop P key h fuel t loc num = some (d, l, m) ∧ l < getTableSize P t ∧
        cdist (getTableSize P t) h l ≤ cdist (getTableSize P t) h v ∧
        d.nativeSize = t.nativeSize ∧
        (∀ x, x < getTableSize P t →
          cdist (getTableSize P t) h x < cdist (getTableSize P t) h l →
          (P.HASH_ORDERED && initPlaceBefore P t h x) = false) ∧
        (l ≠ v → P.HASH_ORDERED = true ∧ initPlaceBefore P t h l = true) ∧
        (∀ x, x < getTableSize P t → 0 < cdist (getTableSize P t) l x →
          cdist (getTableSize P t) l x ≤ cdist (getTableSize P t) l v →
          d.slots x = t.slots ((x + getTableSize P t - 1) % getTableSize P t)) ∧
        (∀ x, ¬ (x < getTableSize P t ∧
            cdist (getTableSize P t) l x ≤ cdist (getTableSize P t) l v) →
          d.slots x = t.slots x) := by
  have hN : 0 < getTableSize P t := by omega
  have hvN := cdist_lt (a := h) (b := v) hN
  intro fuel
  induction fuel with
  | zero => intro loc _ _ h1 h2; omega
  | succ fuel ih =>
    intro loc num hloc hle hfuel hpassed
    unfold placeToPutLoop
    by_cases hu : isUsed t loc = true
    · simp only [hu, if_true]
      have hlv : loc ≠ v := by
        intro e; rw [e, hvirgin] at hu; exact Bool.noConfusion hu
      have hlt : cdist (getTableSize P t) h loc < cdist (getTableSize P t) h v := by
        rcases Nat.lt_or_ge (cdist (getTableSize P t) h loc) (cdist (getTableSize P t) h v)
          with h1 | h1
        · exact h1
        · exact absurd (cdist_inj hh hloc hv (le_antisymm hle h1)) hlv
      have hsplit := cdist_split hh hloc hv hle
      have hn := cdist_next hh hloc (by omega)
      have hstep : (P.HASH_ORDERED && initPlaceBefore P t h loc) = false →
          ∀ x, x < getTableSize P t →
            cdist (getTableSize P t) h x
              < cdist (getTableSize P t) h ((loc + 1) % getTableSize P t) →
            (P.HASH_ORDERED && initPlaceBefore P t h x) = false := by
        intro ho x hx hxlt
        rw [hn] at hxlt
        rcases Nat.lt_or_ge (cdist (getTableSize P t) h x) (cdist (getTableSize P t) h loc)
          with h1 | h1
        · exact hpassed x hx h1
        · have : x = loc := cdist_inj hh hx hloc (by omega)
          rw [this]
          exact ho
      by_cases hk : key = constRefToKey t loc
      · rw [if_pos hk]
        apply ih ((loc + 1) % getTableSize P t) (num + 1) (next_lt hN) (by omega) (by omega)
        apply hstep
        have := initPlaceBefore_self P t loc
        rw [hkey loc hk] at this
        rw [this, Bool.and_false]
      · rw [if_neg hk]
        by_cases ho : (P.HASH_ORDERED && initPlaceBefore P t h loc) = true
        · rw [if_pos ho]
          obtain ⟨t1, h1, h2, _, _, h5, h6, _, _⟩ := pushProbeAt_spec (fun _ _ => (0 : Nat)) P t
            loc v (fuel + 1) hloc hv hu hvirgin (by
              intro x hx hxlt
              apply hfirst x hx
              rw [cdist_add hh hloc hx (by omega)]
              omega) (by omega)
          simp only [Bool.and_eq_true] at ho
          exact ⟨t1, loc, num, by rw [h1]; rfl, hloc, hle, h2, hpassed, fun _ => ho, h5, h6⟩
        · rw [if_neg ho]
          apply ih ((loc + 1) % getTableSize P t) num (next_lt hN) (by omega) (by omega)
          apply hstep
          simpa using ho
    · have hu2 : isUsed t loc = false := by simpa using hu
      simp only [hu2, Bool.false_eq_true, if_false]
      have hlv : loc = v := by
        rcases Nat.lt_or_ge (cdist (getTableSize P t) h loc) (cdist (getTableSize P t) h v)
          with h1 | h1
        · rw [hfirst loc hloc h1] at hu2; exact Bool.noConfusion hu2
        · exact cdist_inj hh hloc hv (le_antisymm hle h1)
      refine ⟨t, loc, num, rfl, hloc, hle, rfl, hpassed, fun hne => absurd hlv hne, ?_,
        fun _ _ => rfl⟩
      intro x hx hpos hxle
      rw [hlv, cdist_self hv] at hxle
      rw [hlv] at hpos
      omega

theorem place_checked [DecidableEq K] (P : Params K V) (t : Hash K V) (key : K) (fuel : Nat)
    (hrange : initPlacesInRange P t.nativeSize) (hvir : hasVirgin P t)
    (hinv : checkedInvariant P t) (hfuel : getTableSize P t < fuel) :
    ∃ d l m, placeToPutLoop P key (P.getInitPlace t.nativeSize key) fuel t
        (P.getInitPlace t.nativeSize key) 0 = some (d, l, m) ∧
      checkedInvariant P (added (setAsUsed (setKey d l key) l)) := by
  have hh : P.getInitPlace t.nativeSize key < getTableSize P t := hrange key
  obtain ⟨v, hv, hvirgin, hfirst⟩ := exists_first_virgin (isUsed t) hh hvir
  have hN : 0 < getTableSize P t := by omega
  have hvN := cdist_lt (a := P.getInitPlace t.nativeSize key) (b := v) hN
  obtain ⟨d, l, m, hloop, hl, hle, hnat, hpassed, hat, hshift, hrest⟩ :=
    placeToPutLoop_shape P t key _ v hh hv hvirgin hfirst
      (by intro x hx; unfold initPlaceAt; rw [← hx])
      fuel _ 0 hh (by rw [cdist_self hh]; omega) (by rw [cdist_self hh]; omega)
      (by intro x _ hlt; rw [cdist_self hh] at hlt; omega)
  refine ⟨d, l, m, hloop, ?_⟩
  have hTn : (added (setAsUsed (setKey d l key) l)).nativeSize = t.nativeSize := hnat
  refine insert_checked P t d _ _ l v hrange hh hl hv hvirgin hfirst hle hpassed hat hshift hrest
    hTn ?_ ?_ ?_ hinv
  · intro x hx
    rw [put_slots, if_neg hx]
  · unfold isUsed
    rw [put_slots, if_pos rfl]
  · unfold initPlaceAt constRefToKey
    rw [put_slots, if_pos rfl, hTn]

theorem placeToPut_checked [DecidableEq K] (P : Params K V) (t : Hash K V) (key : K)
    (fuel : Nat) (hsafe : controllerSafe P) (hcount : t.numKeys = numUsed P t)
    (halloc : getTableSize P t = 0 ∨ (initPlacesInRange P t.nativeSize ∧ hasVirgin P t))
    (hinv : checkedInvariant P t) (hfuel : getTableSize P t < fuel)
    (hfuel1 : ∀ s, P.aboutToPut t.nativeSize t.numKeys = some s → P.sizeForNative s < fuel) :
    ∃ t1 l m, placeToPut P fuel t key = some (t1, l, m) ∧ checkedInvariant P t1 := by
  obtain ⟨hs1, hs2, _⟩ := hsafe
  have hm : t.numKeys ≤ P.sizeForNative t.nativeSize := by
    rw [hcount]; exact numUsed_le P t
  have hvir0 : t.numKeys ≠ 0 → hasVirgin P t := by
    intro hne
    rcases halloc with h0 | ⟨_, hv⟩
    · have := numUsed_le P t
      omega
    · exact hv
  simp only [placeToPut]
  cases ha : P.aboutToPut t.nativeSize t.numKeys with
  | some s =>
    obtain ⟨hr, hroom⟩ := hs1 _ _ s hm ha
    obtain ⟨t1, g1, g2, -, -, -, -, g7⟩ := rehash_spec P fuel t s hcount hvir0 hr
      (by rw [← hcount]; omega) (hfuel1 s ha)
    have hc1 := rehash_checked P fuel t t1 s hvir0 hr (by rw [← hcount]; omega) (hfuel1 s ha) g1
    have hsz1 : getTableSize P t1 = P.sizeForNative s := by unfold getTableSize; rw [g2]
    have hvir1 : hasVirgin P t1 := by
      rw [hasVirgin_iff, hsz1]
      have := g7 Nat (fun _ _ => 1)
      unfold numUsed
      rw [hsz1, this]
      unfold numUsed at hcount
      omega
    obtain ⟨d, l, m, hloop, hch⟩ := place_checked P t1 key fuel (by rw [g2]; exact hr) hvir1 hc1
      (by rw [hsz1]; exact hfuel1 s ha)
    refine ⟨_, l, m, ?_, hch⟩
    simp only [g1, base_empty_false P t1 (by rw [hsz1]; omega), Bool.false_eq_true, if_false,
      hloop]
  | none =>
    have hroom := hs2 _ _ hm ha
    have hN : 0 < getTableSize P t := by unfold getTableSize; omega
    rcases halloc with h0 | ⟨hr, hv⟩
    · omega
    · obtain ⟨d, l, m, hloop, hch⟩ := place_checked P t key fuel hr hv hinv hfuel
      refine ⟨_, l, m, ?_, hch⟩
      simp only [base_empty_false P t hN, Bool.false_eq_true, if_false, hloop]

theorem forcedFind_checked [DecidableEq K] (P : Params K V) (t : Hash K V) (key : K)
    (loc0 fuel : Nat) (hsafe : controllerSafe P) (hcount : t.numKeys = numUsed P t)
    (halloc : getTableSize P t = 0 ∨ (initPlacesInRange P t.nativeSize ∧ hasVirgin P t))
    (hinv : checkedInvariant P t) (hfuel : getTableSize P t < fuel)
    (hfuel1 : ∀ s, P.aboutToPut t.nativeSize t.numKeys = some s → P.sizeForNative s < fuel ∧
      ∀ s2, P.aboutToPut s t.numKeys = some s2 → P.sizeForNative s2 < fuel) :
    ∃ t1 l b, forcedFind P fuel t key loc0 = some (t1, l, b) ∧ checkedInvariant P t1 := by
  have hm : t.numKeys ≤ P.sizeForNative t.nativeSize := by
    rw [hcount]; exact numUsed_le P t
  have hvir0 : t.numKeys ≠ 0 → hasVirgin P t := by
    intro hne
    rcases halloc with h0 | ⟨_, hv⟩
    · have := numUsed_le P t
      omega
    · exact hv
  have hgrow : ∀ s, P.aboutToPut t.nativeSize t.numKeys = some s →
      ∃ t2 l, (match rehash P fuel t s with
        | none => none
        | some t1 =>
          match placeToPut P fuel t1 key with
          | none => none
          | some (t2, loc2, _) => some (t2, loc2, false)) = some (t2, l, false) ∧
        checkedInvariant P t2 := by
    intro s ha
    obtain ⟨hr, hroom⟩ := hsafe.1 _ _ s hm ha
    obtain ⟨t1, g1, g2, g3, -, -, -, g7⟩ := rehash_spec P fuel t s hcount hvir0 hr
      (by rw [← hcount]; omega) (hfuel1 s ha).1
    have hc1 := rehash_checked P fuel t t1 s hvir0 hr (by rw [← hcount]; omega) (hfuel1 s ha).1 g1
    have hsz1 : getTableSize P t1 = P.sizeForNative s := by unfold getTableSize; rw [g2]
    have hnu1 : numUsed P t1 = numUsed P t := by
      have := g7 Nat (fun _ _ => 1)
      unfold numUsed
      rw [hsz1, this]
    have hvir1 : hasVirgin P t1 := by
      rw [hasVirgin_iff, hsz1, hnu1, ← hcount]; omega
    obtain ⟨t2, l, m, hput, hch⟩ := placeToPut_checked P t1 key fuel hsafe
      (by rw [g3, hnu1, hcount]) (Or.inr ⟨by rw [g2]; exact hr, hvir1⟩) hc1
      (by rw [hsz1]; exact (hfuel1 s ha).1) (by rw [g2, g3]; exact (hfuel1 s ha).2)
    refine ⟨t2, l, ?_, hch⟩
    simp only [g1, hput]
  simp only [forcedFind]
  rcases halloc with h0 | ⟨hr, hvir⟩
  · have hfind : findFirst P fuel t key loc0 = some (false, loc0) := by
      unfold findFirst
      have : base_empty P t = true := by unfold base_empty; simp [h0]
      rw [this]; rfl
    rw [hfind]
    simp only
    cases ha : P.aboutToPut t.nativeSize t.numKeys with
    | none =>
      have := hsafe.2.1 _ _ hm ha
      unfold getTableSize at h0
      omega
    | some s =>
      obtain ⟨t2, l, h1, h2⟩ := hgrow s ha
      exact ⟨t2, l, false, h1, h2⟩
  · obtain ⟨v, b, l0, hv, hvirgin, hfirst, hfind, hl, hle, hpre, hb1, hb2⟩ :=
      findFirst_spec P t key loc0 fuel hr hvir hfuel
    have hh : P.getInitPlace t.nativeSize key < getTableSize P t := hr key
    have hN : 0 < getTableSize P t := by omega
    have hvN := cdist_lt (a := P.getInitPlace t.nativeSize key) (b := v) hN
    rw [hfind]
    cases b with
    | true => exact ⟨t, l0, true, rfl, hinv⟩
    | false =>
      simp only
      cases ha : P.aboutToPut t.nativeSize t.numKeys with
      | some s =>
        obtain ⟨t2, l, h1, h2⟩ := hgrow s ha
        exact ⟨t2, l, false, h1, h2⟩
      | none =>
        simp only [base_empty_false P t hN, Bool.false_eq_true, if_false]
        have hpassed : ∀ x, x < getTableSize P t →
            cdist (getTableSize P t) (P.getInitPlace t.nativeSize key) x
              < cdist (getTableSize P t) (P.getInitPlace t.nativeSize key) l0 →
            (P.HASH_ORDERED && initPlaceBefore P t (P.getInitPlace t.nativeSize key) x) = false :=
          fun x hx hxlt => (hpre x hx hxlt).2
        rcases hb2 rfl with hlv | ⟨hu, hk, ho⟩
        · subst hlv
          have hcond : (P.HASH_ORDERED && isUsed t l0) = false := by rw [hvirgin]; simp
          rw [hcond]
          simp only [Bool.false_eq_true, if_false]
          refine ⟨_, l0, false, rfl, ?_⟩
          refine insert_checked P t t _ _ l0 l0 hr hh hl hl hvirgin hfirst hle hpassed
            (fun hne => absurd rfl hne) ?_ (fun _ _ => rfl) rfl ?_ ?_ ?_ hinv
          · intro x hx hpos hxle
            rw [cdist_self hl] at hxle
            omega
          · intro x hx
            rw [put_slots, if_neg hx]
          · unfold isUsed
            rw [put_slots, if_pos rfl]
          · unfold initPlaceAt constRefToKey
            rw [put_slots, if_pos rfl]
            rfl
        · have hmode : P.HASH_ORDERED = true := by
            simp only [Bool.and_eq_true] at ho
            exact ho.1
          have hbefore : initPlaceBefore P t (P.getInitPlace t.nativeSize key) l0 = true := by
            simp only [Bool.and_eq_true] at ho
            exact ho.2
          have hcond : (P.HASH_ORDERED && isUsed t l0) = true := by rw [hmode, hu]; rfl
          rw [hcond]
          simp only [if_true]
          have hlv : l0 ≠ v := by
            intro e; rw [e, hvirgin] at hu; exact Bool.noConfusion hu
          have hlt : cdist (getTableSize P t) (P.getInitPlace t.nativeSize key) l0
              < cdist (getTableSize P t) (P.getInitPlace t.nativeSize key) v := by
            rcases Nat.lt_or_ge (cdist (getTableSize P t) (P.getInitPlace t.nativeSize key) l0)
              (cdist (getTableSize P t) (P.getInitPlace t.nativeSize key) v) with h1 | h1
            · exact h1
            · exact absurd (cdist_inj hh hl hv (le_antisymm hle h1)) hlv
          have hsplit := cdist_split hh hl hv hle
          obtain ⟨d, g1, g2, -, -, g5, g6, -, -⟩ := pushProbeAt_spec (fun _ _ => (0 : Nat)) P t
            l0 v fuel hl hv hu hvirgin (by
              intro x hx hxlt
              apply hfirst x hx
              rw [cdist_add hh hl hx (by omega)]
              omega) (by omega)
          rw [g1]
          simp only
          have hTn : (added (setAsUsed (setKey d l0 key) l0)).nativeSize = t.nativeSize := g2
          refine ⟨_, l0, false, rfl, ?_⟩
          refine insert_checked P t d _ _ l0 v hr hh hl hv hvirgin hfirst hle hpassed
            (fun _ => ⟨hmode, hbefore⟩) g5 g6 hTn ?_ ?_ ?_ hinv
          · intro x hx
            rw [put_slots, if_neg hx]
          · unfold isUsed
            rw [put_slots, if_pos rfl]
          · unfold initPlaceAt constRefToKey
            rw [put_slots, if_pos rfl, hTn]

/-- C27: insertion keeps the invariant that `keyFoundAt` checks, in both modes and
so in ordered mode, where it is the hash invariant together with the cyclic
order of the initial places along each run.  For a table with a virgin slot in
which `keyFoundAt(p)` holds for every used slot `p`, `forcedFind(key)` and
`placeToPut(key)` return (after a rehash when the controller asks for one, and
after `pushProbeAt` has opened a gap when the target slot is used), and
`keyFoundAt(p)` holds again for every used slot `p` of the table they leave; the
key is then stored at the slot that they report. -/
theorem insertion_keeps_keyFoundAt [DecidableEq K] (P : Params K V) (t : Hash K V) (key : K)
    (loc0 fuel : Nat) (hsafe : controllerSafe P) (hcount : t.numKeys = numUsed P t)
    (hrange : initPlacesInRange P t.nativeSize) (hvir : hasVirgin P t)
    (hkey : ∀ p, p < getTableSize P t → isUsed t p = true → keyFoundAt P fuel t p = some true)
    (hfuel : fuelBound P t ≤ fuel) :
    (∃ t1 loc b, forcedFind P fuel t key loc0 = some (t1, loc, b) ∧
      loc < getTableSize P t1 ∧ isUsed t1 loc = true ∧ constRefToKey t1 loc = key ∧
      ∀ p, p < getTableSize P t1 → isUsed t1 p = true →
        keyFoundAt P fuel t1 p = some true) ∧
    (∃ t1 loc m, placeToPut P fuel t key = some (t1, loc, m) ∧
      loc < getTableSize P t1 ∧ isUsed t1 loc = true ∧ constRefToKey t1 loc = key ∧
      ∀ p, p < getTableSize P t1 → isUsed t1 p = true →
        keyFoundAt P fuel t1 p = some true) := by
  have hsize := fuelBound_size P t fuel hfuel
  have hgrow := fuelBound_grow P t fuel hfuel
  have hinv : checkedInvariant P t := (keyFoundAt_all_iff P t fuel hrange (by omega)).mp hkey
  constructor
  · obtain ⟨t1, l, b, l0, h1, -, h3, h4⟩ := forcedFind_spec P t key loc0 fuel hsafe hcount
      (Or.inr ⟨hrange, hvir⟩) hsize hgrow
    obtain ⟨t2, l2, b2, h5, h6⟩ := forcedFind_checked P t key loc0 fuel hsafe hcount
      (Or.inr ⟨hrange, hvir⟩) hinv hsize hgrow
    rw [h1] at h5
    have e : t1 = t2 := congrArg (fun r => r.1) (Option.some.inj h5)
    rw [← e] at h6
    cases b with
    | true =>
      obtain ⟨e1, -, e3, e4, e5⟩ := h3 rfl
      subst e1
      exact ⟨t1, l, true, h1, e3, e4, e5, hkey⟩
    | false =>
      obtain ⟨hins, -, e3, e4⟩ := h4 rfl
      have hsz1 : getTableSize P t1 < fuel :=
        size_after_insert P t t1 fuel hfuel e3 (fun hn => (e4 hn).2.1)
      exact ⟨t1, l, false, h1, hins.loc_lt, hins.used, hins.key_eq,
        (keyFoundAt_all_iff P t1 fuel hins.range (by omega)).mpr h6⟩
  · obtain ⟨t1, l, m, h1, hins, -, h4⟩ := placeToPut_spec P t key fuel hsafe hcount
      (Or.inr ⟨hrange, hvir⟩) hsize (fun s hs => (hgrow s hs).1)
    obtain ⟨t2, l2, m2, h5, h6⟩ := placeToPut_checked P t key fuel hsafe hcount
      (Or.inr ⟨hrange, hvir⟩) hinv hsize (fun s hs => (hgrow s hs).1)
    rw [h1] at h5
    have e : t1 = t2 := congrArg (fun r => r.1) (Option.some.inj h5)
    rw [← e] at h6
    have hsz1 : getTableSize P t1 < fuel := by
      unfold getTableSize
      rw [h4]
      cases ha : P.aboutToPut t.nativeSize t.numKeys with
      | none => exact hsize
      | some s => exact (hgrow s ha).1
    exact ⟨t1, l, m, h1, hins.loc_lt, hins.used, hins.key_eq,
      (keyFoundAt_all_iff P t1 fuel hins.range (by omega)).mpr h6⟩

theorem insertion_keeps_keyFoundAt_witness :
    hasVirgin (modParams true true) orderedTable ∧
    (∀ p, p < getTableSize (modParams true true) orderedTable → isUsed orderedTable p = true →
      keyFoundAt (modParams true true) 9 orderedTable p = some true) ∧
    (forcedFind (modParams true true) 9 orderedTable 22 0).map
        (fun r => (r.2, usedKeys (modParams true true) r.1)) = some ((0, false), [22, 15, 6, 14]) ∧
    ∃ t1 loc b, forcedFind (modParams true true) 9 orderedTable 22 0 = some (t1, loc, b) ∧
      ∀ p, p < getTableSize (modParams true true) t1 → isUsed t1 p = true →
        keyFoundAt (modParams true true) 9 t1 p = some true := by
  obtain ⟨t1, loc, b, h1, -, -, -, h2⟩ :=
    (insertion_keeps_keyFoundAt (modParams true true) orderedTable 22 0 9 (modParams_safe _ _)
      (by decide) (modParams_range _ _ 8 (by decide)) (by decide) (by decide) (by decide)).1
  exact ⟨by decide, by decide, by decide, t1, loc, b, h1, h2⟩


/-! ## Greedy placement, one lap, and what `keyFoundAt` decides -/

/-- C31: greedy placement in unordered mode.  When `forcedFind` inserts a key that
is not stored, without a growth rehash, the key goes to the first virgin slot
`v` of the cyclic probe sequence that starts at its initial place: the slot
becomes used and holds the key (with the payload that the virgin slot held), and
every other slot keeps key, payload and status.  The hash invariant of the table
is not needed for this. -/
theorem forcedFind_greedy_placement [DecidableEq K] (P : Params K V) (t : Hash K V) (key : K)
    (loc0 fuel : Nat) (hmode : P.HASH_ORDERED = false)
    (hrange : initPlacesInRange P t.nativeSize) (hvir : hasVirgin P t)
    (habs : ¬ stored P t key) (hnogrow : P.aboutToPut t.nativeSize t.numKeys = none)
    (hfuel : getTableSize P t < fuel) :
    ∃ v t1, v < getTableSize P t ∧ isUsed t v = false ∧
      (∀ x, x < getTableSize P t →
        cdist (getTableSize P t) (P.getInitPlace t.nativeSize key) x
          < cdist (getTableSize P t) (P.getInitPlace t.nativeSize key) v → isUsed t x = true) ∧
      forcedFind P fuel t key loc0 = some (t1, v, false) ∧
      t1.slots v = { used := true, key := key, val := (t.slots v).val } ∧
      (∀ x, x ≠ v → t1.slots x = t.slots x) ∧
      t1.nativeSize = t.nativeSize ∧ size t1 = size t + 1 := by
  obtain ⟨v, b, l, hv, hvirgin, hfirst, hfind, hl, -, -, hb1, hb2⟩ :=
    findFirst_spec P t key loc0 fuel hrange hvir hfuel
  have hN : 0 < getTableSize P t := by omega
  have hb : b = false := by
    cases b with
    | false => rfl
    | true => exact absurd ⟨l, hl, (hb1 rfl).1, (hb1 rfl).2.symm⟩ habs
  subst hb
  have hlv : l = v := by
    rcases hb2 rfl with h1 | ⟨-, -, h3⟩
    · exact h1
    · rw [hmode] at h3; exact absurd h3 (by simp)
  subst hlv
  have hcond : (P.HASH_ORDERED && isUsed t l) = false := by rw [hmode]; rfl
  refine ⟨l, added (setAsUsed (setKey t l key) l), hv, hvirgin, hfirst, ?_, ?_, ?_, rfl, rfl⟩
  · simp only [forcedFind, hfind, hnogrow, base_empty_false P t hN, hcond, Bool.false_eq_true,
      if_false]
  · rw [put_slots, if_pos rfl]
  · intro x hx
    rw [put_slots, if_neg hx]

theorem forcedFind_greedy_placement_witness :
    hasVirgin (modParams false false) sparseTable ∧
    ¬ stored (modParams false false) sparseTable 25 ∧
    ∃ v t1, forcedFind (modParams false false) 9 sparseTable 25 0 = some (t1, v, false) ∧
      isUsed sparseTable v = false ∧ v = 3 ∧
      ∀ x, x ≠ v → t1.slots x = sparseTable.slots x := by
  obtain ⟨v, t1, -, h2, -, h4, -, h6, -, -⟩ :=
    forcedFind_greedy_placement (modParams false false) sparseTable 25 0 9 rfl
      (modParams_range _ _ 8 (by decide)) (by decide) (by decide) (by decide) (by decide)
  have e : (forcedFind (modParams false false) 9 sparseTable 25 0).map (fun r => r.2.1)
      = some 3 := by decide
  rw [h4] at e
  exact ⟨by decide, by decide, v, t1, h4, h2, Option.some.inj e, h6⟩

/-- C36: `keyFoundAt` decides the hash invariant of a slot.  Without ordering, for
every slot `place` of a table of `N` slots, `keyFoundAt(place)` returns after at
most `N` turns of its loop, each of which examines one slot, and it returns true
exactly when every slot of the cyclic sequence from `initPlaceAt(place)` up to
and including `place` is used. -/
theorem keyFoundAt_decides_hashInvariantAt (P : Params K V) (t : Hash K V) (place : Nat)
    (hmode : P.HASH_ORDERED = false) (hrange : initPlacesInRange P t.nativeSize)
    (hp : place < getTableSize P t) :
    ∃ b, keyFoundAt P (getTableSize P t) t place = some b ∧
      (∀ fuel, getTableSize P t ≤ fuel → keyFoundAt P fuel t place = some b) ∧
      (b = true ↔ hashInvariantAt P t place) ∧
      (b = true ↔ ∀ j, j ≤ cdist (getTableSize P t) (initPlaceAt P t place) place →
        isUsed t ((initPlaceAt P t place + j) % getTableSize P t) = true) := by
  obtain ⟨b, h1, h2⟩ := keyFoundAt_iff_checked P t place (getTableSize P t) hrange hp
    (Nat.le_refl _)
  have hiff : checkedInvariantAt P t place ↔ hashInvariantAt P t place := by
    constructor
    · intro h j hj; exact (h j hj).1
    · intro h j hj
      exact ⟨h j hj, fun ho => by rw [hmode] at ho; exact absurd ho (by decide)⟩
  refine ⟨b, h1, ?_, h2.trans hiff, h2.trans hiff⟩
  intro fuel hfuel
  obtain ⟨b1, g1, g2⟩ := keyFoundAt_iff_checked P t place fuel hrange hp hfuel
  rw [g1]
  congr 1
  cases b <;> cases b1 <;> simp_all

theorem keyFoundAt_decides_hashInvariantAt_witness :
    (∃ b, keyFoundAt (modParams false false) 4 wrapTable 1 = some b ∧
      (b = true ↔ hashInvariantAt (modParams false false) wrapTable 1)) ∧
    keyFoundAt (modParams false false) 4 wrapTable 1 = some true ∧
    keyFoundAt (modParams false false) 4
      (tableOf 2 [usedSlot 7 2, usedSlot 11 3, virginSlot, virginSlot] 5) 1 = some false := by
  obtain ⟨b, h1, -, h3, -⟩ :=
    keyFoundAt_decides_hashInvariantAt (modParams false false) wrapTable 1 rfl
      (modParams_range _ _ 4 (by decide)) (by decide)
  exact ⟨⟨b, h1, h3⟩, by decide, by decide⟩

theorem findFirst_one_lap [DecidableEq K] (P : Params K V) (t : Hash K V) (key : K)
    (loc0 : Nat) (hrange : initPlacesInRange P t.nativeSize) (hvir : hasVirgin P t) :
    ∃ r, findFromLoop P t key (P.getInitPlace t.nativeSize key) (getTableSize P t)
        (P.getInitPlace t.nativeSize key) = some r ∧
      findFirst P (getTableSize P t) t key loc0 = some r := by
  have hh : P.getInitPlace t.nativeSize key < getTableSize P t := hrange key
  have hN : 0 < getTableSize P t := by omega
  obtain ⟨v, hv, hvirgin, hfirst⟩ := exists_first_virgin (isUsed t) hh hvir
  have hvN := cdist_lt (a := P.getInitPlace t.nativeSize key) (b := v) hN
  obtain ⟨b, l, hfind, -⟩ := findFromLoop_spec P t key _ v hh hv hvirgin
    hfirst (getTableSize P t) (P.getInitPlace t.nativeSize key) hh
    (by rw [cdist_self hh]; omega) (by rw [cdist_self hh]; omega)
    (by intro x hx hlt; rw [cdist_self hh] at hlt; omega)
  refine ⟨(b, l), hfind, ?_⟩
  unfold findFirst findFrom
  rw [base_empty_false P t hN]
  simpa using hfind

theorem removeFrom_one_lap (P : Params K V) (t : Hash K V) (s : Nat)
    (hrange : initPlacesInRange P t.nativeSize) (hvir : hasVirgin P t)
    (hs : s < getTableSize P t) (hused : isUsed t s = true) :
    ∃ r, removeFromLoop P (getTableSize P t) (removed (remove_stage_1 P t s)) s
        (getNextPlace P t s) = some r ∧
      removeFrom P (getTableSize P t) t s = some (setAsEmpty (remove_stage_2 P r.1 r.2) r.2) := by
  obtain ⟨v, hv, hvirgin, hfirst⟩ := exists_first_virgin (fun x => isUsed t x) hs hvir
  simp only [getTableSize] at hs hv hfirst ⊢
  have hN : 0 < P.sizeForNative t.nativeSize := by omega
  have hsv : s ≠ v := by
    intro e; rw [e, hvirgin] at hused; exact Bool.noConfusion hused
  have hpos := cdist_pos hs hv hsv
  have hvN := cdist_lt (a := s) (b := v) hN
  have hnext := cdist_next hs hs (by rw [cdist_self hs]; omega)
  rw [cdist_self hs] at hnext
  have S0 : ScanInv P t.nativeSize v (removed (remove_stage_1 P t s)) s
      ((s + 1) % P.sizeForNative t.nativeSize) := by
    refine ⟨rfl, hs, next_lt hN, hv, hvirgin, ?_, ?_, hfirst⟩
    · intro e
      have e2 : cdist (P.sizeForNative t.nativeSize) s ((s + 1) % P.sizeForNative t.nativeSize)
          = cdist (P.sizeForNative t.nativeSize) s s := by rw [← e]
      rw [cdist_self hs] at e2
      omega
    · omega
  have hleft := cdist_next_left hs hv hsv
  obtain ⟨t1, g, hloop, -, -⟩ := removeFromLoop_rule P t.nativeSize v hrange
    (fun _ _ _ => True) (fun _ _ _ _ _ _ _ => trivial) (fun _ _ _ _ _ _ _ => trivial)
    (P.sizeForNative t.nativeSize) _ _ _ S0 trivial (by omega)
  refine ⟨(t1, g), ?_, ?_⟩
  · simp only [getNextPlace, getTableSize]
    exact hloop
  · unfold removeFrom
    simp only [getNextPlace, getTableSize]
    rw [hloop]

/-- C32: probing ends within one lap.  In a table of `N` slots with a virgin slot,
the probe loop of `findFirst(k)` and the scan loop of `removeFrom(s)`, for a used
slot `s`, return within `N` turns, each of which examines one slot; so
`findFirst` and `removeFrom` return for every fuel from `N` on, with one and the
same result. -/
theorem probing_within_one_lap [DecidableEq K] (P : Params K V) (t : Hash K V) (key : K)
    (s loc0 : Nat) (hrange : initPlacesInRange P t.nativeSize) (hvir : hasVirgin P t)
    (hs : s < getTableSize P t) (hused : isUsed t s = true) :
    (∃ r, findFromLoop P t key (P.getInitPlace t.nativeSize key) (getTableSize P t)
        (P.getInitPlace t.nativeSize key) = some r ∧
      ∀ fuel, getTableSize P t ≤ fuel → findFirst P fuel t key loc0 = some r) ∧
    (∃ r t1, removeFromLoop P (getTableSize P t) (removed (remove_stage_1 P t s)) s
        (getNextPlace P t s) = some r ∧
      ∀ fuel, getTableSize P t ≤ fuel → removeFrom P fuel t s = some t1) := by
  constructor
  · obtain ⟨r, h1, h2⟩ := findFirst_one_lap P t key loc0 hrange hvir
    exact ⟨r, h1, fun fuel hf => findFirst_mono P _ fuel t key loc0 r hf h2⟩
  · obtain ⟨r, h1, h2⟩ := removeFrom_one_lap P t s hrange hvir hs hused
    exact ⟨r, _, h1, fun fuel hf => removeFrom_mono P _ fuel t s _ hf h2⟩

theorem probing_within_one_lap_witness :
    hasVirgin (modParams false false) wrapTable ∧
    (∃ r, ∀ fuel, 4 ≤ fuel → findFirst (modParams false false) fuel wrapTable 11 0 = some r) ∧
    (∃ t1, ∀ fuel, 4 ≤ fuel → removeFrom (modParams false false) fuel wrapTable 3 = some t1) ∧
    findFirst (modParams false false) 2 wrapTable 15 0 = none := by
  obtain ⟨⟨r, -, h1⟩, ⟨-, t1, -, h2⟩⟩ :=
    probing_within_one_lap (modParams false false) wrapTable 11 3 0
      (modParams_range _ _ 4 (by decide)) (by decide) (by decide) (by decide)
  exact ⟨by decide, ⟨r, h1⟩, ⟨t1, h2⟩, by decide⟩

/-! ## The weight sum under overlapping guards -/

/-- Two guards on one slot that are alive at the same time each add the change of
the weight of the slot to `weightSum` when they are released, in either order. -/
theorem overlappingGuards_weight (P : Params K V) (t : Hash K V) (i : Nat) (value : V)
    (firstOut : Bool) :
    weight (overlappingGuards P t i value firstOut)
      = weight t + 2 * (P.getWeight value - weightAt P t i) ∧
    (overlappingGuards P t i value firstOut).slots = (setVal t i value).slots := by
  cases firstOut <;>
  · constructor
    · simp only [overlappingGuards, refToVal, Stub.assign, Stub._lce_finalize, weight, weightAt,
        setVal, setSlot_slots, setSlot_weightSum, if_true, Bool.false_eq_true, if_false]
      ring
    · rfl

/-- C33 on the table of the keys 1 to 5 with the weights 1 to 5: two guards on the
slot of the key 1 are alive at the same time, the payload 5 is written through
one of them, and both are released.  In either order of release `weight()` is 23
afterwards, while the sum of the weights of the entries is 19: the change of the
weight, 4, has been added twice.  One guard at a time gives 19. -/
theorem overlapping_guards_count_twice :
    weight scenarioTable = 15 ∧ weightAt (modParams false false) scenarioTable 1 = 1 ∧
    weight (overlappingGuards (modParams false false) scenarioTable 1 5 true) = 23 ∧
    weight (overlappingGuards (modParams false false) scenarioTable 1 5 false) = 23 ∧
    scannedWeight (modParams false false)
      (overlappingGuards (modParams false false) scenarioTable 1 5 true) = 19 ∧
    scannedWeight (modParams false false)
      (overlappingGuards (modParams false false) scenarioTable 1 5 false) = 19 ∧
    weight (guardedWrite (modParams false false) scenarioTable 1 5) = 19 := by
  refine ⟨by decide, by decide, by decide, by decide, by decide, by decide, by decide⟩

/-- `rehash` keeps the `weightSum` of the table it is called on. -/
theorem rehash_weightSum (P : Params K V) (fuel : Nat) (t t1 : Hash K V) (s : Nat)
    (h : rehash P fuel t s = some t1) : t1.weightSum = t.weightSum := by
  simp only [rehash] at h
  split at h
  · exact absurd h (by simp)
  · rw [← Option.some.inj h]

/-! ## Virgin slots hold the cleared payload -/

theorem SameSets.call_agrees {F G : DisjointSetsForest} {n B : Nat} {rep : Nat → Nat}
    (S : SameSets F G n B rep) (sizeDist : Bool) (fuel : Nat) (c : ForestCall)
    (hc : ForestCall.inRange n c) (hfuel : B < fuel) :
    ∃ a F1 G1 rep1, DisjointSetsForest.call true sizeDist fuel F c = some (a, F1) ∧
      DisjointSetsForest.call false sizeDist fuel G c = some (a, G1) ∧
      SameSets F1 G1 n (B + 1) rep1 ∧
      (∀ x r, c = ForestCall.getSetID x → a = Sum.inr r →
        r < n ∧ F1.fathers r = r ∧ G1.fathers r = r) := by
  obtain ⟨⟨hF, IF⟩, ⟨hG, IG⟩, hsz, hnF, hnG⟩ := S
  cases c with
  | mergeSets a b =>
    obtain ⟨ha, hb⟩ := hc
    obtain ⟨F1, repF, hF1, m1, I1, s1, m4, m5⟩ := DisjointSetsForest.mergeSets_spec true sizeDist
      rep hF B fuel F a b IF (by rw [hnF]; exact ha) (by rw [hnF]; exact hb) hfuel
    obtain ⟨G1, repG, hG1, n1, J1, z1, n4, n5⟩ := DisjointSetsForest.mergeSets_spec false sizeDist
      rep hG B fuel G a b IG (by rw [hnG]; exact ha) (by rw [hnG]; exact hb) hfuel
    have hrep : repG = repF ∧ F1.setSizes = G1.setSizes := by
      by_cases heq : rep a = rep b
      · rw [(m4 heq).1, (n4 heq).1, (m4 heq).2, (n4 heq).2]
        exact ⟨rfl, hsz⟩
      · rw [(m5 heq).1, (n5 heq).1, (m5 heq).2, (n5 heq).2, hsz]
        exact ⟨rfl, rfl⟩
    obtain ⟨e1, e2⟩ := hrep
    subst e1
    refine ⟨Sum.inl (decide (rep a ≠ rep b)), F1, G1, repG, ?_, ?_,
      ⟨⟨hF1, I1⟩, ⟨hG1, J1⟩, e2, by rw [s1, hnF], by rw [z1, hnG]⟩, ?_⟩
    · simp only [DisjointSetsForest.call, m1, Option.map_some']
    · simp only [DisjointSetsForest.call, n1, Option.map_some']
    · intro x r hx
      exact ForestCall.noConfusion hx
  | getSetID x =>
    have hx : x < n := hc
    obtain ⟨F1, g1, I1, s1, z1, -, -⟩ := DisjointSetsForest.getSetID_spec true rep hF B fuel F x IF
      (by rw [hnF]; exact hx) (by omega)
    obtain ⟨G1, g2, J1, s2, z2, -, -⟩ := DisjointSetsForest.getSetID_spec false rep hG B fuel G x IG
      (by rw [hnG]; exact hx) (by omega)
    refine ⟨Sum.inr (rep x), F1, G1, rep, ?_, ?_,
      ⟨⟨hF, I1.mono (Nat.le_succ _)⟩, ⟨hG, J1.mono (Nat.le_succ _)⟩, by rw [z1, z2, hsz],
        by rw [s1, hnF], by rw [s2, hnG]⟩, ?_⟩
    · simp only [DisjointSetsForest.call, g1, Option.map_some']
    · simp only [DisjointSetsForest.call, g2, Option.map_some']
    · intro y r hy hr
      have e1 : y = x := (ForestCall.getSetID.inj hy).symm
      have e2 : rep x = r := Sum.inr.inj hr
      subst e2
      have hxF : x < F1.size := by rw [s1, hnF]; exact hx
      have hxG : x < G1.size := by rw [s2, hnG]; exact hx
      refine ⟨?_, I1.rep_root x hxF, J1.rep_root x hxG⟩
      have := I1.rep_lt x hxF
      rw [s1, hnF] at this
      exact this
  | getSetSize x =>
    have hx : x < n := hc
    obtain ⟨F1, g1, I1, s1, z1, -, -⟩ := DisjointSetsForest.getSetID_spec true rep hF B fuel F x IF
      (by rw [hnF]; exact hx) (by omega)
    obtain ⟨G1, g2, J1, s2, z2, -, -⟩ := DisjointSetsForest.getSetID_spec false rep hG B fuel G x IG
      (by rw [hnG]; exact hx) (by omega)
    refine ⟨Sum.inr (F1.setSizes (rep x)), F1, G1, rep, ?_, ?_,
      ⟨⟨hF, I1.mono (Nat.le_succ _)⟩, ⟨hG, J1.mono (Nat.le_succ _)⟩, by rw [z1, z2, hsz],
        by rw [s1, hnF], by rw [s2, hnG]⟩, ?_⟩
    · simp only [DisjointSetsForest.call, DisjointSetsForest.getSetSize, g1, Option.map_some']
    · simp only [DisjointSetsForest.call, DisjointSetsForest.getSetSize, g2, Option.map_some']
      rw [z2, ← hsz, ← z1]
    · intro y r hy
      exact ForestCall.noConfusion hy

theorem SameSets.calls_agree (sizeDist : Bool) (n fuel : Nat) :
    ∀ (cs : List ForestCall) (F G : DisjointSetsForest) (B : Nat) (rep : Nat → Nat),
      SameSets F G n B rep → (∀ c, c ∈ cs → ForestCall.inRange n c) → B + cs.length ≤ fuel →
      ∃ l F1 G1 rep1, DisjointSetsForest.calls true sizeDist fuel cs F = some (l, F1) ∧
        DisjointSetsForest.calls false sizeDist fuel cs G = some (l, G1) ∧
        SameSets F1 G1 n (B + cs.length) rep1 ∧ l.length = cs.length := by
  intro cs
  induction cs with
  | nil =>
    intro F G B rep S _ _
    exact ⟨[], F, G, rep, rfl, rfl, S, rfl⟩
  | cons c rest ih =>
    intro F G B rep S hcs hfuel
    rw [List.length_cons] at hfuel
    obtain ⟨a, F1, G1, rep1, h1, h2, S1, -⟩ := S.call_agrees sizeDist fuel c
      (hcs c (List.mem_cons_self _ _)) (by omega)
    obtain ⟨l, F2, G2, rep2, h3, h4, S2, hl⟩ := ih F1 G1 (B + 1) rep1 S1
      (fun d hd => hcs d (List.mem_cons_of_mem _ hd)) (by omega)
    refine ⟨a :: l, F2, G2, rep2, ?_, ?_, ?_, by rw [List.length_cons, List.length_cons, hl]⟩
    · simp only [DisjointSetsForest.calls, h1, h3, Option.map_some']
    · simp only [DisjointSetsForest.calls, h2, h4, Option.map_some']
    · rw [List.length_cons]
      have e : B + (rest.length + 1) = B + 1 + rest.length := by omega
      rw [e]
      exact S2

/-- C37: path compression does not change answers.  For every `n` and every
sequence of calls of `mergeSets`, `getSetID` and `getSetSize` with elements
below `n`, applied to the forest of `n` singletons with `packTree = true` and to
the one with `packTree = false`: both sequences return and give the same list of
return values; one more call returns the same value in both forests, and when it
is a call of `getSetID`, the element `r` it returns is below `n` and is its own
father in both forests.  As the sequence is arbitrary, this holds at every
step. -/
theorem path_compression_same_answers (sizeDist : Bool) (n fuel : Nat) (cs : List ForestCall)
    (c : ForestCall) (hcs : ∀ d, d ∈ cs → ForestCall.inRange n d)
    (hc : ForestCall.inRange n c) (hfuel : cs.length < fuel) :
    ∃ l F G, DisjointSetsForest.calls true sizeDist fuel cs (DisjointSetsForest.create n)
        = some (l, F) ∧
      DisjointSetsForest.calls false sizeDist fuel cs (DisjointSetsForest.create n)
        = some (l, G) ∧
      l.length = cs.length ∧
      ∃ a F1 G1, DisjointSetsForest.call true sizeDist fuel F c = some (a, F1) ∧
        DisjointSetsForest.call false sizeDist fuel G c = some (a, G1) ∧
        ∀ x r, c = ForestCall.getSetID x → a = Sum.inr r →
          r < n ∧ F1.fathers r = r ∧ G1.fathers r = r := by
  have S0 : SameSets (DisjointSetsForest.create n) (DisjointSetsForest.create n) n 0
      (fun i => i) :=
    ⟨⟨_, DisjointSetsForest.create_inv n⟩, ⟨_, DisjointSetsForest.create_inv n⟩, rfl, rfl, rfl⟩
  obtain ⟨l, F, G, rep, h1, h2, S, hl⟩ := SameSets.calls_agree sizeDist n fuel cs _ _ 0 _ S0 hcs
    (by omega)
  obtain ⟨a, F1, G1, rep1, h3, h4, -, h5⟩ := S.call_agrees sizeDist fuel c hc (by omega)
  exact ⟨l, F, G, h1, h2, hl, a, F1, G1, h3, h4, h5⟩

theorem path_compression_same_answers_witness :
    (DisjointSetsForest.calls true true 9
        [ForestCall.mergeSets 0 1, ForestCall.mergeSets 2 3, ForestCall.mergeSets 1 3,
          ForestCall.getSetID 0, ForestCall.getSetSize 2, ForestCall.mergeSets 0 2]
        (DisjointSetsForest.create 6)).map Prod.fst
      = some [Sum.inl true, Sum.inl true, Sum.inl true, Sum.inr 3, Sum.inr 4, Sum.inl false] ∧
    ∃ l F G, DisjointSetsForest.calls true true 9
        [ForestCall.mergeSets 0 1, ForestCall.mergeSets 2 3, ForestCall.mergeSets 1 3,
          ForestCall.getSetID 0, ForestCall.getSetSize 2, ForestCall.mergeSets 0 2]
        (DisjointSetsForest.create 6) = some (l, F) ∧
      DisjointSetsForest.calls false true 9
        [ForestCall.mergeSets 0 1, ForestCall.mergeSets 2 3, ForestCall.mergeSets 1 3,
          ForestCall.getSetID 0, ForestCall.getSetSize 2, ForestCall.mergeSets 0 2]
        (DisjointSetsForest.create 6) = some (l, G) := by
  obtain ⟨l, F, G, h1, h2, -, -⟩ := path_compression_same_answers true 6 9
    [ForestCall.mergeSets 0 1, ForestCall.mergeSets 2 3, ForestCall.mergeSets 1 3,
      ForestCall.getSetID 0, ForestCall.getSetSize 2, ForestCall.mergeSets 0 2]
    (ForestCall.getSetID 1) (by decide) (by decide) (by decide)
  exact ⟨by decide, l, F, G, h1, h2⟩

/-! ## `removeFrom` shifts entries backwards only -/

/-- The scan loop of `removeFrom` with the origin of every entry: when
`removeFrom(s)` has returned, every used slot `p` holds an entry of the former
table, that of the slot `origin p`, and is not further from the initial place of
its key than `origin p`; the entries of the former table other than that of `s`
are all there, once each. -/
theorem removeFrom_origin (P : Params K V) (t : Hash K V) (s fuel : Nat)
    (hrange : initPlacesInRange P t.nativeSize) (hvir : hasVirgin P t)
    (hs : s < getTableSize P t) (hused : isUsed t s = true) (hfuel : getTableSize P t < fuel) :
    ∃ (t1 : Hash K V) (origin : Nat → Nat), removeFrom P fuel t s = some t1 ∧ t1.nativeSize = t.nativeSize ∧
      (∀ p, p < getTableSize P t → isUsed t1 p = true →
        origin p < getTableSize P t ∧ isUsed t (origin p) = true ∧ origin p ≠ s ∧
        t1.slots p = t.slots (origin p) ∧
        cdist (getTableSize P t) (initPlaceAt P t (origin p)) p
          ≤ cdist (getTableSize P t) (initPlaceAt P t (origin p)) (origin p) ∧
        (origin p ≠ p → cdist (getTableSize P t) (initPlaceAt P t (origin p)) p
          < cdist (getTableSize P t) (initPlaceAt P t (origin p)) (origin p))) ∧
      (∀ p q, p < getTableSize P t → q < getTableSize P t → isUsed t1 p = true →
        isUsed t1 q = true → origin p = origin q → p = q) ∧
      (∀ q, q < getTableSize P t → isUsed t q = true → q ≠ s →
        ∃ p, p < getTableSize P t ∧ isUsed t1 p = true ∧ origin p = q) := by
  obtain ⟨v, hv, hvirgin, hfirst⟩ := exists_first_virgin (isUsed t) hs hvir
  obtain ⟨t1, g, hrem, S, o, h1, h2, h3⟩ := removeFrom_rule P t s v fuel hrange hs hused hv
    hvirgin hfirst hfuel
    (fun t1 g _ => ∃ o : Nat → Nat,
      (∀ p, p < getTableSize P t → isUsed t1 p = true → p ≠ g →
        o p < getTableSize P t ∧ isUsed t (o p) = true ∧ o p ≠ s ∧
        t1.slots p = t.slots (o p) ∧
        cdist (getTableSize P t) (initPlaceAt P t (o p)) p
          ≤ cdist (getTableSize P t) (initPlaceAt P t (o p)) (o p) ∧
        (o p ≠ p → cdist (getTableSize P t) (initPlaceAt P t (o p)) p
          < cdist (getTableSize P t) (initPlaceAt P t (o p)) (o p))) ∧
      (∀ p q, p < getTableSize P t → q < getTableSize P t → isUsed t1 p = true →
        isUsed t1 q = true → p ≠ g → q ≠ g → o p = o q → p = q) ∧
      (∀ q, q < getTableSize P t → isUsed t q = true → q ≠ s →
        ∃ p, p < getTableSize P t ∧ isUsed t1 p = true ∧ p ≠ g ∧ o p = q))
    (by
      refine ⟨fun p => p, ?_, ?_, ?_⟩
      · intro p hp hup hps
        exact ⟨hp, hup, hps, rfl, le_refl _, fun h => absurd rfl h⟩
      · intro p q _ _ _ _ _ _ h
        exact h
      · intro q hq huq hqs
        exact ⟨q, hq, huq, hqs, rfl⟩)
    (by
      intro t1 g c _ _ hI _
      exact hI)
    (by
      intro t1 g c S hu hI htest
      obtain ⟨o, h1, h2, h3⟩ := hI
      have hug := S.used_gap
      have hgN : g < getTableSize P t := S.hg
      have hcN : c < getTableSize P t := S.hc
      obtain ⟨c1, c2, c3, c4, c5, -⟩ := h1 c hcN hu (Ne.symm S.ne)
      have hkey : initPlaceAt P t1 c = initPlaceAt P t (o c) := by
        unfold initPlaceAt constRefToKey
        rw [c4, S.native]
      rw [hkey] at htest
      have hH : initPlaceAt P t (o c) < getTableSize P t := initPlaceAt_lt P t hrange _
      have hb := cdist_back hH hgN hcN htest
      have hpos := cdist_pos hgN hcN S.ne
      refine ⟨fun p => if p = g then o c else o p, ?_, ?_, ?_⟩
      · intro p hp hup hpc
        rw [moveOrSwap_isUsed P t1 hug hu] at hup
        by_cases hpg : p = g
        · subst hpg
          simp only [if_true]
          rw [moveOrSwap_slots_dst P t1 S.ne]
          exact ⟨c1, c2, c3, c4, by omega, fun _ => by omega⟩
        · simp only [if_neg hpg]
          rw [moveOrSwap_slots_other P t1 hpg hpc]
          exact h1 p hp hup hpg
      · intro p q hp hq hup huq hpc hqc h
        rw [moveOrSwap_isUsed P t1 hug hu] at hup huq
        by_cases hpg : p = g
        · by_cases hqg : q = g
          · rw [hpg, hqg]
          · simp only [if_pos hpg, if_neg hqg] at h
            exact absurd (h2 c q hcN hq hu huq (Ne.symm S.ne) hqg h).symm hqc
        · by_cases hqg : q = g
          · simp only [if_neg hpg, if_pos hqg] at h
            exact absurd (h2 p c hp hcN hup hu hpg (Ne.symm S.ne) h) hpc
          · simp only [if_neg hpg, if_neg hqg] at h
            exact h2 p q hp hq hup huq hpg hqg h
      · intro q hq huq hqs
        obtain ⟨p, hp, hup, hpg, hop⟩ := h3 q hq huq hqs
        by_cases hpc : p = c
        · refine ⟨g, hgN, ?_, S.ne, ?_⟩
          · rw [moveOrSwap_isUsed P t1 hug hu]; exact hug
          · simp only [if_true]; rw [← hpc]; exact hop
        · refine ⟨p, hp, ?_, hpc, ?_⟩
          · rw [moveOrSwap_isUsed P t1 hug hu]; exact hup
          · simp only [if_neg hpg]; exact hop)
  have hused1 : ∀ p, isUsed (setAsEmpty (remove_stage_2 P t1 g) g) p = true →
      p ≠ g ∧ isUsed t1 p = true := by
    intro p hp
    unfold isUsed at hp ⊢
    rw [finish_slots] at hp
    by_cases hpg : p = g
    · rw [if_pos hpg] at hp; exact Bool.noConfusion hp
    · rw [if_neg hpg] at hp; exact ⟨hpg, hp⟩
  refine ⟨_, o, hrem, S.native, ?_, ?_, ?_⟩
  · intro p hp hup
    obtain ⟨hpg, hup1⟩ := hused1 p hup
    rw [finish_slots, if_neg hpg]
    exact h1 p hp hup1 hpg
  · intro p q hp hq hup huq h
    obtain ⟨hpg, hup1⟩ := hused1 p hup
    obtain ⟨hqg, huq1⟩ := hused1 q huq
    exact h2 p q hp hq hup1 huq1 hpg hqg h
  · intro q hq huq hqs
    obtain ⟨p, hp, hup, hpg, hop⟩ := h3 q hq huq hqs
    refine ⟨p, hp, ?_, hop⟩
    unfold isUsed at hup ⊢
    rw [finish_slots, if_neg hpg]
    exact hup

/-- C38: backward shift only.  In a table with a virgin slot (whether or not it
satisfies the hash invariant), `removeFrom(s)` at a used slot `s` returns, and
every entry that remains sits at a cyclic probe distance `(slot - initial place)
mod N` that is at most its distance before the call: every used slot `p` of the
table afterwards holds the entry of a used slot `origin p` other than `s` of the
table before, with a probe distance at most that of `origin p` (less when the
entry has moved); the entries of the slots other than `s` all remain, once
each. -/
theorem removeFrom_backward_shift_only (P : Params K V) (t : Hash K V) (s fuel : Nat)
    (hrange : initPlacesInRange P t.nativeSize) (hvir : hasVirgin P t)
    (hs : s < getTableSize P t) (hused : isUsed t s = true) (hfuel : getTableSize P t < fuel) :
    ∃ (t1 : Hash K V) (origin : Nat → Nat), removeFrom P fuel t s = some t1 ∧ getTableSize P t1 = getTableSize P t ∧
      (∀ p, p < getTableSize P t → isUsed t1 p = true →
        origin p < getTableSize P t ∧ isUsed t (origin p) = true ∧ origin p ≠ s ∧
        t1.slots p = t.slots (origin p) ∧
        probeDistance P t1 p ≤ probeDistance P t (origin p) ∧
        (origin p ≠ p → probeDistance P t1 p < probeDistance P t (origin p)) ∧
        ((probeDistance P t1 p : Nat) : Int)
          = ((p : Int) - (initPlaceAt P t1 p : Int)) % (getTableSize P t : Int)) ∧
      (∀ p q, p < getTableSize P t → q < getTableSize P t → isUsed t1 p = true →
        isUsed t1 q = true → origin p = origin q → p = q) ∧
      (∀ q, q < getTableSize P t → isUsed t q = true → q ≠ s →
        ∃ p, p < getTableSize P t ∧ isUsed t1 p = true ∧ origin p = q) := by
  obtain ⟨t1, o, hrem, hn, h1, h2, h3⟩ := removeFrom_origin P t s fuel hrange hvir hs hused hfuel
  have hsz : getTableSize P t1 = getTableSize P t := by unfold getTableSize; rw [hn]
  refine ⟨t1, o, hrem, hsz, ?_, h2, h3⟩
  intro p hp hup
  obtain ⟨a1, a2, a3, a4, a5, a6⟩ := h1 p hp hup
  have hkey : initPlaceAt P t1 p = initPlaceAt P t (o p) := by
    unfold initPlaceAt constRefToKey
    rw [a4, hn]
  have hd : probeDistance P t1 p = cdist (getTableSize P t) (initPlaceAt P t (o p)) p := by
    unfold probeDistance
    rw [hsz, hkey]
  refine ⟨a1, a2, a3, a4, ?_, ?_, ?_⟩
  · rw [hd]; exact a5
  · rw [hd]; exact a6
  · rw [hd, hkey]
    exact cdist_cast (initPlaceAt_lt P t hrange _) hp

theorem removeFrom_backward_shift_only_witness :
    hasVirgin (modParams false false) wrapTable ∧
    (removeFrom (modParams false false) 5 wrapTable 3).map
        (fun t1 => (List.range 4).map (fun p => (isUsed t1 p, constRefToKey t1 p,
          probeDistance (modParams false false) t1 p)))
      = some [(true, 11, 1), (false, 11, 2), (false, 0, 2), (true, 7, 0)] ∧
    (List.range 4).map (fun p => probeDistance (modParams false false) wrapTable p)
      = [1, 2, 2, 0] ∧
    ∃ (t1 : Hash Nat Int) (origin : Nat → Nat), removeFrom (modParams false false) 5 wrapTable 3 = some t1 ∧
      ∀ p, p < 4 → isUsed t1 p = true →
        probeDistance (modParams false false) t1 p
          ≤ probeDistance (modParams false false) wrapTable (origin p) := by
  obtain ⟨t1, origin, h1, -, h2, -, -⟩ :=
    removeFrom_backward_shift_only (modParams false false) wrapTable 3 5
      (modParams_range _ _ 4 (by decide)) (by decide) (by decide) (by decide) (by decide)
  exact ⟨by decide, by decide, by decide, t1, origin, h1,
    fun p hp hup => (h2 p hp hup).2.2.2.2.1⟩

/-! ## `removeFrom` in ordered mode -/

/-- The gap `g` and the scanned slot `c` of the scan loop, read towards the slot `v`
that ends the run. -/
theorem scan_order {N g c v : Nat} (hg : g < N) (hc : c < N) (hv : v < N) (hne : g ≠ c)
    (hle : cdist N g c ≤ cdist N g v) :
    cdist N c v < cdist N g v ∧ cdist N g c = cdist N g v - cdist N c v := by
  rw [cdist_eq hg hc, cdist_eq hg hv] at hle
  rw [cdist_eq hg hc, cdist_eq hg hv, cdist_eq hc hv]
  split_ifs at hle ⊢ <;> omega

/-- Removal from a run keeps the invariant: the table `T` is the table `t` with
the entries between the slot `s` and the slot `g` moved one step backwards and
`g` unused; each entry moved stays on the side of its initial place, and the
entries between `g` and the unused slot `v` have their initial places behind
`g`. -/
theorem orderedTowards_shift_back (P : Params K V) (t T : Hash K V) (s g v : Nat)
    (hnat : T.nativeSize = t.nativeSize) (hg : g < getTableSize P t) (hv : v < getTableSize P t)
    (hvirgin : isUsed t v = false) (hT : orderedTowards P t v) (hTg : isUsed T g = false)
    (A1 : ∀ x, x < getTableSize P t →
        cdist (getTableSize P t) g v < cdist (getTableSize P t) x v →
        cdist (getTableSize P t) x v ≤ cdist (getTableSize P t) s v →
      T.slots x = t.slots ((x + 1) % getTableSize P t) ∧
          cdist (getTableSize P t) x v ≤
          cdist (getTableSize P t) (initPlaceAt P t ((x + 1) % getTableSize P t)) v)
    (A2 : ∀ x, x < getTableSize P t → x ≠ g →
        ¬ (cdist (getTableSize P t) g v < cdist (getTableSize P t) x v ∧
        cdist (getTableSize P t) x v ≤ cdist (getTableSize P t) s v) → T.slots x = t.slots x)
    (B : ∀ x, x < getTableSize P t → 0 < cdist (getTableSize P t) x v →
        cdist (getTableSize P t) x v < cdist (getTableSize P t) g v →
        cdist (getTableSize P t) (initPlaceAt P t x) v < cdist (getTableSize P t) g v)
    (hgs : cdist (getTableSize P t) g v ≤ cdist (getTableSize P t) s v) :
    orderedTowards P T v := by
  have hsz : getTableSize P T = getTableSize P t := by unfold getTableSize; rw [hnat]
  have hN : 0 < getTableSize P t := by omega
  have hinit : ∀ x y, T.slots x = t.slots y → initPlaceAt P T x = initPlaceAt P t y := by
    intro x y h
    unfold initPlaceAt constRefToKey
    rw [h, hnat]
  have hu : ∀ x y, T.slots x = t.slots y → isUsed T x = isUsed t y := by
    intro x y h
    unfold isUsed
    rw [h]
  unfold orderedTowards
  rw [hsz]
  intro p hp hup
  have hpg : p ≠ g := by
    intro e; rw [e, hTg] at hup; exact Bool.noConfusion hup
  by_cases hcase : cdist (getTableSize P t) g v < cdist (getTableSize P t) p v ∧
      cdist (getTableSize P t) p v ≤ cdist (getTableSize P t) s v
  · obtain ⟨c1, c2⟩ := hcase
    obtain ⟨e1, e2⟩ := A1 p hp c1 c2
    have hpv : p ≠ v := by
      intro e; rw [e, cdist_self hv] at c1; omega
    have hnext := cdist_next_left hp hv hpv
    have hp1 : (p + 1) % getTableSize P t < getTableSize P t := next_lt hN
    rw [hu p _ e1] at hup
    obtain ⟨-, t2⟩ := hT _ hp1 hup
    rw [hinit p _ e1]
    refine ⟨e2, ?_⟩
    intro y hy hy1 hy2
    by_cases hys : cdist (getTableSize P t) y v ≤ cdist (getTableSize P t) s v
    · obtain ⟨f1, -⟩ := A1 y hy (by omega) hys
      have hyv : y ≠ v := by
        intro e; rw [e, cdist_self hv] at hy1; omega
      have hnexty := cdist_next_left hy hv hyv
      obtain ⟨u1, u2⟩ := t2 ((y + 1) % getTableSize P t) (next_lt hN) (by omega) (by omega)
      rw [hu y _ f1, hinit y _ f1]
      refine ⟨u1, ?_⟩
      intro hmode hyp
      apply u2 hmode
      intro e
      apply hyp
      rw [e] at hnexty
      exact cdist_inj_left hy hp hv (by omega)
    · have hyg : y ≠ g := by
        intro e; rw [e] at hys; omega
      have f1 := A2 y hy hyg (fun h => hys h.2)
      obtain ⟨u1, u2⟩ := t2 y hy (by omega) hy2
      rw [hu y _ f1, hinit y _ f1]
      refine ⟨u1, ?_⟩
      intro hmode _
      apply u2 hmode
      intro e
      rw [e] at hy1
      omega
  · have e1 := A2 p hp hpg hcase
    rw [hu p _ e1] at hup
    rw [hinit p _ e1]
    obtain ⟨t1, t2⟩ := hT p hp hup
    refine ⟨t1, ?_⟩
    have hpv : p ≠ v := by
      intro e; rw [e, hvirgin] at hup; exact Bool.noConfusion hup
    have hppos : 0 < cdist (getTableSize P t) p v := cdist_pos hp hv hpv
    intro y hy hy1 hy2
    have hyq : y ≠ g ∧ ¬ (cdist (getTableSize P t) g v < cdist (getTableSize P t) y v ∧
        cdist (getTableSize P t) y v ≤ cdist (getTableSize P t) s v) := by
      rcases Nat.lt_or_ge (cdist (getTableSize P t) p v) (cdist (getTableSize P t) g v) with h | h
      · have := B p hp hppos h
        constructor
        · intro e; rw [e] at hy2; omega
        · intro hh; omega
      · have hne : cdist (getTableSize P t) p v ≠
          cdist (getTableSize P t) g v := fun e => hpg (cdist_inj_left hp hg hv e)
        have hps : cdist (getTableSize P t) s v < cdist (getTableSize P t) p v := by
          by_contra hh
          exact hcase ⟨by omega, by omega⟩
        constructor
        · intro e; rw [e] at hy1; omega
        · intro hh; omega
    have f1 := A2 y hy hyq.1 hyq.2
    obtain ⟨u1, u2⟩ := t2 y hy hy1 hy2
    rw [hu y _ f1, hinit y _ f1]
    exact ⟨u1, u2⟩

/-- In ordered mode the scan loop of `removeFrom` moves the entries that follow the
removed slot one step backwards, up to the first entry that stays, after which
every entry stays; the table it leaves satisfies the invariant read towards the
slot `v` that ends the run. -/
theorem removeFrom_ordered_towards (P : Params K V) (t : Hash K V) (s v fuel : Nat)
    (hmode : P.HASH_ORDERED = true)
    (hrange : initPlacesInRange P t.nativeSize) (hinv : checkedInvariant P t)
    (hs : s < getTableSize P t) (hused : isUsed t s = true)
    (hv : v < getTableSize P t) (hvirgin : isUsed t v = false)
    (hfirst : ∀ x, x < getTableSize P t →
        cdist (getTableSize P t) s x < cdist (getTableSize P t) s v → isUsed t x = true)
    (hfuel : getTableSize P t < fuel) :
    ∃ T, removeFrom P fuel t s = some T ∧ T.nativeSize = t.nativeSize ∧
      orderedTowards P T v := by
  have hN : 0 < getTableSize P t := by omega
  have hT := orderedTowards_of_checked P t v hrange hv hvirgin hinv
  have hsv : s ≠ v := by
    intro e; rw [e, hvirgin] at hused; exact Bool.noConfusion hused
  obtain ⟨t1, g, hrem, S, A1, A2, B, G⟩ := removeFrom_rule P t s v fuel hrange hs hused hv
    hvirgin hfirst hfuel
    (fun t1 g c =>
      (∀ x, x < getTableSize P t → cdist (getTableSize P t) g v < cdist (getTableSize P t) x v →
          cdist (getTableSize P t) x v ≤ cdist (getTableSize P t) s v →
        t1.slots x = t.slots ((x + 1) % getTableSize P t) ∧
            cdist (getTableSize P t) x v ≤
            cdist (getTableSize P t) (initPlaceAt P t ((x + 1) % getTableSize P t)) v) ∧
      (∀ x, x < getTableSize P t → x ≠ g →
          ¬ (cdist (getTableSize P t) g v < cdist (getTableSize P t) x v ∧
          cdist (getTableSize P t) x v ≤ cdist (getTableSize P t) s v) → t1.slots x = t.slots x) ∧
      (∀ x, x < getTableSize P t → cdist (getTableSize P t) c v < cdist (getTableSize P t) x v →
          cdist (getTableSize P t) x v < cdist (getTableSize P t) g v →
          cdist (getTableSize P t) (initPlaceAt P t x) v < cdist (getTableSize P t) g v) ∧
      cdist (getTableSize P t) g v ≤ cdist (getTableSize P t) s v)
    (by
      have hn := cdist_next_left hs hv hsv
      refine ⟨?_, ?_, ?_, le_refl _⟩
      · intro x _ h1 h2; omega
      · intro x _ _ _; rfl
      · intro x _ h1 h2; omega)
    (by
      rintro t1 g c S hu ⟨A1, A2, B, G⟩ htest
      have hgN : g < getTableSize P t := S.hg
      have hcN : c < getTableSize P t := S.hc
      obtain ⟨o1, o2⟩ := scan_order hgN hcN hv S.ne S.le
      have e := A2 c hcN (Ne.symm S.ne) (by intro h; omega)
      have hkey : initPlaceAt P t1 c = initPlaceAt P t c := by
        unfold initPlaceAt constRefToKey
        rw [e, S.native]
      have huc : isUsed t c = true := by
        unfold isUsed at hu ⊢; rw [← e]; exact hu
      have hcv : c ≠ v := by
        intro e2; rw [e2, hvirgin] at huc; exact Bool.noConfusion huc
      have hH := initPlaceAt_lt P t hrange c
      obtain ⟨q1, -⟩ := hT c hcN huc
      have hd := cdist_to hH hcN hv q1
      rw [hkey, hd, o2] at htest
      have hn := cdist_next_left hcN hv hcv
      refine ⟨A1, A2, ?_, G⟩
      intro x hx h1 h2
      by_cases hxc : x = c
      · rw [hxc]; omega
      · have : cdist (getTableSize P t) x v ≠
          cdist (getTableSize P t) c v := fun e3 => hxc (cdist_inj_left hx hcN hv e3)
        exact B x hx (by omega) h2)
    (by
      rintro t1 g c S hu ⟨A1, A2, B, G⟩ htest
      have hgN : g < getTableSize P t := S.hg
      have hcN : c < getTableSize P t := S.hc
      obtain ⟨o1, o2⟩ := scan_order hgN hcN hv S.ne S.le
      have e := A2 c hcN (Ne.symm S.ne) (by intro h; omega)
      have hkey : initPlaceAt P t1 c = initPlaceAt P t c := by
        unfold initPlaceAt constRefToKey
        rw [e, S.native]
      have huc : isUsed t c = true := by
        unfold isUsed at hu ⊢; rw [← e]; exact hu
      have hcv : c ≠ v := by
        intro e2; rw [e2, hvirgin] at huc; exact Bool.noConfusion huc
      have hH := initPlaceAt_lt P t hrange c
      obtain ⟨q1, q2⟩ := hT c hcN huc
      have hd := cdist_to hH hcN hv q1
      rw [hkey, hd, o2] at htest
      have hug := S.used_gap
      have hgv : g ≠ v := by
        intro e2
        have hvv := S.virgin
        rw [← e2, hug] at hvv
        exact Bool.noConfusion hvv
      have hng := cdist_next_left hgN hv hgv
      have hx1 : (g + 1) % getTableSize P t < getTableSize P t := next_lt hN
      have hadj : cdist (getTableSize P t) c v + 1 = cdist (getTableSize P t) g v := by
        by_contra hcon
        have hb := B ((g + 1) % getTableSize P t) hx1 (by omega) (by omega)
        obtain ⟨-, q3⟩ := q2 ((g + 1) % getTableSize P t) hx1 (by omega) (by omega)
        have := q3 hmode (by intro e3; rw [e3] at hng; omega)
        omega
      have hgc : (g + 1) % getTableSize P t = c := cdist_inj_left hx1 hcN hv (by omega)
      have hn := cdist_next_left hcN hv hcv
      refine ⟨?_, ?_, ?_, by omega⟩
      · intro x hx h1 h2
        by_cases hxg : x = g
        · rw [hxg, moveOrSwap_slots_dst P t1 S.ne, hgc, e]
          exact ⟨rfl, by omega⟩
        · have hxc : x ≠ c := by
            intro e3; rw [e3] at h1; omega
          rw [moveOrSwap_slots_other P t1 hxg hxc]
          have : cdist (getTableSize P t) x v ≠
              cdist (getTableSize P t) g v := fun e3 => hxg (cdist_inj_left hx hgN hv e3)
          exact A1 x hx (by omega) h2
      · intro x hx hxc hnot
        have hxg : x ≠ g := by
          intro e3; rw [e3] at hnot; exact hnot ⟨by omega, G⟩
        rw [moveOrSwap_slots_other P t1 hxg hxc]
        exact A2 x hx hxg (fun h => hnot ⟨by omega, h.2⟩)
      · intro x _ h1 h2; omega)
  refine ⟨_, hrem, S.native, ?_⟩
  refine orderedTowards_shift_back P t _ s g v S.native S.hg hv hvirgin hT ?_ ?_ ?_ ?_ G
  · unfold isUsed
    rw [finish_slots, if_pos rfl]
  · intro x hx h1 h2
    have hxg : x ≠ g := by
      intro e; rw [e] at h1; omega
    rw [finish_slots, if_neg hxg]
    exact A1 x hx h1 h2
  · intro x hx hxg hnot
    rw [finish_slots, if_neg hxg]
    exact A2 x hx hxg hnot
  · intro x hx h0 h1
    exact B x hx (by rw [cdist_self hv]; exact h0) h1

/-- In both modes `removeFrom` at a used slot of a table with a virgin slot returns
and keeps the invariant that `keyFoundAt` checks. -/
theorem removeFrom_checked (P : Params K V) (t : Hash K V) (s fuel : Nat)
    (hrange : initPlacesInRange P t.nativeSize) (hinv : checkedInvariant P t)
    (hvir : hasVirgin P t) (hs : s < getTableSize P t) (hused : isUsed t s =
        true) (hfuel : getTableSize P t < fuel) :
    ∃ T, removeFrom P fuel t s = some T ∧ checkedInvariant P T := by
  cases hmode : P.HASH_ORDERED with
  | false =>
    obtain ⟨T, h1, -, h3⟩ := removeFrom_preserves_hashInvariant_aux P t s fuel hrange
      (checkedInvariant_hash P t hinv) hvir hs hused hfuel
    exact ⟨T, h1, hashInvariant_checked P T hmode h3⟩
  | true =>
    obtain ⟨v, hv, hvirgin, hfirst⟩ := exists_first_virgin (isUsed t) hs hvir
    obtain ⟨T, h1, h2, h3⟩ := removeFrom_ordered_towards P t s v fuel hmode hrange hinv hs hused
      hv hvirgin hfirst hfuel
    refine ⟨T, h1, checked_of_orderedTowards P T v (by rw [h2]; exact hrange) ?_ h3⟩
    unfold getTableSize
    rw [h2]
    exact hv

/-! ## `remove` on a table with several entries of one key -/

theorem trim_checked (P : Params K V) (t t1 : Hash K V) (fuel : Nat) (hsafe : controllerSafe P)
    (hcount : t.numKeys = numUsed P t) (hvir : hasVirgin P t) (hinv : checkedInvariant P t)
    (hfuel : ∀ s, P.trim t.nativeSize t.numKeys = some s → P.sizeForNative s < fuel)
    (h : trim P fuel t = some t1) : checkedInvariant P t1 := by
  have hm : t.numKeys ≤ P.sizeForNative t.nativeSize := by
    rw [hcount]; exact numUsed_le P t
  unfold trim at h
  cases ht : P.trim t.nativeSize t.numKeys with
  | none =>
    rw [ht] at h
    rw [← Option.some.inj h]
    exact hinv
  | some s =>
    rw [ht] at h
    obtain ⟨hr, hroom⟩ := hsafe.2.2 _ _ s hm ht
    exact rehash_checked P fuel t t1 s (fun _ => hvir) hr (by rw [← hcount]; exact hroom)
      (hfuel s ht) h

/-- In both modes `remove(key)` keeps the invariant that `keyFoundAt` checks. -/
theorem remove_checked [DecidableEq K] (P : Params K V) (t t1 : Hash K V) (key : K) (fuel : Nat)
    (b : Bool) (hsafe : controllerSafe P) (hcount : t.numKeys = numUsed P t)
    (halloc : getTableSize P t = 0 ∨ (initPlacesInRange P t.nativeSize ∧ hasVirgin P t))
    (hinv : checkedInvariant P t) (hfuel : fuelBound P t ≤ fuel)
    (h : remove P fuel t key = some (b, t1)) : checkedInvariant P t1 := by
  obtain ⟨b2, t2, l, hrem, hfind, hb0, hb1⟩ := remove_spec P t key fuel hsafe hcount halloc hfuel
  rw [h] at hrem
  have e := Option.some.inj hrem
  have e1 : b = b2 := congrArg (fun r => r.1) e
  have e2 : t1 = t2 := congrArg (fun r => r.2) e
  subst e1 e2
  cases b with
  | false => rw [hb0 rfl]; exact hinv
  | true =>
    obtain ⟨hl, hu, -⟩ := hb1 rfl
    rcases halloc with h0 | ⟨hr, hvir⟩
    · omega
    · have hsize := fuelBound_size P t fuel hfuel
      obtain ⟨T, g1, g2, g3, -, g5, g6, -⟩ := removeFrom_spec P t l fuel hr hvir hl hu hsize
      obtain ⟨T2, c1, c2⟩ := removeFrom_checked P t l fuel hr hinv hvir hl hu hsize
      rw [g1] at c1
      have e3 : T = T2 := Option.some.inj c1
      subst e3
      have hsz1 : getTableSize P T = getTableSize P t := by unfold getTableSize; rw [g2]
      have hcount1 : T.numKeys = numUsed P T := by
        have := g5 Nat (fun _ _ => 1)
        unfold numUsed at hcount ⊢
        rw [g3, hsz1, hcount]
        omega
      simp only [remove, hfind, g1] at h
      cases ht : trim P fuel T with
      | none => rw [ht] at h; exact Option.noConfusion h
      | some T3 =>
        rw [ht] at h
        have e4 : T3 = t1 := congrArg (fun r => r.2) (Option.some.inj h)
        rw [← e4]
        refine trim_checked P T T3 fuel hsafe hcount1 g6 c2 ?_ ht
        rw [g2, g3]
        exact fuelBound_trim P t fuel hfuel

/-- A table built by calls of `placeToPut`, from a table that satisfies them, has
the key counter right, is not full, and satisfies the invariant that
`keyFoundAt` checks. -/
theorem run_puts_checked [DecidableEq K] (P : Params K V) (fuel : Nat)
    (hsafe : controllerSafe P) :
    ∀ (keys : List K) (t t1 : Hash K V), CountLegal P t → checkedInvariant P t →
      run P fuel (keys.map Op.placeToPut) t = some t1 →
      CountLegal P t1 ∧ checkedInvariant P t1 := by
  intro keys
  induction keys with
  | nil =>
    intro t t1 hc hinv h
    have e : t = t1 := Option.some.inj h
    subst e
    exact ⟨hc, hinv⟩
  | cons key rest ih =>
    intro t t1 hc hinv h
    simp only [List.map_cons, run] at h
    cases hs : step P fuel t (Op.placeToPut key) with
    | none => rw [hs] at h; exact Option.noConfusion h
    | some t2 =>
      rw [hs] at h
      have a1 := (step_legal P fuel t t2 (Op.placeToPut key) hsafe trivial hc hs).1
      have hbig := step_mono P fuel (max fuel (fuelBound P t)) t t2 _ (le_max_left _ _) hs
      simp only [step, Option.map_eq_some'] at hbig
      obtain ⟨r, h1, h2⟩ := hbig
      obtain ⟨t3, l, m, h3, h4⟩ := placeToPut_checked P t key _ hsafe hc.count hc.alloc hinv
        (fuelBound_size P t _ (le_max_right _ _))
        (fun s hs => (fuelBound_grow P t _ (le_max_right _ _) s hs).1)
      rw [h1] at h3
      have e : t2 = t3 := by rw [← h2, Option.some.inj h3]
      rw [← e] at h4
      exact ih t2 t1 a1 h4 h

/-- C39: `remove(key)` removes one occurrence only.  For every table built with
`placeToPut` (in either mode, whatever rehashes the controller has asked for)
that holds at least two entries with keys equal to `k`, `remove(k)` returns
true; the entry it removes is the one at the first slot `s` holding a key equal
to `k` in the probe sequence from the initial place of `k`; the entries
afterwards, together with that entry, are the entries before, so exactly one
entry has left; `size()` and the number of entries equal to `k` drop by exactly
one; and `contains(k)` is true afterwards. -/
theorem remove_one_occurrence_only [DecidableEq K] (P : Params K V) (n0 fuel0 fuel : Nat)
    (keys : List K) (t : Hash K V) (k : K) (hsafe : controllerSafe P)
    (hn0 : P.sizeForNative n0 = 0 ∨ initPlacesInRange P n0)
    (hbuilt : run P fuel0 (keys.map Op.placeToPut) (newHash P n0) = some t)
    (hm : 2 ≤ numEqual P t k) (hfuel : fuelBound P t ≤ fuel) :
    ∃ s t1, s < getTableSize P t ∧ isUsed t s = true ∧ constRefToKey t s = k ∧
      (∀ x, x < getTableSize P t →
        cdist (getTableSize P t) (P.getInitPlace t.nativeSize k) x
          < cdist (getTableSize P t) (P.getInitPlace t.nativeSize k) s →
        isUsed t x = true ∧ constRefToKey t x ≠ k) ∧
      remove P fuel t k = some (true, t1) ∧
      entries P t1 + {(k, constRefToVal t s)} = entries P t ∧
      size t1 + 1 = size t ∧
      numEqual P t1 k + 1 = numEqual P t k ∧
      contains P fuel t1 k = some true := by
  have hfresh : checkedInvariant P (newHash P n0) := by
    intro p _ hp
    rw [isUsed_newHash] at hp
    exact Bool.noConfusion hp
  obtain ⟨hc, hinv⟩ := run_puts_checked P fuel0 hsafe keys _ t (newHash_legal P n0 hn0).1
    hfresh hbuilt
  have hcount : t.numKeys = numUsed P t := hc.count
  have hst : stored P t k := by
    unfold stored
    rw [stored_iff_sum]
    unfold numEqual at hm
    omega
  have hpos : 0 < getTableSize P t := by
    obtain ⟨p, hp, -⟩ := hst
    omega
  obtain ⟨hr, hvir⟩ : initPlacesInRange P t.nativeSize ∧ hasVirgin P t := by
    rcases hc.alloc with h0 | h
    · omega
    · exact h
  have hsize := fuelBound_size P t fuel hfuel
  obtain ⟨v, b, l, hv, hvirgin, hfirst, hfind, hl, hle, hpre, hb1, -⟩ :=
    findFirst_spec P t k 0 fuel hr hvir hsize
  obtain ⟨b2, l2, f1, -, f3, -⟩ := findFirst_iff_stored P t k 0 fuel hr hinv hvir hsize
  rw [hfind] at f1
  have hb : b = true := by
    have hbb : b = b2 := congrArg Prod.fst (Option.some.inj f1)
    rw [hbb]; exact f3.2 hst
  subst hb
  obtain ⟨hu, hk⟩ := hb1 rfl
  obtain ⟨b3, t1, l3, hrem, hfind3, -, hb3⟩ := remove_spec P t k fuel hsafe hcount hc.alloc hfuel
  rw [hfind] at hfind3
  have e := Option.some.inj hfind3
  have e1 : true = b3 := congrArg (fun r => r.1) e
  have e2 : l = l3 := congrArg (fun r => r.2) e
  subst e1 e2
  obtain ⟨-, -, -, g1, -, g3, g4, g5, -, -⟩ := hb3 rfl
  have hinv1 := remove_checked P t t1 k fuel true hsafe hcount hc.alloc hinv hfuel hrem
  have hnum : numEqual P t1 k + 1 = numEqual P t k := by
    have := g4 Nat (fun k1 _ => if k1 = k then 1 else 0)
    rw [← hk, if_pos rfl] at this
    exact this
  have hst1 : stored P t1 k := by
    unfold stored
    rw [stored_iff_sum]
    unfold numEqual at hnum hm
    omega
  have hfuel1 : getTableSize P t1 < fuel := by
    unfold getTableSize
    rw [g3]
    cases ht : P.trim t.nativeSize (t.numKeys - 1) with
    | none => exact hsize
    | some s1 => exact fuelBound_trim P t fuel hfuel s1 ht
  refine ⟨l, t1, hl, hu, hk.symm, ?_, hrem, ?_, ?_, hnum, ?_⟩
  · intro x hx hlt
    exact ⟨hfirst x hx (lt_of_lt_of_le hlt hle), fun e3 => (hpre x hx hlt).1 e3.symm⟩
  · have := g4 _ (fun k1 v1 => ({(k1, v1)} : Multiset (K × V)))
    unfold entries
    rw [hk]
    exact this
  · have hp1 : 0 < numUsed P t := by
      rw [hasVirgin_iff] at hvir
      have := (stored_iff_sum t k _).1 hst
      have h2 := g4 Nat (fun _ _ => 1)
      unfold numUsed
      omega
    unfold size
    rw [g1]
    omega
  · rcases g5 with h0 | ⟨hr1, hv1⟩
    · obtain ⟨p, hp, -⟩ := hst1
      omega
    · obtain ⟨b4, l4, f4, -, f5, -⟩ := findFirst_iff_stored P t1 k 0 fuel hr1 hinv1 hv1 hfuel1
      unfold contains
      rw [f4, f5.2 hst1]
      rfl

/-- C39 in ordered mode: the keys 3, 11 and 3 (all of initial place 3) are put into
a table of eight slots and land at the slots 3, 4 and 5; `remove(3)` removes the
entry at slot 3 and leaves the keys 11 and 3. -/
theorem remove_one_occurrence_only_witness :
    ((run (modParams true true) 9 ([3, 11, 3].map Op.placeToPut)
        (newHash (modParams true true) 8)).bind
      (fun t => remove (modParams true true) 9 t 3)).map
        (fun r => (r.1, usedKeys (modParams true true) r.2, size r.2)) = some (true, [11, 3], 2) ∧
    ∃ (t t1 : Hash Nat Int) (s : Nat),
      run (modParams true true) 9 ([3, 11, 3].map Op.placeToPut)
        (newHash (modParams true true) 8) = some t ∧
      numEqual (modParams true true) t 3 = 2 ∧ isUsed t s = true ∧ constRefToKey t s = 3 ∧
      remove (modParams true true) 9 t 3 = some (true, t1) ∧ size t1 + 1 = size t ∧
      numEqual (modParams true true) t1 3 + 1 = numEqual (modParams true true) t 3 ∧
      contains (modParams true true) 9 t1 3 = some true := by
  have hrun : (run (modParams true true) 9 ([3, 11, 3].map Op.placeToPut)
      (newHash (modParams true true) 8)).map
        (fun t => (numEqual (modParams true true) t 3, fuelBound (modParams true true) t))
      = some (2, 9) := by decide
  obtain ⟨t, ht, hp⟩ := Option.map_eq_some'.mp hrun
  have h1 : numEqual (modParams true true) t 3 = 2 := congrArg Prod.fst hp
  have h2 : fuelBound (modParams true true) t = 9 := congrArg Prod.snd hp
  obtain ⟨s, t1, -, g2, g3, -, g5, -, g7, g8, g9⟩ :=
    remove_one_occurrence_only (modParams true true) 8 9 9 [3, 11, 3] t 3 (modParams_safe _ _)
      (Or.inr (modParams_range _ _ 8 (by decide))) ht (by rw [h1]) (by rw [h2])
  exact ⟨by decide, t, t1, s, ht, h1, g2, g3, g5, g7, g8, g9⟩

/-! ## The weight sum under `clear` -/

/-- C5: erase loses nothing else.  In a table with a virgin slot, `removeFrom(s)` at
a used slot `s` stops and the multiset of the entries (key and payload) of the
used slots afterwards, together with the entry that was at `s`, is the multiset
before (the hash invariant is not needed for this).  Consequently, in both
modes, in a table that satisfies the hash invariant of its mode (in ordered mode
with the order of the initial places, as `keyFoundAt` checks it), under a
controller that keeps its key counter right and the table from filling up:
after `remove(k)` of a stored key every other stored key is still found by
`contains`, and the keys that a full iteration visits are the former keys less
one occurrence of `k`. -/
theorem removeFrom_loses_nothing [DecidableEq K] (P : Params K V) (t : Hash K V) (s fuel : Nat)
    (hrange : initPlacesInRange P t.nativeSize) (hvir : hasVirgin P t)
    (hs : s < getTableSize P t) (hused : isUsed t s = true) (hfuel : getTableSize P t < fuel) :
    (∃ t1, removeFrom P fuel t s = some t1 ∧
      entries P t1 + {(constRefToKey t s, constRefToVal t s)} = entries P t) ∧
    (checkedInvariant P t → controllerSafe P → t.numKeys = numUsed P t →
      fuelBound P t ≤ fuel → ∀ key, stored P t key →
        ∃ t2, remove P fuel t key = some (true, t2) ∧
          ((usedKeys P t2 : List K) : Multiset K) + {key} = ((usedKeys P t : List K) : Multiset K) ∧
          ∀ k2, k2 ≠ key → stored P t k2 → contains P fuel t2 k2 = some true) := by
  constructor
  · obtain ⟨t1, h1, h2, _, _, h5, _⟩ := removeFrom_spec P t s fuel hrange hvir hs hused hfuel
    refine ⟨t1, h1, ?_⟩
    unfold entries
    have hsz : getTableSize P t1 = getTableSize P t := by unfold getTableSize; rw [h2]
    rw [hsz]
    exact h5 _ _
  · intro hinv hsafe hcount hfb key hst
    obtain ⟨b, t2, l, hrem, hfind, _, hb⟩ := remove_spec P t key fuel hsafe hcount
      (Or.inr ⟨hrange, hvir⟩) hfb
    obtain ⟨b2, l2, e1, _, e3, _⟩ := findFirst_iff_stored P t key 0 fuel hrange hinv hvir hfuel
    rw [hfind] at e1
    have hbt : b = true := by
      have hbb : b = b2 := congrArg Prod.fst (Option.some.inj e1)
      rw [hbb]; exact e3.2 hst
    subst hbt
    have hinv2 := remove_checked P t t2 key fuel true hsafe hcount (Or.inr ⟨hrange, hvir⟩) hinv
      hfb hrem
    obtain ⟨hl, hu, hk, g1, _, g3, g4, g5, _, _⟩ := hb rfl
    have hfuel2 : getTableSize P t2 < fuel := by
      unfold getTableSize
      rw [g3]
      cases ht : P.trim t.nativeSize (t.numKeys - 1) with
      | none => exact hfuel
      | some s1 => exact fuelBound_trim P t fuel hfb s1 ht
    refine ⟨t2, hrem, ?_, ?_⟩
    · unfold usedKeys
      rw [usedKeys_eq_sum, usedKeys_eq_sum]
      have := g4 _ (fun k _ => ({k} : Multiset K))
      rw [hk] at this
      exact this
    · intro k2 hne hst2
      have hst3 : stored P t2 k2 := by
        unfold stored
        rw [stored_iff_sum]
        have h1 := (stored_iff_sum t k2 _).1 hst2
        have h2 := g4 Nat (fun k1 _ => if k1 = k2 then 1 else 0)
        rw [hk, if_neg (fun e => hne e.symm)] at h2
        omega
      rcases g5 with h0 | ⟨hr2, hv2⟩
      · obtain ⟨p, hp, _⟩ := hst3
        omega
      · obtain ⟨b3, l3, f1, _, f3, _⟩ := findFirst_iff_stored P t2 k2 0 fuel hr2 hinv2 hv2 hfuel2
        unfold contains
        rw [f1, f3.2 hst3]
        rfl

/-- C5 on the concrete scenario, in unordered and in ordered mode: key 3 is erased
from the table of the keys 1 to 5; the remaining keys are 1, 2, 4 and 5. -/
theorem removeFrom_loses_nothing_witness :
    ((∃ t1, removeFrom (modParams false false) 27 scenarioTable 3 = some t1 ∧
        entries (modParams false false) t1 + {(constRefToKey scenarioTable 3,
          constRefToVal scenarioTable 3)} = entries (modParams false false) scenarioTable) ∧
      (∃ t2, remove (modParams false false) 27 scenarioTable 3 = some (true, t2) ∧
        ((usedKeys (modParams false false) t2 : List Nat) : Multiset Nat) + {3}
          = ((usedKeys (modParams false false) scenarioTable : List Nat) : Multiset Nat) ∧
        ∀ k2, k2 ≠ 3 → stored (modParams false false) scenarioTable k2 →
          contains (modParams false false) 27 t2 k2 = some true) ∧
      (∃ t2, remove (modParams true true) 27 scenarioTable 3 = some (true, t2) ∧
        ((usedKeys (modParams true true) t2 : List Nat) : Multiset Nat) + {3}
          = ((usedKeys (modParams true true) scenarioTable : List Nat) : Multiset Nat) ∧
        ∀ k2, k2 ≠ 3 → stored (modParams true true) scenarioTable k2 →
          contains (modParams true true) 27 t2 k2 = some true)) ∧
    (remove (modParams false false) 27 scenarioTable 3).map
        (fun r => (r.1, usedKeys (modParams false false) r.2, size r.2, weight r.2))
      = some (true, [1, 2, 4, 5], 4, 12) ∧
    (remove (modParams true true) 27 scenarioTable 3).map
        (fun r => (r.1, usedKeys (modParams true true) r.2, size r.2, weight r.2))
      = some (true, [1, 2, 4, 5], 4, 12) :=
  ⟨⟨(removeFrom_loses_nothing (modParams false false) scenarioTable 3 27
        (modParams_range false false 8 (by decide)) (by decide) (by decide) (by decide)
        (by decide)).1,
    (removeFrom_loses_nothing (modParams false false) scenarioTable 3 27
        (modParams_range false false 8 (by decide)) (by decide) (by decide) (by decide)
        (by decide)).2 (by decide) (modParams_safe false false) (by decide) (by decide) 3
        (by decide),
    (removeFrom_loses_nothing (modParams true true) scenarioTable 3 27
        (modParams_range true true 8 (by decide)) (by decide) (by decide) (by decide)
        (by decide)).2 (by decide) (modParams_safe true true) (by decide) (by decide) 3
        (by decide)⟩, by decide, by decide⟩

/-! ## The weight of a new key in ordered mode -/

end LCE
